import Mathlib

/-!
# Ordered store (B-tree of order t = 3): embedding of `BTreeNode.h`, `BTreeNode.cpp`, `BTree.cpp`

Modelling conventions.

* A node's parallel arrays `keys[0..numKeys)` / `values[0..numKeys)` are one list
  `entries` of `(key, value)` pairs; `numKeys` is its length.  Array slots at or
  beyond `numKeys` hold stale data the code never reads, and are not represented.
* `children` is the list of child-pointer slots `children[0], children[1], ...`;
  a slot is `none` for `nullptr`, and slots past the end of the list are `nullptr`.
* `int` keys are `Int`: the tree only compares keys and never does arithmetic on them.
* Operations that dereference a null child, read a slot whose content is not
  represented, or write past the fixed arrays (`MAX_KEYS` keys, `MAX_KEYS + 1`
  children) have no defined result in C++; here they return `none`.
* `insertNonFull` recurses into nodes that `splitChild` has just rebuilt, so its
  recursion is bounded by a depth argument; `BTree.insert` passes the height of
  the root, and the theorems below show that this never runs out on a valid tree.
* `std::string` values are `String`; every character the code inspects is ASCII.

The bounded queue of `CircularQueue.h` and the response line of `Request.h` follow
the tree, each in a section of its own; then come the request line, `Location`,
`Edge`, `Graph`, `DatabaseManager`, `Navigation` and the server loop of `server.cpp`.
There a `std::map` is the list of its pairs in key order, a `double` is an exact
rational, an infinity or a NaN, and the text form of a `double` is a parameter.
-/

set_option autoImplicit false

/-- Source `const int BTREE_ORDER = 3;` -/
def BTREE_ORDER : Nat := 3

/-- Source `const int MAX_KEYS = 2 * BTREE_ORDER - 1;` -/
def MAX_KEYS : Nat := 2 * BTREE_ORDER - 1

/-- Source `const int MIN_KEYS = BTREE_ORDER - 1;` -/
def MIN_KEYS : Nat := BTREE_ORDER - 1

/-- Source `class BTreeNode`: leaf flag, the `numKeys` live key/value pairs, child slots. -/
inductive BTreeNode where
  | mk (isLeaf : Bool) (entries : List (Int × String)) (children : List (Option BTreeNode))

namespace BTreeNode

/-- Field `isLeaf`. -/
def isLeaf : BTreeNode → Bool
  | .mk l _ _ => l

/-- The live key/value pairs `(keys[i], values[i])`, `i < numKeys`. -/
def entries : BTreeNode → List (Int × String)
  | .mk _ es _ => es

/-- The child-pointer slots. -/
def children : BTreeNode → List (Option BTreeNode)
  | .mk _ _ cs => cs

/-- Field `numKeys`. -/
def numKeys (n : BTreeNode) : Nat := n.entries.length

/-- The keys `keys[0..numKeys)`. -/
def keys (n : BTreeNode) : List Int := n.entries.map Prod.fst

/-- Source `bool isFull() const { return numKeys == MAX_KEYS; }` -/
def isFull (n : BTreeNode) : Bool := n.numKeys == MAX_KEYS

/-- The pointer stored in slot `children[i]` (`none` for `nullptr`). -/
def childAt (cs : List (Option BTreeNode)) (i : Nat) : Option BTreeNode :=
  (cs[i]?).join

/-- The loop `int i = 0; while (i < numKeys && key > keys[i]) i++;` of `search`
and `update`: the index it stops at. -/
def searchIndex (key : Int) : List (Int × String) → Nat
  | [] => 0
  | e :: es => if key > e.1 then searchIndex key es + 1 else 0

mutual
/-- Source `string BTreeNode::search(int key)`; `none` when a null child is dereferenced. -/
def search : BTreeNode → Int → Option String
  | .mk isLeaf es cs, key =>
    let i := searchIndex key es
    match es[i]? with
    | some e =>
      if e.1 = key then some e.2
      else if isLeaf then some ""
      else searchAt cs i key
    | none =>
      if isLeaf then some ""
      else searchAt cs i key
/-- The call `children[i]->search(key)`. -/
def searchAt : List (Option BTreeNode) → Nat → Int → Option String
  | [], _, _ => none
  | none :: _, 0, _ => none
  | some c :: _, 0, key => search c key
  | _ :: cs, i + 1, key => searchAt cs i key
end

mutual
/-- Source `void BTreeNode::traverse(vector<pair<int,string>>& result)`: the pairs appended. -/
def traverse : BTreeNode → List (Int × String)
  | .mk isLeaf es cs => traverseLoop isLeaf es cs
/-- The body of `traverse` from index `i` on, given `keys[i..]`/`values[i..]` and
`children[i..]`: child `i` (when the node is internal and the slot is non-null),
then pair `i`, and so on, ending with child `numKeys`. -/
def traverseLoop (isLeaf : Bool) :
    List (Int × String) → List (Option BTreeNode) → List (Int × String)
  | es, [] => es
  | [], c :: _ => if isLeaf then [] else traversePtr c
  | e :: es, c :: cs =>
    (if isLeaf then [] else traversePtr c) ++ e :: traverseLoop isLeaf es cs
/-- The statement `if (children[i] != nullptr) children[i]->traverse(result);` -/
def traversePtr : Option BTreeNode → List (Int × String)
  | none => []
  | some n => traverse n
end

mutual
/-- The lambda `updateInNode` of `BTree::update`: the returned flag and the node
after the call; `none` when a null child is dereferenced. -/
def updateInNode : BTreeNode → Int → String → Option (Bool × BTreeNode)
  | .mk isLeaf es cs, key, value =>
    let i := searchIndex key es
    match es[i]? with
    | some e =>
      if e.1 = key then some (true, .mk isLeaf (es.set i (e.1, value)) cs)
      else if isLeaf then some (false, .mk isLeaf es cs)
      else match updateAt cs i key value with
        | some (b, cs') => some (b, .mk isLeaf es cs')
        | none => none
    | none =>
      if isLeaf then some (false, .mk isLeaf es cs)
      else match updateAt cs i key value with
        | some (b, cs') => some (b, .mk isLeaf es cs')
        | none => none
/-- The call `updateInNode(node->children[i])`, with the child slots after it. -/
def updateAt : List (Option BTreeNode) → Nat → Int → String →
    Option (Bool × List (Option BTreeNode))
  | [], _, _, _ => none
  | none :: _, 0, _, _ => none
  | some c :: cs, 0, key, value =>
    match updateInNode c key value with
    | some (b, c') => some (b, some c' :: cs)
    | none => none
  | c :: cs, i + 1, key, value =>
    match updateAt cs i key value with
    | some (b, cs') => some (b, c :: cs')
    | none => none
end

mutual
/-- The loop of `BTree::getMaxKey` started at a node: follow `children[numKeys]`
down to a leaf, return its last key, or `0` when that leaf has no key. -/
def maxKeyFrom : BTreeNode → Option Int
  | .mk isLeaf es cs =>
    if isLeaf then
      match es.getLast? with
      | some e => some e.1
      | none => some 0
    else maxKeyAt cs es.length
/-- The step `current = current->children[i]` followed by the rest of the loop. -/
def maxKeyAt : List (Option BTreeNode) → Nat → Option Int
  | [], _ => none
  | none :: _, 0 => none
  | some c :: _, 0 => maxKeyFrom c
  | _ :: cs, i + 1 => maxKeyAt cs i
end

mutual
/-- Number of levels below and including a node (used only to bound recursion). -/
def height : BTreeNode → Nat
  | .mk _ _ cs => heightList cs + 1
/-- Largest `height` among the non-null slots. -/
def heightList : List (Option BTreeNode) → Nat
  | [] => 0
  | none :: cs => heightList cs
  | some c :: cs => max (height c) (heightList cs)
end

/-- Source `void BTreeNode::splitChild(int index)`, returning the parent afterwards.
With `mid = BTREE_ORDER - 1`: the new sibling takes `keys[mid+1..]` (and, for an
internal child, `children[mid+1..]`, which are nulled in the old child), the old
child keeps `mid` keys, the parent's child slots after `index` and keys from
`index` shift right, the sibling goes to slot `index + 1`, the median to key
position `index`.  `none` when the slot is null, when the child does not hold
`MAX_KEYS` keys (the code would read unrepresented slots), when the parent
already holds `MAX_KEYS` keys (write past the arrays) or `index > numKeys`. -/
def splitChild (p : BTreeNode) (index : Nat) : Option BTreeNode :=
  match p with
  | .mk pLeaf pes pcs =>
    match childAt pcs index with
    | some (.mk cLeaf ces ccs) =>
      let mid := BTREE_ORDER - 1
      if ces.length = MAX_KEYS ∧ pes.length < MAX_KEYS ∧ index ≤ pes.length then
        match ces[mid]? with
        | some median =>
          let newChild := BTreeNode.mk cLeaf ((ces.drop (mid + 1)).take (BTREE_ORDER - 1))
            (if cLeaf then [] else (ccs.drop (mid + 1)).take BTREE_ORDER)
          let fullChild := BTreeNode.mk cLeaf (ces.take (BTREE_ORDER - 1))
            (if cLeaf then ccs else ccs.take (mid + 1))
          some (.mk pLeaf
            (pes.take index ++ median :: pes.drop index)
            (pcs.take index ++ some fullChild :: some newChild ::
              ((pcs.drop (index + 1)).take (pes.length - index) ++ pcs.drop (pes.length + 2))))
        | none => none
      else none
    | none => none

/-- The loop `while (i >= 0 && keys[i] > key) i--;` of `insertNonFull`, started at
`i = j - 1`: the value of `i + 1` when it stops. -/
def insertScan (key : Int) (es : List (Int × String)) : Nat → Nat
  | 0 => 0
  | j + 1 =>
    match es[j]? with
    | some e => if e.1 > key then insertScan key es j else j + 1
    | none => j + 1

/-- Source `void BTreeNode::insertNonFull(int key, const string& value)`, returning the
node afterwards.  The first argument bounds the recursion depth; `none` when it
is exhausted, when a leaf already holds `MAX_KEYS` keys (write past the arrays),
when a null child is dereferenced or when `splitChild` has no result. -/
def insertNonFull : Nat → BTreeNode → Int → String → Option BTreeNode
  | 0, _, _, _ => none
  | fuel + 1, .mk isLeaf es cs, key, value =>
    let i := insertScan key es es.length
    if isLeaf then
      if es.length < MAX_KEYS then
        some (.mk isLeaf (es.take i ++ (key, value) :: es.drop i) cs)
      else none
    else
      match childAt cs i with
      | none => none
      | some c =>
        if c.isFull then
          match splitChild (.mk isLeaf es cs) i with
          | none => none
          | some (.mk isLeaf' es' cs') =>
            match es'[i]? with
            | none => none
            | some m =>
              let i' := if m.1 < key then i + 1 else i
              match childAt cs' i' with
              | none => none
              | some c' =>
                match insertNonFull fuel c' key value with
                | none => none
                | some c'' => some (.mk isLeaf' es' (cs'.set i' (some c'')))
        else
          match insertNonFull fuel c key value with
          | none => none
          | some c'' => some (.mk isLeaf es (cs.set i (some c'')))

end BTreeNode

/-- Source `class BTree`: the root pointer (`nodeCounter` is never read). -/
structure BTree where
  root : Option BTreeNode

namespace BTree

/-- Source `BTree::BTree() : root(nullptr)`. -/
def empty : BTree := ⟨none⟩

/-- Source `string BTree::search(int key)`. -/
def search (t : BTree) (key : Int) : Option String :=
  match t.root with
  | none => some ""
  | some r => r.search key

/-- Source `bool BTree::exists(int key) { return !search(key).empty(); }` -/
def «exists» (t : BTree) (key : Int) : Option Bool :=
  (t.search key).map (fun s => !s.isEmpty)

/-- Source `bool BTree::update(int key, const string& value)`: the flag and the tree after. -/
def update (t : BTree) (key : Int) (value : String) : Option (Bool × BTree) :=
  match t.root with
  | none => some (false, t)
  | some r =>
    match r.updateInNode key value with
    | some (b, r') => some (b, ⟨some r'⟩)
    | none => none

/-- Source `void BTree::insert(int key, const string& value)`: the tree afterwards.
The depth bound handed to `insertNonFull` is the height of the root before the call. -/
def insert (t : BTree) (key : Int) (value : String) : Option BTree :=
  match t.root with
  | none => some ⟨some (.mk true [(key, value)] [])⟩
  | some r =>
    match t.exists key with
    | none => none
    | some true =>
      match t.update key value with
      | some (_, t') => some t'
      | none => none
    | some false =>
      if r.isFull then
        match BTreeNode.splitChild (.mk false [] [some r]) 0 with
        | none => none
        | some (.mk l es cs) =>
          match es[0]? with
          | none => none
          | some m =>
            let i := if m.1 < key then 1 else 0
            match BTreeNode.childAt cs i with
            | none => none
            | some c =>
              match BTreeNode.insertNonFull r.height c key value with
              | none => none
              | some c' => some ⟨some (.mk l es (cs.set i (some c')))⟩
      else
        match BTreeNode.insertNonFull r.height r key value with
        | none => none
        | some r' => some ⟨some r'⟩

/-- Source `vector<pair<int,string>> BTree::traverseAll()`. -/
def traverseAll (t : BTree) : List (Int × String) :=
  match t.root with
  | none => []
  | some r => r.traverse

/-- Source `int BTree::getCount() { return traverseAll().size(); }` -/
def getCount (t : BTree) : Nat := t.traverseAll.length

/-- Source `int BTree::getMaxKey()`. -/
def getMaxKey (t : BTree) : Option Int :=
  match t.root with
  | none => some 0
  | some r => r.maxKeyFrom

end BTree

namespace BTreeNode

/-- Keys strictly ascending: `keys[0] < keys[1] < ... < keys[numKeys-1]`. -/
def keysAscending : List (Int × String) → Bool
  | [] => true
  | [_] => true
  | a :: b :: r => decide (a.1 < b.1) && keysAscending (b :: r)

/-- Bounds check `lo < x < hi`, a missing bound being no constraint. -/
def inBounds (lo hi : Option Int) (x : Int) : Bool :=
  (match lo with
    | none => true
    | some a => decide (a < x)) &&
  (match hi with
    | none => true
    | some b => decide (x < b))

mutual
/-- The search-tree invariant of a node and everything below it: keys strictly
ascending; a leaf has no child, an internal node exactly `numKeys + 1` non-null
children; every key below `children[i]` lies strictly between `keys[i-1]` and
`keys[i]` (no bound at the two ends); the same for every child. -/
def searchTreeInv : BTreeNode → Bool
  | .mk isLeaf es cs =>
    keysAscending es && (if isLeaf then cs.isEmpty else cs.length == es.length + 1)
      && childrenInv none es cs
/-- The invariant for `children[i..]`, given `keys[i-1]` (if any) and the pairs
from index `i` on. -/
def childrenInv (lo : Option Int) : List (Int × String) → List (Option BTreeNode) → Bool
  | _, [] => true
  | _, none :: _ => false
  | es, some c :: cs =>
    searchTreeInv c && (traverse c).all (fun e => inBounds lo (es.head?.map Prod.fst) e.1)
      && childrenInv (es.head?.map Prod.fst) es.tail cs
end

mutual
/-- The predicate `p` holds at a node and at every node below it. -/
def allNodes (p : BTreeNode → Bool) : BTreeNode → Bool
  | .mk l es cs => p (.mk l es cs) && allNodesList p cs
/-- The predicate `p` holds at every node at or below the non-null slots. -/
def allNodesList (p : BTreeNode → Bool) : List (Option BTreeNode) → Bool
  | [] => true
  | none :: cs => allNodesList p cs
  | some c :: cs => allNodes p c && allNodesList p cs
end

mutual
/-- The depth of every leaf at or below a node that sits at depth `d`. -/
def leafDepths : BTreeNode → Nat → List Nat
  | .mk l _ cs, d => if l then [d] else leafDepthsList cs (d + 1)
/-- The depths of the leaves below the non-null slots, themselves at depth `d`. -/
def leafDepthsList : List (Option BTreeNode) → Nat → List Nat
  | [], _ => []
  | none :: cs, d => leafDepthsList cs d
  | some c :: cs, d => leafDepths c d ++ leafDepthsList cs d
end

/-- Pairs listed in strictly ascending key order. -/
def KeySorted (l : List (Int × String)) : Prop :=
  l.Pairwise (fun a b => a.1 < b.1)

/-- Shape of a tree: a leaf has no child slot in use, an internal node has exactly
`numKeys + 1` slots, none of them null; the same below. -/
inductive Shaped : BTreeNode → Prop
  | leaf (es : List (Int × String)) : Shaped (.mk true es [])
  | node (es : List (Int × String)) (cs : List (Option BTreeNode)) :
      cs.length = es.length + 1 → (∀ o ∈ cs, o ≠ none) →
      (∀ c, some c ∈ cs → Shaped c) → Shaped (.mk false es cs)

/-- Validity `Valid minK h n`: `n` is a well-shaped subtree all of whose leaves are `h`
levels down, `n` holds between `minK` and `MAX_KEYS` keys and every node below it
between `MIN_KEYS` and `MAX_KEYS`. -/
inductive Valid : Nat → Nat → BTreeNode → Prop
  | leaf (minK : Nat) (es : List (Int × String)) :
      minK ≤ es.length → es.length ≤ MAX_KEYS → Valid minK 1 (.mk true es [])
  | node (minK h : Nat) (es : List (Int × String)) (cs : List (Option BTreeNode)) :
      minK ≤ es.length → es.length ≤ MAX_KEYS → cs.length = es.length + 1 →
      (∀ o ∈ cs, o ≠ none) → (∀ c, some c ∈ cs → Valid MIN_KEYS h c) →
      Valid minK (h + 1) (.mk false es cs)

end BTreeNode

/-- The search-tree invariant of a tree: that of its root, if it has one. -/
def BTree.searchTreeInv (t : BTree) : Bool :=
  match t.root with
  | none => true
  | some r => r.searchTreeInv

namespace BTreeNode

mutual
/-- The node structure with every stored value blanked: what remains is the
shape of the tree, the leaf flags and the keys. -/
def eraseValues : BTreeNode → BTreeNode
  | .mk l es cs => .mk l (es.map (fun e => (e.1, ""))) (eraseValuesList cs)
/-- Blanking (`eraseValues`) of every slot. -/
def eraseValuesList : List (Option BTreeNode) → List (Option BTreeNode)
  | [] => []
  | none :: cs => none :: eraseValuesList cs
  | some c :: cs => some (eraseValues c) :: eraseValuesList cs
end

end BTreeNode

/-- The tree with every stored value blanked: shape, leaf flags and keys. -/
def BTree.eraseValues (t : BTree) : BTree :=
  ⟨t.root.map BTreeNode.eraseValues⟩

/-- A call made on the store: `insert(key, value)` or `update(key, value)`. -/
inductive Op where
  | insert (key : Int) (value : String)
  | update (key : Int) (value : String)

namespace Op

/-- The keys passed to `insert`, in call order. -/
def insertedKeys : List Op → List Int
  | [] => []
  | .insert k _ :: ops => k :: insertedKeys ops
  | .update _ _ :: ops => insertedKeys ops

/-- The value on record for `k` after one more call, given the value on record
before it (`none`: `k` not stored).  `insert(k, v)` records `v`; `update(k, v)`
records `v` when it succeeds, that is when `k` is stored at that point. -/
def stepValue (k : Int) (cur : Option String) : Op → Option String
  | .insert k' v => if k' = k then some v else cur
  | .update k' v => if k' = k ∧ cur.isSome then some v else cur

/-- The value given for `k` by the last `insert` or successful `update` of `k`
in a sequence of calls (`none` when `k` was never inserted). -/
def valueAfter (ops : List Op) (k : Int) : Option String :=
  ops.foldl (stepValue k) none

end Op

namespace BTree

/-- One call applied to the tree. -/
def applyOp (t : BTree) : Op → Option BTree
  | .insert k v => t.insert k v
  | .update k v => (t.update k v).map Prod.snd

/-- A sequence of calls applied in order. -/
def runOps (t : BTree) : List Op → Option BTree
  | [] => some t
  | op :: ops => (t.applyOp op).bind (fun t' => runOps t' ops)

/-- The pairs inserted one after the other into the empty tree. -/
def insertAll (kvs : List (Int × String)) : Option BTree :=
  runOps empty (kvs.map (fun e => Op.insert e.1 e.2))

/-- Working invariant of a tree: its root is a valid B-tree root of some height
whose in-order traversal is strictly ascending. -/
def TreeOk (t : BTree) : Prop :=
  match t.root with
  | none => True
  | some r => ∃ h, BTreeNode.Valid 1 h r ∧ BTreeNode.KeySorted r.traverse

end BTree

/-! ## Snapshot text: `BTree::saveToFile` and `BTree::loadFromFile`

The file is modelled by its content, a list of characters; `saveToFile` gives the
text written and `loadFromFile` the tree loaded from a text, both for a file that
could be opened.  `size_t` positions are natural numbers below `2 ^ 64` with
wrap-around arithmetic, `std::string::npos` is `2 ^ 64 - 1`. -/

namespace BTreeNode

mutual
/-- Number of nodes at and below a node (used only to bound the breadth-first loop). -/
def size : BTreeNode → Nat
  | .mk _ _ cs => sizeList cs + 1
/-- Number of nodes at and below the non-null slots. -/
def sizeList : List (Option BTreeNode) → Nat
  | [] => 0
  | none :: cs => sizeList cs
  | some c :: cs => size c + sizeList cs
end

/-- The pointers `children[0], ..., children[numKeys]`. -/
def slots (n : BTreeNode) : List (Option BTreeNode) :=
  (List.range (n.numKeys + 1)).map (childAt n.children)

/-- The nodes `collectNodes` pushes when it visits `n`: for an internal node, the
non-null pointers among `children[0..numKeys]`. -/
def queued (n : BTreeNode) : List BTreeNode :=
  if n.isLeaf then [] else (slots n).filterMap id

end BTreeNode

namespace Snapshot

/-- The constant `std::string::npos`. -/
def npos : Nat := 2 ^ 64 - 1

/-- Addition of `size_t` values. -/
def wrapAdd (a b : Nat) : Nat := (a + b) % 2 ^ 64

/-- Subtraction of `size_t` values. -/
def wrapSub (a b : Nat) : Nat := (a + 2 ^ 64 - b % 2 ^ 64) % 2 ^ 64

/-- Decimal digits of `n`, most significant first, in front of `acc`. -/
def natDigits : Nat → Nat → List Char → List Char
  | 0, _, acc => acc
  | fuel + 1, n, acc =>
    if n / 10 = 0 then Char.ofNat (48 + n % 10) :: acc
    else natDigits fuel (n / 10) (Char.ofNat (48 + n % 10) :: acc)

/-- Output of `operator<<` on an unsigned value. -/
def showNat (n : Nat) : List Char := natDigits (n + 1) n []

/-- Output of `operator<<` on an `int`. -/
def showInt (i : Int) : List Char :=
  if i < 0 then '-' :: showNat i.natAbs else showNat i.natAbs

/-- One escaping loop of `saveToFile`,
`for (pos = 0; (pos = s.find(c, pos)) != npos; pos += 2) s.replace(pos, 1, "\\c")`:
every `c` becomes backslash, `c`. -/
def escapeChar (c : Char) : List Char → List Char
  | [] => []
  | x :: xs => if x = c then '\\' :: c :: escapeChar c xs else x :: escapeChar c xs

/-- The three escaping loops of `saveToFile`, for `|`, then `[`, then `]`. -/
def escapeValue (v : List Char) : List Char :=
  escapeChar ']' (escapeChar '[' (escapeChar '|' v))

/-- One unescaping loop of `loadFromFile`,
`for (pos = 0; (pos = s.find("\\c", pos)) != npos; pos += 1) s.replace(pos, 2, "c")`. -/
def unescapeChar (c : Char) : List Char → List Char
  | [] => []
  | [x] => [x]
  | x :: y :: r =>
    if x = '\\' ∧ y = c then c :: unescapeChar c r else x :: unescapeChar c (y :: r)

/-- The three unescaping loops of `loadFromFile`, for `|`, then `[`, then `]`. -/
def unescapeValue (v : List Char) : List Char :=
  unescapeChar ']' (unescapeChar '[' (unescapeChar '|' v))

/-- Items written with `sep` between consecutive ones (`if (i > 0) file << sep;`). -/
def joinWith (sep : Char) : List (List Char) → List Char
  | [] => []
  | [x] => x
  | x :: y :: r => x ++ sep :: joinWith sep (y :: r)

/-- The ids printed for the slots of a node, `children[i] ? children[i]->nodeId : -1`,
when the first node it pushed was numbered `next`: nodes are numbered in the order
in which `collectNodes` pushes them. -/
def childIds : List (Option BTreeNode) → Nat → List Int
  | [], _ => []
  | none :: r, next => (-1) :: childIds r next
  | some _ :: r, next => (next : Int) :: childIds r (next + 1)

/-- The line `saveToFile` writes for a node numbered `id`. -/
def nodeLine (n : BTreeNode) (id next : Nat) : List Char :=
  "NODE_".toList ++ showNat id ++ "|LEAF=".toList ++
    (if n.isLeaf then "true".toList else "false".toList) ++ "|KEYS=[".toList ++
    joinWith ',' (n.entries.map (fun e => showInt e.1)) ++ "]|VALUES=[".toList ++
    joinWith '~' (n.entries.map (fun e => escapeValue e.2.toList)) ++ "]".toList ++
    (if n.isLeaf then []
      else "|CHILDREN=[".toList ++ joinWith ',' ((childIds n.slots next).map showInt) ++
        "]".toList) ++
    "\n".toList

/-- The node lines in the order of `collectNodes`: `queue` is the queue, `id` the
number of the node at its front, `next` the number of the next node to be pushed. -/
def nodeLines : Nat → List BTreeNode → Nat → Nat → List Char
  | 0, _, _, _ => []
  | _ + 1, [], _, _ => []
  | fuel + 1, n :: q, id, next =>
    nodeLine n id next ++ nodeLines fuel (q ++ n.queued) (id + 1) (next + n.queued.length)

/-- The value of `nodes.size()` after `collectNodes`. -/
def countNodes : Nat → List BTreeNode → Nat
  | 0, _ => 0
  | _ + 1, [] => 0
  | fuel + 1, n :: q => countNodes fuel (q ++ n.queued) + 1

/-- What went wrong in `loadFromFile`: an exception escaped (`std::stoi`,
`substr`, the `vector` constructor), the behaviour is undefined (an index outside
an array or a vector), or the pointers wired between the loaded nodes form a cycle. -/
inductive LoadError where
  | thrown
  | undefined
  | cyclic

/-- The test `isspace` in the "C" locale. -/
def isSpace (c : Char) : Bool :=
  c = ' ' || c = '\t' || c = '\n' || c = Char.ofNat 11 || c = Char.ofNat 12 || c = '\r'

/-- Value of a string of decimal digits. -/
def digitsValue : List Char → Nat → Nat
  | [], acc => acc
  | c :: cs, acc => digitsValue cs (acc * 10 + (c.toNat - 48))

/-- The conversion `std::stoi`: skips leading white space, reads an optional sign and the digits
that follow; throws when there is no digit or the value is outside `int`. -/
def stoi (s : List Char) : Except LoadError Int :=
  let s1 := s.dropWhile isSpace
  let s2 := match s1 with
    | '-' :: r => r
    | '+' :: r => r
    | _ => s1
  let ds := s2.takeWhile Char.isDigit
  if ds.isEmpty then .error .thrown
  else
    let v : Int := if s1.head? = some '-' then -(digitsValue ds 0 : Int) else digitsValue ds 0
    if v < -2147483648 ∨ 2147483647 < v then .error .thrown else .ok v

/-- First index at or after `idx` (the index of the head of the list) where `pat`
occurs; `npos` when there is none. -/
def findAt (pat : List Char) : List Char → Nat → Nat
  | [], idx => if pat.isEmpty then idx else npos
  | c :: cs, idx => if pat.isPrefixOf (c :: cs) then idx else findAt pat cs (idx + 1)

/-- The call `s.find(pat, pos)`. -/
def find (s pat : List Char) (pos : Nat) : Nat :=
  if pos > s.length then npos else findAt pat (s.drop pos) pos

/-- The call `s.substr(pos, len)`; throws when `pos > s.size()`. -/
def substr (s : List Char) (pos len : Nat) : Except LoadError (List Char) :=
  if pos > s.length then .error .thrown else .ok ((s.drop pos).take len)

/-- The tokens successive `getline(stream, token, d)` calls return: `cur` holds, in
reverse, the characters read so far for the current token. -/
def splitAux (d : Char) : List Char → List Char → List (List Char)
  | [], cur => if cur.isEmpty then [] else [cur.reverse]
  | c :: rest, cur =>
    if c = d then cur.reverse :: splitAux d rest [] else splitAux d rest (c :: cur)

/-- All tokens read from a stream over `s` with delimiter `d`. -/
def split (d : Char) (s : List Char) : List (List Char) := splitAux d s []

/-- The header loop of `loadFromFile` over the lines before the first empty one:
the values of `order`, `rootIndex`, `nodeCount` after it. -/
def parseHeader : List (List Char) → Int × Int × Int → Except LoadError (Int × Int × Int)
  | [], acc => .ok acc
  | line :: r, (order, rootIndex, nodeCount) =>
    if "ORDER=".toList.isPrefixOf line then
      match substr line 6 npos with
      | .error e => .error e
      | .ok s =>
        match stoi s with
        | .error e => .error e
        | .ok v => parseHeader r (v, rootIndex, nodeCount)
    else if "ROOT_INDEX=".toList.isPrefixOf line then
      match substr line 11 npos with
      | .error e => .error e
      | .ok s =>
        match stoi s with
        | .error e => .error e
        | .ok v => parseHeader r (order, v, nodeCount)
    else if "NODE_COUNT=".toList.isPrefixOf line then
      match substr line 11 npos with
      | .error e => .error e
      | .ok s =>
        match stoi s with
        | .error e => .error e
        | .ok v => parseHeader r (order, rootIndex, v)
    else parseHeader r (order, rootIndex, nodeCount)

/-- The loop `node->keys[keyIdx++] = stoi(keyToken)` from index `idx` on. -/
def parseKeys : List (List Char) → Nat → Except LoadError (List Int)
  | [], _ => .ok []
  | tok :: r, idx =>
    match stoi tok with
    | .error e => .error e
    | .ok k =>
      if MAX_KEYS ≤ idx then .error .undefined
      else
        match parseKeys r (idx + 1) with
        | .error e => .error e
        | .ok ks => .ok (k :: ks)

/-- The loop `childIndices[nodeId].push_back(stoi(childToken))`. -/
def parseChildIdx : List (List Char) → Except LoadError (List Int)
  | [] => .ok []
  | tok :: r =>
    match stoi tok with
    | .error e => .error e
    | .ok k =>
      match parseChildIdx r with
      | .error e => .error e
      | .ok ks => .ok (k :: ks)

/-- The loop `while (valuesEnd > 0 && rest[valuesEnd - 1] == '\\')
valuesEnd = rest.find("]", valuesEnd + 1);`.  Reading `rest[i]` with
`i > rest.size()` is undefined; `rest[rest.size()]` is the terminating zero. -/
def skipEscaped (rest : List Char) : Nat → Nat → Except LoadError Nat
  | 0, valuesEnd => .ok valuesEnd
  | fuel + 1, valuesEnd =>
    if valuesEnd = 0 then .ok valuesEnd
    else if rest.length < valuesEnd - 1 then .error .undefined
    else if rest[valuesEnd - 1]? = some '\\' then
      skipEscaped rest fuel (find rest "]".toList (wrapAdd valuesEnd 1))
    else .ok valuesEnd

/-- What one `NODE_` line contributes: the id, the node object built from it
(leaf flag, keys, values in the order stored) and the ids appended to
`childIndices[nodeId]`. -/
structure ParsedNode where
  nodeId : Nat
  isLeaf : Bool
  keys : List Int
  values : List String
  childIdx : List Int

/-- The body of the second loop of `loadFromFile` for a line that starts with
`NODE_`, with `nodeCount` the size of `nodes` and `childIndices`. -/
def parseNodeLine (nodeCount : Nat) (line : List Char) : Except LoadError ParsedNode :=
  let pipePos := find line "|".toList 0
  match substr line 5 (wrapSub pipePos 5) with
  | .error e => .error e
  | .ok idStr =>
  match stoi idStr with
  | .error e => .error e
  | .ok nodeId =>
  match substr line (wrapAdd pipePos 1) npos with
  | .error e => .error e
  | .ok rest =>
  let isLeaf := find rest "LEAF=true".toList 0 != npos
  let keysStart := wrapAdd (find rest "KEYS=[".toList 0) 6
  let keysEnd := find rest "]".toList keysStart
  match substr rest keysStart (wrapSub keysEnd keysStart) with
  | .error e => .error e
  | .ok keysStr =>
  match (if keysStr.isEmpty then Except.ok [] else parseKeys (split ',' keysStr) 0) with
  | .error e => .error e
  | .ok keys =>
  let valuesStart := wrapAdd (find rest "VALUES=[".toList 0) 8
  match skipEscaped rest (rest.length + 2) (find rest "]".toList valuesStart) with
  | .error e => .error e
  | .ok valuesEnd =>
  match substr rest valuesStart (wrapSub valuesEnd valuesStart) with
  | .error e => .error e
  | .ok valuesStr =>
  let tokens := if valuesStr.isEmpty then [] else split '~' valuesStr
  if MAX_KEYS < tokens.length then .error .undefined
  else
  let values := tokens.map (fun tok => String.mk (unescapeValue tok))
  let inRange : Bool := decide (0 ≤ nodeId ∧ nodeId < (nodeCount : Int))
  let childStart := find rest "CHILDREN=[".toList 0
  match (if isLeaf || childStart == npos then Except.ok []
    else
      match substr rest (wrapAdd childStart 10)
        (wrapSub (find rest "]".toList (wrapAdd childStart 10)) (wrapAdd childStart 10)) with
      | .error e => Except.error e
      | .ok childStr =>
        if (split ',' childStr).isEmpty then Except.ok []
        else if !inRange then Except.error LoadError.undefined
        else parseChildIdx (split ',' childStr)) with
  | .error e => .error e
  | .ok childIdx =>
  if !inRange then .error .undefined
  else .ok ⟨nodeId.toNat, isLeaf, keys, values, childIdx⟩

/-- The second loop of `loadFromFile`: the parsed `NODE_` lines in file order. -/
def parseBody (nodeCount : Nat) : List (List Char) → Except LoadError (List ParsedNode)
  | [] => .ok []
  | line :: r =>
    if line.isEmpty || !("NODE_".toList.isPrefixOf line) then parseBody nodeCount r
    else
      match parseNodeLine nodeCount line with
      | .error e => .error e
      | .ok p =>
        match parseBody nodeCount r with
        | .error e => .error e
        | .ok ps => .ok (p :: ps)

/-- The object `nodes[id]` after the second loop: the one built from the last line
with that id (`none`: the slot is still null). -/
def nodeObject (ps : List ParsedNode) (id : Nat) : Option ParsedNode :=
  (ps.reverse.find? (fun p => p.nodeId == id))

/-- The vector `childIndices[id]` after the second loop: every line with that id
appended to it. -/
def childIndices (ps : List ParsedNode) (id : Nat) : List Int :=
  ((ps.filter (fun p => p.nodeId == id)).map (fun p => p.childIdx)).flatten

/-- The live pairs of a loaded node: `numKeys` keys, each with the value stored at
the same index, or the empty string where no value was stored. -/
def loadedEntries (p : ParsedNode) : List (Int × String) :=
  List.zipWith Prod.mk p.keys (p.values ++ List.replicate p.keys.length "")

/-- In the wiring loop, `nodes[i]->children[j] = ...` is executed with
`j > MAX_KEYS` for some internal node: a write past the array. -/
def wiringOverflows (nodeCount : Nat) (ps : List ParsedNode) : Bool :=
  ps.any (fun p =>
    match nodeObject ps p.nodeId with
    | none => false
    | some q =>
      !q.isLeaf && ((childIndices ps p.nodeId).drop (MAX_KEYS + 1)).any
        (fun (c : Int) => decide (0 ≤ c ∧ c < (nodeCount : Int))))

/-- The pointer `nodes[id]` after the wiring loop, read as a tree.  A node shared
by several parents is read once under each of them.  `fuel` bounds the depth: a
branch longer than the number of nodes runs through a cycle. -/
def buildNode (nodeCount : Nat) (ps : List ParsedNode) :
    Nat → Nat → Except LoadError (Option BTreeNode)
  | 0, _ => .error .cyclic
  | fuel + 1, id =>
    match nodeObject ps id with
    | none => .ok none
    | some p =>
      if p.isLeaf then .ok (some (.mk true (loadedEntries p) []))
      else
        match (childIndices ps id).mapM (fun (c : Int) =>
          if 0 ≤ c ∧ c < (nodeCount : Int) then buildNode nodeCount ps fuel c.toNat
          else Except.ok none) with
        | .error e => .error e
        | .ok cs => .ok (some (.mk false (loadedEntries p) cs))

end Snapshot

namespace BTree

open Snapshot

/-- Source `bool BTree::saveToFile(const string& filename)` for a file that opens: the
text written (the call then returns `true`). -/
def saveToFile (t : BTree) : List Char :=
  match t.root with
  | none =>
    "ORDER=".toList ++ showNat BTREE_ORDER ++ "\nROOT_INDEX=-1\nNODE_COUNT=0\n".toList
  | some r =>
    "ORDER=".toList ++ showNat BTREE_ORDER ++ "\nROOT_INDEX=0\nNODE_COUNT=".toList ++
      showNat (countNodes r.size [r]) ++ "\n\n".toList ++ nodeLines r.size [r] 0 1

/-- Source `bool BTree::loadFromFile(const string& filename)` for a file that opens with
the given content: the tree after the call when it returns (it then returns
`true`), whatever the tree held before (`clear()` comes first). -/
def loadFromFile (content : List Char) : Except LoadError BTree :=
  let lines := split '\n' content
  let header := lines.takeWhile (fun l => !l.isEmpty)
  match parseHeader header (0, -1, 0) with
  | .error e => .error e
  | .ok (_, rootIndex, nodeCount) =>
    if nodeCount = 0 ∨ rootIndex < 0 then .ok ⟨none⟩
    else if nodeCount < 0 then .error .thrown
    else
      match parseBody nodeCount.toNat (lines.drop (header.length + 1)) with
      | .error e => .error e
      | .ok ps =>
        if wiringOverflows nodeCount.toNat ps then .error .undefined
        else if rootIndex < nodeCount then
          match buildNode nodeCount.toNat ps (nodeCount.toNat + 1) rootIndex.toNat with
          | .error e => .error e
          | .ok root => .ok ⟨root⟩
        else .ok ⟨none⟩

end BTree

/-! ## Sample trees used to instantiate the theorems -/

/-- A two-level tree: root key 5 over the leaves 1, 2 and 7, 9. -/
def BTree.sampleTree : BTree :=
  ⟨some (.mk false [(5, "e")]
    [some (.mk true [(1, "a"), (2, "b")] []), some (.mk true [(7, "g"), (9, "i")] [])])⟩

/-- The root node of `BTree.sampleTree`. -/
def BTreeNode.sampleRoot : BTreeNode :=
  .mk false [(5, "e")]
    [some (.mk true [(1, "a"), (2, "b")] []), some (.mk true [(7, "g"), (9, "i")] [])]

/-- A leaf holding `MAX_KEYS` pairs. -/
def BTreeNode.sampleFullLeaf : BTreeNode :=
  .mk true [(20, "p"), (25, "q"), (30, "r"), (35, "s"), (40, "t")] []

/-- A parent with keys 10 and 50 whose middle child is `sampleFullLeaf`. -/
def BTreeNode.sampleParent : BTreeNode :=
  .mk false [(10, "a"), (50, "e")]
    [some (.mk true [(1, "x")] []), some BTreeNode.sampleFullLeaf, some (.mk true [(60, "y")] [])]

/-- A one-leaf tree whose keys 2, 1 are not in ascending order. -/
def BTree.unsortedLeaf : BTree :=
  ⟨some (.mk true [(2, "a"), (1, "b")] [])⟩

/-- A tree that satisfies the search-tree invariant and whose right-most leaf holds
no key. -/
def BTree.emptyRightLeaf : BTree :=
  ⟨some (.mk false [(5, "e")] [some (.mk true [(1, "a")] []), some (.mk true [] [])])⟩

/-! ## Observations on `BTree::insert` used by the split claims -/

namespace BTree

/-- Number of levels of the tree (`0` for the empty tree). -/
def height (t : BTree) : Nat :=
  match t.root with
  | none => 0
  | some r => r.height

/-- Whether `insert(key, value)` takes the branch that splits the root: the tree
has a root, `exists(key)` is false and `root->isFull()`. -/
def splitsRoot (t : BTree) (key : Int) : Bool :=
  match t.root with
  | none => false
  | some r => t.exists key == some false && r.isFull

/-- The tree after the first `i` of the inserts `(10, a)`, `(20, b)`, `(5, c)`,
`(6, d)`, `(12, e)`, `(30, f)`, `(7, g)`, `(17, h)` into the empty tree. -/
def afterInserts (a b c d e f g h : String) : Nat → BTree
  | 0 => empty
  | 1 => ⟨some (.mk true [(10, a)] [])⟩
  | 2 => ⟨some (.mk true [(10, a), (20, b)] [])⟩
  | 3 => ⟨some (.mk true [(5, c), (10, a), (20, b)] [])⟩
  | 4 => ⟨some (.mk true [(5, c), (6, d), (10, a), (20, b)] [])⟩
  | 5 => ⟨some (.mk true [(5, c), (6, d), (10, a), (12, e), (20, b)] [])⟩
  | 6 => ⟨some (.mk false [(10, a)]
      [some (.mk true [(5, c), (6, d)] []), some (.mk true [(12, e), (20, b), (30, f)] [])])⟩
  | 7 => ⟨some (.mk false [(10, a)]
      [some (.mk true [(5, c), (6, d), (7, g)] []),
       some (.mk true [(12, e), (20, b), (30, f)] [])])⟩
  | _ => ⟨some (.mk false [(10, a)]
      [some (.mk true [(5, c), (6, d), (7, g)] []),
       some (.mk true [(12, e), (17, h), (20, b), (30, f)] [])])⟩

end BTree

namespace Snapshot

/-- Every character of `s` that belongs to `set` preceded by a backslash: what the
escaping loops of `saveToFile` produce once the characters of `set` have been done. -/
def escapeSet (set : List Char) : List Char → List Char
  | [] => []
  | x :: xs => if x ∈ set then '\\' :: x :: escapeSet set xs else x :: escapeSet set xs

end Snapshot

/-- A call made while `BTree::insert` runs: `insertNonFull` on a node that holds
`numKeys` keys, or `splitChild` on a parent that holds `numKeys` keys for a child
that holds `childKeys` keys. -/
inductive InsertCall where
  | insertNonFull (numKeys : Nat)
  | splitChild (numKeys childKeys : Nat)
  deriving DecidableEq

namespace InsertCall

/-- The call writes inside the fixed arrays: `insertNonFull` on a node with fewer
than `MAX_KEYS` keys; `splitChild` on a parent with fewer than `MAX_KEYS` keys and
a child with exactly `MAX_KEYS` keys. -/
def inBounds : InsertCall → Bool
  | .insertNonFull n => decide (n < MAX_KEYS)
  | .splitChild n m => decide (n < MAX_KEYS) && decide (m = MAX_KEYS)

end InsertCall

namespace BTreeNode

/-- The function `insertNonFull` once more, this time also listing, in order, the
calls of `insertNonFull` and `splitChild` it makes (itself included). -/
def insertNonFullCalls : Nat → BTreeNode → Int → String → Option BTreeNode × List InsertCall
  | 0, _, _, _ => (none, [])
  | fuel + 1, .mk isLeaf es cs, key, value =>
    let i := insertScan key es es.length
    if isLeaf then
      (if es.length < MAX_KEYS then
          some (.mk isLeaf (es.take i ++ (key, value) :: es.drop i) cs)
        else none,
        [.insertNonFull es.length])
    else
      match childAt cs i with
      | none => (none, [.insertNonFull es.length])
      | some c =>
        if c.isFull then
          match splitChild (.mk isLeaf es cs) i with
          | none => (none, [.insertNonFull es.length, .splitChild es.length c.numKeys])
          | some (.mk isLeaf' es' cs') =>
            match es'[i]? with
            | none => (none, [.insertNonFull es.length, .splitChild es.length c.numKeys])
            | some m =>
              let i' := if m.1 < key then i + 1 else i
              match childAt cs' i' with
              | none => (none, [.insertNonFull es.length, .splitChild es.length c.numKeys])
              | some c' =>
                ((match (insertNonFullCalls fuel c' key value).1 with
                  | none => none
                  | some c'' => some (.mk isLeaf' es' (cs'.set i' (some c'')))),
                 .insertNonFull es.length :: .splitChild es.length c.numKeys ::
                   (insertNonFullCalls fuel c' key value).2)
        else
          ((match (insertNonFullCalls fuel c key value).1 with
            | none => none
            | some c'' => some (.mk isLeaf es (cs.set i (some c'')))),
           .insertNonFull es.length :: (insertNonFullCalls fuel c key value).2)

end BTreeNode

namespace BTree

/-- The function `BTree.insert` once more, this time also listing, in order, the
calls of `insertNonFull` and `splitChild` made while it runs. -/
def insertCalls (t : BTree) (key : Int) (value : String) : Option BTree × List InsertCall :=
  match t.root with
  | none => (some ⟨some (.mk true [(key, value)] [])⟩, [])
  | some r =>
    match t.exists key with
    | none => (none, [])
    | some true =>
      ((match t.update key value with
        | some (_, t') => some t'
        | none => none), [])
    | some false =>
      if r.isFull then
        match BTreeNode.splitChild (.mk false [] [some r]) 0 with
        | none => (none, [.splitChild 0 r.numKeys])
        | some (.mk l es cs) =>
          match es[0]? with
          | none => (none, [.splitChild 0 r.numKeys])
          | some m =>
            let i := if m.1 < key then 1 else 0
            match BTreeNode.childAt cs i with
            | none => (none, [.splitChild 0 r.numKeys])
            | some c =>
              ((match (BTreeNode.insertNonFullCalls r.height c key value).1 with
                | none => none
                | some c' => some ⟨some (.mk l es (cs.set i (some c')))⟩),
               .splitChild 0 r.numKeys :: (BTreeNode.insertNonFullCalls r.height c key value).2)
      else
        ((match (BTreeNode.insertNonFullCalls r.height r key value).1 with
          | none => none
          | some r' => some ⟨some r'⟩),
         (BTreeNode.insertNonFullCalls r.height r key value).2)

/-- The node invariants of a B-tree of order 3 on a whole tree: the search-tree
invariant, at most `MAX_KEYS` keys in every node, at least `MIN_KEYS` in every
node but the root, at least one in the root, all leaves at the same depth. -/
def nodeInvariants (t : BTree) : Bool :=
  match t.root with
  | none => true
  | some r =>
    r.searchTreeInv &&
    BTreeNode.allNodes (fun m => decide (m.numKeys ≤ MAX_KEYS)) r &&
    BTreeNode.allNodesList (fun m => decide (MIN_KEYS ≤ m.numKeys)) r.children &&
    decide (1 ≤ r.numKeys) &&
    (BTreeNode.leafDepths r 0).all (fun a => (BTreeNode.leafDepths r 0).all (fun b => a == b))

end BTree

/-- A two-level tree whose right leaf is `BTreeNode.sampleFullLeaf`. -/
def BTree.sampleFullChild : BTree :=
  ⟨some (.mk false [(10, "a")]
    [some (.mk true [(1, "x"), (2, "y")] []), some BTreeNode.sampleFullLeaf])⟩

/-! ## Numbering of the nodes in a snapshot -/

namespace BTreeNode

mutual
/-- Number of nodes of the tree under a node: the node itself and, for an internal
node, the nodes under `children[0..numKeys]`. -/
def nodeCount : BTreeNode → Nat
  | .mk isLeaf es cs => if isLeaf then 1 else nodeCountSlots (es.length + 1) cs + 1
/-- Number of nodes under the first `k` slots. -/
def nodeCountSlots : Nat → List (Option BTreeNode) → Nat
  | 0, _ => 0
  | _ + 1, [] => 0
  | k + 1, none :: cs => nodeCountSlots k cs
  | k + 1, some c :: cs => nodeCount c + nodeCountSlots k cs
end

end BTreeNode

namespace Snapshot

/-- Source `BTree::collectNodes`: the vector `nodes` it fills when the queue holds
`queue`, in at most `fuel` rounds of its loop. -/
def collectNodes : Nat → List BTreeNode → List BTreeNode
  | 0, _ => []
  | _ + 1, [] => []
  | fuel + 1, n :: q => n :: collectNodes fuel (q ++ n.queued)

/-- What `saveToFile` writes a node line from: the node, its `nodeId`, and the
`nodeId` of its first non-null child (the value of `next` in `nodeLines`). -/
structure NodeRecord where
  node : BTreeNode
  id : Nat
  next : Nat

/-- The records of the lines written for the vector `nodes`, when its first node
has number `id` and the first child not yet numbered gets `next`. -/
def numbered : List BTreeNode → Nat → Nat → List NodeRecord
  | [], _, _ => []
  | n :: ns, id, next => ⟨n, id, next⟩ :: numbered ns (id + 1) (next + n.queued.length)

namespace NodeRecord

/-- The line written for a record. -/
def line (r : NodeRecord) : List Char := nodeLine r.node r.id r.next

/-- The numbers in the `CHILDREN=[...]` list of the line of a record, `-1` for a
null slot; the line of a leaf has no such list. -/
def listedIds (r : NodeRecord) : List Int :=
  if r.node.isLeaf then [] else childIds r.node.slots r.next

end NodeRecord

end Snapshot

/-! ## The bounded queue `CircularQueue<T, CAPACITY>`

Sequential model: one thread makes the calls one after the other, so a call that
waits on a condition variable never returns. -/

/-- Source `class CircularQueue`: the array `buffer[CAPACITY]` and the fields
`head`, `tail`, `count`, `closed`. -/
structure CircularQueue (T : Type) (CAPACITY : Nat) where
  buffer : List T
  head : Nat
  tail : Nat
  count : Nat
  closed : Bool
  deriving DecidableEq

/-- Why a call does not return: it waits for another thread (`blocks`), or it
indexes `buffer` outside the array (`outOfBounds`). -/
inductive QueueStop where
  | blocks
  | outOfBounds
  deriving DecidableEq

namespace CircularQueue

/-- Source `CircularQueue() : head(0), tail(0), count(0), closed(false) {}`; the
array elements start as default values. -/
def create {T : Type} {CAPACITY : Nat} [Inhabited T] : CircularQueue T CAPACITY :=
  ⟨List.replicate CAPACITY default, 0, 0, 0, false⟩

/-- The statements `buffer[tail] = item; tail = (tail + 1) % CAPACITY; count++;`. -/
def store {T : Type} {CAPACITY : Nat} (q : CircularQueue T CAPACITY) (item : T) :
    Except QueueStop (CircularQueue T CAPACITY) :=
  if q.tail < CAPACITY then
    .ok { q with buffer := q.buffer.set q.tail item,
                 tail := (q.tail + 1) % CAPACITY,
                 count := q.count + 1 }
  else .error .outOfBounds

/-- The statements `item = buffer[head]; head = (head + 1) % CAPACITY; count--;`. -/
def take {T : Type} {CAPACITY : Nat} (q : CircularQueue T CAPACITY) :
    Except QueueStop (T × CircularQueue T CAPACITY) :=
  if q.head < CAPACITY then
    match q.buffer[q.head]? with
    | some item =>
      .ok (item, { q with head := (q.head + 1) % CAPACITY, count := q.count - 1 })
    | none => .error .outOfBounds
  else .error .outOfBounds

/-- Source `bool enqueue(const T& item)`: waits until `count < CAPACITY || closed`. -/
def enqueue {T : Type} {CAPACITY : Nat} (q : CircularQueue T CAPACITY) (item : T) :
    Except QueueStop (Bool × CircularQueue T CAPACITY) :=
  if !(decide (q.count < CAPACITY) || q.closed) then .error .blocks
  else if q.closed then .ok (false, q)
  else
    match q.store item with
    | .error e => .error e
    | .ok q' => .ok (true, q')

/-- Source `bool dequeue(T& item)`: waits until `count > 0 || closed`; the result
is `some item` when it returns `true` and `none` when it returns `false`. -/
def dequeue {T : Type} {CAPACITY : Nat} (q : CircularQueue T CAPACITY) :
    Except QueueStop (Option T × CircularQueue T CAPACITY) :=
  if !(decide (q.count > 0) || q.closed) then .error .blocks
  else if q.closed && q.count == 0 then .ok (none, q)
  else
    match q.take with
    | .error e => .error e
    | .ok (item, q') => .ok (some item, q')

/-- Source `bool tryEnqueue(const T& item)`. -/
def tryEnqueue {T : Type} {CAPACITY : Nat} (q : CircularQueue T CAPACITY) (item : T) :
    Except QueueStop (Bool × CircularQueue T CAPACITY) :=
  if decide (q.count ≥ CAPACITY) || q.closed then .ok (false, q)
  else
    match q.store item with
    | .error e => .error e
    | .ok q' => .ok (true, q')

/-- Source `bool tryDequeue(T& item)`. -/
def tryDequeue {T : Type} {CAPACITY : Nat} (q : CircularQueue T CAPACITY) :
    Except QueueStop (Option T × CircularQueue T CAPACITY) :=
  if q.count == 0 then .ok (none, q)
  else
    match q.take with
    | .error e => .error e
    | .ok (item, q') => .ok (some item, q')

/-- Source `size_t size() const`. -/
def size {T : Type} {CAPACITY : Nat} (q : CircularQueue T CAPACITY) : Nat := q.count

/-- Source `bool isEmpty() const`. -/
def isEmpty {T : Type} {CAPACITY : Nat} (q : CircularQueue T CAPACITY) : Bool := q.count == 0

/-- Source `bool isFull() const`. -/
def isFull {T : Type} {CAPACITY : Nat} (q : CircularQueue T CAPACITY) : Bool :=
  decide (q.count ≥ CAPACITY)

/-- Source `void close()`. -/
def close {T : Type} {CAPACITY : Nat} (q : CircularQueue T CAPACITY) : CircularQueue T CAPACITY :=
  { q with closed := true }

/-- Source `bool isClosed() const`. -/
def isClosed {T : Type} {CAPACITY : Nat} (q : CircularQueue T CAPACITY) : Bool := q.closed

/-- Source `void clear()`. -/
def clear {T : Type} {CAPACITY : Nat} (q : CircularQueue T CAPACITY) : CircularQueue T CAPACITY :=
  { q with head := 0, tail := 0, count := 0 }

/-- The buffered items, oldest first: the `count` slots from `head` on, around the
end of the array. -/
def contents {T : Type} {CAPACITY : Nat} (q : CircularQueue T CAPACITY) : List T :=
  (List.range q.count).filterMap (fun i => q.buffer[(q.head + i) % CAPACITY]?)

/-- The ring invariant: the array has `CAPACITY` slots, `head < CAPACITY`,
`count ≤ CAPACITY` and `tail = (head + count) % CAPACITY`. -/
def ringInv {T : Type} {CAPACITY : Nat} (q : CircularQueue T CAPACITY) : Bool :=
  decide (q.buffer.length = CAPACITY) && decide (q.head < CAPACITY) &&
    decide (q.count ≤ CAPACITY) && decide (q.tail = (q.head + q.count) % CAPACITY)

end CircularQueue

/-- A call on a queue. -/
inductive QueueCall (T : Type) where
  | enqueue (item : T)
  | tryEnqueue (item : T)
  | dequeue
  | tryDequeue
  | close
  deriving DecidableEq

/-- What a call returned: the `bool` of `enqueue` and `tryEnqueue`; for `dequeue`
and `tryDequeue` the item when they return `true` and `none` when they return
`false`; nothing for `close`. -/
inductive QueueReturn (T : Type) where
  | bool (ok : Bool)
  | item (x : Option T)
  | void
  deriving DecidableEq

/-- The outcome of a sequence of calls: the calls that returned with what they
returned, the state reached, and why the next call did not return (if one did
not). -/
structure QueueRun (T : Type) (S : Type) where
  log : List (QueueCall T × QueueReturn T)
  final : S
  stop : Option QueueStop

namespace QueueRun

/-- The items accepted by the successful `enqueue` and `tryEnqueue` calls, in order. -/
def accepted {T : Type} (log : List (QueueCall T × QueueReturn T)) : List T :=
  log.filterMap (fun e =>
    match e with
    | (.enqueue x, .bool true) => some x
    | (.tryEnqueue x, .bool true) => some x
    | _ => none)

/-- The items returned by the successful `dequeue` and `tryDequeue` calls, in order. -/
def dequeued {T : Type} (log : List (QueueCall T × QueueReturn T)) : List T :=
  log.filterMap (fun e =>
    match e with
    | (_, .item (some x)) => some x
    | _ => none)

end QueueRun

namespace CircularQueue

/-- One call on the queue. -/
def call {T : Type} {CAPACITY : Nat} (q : CircularQueue T CAPACITY) :
    QueueCall T → Except QueueStop (QueueReturn T × CircularQueue T CAPACITY)
  | .enqueue x =>
    match q.enqueue x with
    | .error e => .error e
    | .ok (b, q') => .ok (.bool b, q')
  | .tryEnqueue x =>
    match q.tryEnqueue x with
    | .error e => .error e
    | .ok (b, q') => .ok (.bool b, q')
  | .dequeue =>
    match q.dequeue with
    | .error e => .error e
    | .ok (x, q') => .ok (.item x, q')
  | .tryDequeue =>
    match q.tryDequeue with
    | .error e => .error e
    | .ok (x, q') => .ok (.item x, q')
  | .close => .ok (.void, q.close)

/-- The calls made one after the other, up to the first that does not return. -/
def run {T : Type} {CAPACITY : Nat} (q : CircularQueue T CAPACITY) :
    List (QueueCall T) → QueueRun T (CircularQueue T CAPACITY)
  | [] => ⟨[], q, none⟩
  | c :: rest =>
    match q.call c with
    | .error e => ⟨[], q, some e⟩
    | .ok (r, q') => ⟨(c, r) :: (run q' rest).log, (run q' rest).final, (run q' rest).stop⟩

end CircularQueue

/-- The abstract FIFO list the queue is meant to behave as: the buffered items,
oldest first, and the closed flag; at most `CAPACITY` items. -/
structure FifoList (T : Type) (CAPACITY : Nat) where
  items : List T
  closed : Bool
  deriving DecidableEq

namespace FifoList

/-- The empty open list. -/
def create {T : Type} {CAPACITY : Nat} : FifoList T CAPACITY := ⟨[], false⟩

/-- One call on the abstract list: an accepted item goes to the back, a returned
item comes from the front; `enqueue` waits while the list is full and open,
`dequeue` while it is empty and open. -/
def call {T : Type} {CAPACITY : Nat} (s : FifoList T CAPACITY) :
    QueueCall T → Except QueueStop (QueueReturn T × FifoList T CAPACITY)
  | .enqueue x =>
    if s.closed then .ok (.bool false, s)
    else if s.items.length < CAPACITY then .ok (.bool true, { s with items := s.items ++ [x] })
    else .error .blocks
  | .tryEnqueue x =>
    if s.closed then .ok (.bool false, s)
    else if s.items.length < CAPACITY then .ok (.bool true, { s with items := s.items ++ [x] })
    else .ok (.bool false, s)
  | .dequeue =>
    match s.items with
    | x :: rest => .ok (.item (some x), { s with items := rest })
    | [] => if s.closed then .ok (.item none, s) else .error .blocks
  | .tryDequeue =>
    match s.items with
    | x :: rest => .ok (.item (some x), { s with items := rest })
    | [] => .ok (.item none, s)
  | .close => .ok (.void, { s with closed := true })

/-- The calls made one after the other, up to the first that does not return. -/
def run {T : Type} {CAPACITY : Nat} (s : FifoList T CAPACITY) :
    List (QueueCall T) → QueueRun T (FifoList T CAPACITY)
  | [] => ⟨[], s, none⟩
  | c :: rest =>
    match s.call c with
    | .error e => ⟨[], s, some e⟩
    | .ok (r, s') => ⟨(c, r) :: (run s' rest).log, (run s' rest).final, (run s' rest).stop⟩

end FifoList

namespace CircularQueue

/-- The abstract list a queue state stands for. -/
def toFifo {T : Type} {CAPACITY : Nat} (q : CircularQueue T CAPACITY) : FifoList T CAPACITY :=
  ⟨q.contents, q.closed⟩

end CircularQueue

/-! ## The response line: `Response::serialize` and `Response::deserialize` -/

/-- The enumerators of `enum class ResponseStatus`, as the `int` each stands for. -/
def ResponseStatus.SUCCESS : Int := 0

/-- The enumerator `FAILURE`. -/
def ResponseStatus.FAILURE : Int := 1

/-- The enumerator `NOT_FOUND`. -/
def ResponseStatus.NOT_FOUND : Int := 2

/-- The enumerator `INVALID_PARAMS`. -/
def ResponseStatus.INVALID_PARAMS : Int := 3

/-- Source `struct Response`.  The field `status` holds `static_cast<int>(status)`:
a `ResponseStatus` object can hold every `int`, not only the four enumerators. -/
structure Response where
  clientId : Int
  requestId : Int
  status : Int
  message : String
  data : String
  deriving DecidableEq

namespace Response

open Snapshot

/-- The call `s.find(pat)`: the first index where `pat` occurs, `none` for `npos`. -/
def indexOf (pat : List Char) : List Char → Option Nat
  | [] => if pat.isEmpty then some 0 else none
  | c :: cs =>
    if pat.isPrefixOf (c :: cs) then some 0
    else
      match indexOf pat cs with
      | none => none
      | some i => some (i + 1)

/-- The call `s.replace(pos, len, str)` for `pos ≤ s.size()`. -/
def replace (s : List Char) (pos len : Nat) (str : List Char) : List Char :=
  s.take pos ++ str ++ s.drop (pos + len)

/-- The loop `while ((pos = s.find('|')) != npos) s.replace(pos, 1, "\\p");` run
for at most `fuel` rounds. -/
def escapeLoop : Nat → List Char → List Char
  | 0, s => s
  | fuel + 1, s =>
    match indexOf ['|'] s with
    | none => s
    | some pos => escapeLoop fuel (replace s pos 1 ['\\', 'p'])

/-- The loop `while ((pos = s.find("\\p")) != npos) s.replace(pos, 2, "|");` run
for at most `fuel` rounds. -/
def unescapeLoop : Nat → List Char → List Char
  | 0, s => s
  | fuel + 1, s =>
    match indexOf ['\\', 'p'] s with
    | none => s
    | some pos => unescapeLoop fuel (replace s pos 2 ['|'])

/-- The escaping loop of `serialize` on `s`: every round removes one `|`, so
`s.size()` rounds are enough. -/
def escape (s : List Char) : List Char := escapeLoop s.length s

/-- The unescaping loop of `deserialize` on `s`: every round shortens the string,
so `s.size()` rounds are enough. -/
def unescape (s : List Char) : List Char := unescapeLoop s.length s

/-- Source `string Response::serialize() const`. -/
def serialize (r : Response) : List Char :=
  showInt r.clientId ++ '|' :: (showInt r.requestId ++ '|' :: (showInt r.status ++ '|' ::
    (escape r.message.toList ++ '|' :: escape r.data.toList)))

/-- Source `static Response Response::deserialize(const string& str)`: the tokens
are those of the successive `getline(iss, token, '|')` calls; a field whose
`getline` fails keeps its default; `std::stoi` may throw. -/
def deserialize (str : List Char) : Except LoadError Response :=
  let tokens := split '|' str
  match (match tokens[0]? with
    | some t => stoi t
    | none => Except.ok 0) with
  | .error e => .error e
  | .ok clientId =>
  match (match tokens[1]? with
    | some t => stoi t
    | none => Except.ok 0) with
  | .error e => .error e
  | .ok requestId =>
  match (match tokens[2]? with
    | some t => stoi t
    | none => Except.ok ResponseStatus.SUCCESS) with
  | .error e => .error e
  | .ok status =>
    .ok ⟨clientId, requestId, status,
      String.mk (unescape (tokens[3]?.getD [])), String.mk (unescape (tokens[4]?.getD []))⟩

/-- The single pass the escaping loop amounts to: every `|` becomes backslash, `p`. -/
def escapePass : List Char → List Char
  | [] => []
  | c :: r => if c = '|' then '\\' :: 'p' :: escapePass r else c :: escapePass r

end Response

/-! ## `std::map` and the request line: `Request::serialize`, `Request::deserialize`

A `std::map<K, V>` is the list of its pairs in iteration order, which is the
ascending order of the keys. -/

namespace StdMap

/-- The call `m.find(k)`: the value stored under `k`, `none` for `m.end()`. -/
def find {K V : Type} [DecidableEq K] : List (K × V) → K → Option V
  | [], _ => none
  | (k', v) :: r, k => if k' = k then some v else find r k

/-- The assignment `m[k] = v`: the pair is put at its place in key order, or the
value stored under `k` is replaced. -/
def insert {K V : Type} [LT K] [∀ a b : K, Decidable (a < b)] [DecidableEq K] (k : K) (v : V) :
    List (K × V) → List (K × V)
  | [] => [(k, v)]
  | (k', v') :: r =>
    if k < k' then (k, v) :: (k', v') :: r
    else if k = k' then (k, v) :: r
    else (k', v') :: insert k v r

/-- The keys in iteration order. -/
def keys {K V : Type} (m : List (K × V)) : List K := m.map Prod.fst

/-- The representation invariant of a map: the keys are strictly ascending. -/
def ascending {K V : Type} [LT K] [∀ a b : K, Decidable (a < b)] (m : List (K × V)) : Bool :=
  decide (m.Pairwise (fun a b => a.1 < b.1))

end StdMap

/-- The enumerators of `enum class RequestType`, as the `int` each stands for. -/
def RequestType.ADD_LOCATION : Int := 0

/-- The enumerator `ADD_ROAD`. -/
def RequestType.ADD_ROAD : Int := 1

/-- The enumerator `FIND_PATH`. -/
def RequestType.FIND_PATH : Int := 2

/-- The enumerator `GET_LOCATIONS`. -/
def RequestType.GET_LOCATIONS : Int := 3

/-- The enumerator `GET_ROADS`. -/
def RequestType.GET_ROADS : Int := 4

/-- The enumerator `GET_LOCATION`. -/
def RequestType.GET_LOCATION : Int := 5

/-- The enumerator `INIT_SAMPLE`. -/
def RequestType.INIT_SAMPLE : Int := 6

/-- The enumerator `SAVE_DATA`. -/
def RequestType.SAVE_DATA : Int := 7

/-- The enumerator `SHUTDOWN`. -/
def RequestType.SHUTDOWN : Int := 8

/-- The enumerator `UNKNOWN`. -/
def RequestType.UNKNOWN : Int := 9

/-- Source `requestTypeToString`: a `switch` over the nine named cases with
`default: return "UNKNOWN"`. -/
def requestTypeToString (type : Int) : String :=
  if type = RequestType.ADD_LOCATION then "ADD_LOCATION"
  else if type = RequestType.ADD_ROAD then "ADD_ROAD"
  else if type = RequestType.FIND_PATH then "FIND_PATH"
  else if type = RequestType.GET_LOCATIONS then "GET_LOCATIONS"
  else if type = RequestType.GET_ROADS then "GET_ROADS"
  else if type = RequestType.GET_LOCATION then "GET_LOCATION"
  else if type = RequestType.INIT_SAMPLE then "INIT_SAMPLE"
  else if type = RequestType.SAVE_DATA then "SAVE_DATA"
  else if type = RequestType.SHUTDOWN then "SHUTDOWN"
  else "UNKNOWN"

/-- Source `struct Request`.  The field `type` holds `static_cast<int>(type)`: a
`RequestType` object can hold every `int`, not only the ten enumerators.  The map
`params` is the list of its pairs in key order; keys and values are the lists of
their characters, compared like `std::string` (lexicographically). -/
structure Request where
  clientId : Int
  requestId : Int
  type : Int
  params : List (List Char × List Char)
  deriving DecidableEq

namespace Request

open Snapshot

/-- The text `key=value` written for one parameter. -/
def paramText (p : List Char × List Char) : List Char := p.1 ++ '=' :: p.2

/-- Source `string Request::serialize() const`. -/
def serialize (r : Request) : List Char :=
  showInt r.clientId ++ '|' :: (showInt r.requestId ++ '|' :: (showInt r.type ++ '|' ::
    joinWith ';' (r.params.map paramText)))

/-- The body of the loop over the `;`-separated parameters: a token without `=`
is skipped, otherwise `req.params[key] = value`. -/
def parseParam (params : List (List Char × List Char)) (param : List Char) :
    List (List Char × List Char) :=
  match Response.indexOf ['='] param with
  | none => params
  | some eqPos =>
    StdMap.insert (param.take eqPos) (param.drop (eqPos + 1)) params

/-- Source `static Request Request::deserialize(const string& data)`: the tokens are
those of the successive `getline(iss, token, '|')` calls; a field whose `getline`
fails keeps its default; `std::stoi` may throw. -/
def deserialize (data : List Char) : Except LoadError Request :=
  let tokens := split '|' data
  match (match tokens[0]? with
    | some t => stoi t
    | none => Except.ok 0) with
  | .error e => .error e
  | .ok clientId =>
  match (match tokens[1]? with
    | some t => stoi t
    | none => Except.ok 0) with
  | .error e => .error e
  | .ok requestId =>
  match (match tokens[2]? with
    | some t => stoi t
    | none => Except.ok RequestType.UNKNOWN) with
  | .error e => .error e
  | .ok type =>
    .ok ⟨clientId, requestId, type,
      match tokens[3]? with
      | some t => (split ';' t).foldl parseParam []
      | none => []⟩

/-- Source `string getParam(const string& key) const`. -/
def getParam (r : Request) (key : List Char) : List Char :=
  match StdMap.find r.params key with
  | some v => v
  | none => []

/-- Source `int getParamInt(const string& key, int defaultValue) const`: an
exception of `std::stoi` is caught and gives the default. -/
def getParamInt (r : Request) (key : List Char) (defaultValue : Int) : Int :=
  if (r.getParam key).isEmpty then defaultValue
  else
    match stoi (r.getParam key) with
    | .ok v => v
    | .error _ => defaultValue

/-- Source `bool getParamBool(const string& key, bool defaultValue) const`. -/
def getParamBool (r : Request) (key : List Char) (defaultValue : Bool) : Bool :=
  if (r.getParam key).isEmpty then defaultValue
  else r.getParam key == "1".toList || r.getParam key == "true".toList ||
    r.getParam key == "yes".toList

end Request

/-! ## `double` values, `Location`, `Edge` and `Graph` -/

/-- A `double`: a finite value, given by the rational number it stands for, an
infinity, or a NaN.  Comparisons and sums follow IEEE 754 binary64: the sum of two
finite values is their exact sum rounded to the nearest value of the format, ties
to even, and `+inf` or `-inf` when that lies beyond the largest finite value. -/
inductive Double where
  | finite (q : ℚ)
  | posInf
  | negInf
  | nan
  deriving DecidableEq

namespace Double

/-- The comparison `a < b`. -/
def lt : Double → Double → Bool
  | finite a, finite b => decide (a < b)
  | finite _, posInf => true
  | negInf, finite _ => true
  | negInf, posInf => true
  | _, _ => false

/-- The comparison `a <= b`. -/
def le : Double → Double → Bool
  | finite a, finite b => decide (a ≤ b)
  | finite _, posInf => true
  | negInf, finite _ => true
  | negInf, posInf => true
  | posInf, posInf => true
  | negInf, negInf => true
  | _, _ => false

/-- The number of halvings that take `n` below 2, within `fuel` rounds. -/
def log2Aux : Nat → Nat → Nat
  | 0, _ => 0
  | fuel + 1, n => if n < 2 then 0 else log2Aux fuel (n / 2) + 1

/-- The position of the leading bit of `n`: `2^log2 n <= n < 2^(log2 n + 1)`. -/
def log2 (n : Nat) : Nat := log2Aux n n

/-- The binary exponent of a positive rational: `2^expo x <= x < 2^(expo x + 1)`. -/
def expo (x : ℚ) : ℤ :=
  if (2 : ℚ) ^ ((log2 x.num.toNat : ℤ) - (log2 x.den : ℤ)) ≤ x then
    (log2 x.num.toNat : ℤ) - (log2 x.den : ℤ)
  else (log2 x.num.toNat : ℤ) - (log2 x.den : ℤ) - 1

/-- The exponent of the last place of the binary64 values next to `x`: 53
significant bits, and -1074 for the subnormal values. -/
def quantum (x : ℚ) : ℤ := max (expo x - 52) (-1074)

/-- The nearest integer, a tie going to the even one. -/
def rhe (y : ℚ) : ℤ :=
  if y - ⌊y⌋ < 1 / 2 then ⌊y⌋
  else if 1 / 2 < y - ⌊y⌋ then ⌊y⌋ + 1
  else if ⌊y⌋ % 2 = 0 then ⌊y⌋ else ⌊y⌋ + 1

/-- The binary64 value nearest to a positive rational, `+inf` from `2^1024` on. -/
def roundPos (x : ℚ) : Double :=
  if (2 : ℚ) ^ (1024 : ℕ) ≤ (rhe (x / (2 : ℚ) ^ quantum x) : ℚ) * (2 : ℚ) ^ quantum x then posInf
  else finite ((rhe (x / (2 : ℚ) ^ quantum x) : ℚ) * (2 : ℚ) ^ quantum x)

/-- The negation `-a`. -/
def neg : Double → Double
  | finite q => finite (-q)
  | posInf => negInf
  | negInf => posInf
  | nan => nan

/-- The binary64 value nearest to a rational (round to nearest, ties to even). -/
def round (x : ℚ) : Double :=
  if x = 0 then finite 0 else if 0 < x then roundPos x else neg (roundPos (-x))

/-- The sum `a + b`. -/
def add : Double → Double → Double
  | finite a, finite b => round (a + b)
  | finite _, posInf => posInf
  | finite _, negInf => negInf
  | posInf, finite _ => posInf
  | posInf, posInf => posInf
  | negInf, finite _ => negInf
  | negInf, negInf => negInf
  | _, _ => nan

/-- A value a distance in `dijkstra` can take: `+inf`, or a finite value of the
format (it rounds to itself) that is not negative. -/
def isDist : Double → Prop
  | finite q => 0 ≤ q ∧ round q = finite q
  | posInf => True
  | _ => False

end Double

/-- The text side of `double`, which belongs to the standard library: the output
of `oss << x`, the output of `oss << fixed << setprecision(2) << x`, and
`std::stod`, which may throw. -/
structure DoubleText where
  print : Double → List Char
  printFixed2 : Double → List Char
  stod : List Char → Except Snapshot.LoadError Double

/-- Source `class Location`. -/
structure Location where
  id : Int
  name : String
  latitude : Double
  longitude : Double
  type : String
  deriving DecidableEq

namespace Location

open Snapshot

/-- Source `Location() : id(0), name(""), latitude(0.0), longitude(0.0), type("")`. -/
def empty : Location := ⟨0, "", .finite 0, .finite 0, ""⟩

/-- Source `string Location::serialize() const`. -/
def serialize (dt : DoubleText) (loc : Location) : List Char :=
  loc.name.toList ++ '|' :: (dt.print loc.latitude ++ '|' :: (dt.print loc.longitude ++ '|' ::
    loc.type.toList))

/-- Source `static Location Location::deserialize(int id, const string& data)`. -/
def deserialize (dt : DoubleText) (id : Int) (data : List Char) : Except LoadError Location :=
  let tokens := split '|' data
  match (match tokens[1]? with
    | some t => dt.stod t
    | none => Except.ok (Double.finite 0)) with
  | .error e => .error e
  | .ok latitude =>
  match (match tokens[2]? with
    | some t => dt.stod t
    | none => Except.ok (Double.finite 0)) with
  | .error e => .error e
  | .ok longitude =>
    .ok ⟨id, String.mk (tokens[0]?.getD []), latitude, longitude, String.mk (tokens[3]?.getD [])⟩

/-- Source `string Location::toString() const`. -/
def toString (dt : DoubleText) (loc : Location) : List Char :=
  "ID: ".toList ++ showInt loc.id ++ ", Name: ".toList ++ loc.name.toList ++
    ", Lat: ".toList ++ dt.print loc.latitude ++ ", Lon: ".toList ++ dt.print loc.longitude ++
    ", Type: ".toList ++ loc.type.toList

/-- Source `bool Location::isValid() const`. -/
def isValid (loc : Location) : Bool :=
  decide (loc.id > 0) && !loc.name.isEmpty &&
    Double.le (.finite (-90)) loc.latitude && Double.le loc.latitude (.finite 90) &&
    Double.le (.finite (-180)) loc.longitude && Double.le loc.longitude (.finite 180)

end Location

/-- Source `class Edge`. -/
structure Edge where
  edgeId : Int
  sourceId : Int
  destinationId : Int
  distance : Double
  roadName : String
  isBidirectional : Bool
  deriving DecidableEq

namespace Edge

open Snapshot

/-- Source `Edge() : edgeId(0), sourceId(0), destinationId(0), distance(0.0),
roadName(""), isBidirectional(true)`. -/
def empty : Edge := ⟨0, 0, 0, .finite 0, "", true⟩

/-- Source `string Edge::serialize() const`. -/
def serialize (dt : DoubleText) (e : Edge) : List Char :=
  showInt e.sourceId ++ '|' :: (showInt e.destinationId ++ '|' :: (dt.print e.distance ++ '|' ::
    (e.roadName.toList ++ '|' :: (if e.isBidirectional then ['1'] else ['0']))))

/-- Source `static Edge Edge::deserialize(int edgeId, const string& data)`. -/
def deserialize (dt : DoubleText) (edgeId : Int) (data : List Char) : Except LoadError Edge :=
  let tokens := split '|' data
  match (match tokens[0]? with
    | some t => stoi t
    | none => Except.ok 0) with
  | .error e => .error e
  | .ok sourceId =>
  match (match tokens[1]? with
    | some t => stoi t
    | none => Except.ok 0) with
  | .error e => .error e
  | .ok destinationId =>
  match (match tokens[2]? with
    | some t => dt.stod t
    | none => Except.ok (Double.finite 0)) with
  | .error e => .error e
  | .ok distance =>
    .ok ⟨edgeId, sourceId, destinationId, distance, String.mk (tokens[3]?.getD []),
      match tokens[4]? with
      | some t => t == ['1']
      | none => true⟩

/-- Source `bool Edge::isValid() const`. -/
def isValid (e : Edge) : Bool :=
  decide (e.edgeId > 0) && decide (e.sourceId > 0) && decide (e.destinationId > 0) &&
    Double.lt (.finite 0) e.distance && decide (e.sourceId ≠ e.destinationId)

end Edge

/-- Source `struct Neighbor`. -/
structure Neighbor where
  nodeId : Int
  distance : Double
  deriving DecidableEq

/-- Source `class Graph`: the maps `nodes` and `adjacencyList`. -/
structure Graph where
  nodes : List (Int × Location)
  adjacencyList : List (Int × List Neighbor)
  deriving DecidableEq

namespace Graph

/-- Source `Graph::Graph() {}`, also the state after `Graph::clear()`. -/
def empty : Graph := ⟨[], []⟩

/-- Source `void Graph::clear()`. -/
def clear (_g : Graph) : Graph := ⟨[], []⟩

/-- Source `void Graph::addNode(const Location& location)`. -/
def addNode (g : Graph) (location : Location) : Graph :=
  { nodes := StdMap.insert location.id location g.nodes,
    adjacencyList :=
      if (StdMap.find g.adjacencyList location.id).isNone then
        StdMap.insert location.id [] g.adjacencyList
      else g.adjacencyList }

/-- One half of `Graph::addEdge`: the list of `from` is created when missing, and
`Neighbor(to, distance)` is pushed unless `from` already lists `to`. -/
def addArc (adj : List (Int × List Neighbor)) (src dst : Int) (distance : Double) :
    List (Int × List Neighbor) :=
  let adj1 := if (StdMap.find adj src).isNone then StdMap.insert src [] adj else adj
  let ns := (StdMap.find adj1 src).getD []
  if ns.any (fun n => n.nodeId == dst) then adj1
  else StdMap.insert src (ns ++ [⟨dst, distance⟩]) adj1

/-- Source `void Graph::addEdge(int sourceId, int destId, double distance, bool bidirectional)`. -/
def addEdge (g : Graph) (sourceId destId : Int) (distance : Double) (bidirectional : Bool) :
    Graph :=
  let adj1 := addArc g.adjacencyList sourceId destId distance
  { g with adjacencyList := if bidirectional then addArc adj1 destId sourceId distance else adj1 }

/-- Source `bool Graph::nodeExists(int nodeId) const`. -/
def nodeExists (g : Graph) (nodeId : Int) : Bool := (StdMap.find g.nodes nodeId).isSome

/-- Source `Location Graph::getNode(int nodeId) const`. -/
def getNode (g : Graph) (nodeId : Int) : Location :=
  (StdMap.find g.nodes nodeId).getD Location.empty

/-- Source `vector<Neighbor> Graph::getNeighbors(int nodeId) const`. -/
def getNeighbors (g : Graph) (nodeId : Int) : List Neighbor :=
  (StdMap.find g.adjacencyList nodeId).getD []

/-- Source `vector<Location> Graph::getAllNodes() const`. -/
def getAllNodes (g : Graph) : List Location := g.nodes.map Prod.snd

/-- Source `int getNodeCount() const`. -/
def getNodeCount (g : Graph) : Nat := g.nodes.length

/-- Source `int Graph::getEdgeCount() const`. -/
def getEdgeCount (g : Graph) : Nat := (g.adjacencyList.map (fun e => e.2.length)).sum

/-- Source `bool isEmpty() const`. -/
def isEmpty (g : Graph) : Bool := g.nodes.isEmpty

end Graph

/-! ## `DatabaseManager`

The two snapshot files are part of the state handed to the calls that touch
them.  A call returns `Except.error` when an exception leaves it (`thrown`) or
when a tree operation has no defined result (`undefined`). -/

/-- A snapshot file as `DatabaseManager` sees it: whether `fs::exists` finds it,
whether an `ifstream` on it opens, whether an `ofstream` on it opens, and its text. -/
structure SnapshotFile where
  present : Bool
  readable : Bool
  writable : Bool
  text : List Char
  deriving DecidableEq

/-- The files `locations_btree.dat` and `edges_btree.dat` of the data directory. -/
structure DataFiles where
  locationFile : SnapshotFile
  edgeFile : SnapshotFile
  deriving DecidableEq

namespace BTree

open Snapshot

/-- What an output stream keeps of the text written to it with `<<`: all of it
(`none`), or its first `n` characters (`some n`), when a write fails there (a full
disk, say): the stream is then in a failed state and drops what is written later. -/
def taken (room : Option Nat) (text : List Char) : List Char :=
  match room with
  | none => text
  | some n => text.take n

/-- Source `bool BTree::saveToFile(const string& filename)` on a file whose stream
keeps `taken room` of what is written: `false` and nothing written when the
`ofstream` does not open; else the file is cut to nothing by the opening, the text
is written and `true` is returned, the state of the stream not being looked at
after the writes. -/
def saveToFileOn (t : BTree) (room : Option Nat) (f : SnapshotFile) : Bool × SnapshotFile :=
  if f.writable then (true, { f with present := true, text := taken room t.saveToFile })
  else (false, f)

/-- Source `bool BTree::saveToFile(const string& filename)` on a file whose stream
keeps every write. -/
def saveToFileAt (t : BTree) (f : SnapshotFile) : Bool × SnapshotFile :=
  t.saveToFileOn none f

/-- Source `bool BTree::loadFromFile(const string& filename)` on a file: `false` and
the tree untouched when the `ifstream` does not open, else the tree read from
the text. -/
def loadFromFileAt (t : BTree) (f : SnapshotFile) : Except LoadError (Bool × BTree) :=
  if f.present && f.readable then
    match loadFromFile f.text with
    | .error e => .error e
    | .ok t' => .ok (true, t')
  else .ok (false, t)

end BTree

/-- Source `class DatabaseManager`, once `initialize` has created the two trees
and the graph. -/
structure DatabaseManager where
  locationBTree : BTree
  edgeBTree : BTree
  graph : Graph
  nextLocationId : Int
  nextEdgeId : Int
  dataModified : Bool

/-- The `int` that an `int` expression with the exact value `x` yields: `x` itself
when it lies between `-2^31` and `2^31 - 1`, and otherwise the value of the 32
low bits of `x` in two's complement (`2147483647 + 1` gives `-2147483648`). -/
def wrapInt (x : Int) : Int := (x + 2147483648) % 4294967296 - 2147483648

namespace DatabaseManager

open Snapshot

/-- The state after the constructor and the three `new` of `initialize`: empty
trees, empty graph, both counters at 1, nothing modified. -/
def create : DatabaseManager := ⟨BTree.empty, BTree.empty, Graph.empty, 1, 1, false⟩

/-- Source `bool DatabaseManager::dataFilesExist()`. -/
def dataFilesExist (files : DataFiles) : Bool :=
  files.locationFile.present && files.edgeFile.present

/-- Source `bool DatabaseManager::locationExists(int locationId)`. -/
def locationExists (db : DatabaseManager) (locationId : Int) : Except LoadError Bool :=
  match db.locationBTree.exists locationId with
  | none => .error .undefined
  | some b => .ok b

/-- Source `bool DatabaseManager::edgeExists(int edgeId)`. -/
def edgeExists (db : DatabaseManager) (edgeId : Int) : Except LoadError Bool :=
  match db.edgeBTree.exists edgeId with
  | none => .error .undefined
  | some b => .ok b

/-- Source `Location DatabaseManager::getLocation(int locationId)`. -/
def getLocation (dt : DoubleText) (db : DatabaseManager) (locationId : Int) :
    Except LoadError Location :=
  match db.locationBTree.search locationId with
  | none => .error .undefined
  | some data =>
    if data.isEmpty then .ok Location.empty
    else Location.deserialize dt locationId data.toList

/-- Source `Edge DatabaseManager::getEdge(int edgeId)`. -/
def getEdge (dt : DoubleText) (db : DatabaseManager) (edgeId : Int) : Except LoadError Edge :=
  match db.edgeBTree.search edgeId with
  | none => .error .undefined
  | some data =>
    if data.isEmpty then .ok Edge.empty
    else Edge.deserialize dt edgeId data.toList

/-- Source `vector<Location> DatabaseManager::getAllLocations()`. -/
def getAllLocations (dt : DoubleText) (db : DatabaseManager) : Except LoadError (List Location) :=
  db.locationBTree.traverseAll.mapM (fun p => Location.deserialize dt p.1 p.2.toList)

/-- Source `vector<Edge> DatabaseManager::getAllEdges()`. -/
def getAllEdges (dt : DoubleText) (db : DatabaseManager) : Except LoadError (List Edge) :=
  db.edgeBTree.traverseAll.mapM (fun p => Edge.deserialize dt p.1 p.2.toList)

/-- Source `int DatabaseManager::getLocationCount()`. -/
def getLocationCount (db : DatabaseManager) : Nat := db.locationBTree.getCount

/-- Source `int DatabaseManager::getEdgeCount()`. -/
def getEdgeCount (db : DatabaseManager) : Nat := db.edgeBTree.getCount

/-- Source `void DatabaseManager::buildGraph()`. -/
def buildGraph (dt : DoubleText) (db : DatabaseManager) : Except LoadError DatabaseManager :=
  match db.getAllLocations dt with
  | .error e => .error e
  | .ok locations =>
    match db.getAllEdges dt with
    | .error e => .error e
    | .ok edges =>
      let g0 := locations.foldl (fun g loc => g.addNode loc) db.graph.clear
      let g1 := edges.foldl
        (fun g e => g.addEdge e.sourceId e.destinationId e.distance e.isBidirectional) g0
      .ok { db with graph := g1 }

/-- Source `bool DatabaseManager::loadData()`. -/
def loadData (dt : DoubleText) (db : DatabaseManager) (files : DataFiles) :
    Except LoadError (Bool × DatabaseManager) :=
  match db.locationBTree.loadFromFileAt files.locationFile with
  | .error e => .error e
  | .ok (ok1, locations) =>
    match db.edgeBTree.loadFromFileAt files.edgeFile with
    | .error e => .error e
    | .ok (ok2, edges) =>
      match locations.getMaxKey, edges.getMaxKey with
      | some maxLocation, some maxEdge =>
        match buildGraph dt
            ⟨locations, edges, db.graph, wrapInt (maxLocation + 1), wrapInt (maxEdge + 1),
              db.dataModified⟩ with
        | .error e => .error e
        | .ok db' => .ok (ok1 && ok2, db')
      | _, _ => .error .undefined

/-- Source `bool DatabaseManager::initialize()` (the data directory is there or
can be created). -/
def initializeDatabase (dt : DoubleText) (files : DataFiles) : Except LoadError (Bool × DatabaseManager) :=
  if dataFilesExist files then loadData dt create files
  else .ok (true, create)

/-- Source `bool DatabaseManager::saveData()`, the stream of the locations file
keeping `taken locationRoom` and that of the edges file `taken edgeRoom` of what is
written: the flag returned, the manager and the files afterwards. -/
def saveDataOn (db : DatabaseManager) (locationRoom edgeRoom : Option Nat) (files : DataFiles) :
    Bool × DatabaseManager × DataFiles :=
  let r1 := db.locationBTree.saveToFileOn locationRoom files.locationFile
  let r2 := db.edgeBTree.saveToFileOn edgeRoom files.edgeFile
  let success := r1.1 && r2.1
  (success, (if success then { db with dataModified := false } else db), ⟨r1.2, r2.2⟩)

/-- Source `bool DatabaseManager::saveData()` when both streams keep every write:
the flag returned, the manager and the files afterwards. -/
def saveData (db : DatabaseManager) (files : DataFiles) : Bool × DatabaseManager × DataFiles :=
  db.saveDataOn none none files

/-- Source `int DatabaseManager::addLocation(const string& name, double lat, double lon,
const string& type)`: the value returned and the manager afterwards. -/
def addLocation (dt : DoubleText) (db : DatabaseManager) (name : String) (lat lon : Double)
    (type : String) : Except LoadError (Int × DatabaseManager) :=
  let loc : Location := ⟨db.nextLocationId, name, lat, lon, type⟩
  if !loc.isValid then .ok (-1, db)
  else
    match db.locationBTree.insert loc.id (String.mk (loc.serialize dt)) with
    | none => .error .undefined
    | some t =>
      .ok (db.nextLocationId,
        ⟨t, db.edgeBTree, db.graph.addNode loc, wrapInt (db.nextLocationId + 1), db.nextEdgeId,
          true⟩)

/-- Source `bool DatabaseManager::addLocation(const Location& location)`. -/
def addLocationRecord (dt : DoubleText) (db : DatabaseManager) (location : Location) :
    Except LoadError (Bool × DatabaseManager) :=
  if !location.isValid then .ok (false, db)
  else
    match db.locationBTree.insert location.id (String.mk (location.serialize dt)) with
    | none => .error .undefined
    | some t =>
      .ok (true,
        ⟨t, db.edgeBTree, db.graph.addNode location,
          if location.id ≥ db.nextLocationId then wrapInt (location.id + 1)
          else db.nextLocationId,
          db.nextEdgeId, true⟩)

/-- Source `int DatabaseManager::addEdge(int sourceId, int destId, double distance,
const string& roadName, bool bidirectional)`: the value returned and the manager
afterwards. -/
def addEdge (dt : DoubleText) (db : DatabaseManager) (sourceId destId : Int) (distance : Double)
    (roadName : String) (bidirectional : Bool) : Except LoadError (Int × DatabaseManager) :=
  match db.locationExists sourceId with
  | .error e => .error e
  | .ok false => .ok (-1, db)
  | .ok true =>
    match db.locationExists destId with
    | .error e => .error e
    | .ok false => .ok (-1, db)
    | .ok true =>
      let edge : Edge := ⟨db.nextEdgeId, sourceId, destId, distance, roadName, bidirectional⟩
      if !edge.isValid then .ok (-1, db)
      else
        match db.edgeBTree.insert edge.edgeId (String.mk (edge.serialize dt)) with
        | none => .error .undefined
        | some t =>
          .ok (db.nextEdgeId,
            ⟨db.locationBTree, t, db.graph.addEdge sourceId destId distance bidirectional,
              db.nextLocationId, wrapInt (db.nextEdgeId + 1), true⟩)

/-- Source `bool DatabaseManager::addEdge(const Edge& edge)`. -/
def addEdgeRecord (dt : DoubleText) (db : DatabaseManager) (edge : Edge) :
    Except LoadError (Bool × DatabaseManager) :=
  if !edge.isValid then .ok (false, db)
  else
    match db.edgeBTree.insert edge.edgeId (String.mk (edge.serialize dt)) with
    | none => .error .undefined
    | some t =>
      .ok (true,
        ⟨db.locationBTree, t,
          db.graph.addEdge edge.sourceId edge.destinationId edge.distance edge.isBidirectional,
          db.nextLocationId,
          if edge.edgeId ≥ db.nextEdgeId then wrapInt (edge.edgeId + 1) else db.nextEdgeId,
          true⟩)

/-- Source `void DatabaseManager::clearAll()`. -/
def clearAll (db : DatabaseManager) : DatabaseManager :=
  ⟨BTree.empty, BTree.empty, db.graph.clear, 1, 1, true⟩

/-- The five `addLocation` calls of `initializeSampleData`. -/
def sampleLocations : List (String × Double × Double × String) :=
  [("Central Station", .finite (407128 / 10000), .finite (-740060 / 10000), "station"),
   ("North Park", .finite (407200 / 10000), .finite (-740000 / 10000), "park"),
   ("East Market", .finite (407100 / 10000), .finite (-739950 / 10000), "market"),
   ("West Plaza", .finite (407150 / 10000), .finite (-740150 / 10000), "plaza"),
   ("South Mall", .finite (407050 / 10000), .finite (-740100 / 10000), "mall")]

/-- The seven `addEdge` calls of `initializeSampleData`. -/
def sampleEdges : List (Int × Int × Double × String) :=
  [(1, 2, .finite (12 / 10), "North Street"),
   (1, 3, .finite (15 / 10), "East Avenue"),
   (1, 4, .finite (9 / 10), "West Road"),
   (2, 3, .finite (18 / 10), "Park Lane"),
   (2, 4, .finite (20 / 10), "Cross Street"),
   (3, 5, .finite (13 / 10), "Market Road"),
   (4, 5, .finite (11 / 10), "Plaza Way")]

/-- Source `void DatabaseManager::initializeSampleData()`: the values returned by
`addLocation` and `addEdge` are dropped. -/
def initializeSampleData (dt : DoubleText) (db : DatabaseManager) (files : DataFiles) :
    Except LoadError (DatabaseManager × DataFiles) :=
  match sampleLocations.foldlM
      (fun d (l : String × Double × Double × String) =>
        (addLocation dt d l.1 l.2.1 l.2.2.1 l.2.2.2).map Prod.snd) db.clearAll with
  | .error e => .error e
  | .ok db1 =>
    match sampleEdges.foldlM
        (fun d (e : Int × Int × Double × String) =>
          (addEdge dt d e.1 e.2.1 e.2.2.1 e.2.2.2 true).map Prod.snd) db1 with
    | .error e => .error e
    | .ok db2 => .ok ((db2.saveData files).2.1, (db2.saveData files).2.2)

end DatabaseManager

/-! ## `Navigation::dijkstra` -/

/-- Source `struct PathResult`. -/
structure PathResult where
  found : Bool
  path : List Int
  totalDistance : Double
  errorMessage : String
  deriving DecidableEq

namespace Navigation

open Snapshot

/-- The local variables of `dijkstra`: the maps `distances` and `previous`, the
set `visited` (most recent node first) and the content of the priority queue. -/
structure State where
  distances : List (Int × Double)
  previous : List (Int × Int)
  visited : List Int
  pq : List (Double × Int)
  deriving DecidableEq

/-- The order `operator<` of `pair<double, int>`. -/
def pairLt (a b : Double × Int) : Bool :=
  a.1.lt b.1 || (!(b.1.lt a.1) && decide (a.2 < b.2))

/-- The least pair among `best` and the pairs of a list. -/
def least (best : Double × Int) : List (Double × Int) → Double × Int
  | [] => best
  | x :: r => least (if pairLt x best then x else best) r

/-- The calls `pq.top()` and `pq.pop()` of a queue ordered by `greater<>`: the least
pair, and the queue without it; `none` when the queue is empty. -/
def popMin : List (Double × Int) → Option ((Double × Int) × List (Double × Int))
  | [] => none
  | x :: r => some (least x r, (x :: r).erase (least x r))

/-- Source `vector<int> Navigation::reconstructPath(const map<int, int>& previous,
int start, int end)`: `path` holds the nodes pushed so far, last pushed first, which
is the order after the final `reverse`; `fuel` bounds the rounds of the loop. -/
def reconstructPath (previous : List (Int × Int)) : Nat → Int → List Int → Option (List Int)
  | 0, _, _ => none
  | fuel + 1, current, path =>
    if current = -1 then some path
    else
      match StdMap.find previous current with
      | some p => reconstructPath previous fuel p (current :: path)
      | none => some (current :: path)

/-- The `for` loop over the neighbours of `currentNode`.  Reading
`distances[neighbor.nodeId]` creates the entry with `0.0` when it is missing. -/
def relax (currentNode : Int) (currentDist : Double) : List Neighbor → State → State
  | [], st => st
  | neighbor :: rest, st =>
    if neighbor.nodeId ∈ st.visited then relax currentNode currentDist rest st
    else
      let newDist := currentDist.add neighbor.distance
      let distances :=
        if (StdMap.find st.distances neighbor.nodeId).isNone then
          StdMap.insert neighbor.nodeId (Double.finite 0) st.distances
        else st.distances
      if newDist.lt ((StdMap.find distances neighbor.nodeId).getD (Double.finite 0)) then
        relax currentNode currentDist rest
          ⟨StdMap.insert neighbor.nodeId newDist distances,
            StdMap.insert neighbor.nodeId currentNode st.previous,
            st.visited, st.pq ++ [(newDist, neighbor.nodeId)]⟩
      else relax currentNode currentDist rest ⟨distances, st.previous, st.visited, st.pq⟩

/-- The `while (!pq.empty())` loop of `dijkstra` and what follows it, for at most
`fuel` rounds (`none`: more rounds are needed). -/
def loop (g : Graph) (sourceId destinationId : Int) : Nat → State → Option PathResult
  | 0, _ => none
  | fuel + 1, st =>
    match popMin st.pq with
    | none =>
      some ⟨false, [], .finite 0,
        String.mk ("No path found from ".toList ++ (g.getNode sourceId).name.toList ++
          " to ".toList ++ (g.getNode destinationId).name.toList ++ ".".toList)⟩
    | some ((currentDist, currentNode), pq) =>
      if currentNode ∈ st.visited then
        loop g sourceId destinationId fuel ⟨st.distances, st.previous, st.visited, pq⟩
      else if currentNode = destinationId then
        match reconstructPath st.previous (st.previous.length + 1) destinationId [] with
        | none => none
        | some path =>
          some ⟨true, path, (StdMap.find st.distances destinationId).getD (Double.finite 0), ""⟩
      else
        loop g sourceId destinationId fuel
          (relax currentNode currentDist (g.getNeighbors currentNode)
            ⟨st.distances, st.previous, currentNode :: st.visited, pq⟩)

/-- The state before the loop: every node at distance infinity with predecessor
`-1`, the source at distance 0 and alone in the queue. -/
def start (g : Graph) (sourceId : Int) : State :=
  ⟨StdMap.insert sourceId (Double.finite 0)
      (g.getAllNodes.foldl (fun m loc => StdMap.insert loc.id Double.posInf m) []),
    g.getAllNodes.foldl (fun m loc => StdMap.insert loc.id (-1) m) [],
    [], [(Double.finite 0, sourceId)]⟩

/-- Source `PathResult Navigation::dijkstra(int sourceId, int destinationId)` on a
graph.  The loop is given `getEdgeCount() + 2` rounds: it pops once per push, and
pushes once at the start and at most once per adjacency entry. -/
def dijkstra (g : Graph) (sourceId destinationId : Int) : Option PathResult :=
  if g.isEmpty then
    some ⟨false, [], .finite 0, "Graph is empty. Add locations first."⟩
  else if !g.nodeExists sourceId then
    some ⟨false, [], .finite 0,
      String.mk ("Source location ID ".toList ++ showInt sourceId ++ " does not exist.".toList)⟩
  else if !g.nodeExists destinationId then
    some ⟨false, [], .finite 0,
      String.mk ("Destination location ID ".toList ++ showInt destinationId ++
        " does not exist.".toList)⟩
  else if sourceId = destinationId then
    some ⟨true, [sourceId], .finite 0, ""⟩
  else loop g sourceId destinationId (g.getEdgeCount + 2) (start g sourceId)

end Navigation

/-! ## The server: `processRequest`, `workerThread`, `handleClient`

Sequential model: the database, the two files and the flag `g_serverRunning` are
one state; a thread is followed on its own, the others standing still. -/

namespace Response

/-- Source `static Response success(int cId, int rId, const string& msg, const string& data)`. -/
def success (cId rId : Int) (msg data : String) : Response :=
  ⟨cId, rId, ResponseStatus.SUCCESS, msg, data⟩

/-- Source `static Response error(int cId, int rId, const string& msg)`. -/
def error (cId rId : Int) (msg : String) : Response :=
  ⟨cId, rId, ResponseStatus.FAILURE, msg, ""⟩

end Response

namespace Request

/-- Source `double getParamDouble(const string& key, double defaultValue) const`: an
exception of `std::stod` is caught and gives the default. -/
def getParamDouble (dt : DoubleText) (r : Request) (key : List Char) (defaultValue : Double) :
    Double :=
  if (r.getParam key).isEmpty then defaultValue
  else
    match dt.stod (r.getParam key) with
    | .ok v => v
    | .error _ => defaultValue

end Request

/-- Source `const size_t QUEUE_CAPACITY = 100;` -/
def QUEUE_CAPACITY : Nat := 100

/-- The default `Request`, `Request() : clientId(0), requestId(0), type(RequestType::UNKNOWN)`. -/
instance Request.instInhabited : Inhabited Request := ⟨⟨0, 0, RequestType.UNKNOWN, []⟩⟩

/-- The globals `g_database` (with the two files behind it) and `g_serverRunning`. -/
structure ServerState where
  database : DatabaseManager
  files : DataFiles
  serverRunning : Bool

namespace Server

open Snapshot

/-- The `FIND_PATH` data text: `path=name(id)->name(id)...;distance=d`. -/
def pathText (dt : DoubleText) (db : DatabaseManager) (result : PathResult) :
    Except LoadError (List Char) :=
  match result.path.mapM (fun id =>
      match db.getLocation dt id with
      | .error e => Except.error e
      | .ok loc => Except.ok (loc.name.toList ++ '(' :: (showInt id ++ [')']))) with
  | .error e => .error e
  | .ok parts =>
    .ok ("path=".toList ++ List.intercalate "->".toList parts ++ ";distance=".toList ++
      dt.printFixed2 result.totalDistance)

/-- Source `Response processRequest(const Request& req)`: the response and the
state afterwards. -/
def processRequest (dt : DoubleText) (st : ServerState) (req : Request) :
    Except LoadError (Response × ServerState) :=
  if req.type = RequestType.ADD_LOCATION then
    let name := req.getParam "name".toList
    let lat := req.getParamDouble dt "latitude".toList (.finite 0)
    let lon := req.getParamDouble dt "longitude".toList (.finite 0)
    let type := req.getParam "type".toList
    if name.isEmpty then
      .ok (Response.error req.clientId req.requestId "Missing location name", st)
    else
      match st.database.addLocation dt (String.mk name) lat lon (String.mk type) with
      | .error e => .error e
      | .ok (id, db) =>
        if id > 0 then
          .ok (Response.success req.clientId req.requestId "Location added successfully"
            (String.mk ("id=".toList ++ showInt id)), { st with database := db })
        else
          .ok (Response.error req.clientId req.requestId "Failed to add location",
            { st with database := db })
  else if req.type = RequestType.ADD_ROAD then
    let sourceId := req.getParamInt "sourceId".toList 0
    let destId := req.getParamInt "destId".toList 0
    let distance := req.getParamDouble dt "distance".toList (.finite 0)
    let roadName := req.getParam "roadName".toList
    let bidir := req.getParamBool "bidirectional".toList true
    if sourceId ≤ 0 ∨ destId ≤ 0 then
      .ok (Response.error req.clientId req.requestId "Invalid source or destination ID", st)
    else
      match st.database.addEdge dt sourceId destId distance (String.mk roadName) bidir with
      | .error e => .error e
      | .ok (id, db) =>
        if id > 0 then
          .ok (Response.success req.clientId req.requestId "Road added successfully"
            (String.mk ("id=".toList ++ showInt id)), { st with database := db })
        else
          .ok (Response.error req.clientId req.requestId "Failed to add road",
            { st with database := db })
  else if req.type = RequestType.FIND_PATH then
    let sourceId := req.getParamInt "sourceId".toList 0
    let destId := req.getParamInt "destId".toList 0
    if sourceId ≤ 0 ∨ destId ≤ 0 then
      .ok (Response.error req.clientId req.requestId "Invalid source or destination ID", st)
    else
      match Navigation.dijkstra st.database.graph sourceId destId with
      | none => .error .undefined
      | some result =>
        if result.found then
          match pathText dt st.database result with
          | .error e => .error e
          | .ok text =>
            .ok (Response.success req.clientId req.requestId "Path found" (String.mk text), st)
        else .ok (Response.error req.clientId req.requestId result.errorMessage, st)
  else if req.type = RequestType.GET_LOCATIONS then
    match st.database.getAllLocations dt with
    | .error e => .error e
    | .ok locations =>
      .ok (Response.success req.clientId req.requestId
        (String.mk ("Retrieved ".toList ++ showNat locations.length ++ " locations".toList))
        (String.mk ("count=".toList ++ showNat locations.length ++ ";locations=".toList ++
          List.intercalate ",".toList
            (locations.map (fun l => showInt l.id ++ ':' :: l.name.toList)))), st)
  else if req.type = RequestType.GET_ROADS then
    match st.database.getAllEdges dt with
    | .error e => .error e
    | .ok edges =>
      .ok (Response.success req.clientId req.requestId
        (String.mk ("Retrieved ".toList ++ showNat edges.length ++ " roads".toList))
        (String.mk ("count=".toList ++ showNat edges.length ++ ";roads=".toList ++
          List.intercalate ",".toList
            (edges.map (fun e => showInt e.edgeId ++ ':' :: (showInt e.sourceId ++ "->".toList ++
              showInt e.destinationId ++ '(' :: (dt.print e.distance ++ "km)".toList)))))), st)
  else if req.type = RequestType.GET_LOCATION then
    let id := req.getParamInt "id".toList 0
    match st.database.getLocation dt id with
    | .error e => .error e
    | .ok loc =>
      if loc.id > 0 then
        .ok (Response.success req.clientId req.requestId "Location found"
          (String.mk (loc.toString dt)), st)
      else .ok (Response.error req.clientId req.requestId "Location not found", st)
  else if req.type = RequestType.INIT_SAMPLE then
    match st.database.initializeSampleData dt st.files with
    | .error e => .error e
    | .ok (db, files) =>
      .ok (Response.success req.clientId req.requestId "Sample data initialized"
        "locations=5;roads=7", ⟨db, files, st.serverRunning⟩)
  else if req.type = RequestType.SAVE_DATA then
    if (st.database.saveData st.files).1 then
      .ok (Response.success req.clientId req.requestId "Data saved successfully" "",
        ⟨(st.database.saveData st.files).2.1, (st.database.saveData st.files).2.2,
          st.serverRunning⟩)
    else
      .ok (Response.error req.clientId req.requestId "Failed to save data",
        ⟨(st.database.saveData st.files).2.1, (st.database.saveData st.files).2.2,
          st.serverRunning⟩)
  else if req.type = RequestType.SHUTDOWN then
    .ok (Response.success req.clientId req.requestId "Server shutting down" "",
      { st with serverRunning := false })
  else .ok (Response.error req.clientId req.requestId "Unknown request type", st)

/-- How the run of a worker ends: it left its loop (`exited`), it waits inside
`dequeue` (`waiting`), it is still in its loop after the rounds followed
(`looping`), or an exception or an undefined operation stopped it (`fault`). -/
inductive WorkerEnd where
  | exited
  | waiting
  | looping
  | fault (e : LoadError)

/-- A run of `workerThread`: the responses sent, each with its socket, and the
state, the queue and the way the run ended. -/
structure WorkerRun where
  sent : List (Int × Response)
  state : ServerState
  queue : CircularQueue (Request × Int) QUEUE_CAPACITY
  outcome : WorkerEnd

/-- The body of the loop of `workerThread`, from the call of `dequeue` on, followed
by `next`, the rest of the run. -/
def workerBody (dt : DoubleText)
    (next : ServerState → CircularQueue (Request × Int) QUEUE_CAPACITY → WorkerRun)
    (st : ServerState) (q : CircularQueue (Request × Int) QUEUE_CAPACITY) : WorkerRun :=
  match q.dequeue with
  | .error .blocks => ⟨[], st, q, .waiting⟩
  | .error .outOfBounds => ⟨[], st, q, .fault .undefined⟩
  | .ok (none, q') => next st q'
  | .ok (some item, q') =>
    match processRequest dt st item.1 with
    | .error e => ⟨[], st, q', .fault e⟩
    | .ok (response, st') =>
      ⟨(item.2, response) :: (next st' q').sent, (next st' q').state, (next st' q').queue,
        (next st' q').outcome⟩

/-- Source `void workerThread(int workerId)`: the loop `while (g_serverRunning)`,
followed for at most `fuel` tests of its condition. -/
def workerThread (dt : DoubleText) :
    Nat → ServerState → CircularQueue (Request × Int) QUEUE_CAPACITY → WorkerRun
  | 0, st, q => ⟨[], st, q, .looping⟩
  | fuel + 1, st, q =>
    if st.serverRunning then workerBody dt (fun st' q' => workerThread dt fuel st' q') st q
    else ⟨[], st, q, .exited⟩

/-- The body of the inner loop of `handleClient` for one complete line: the
request counter and the queue afterwards, and the responses sent on the socket.
`Request::deserialize` is called outside any `try`: when it throws, the exception
leaves `handleClient`. -/
def handleMessage (clientId requestCounter clientSocket : Int)
    (q : CircularQueue (Request × Int) QUEUE_CAPACITY) (message : List Char) :
    Except LoadError (Int × CircularQueue (Request × Int) QUEUE_CAPACITY × List Response) :=
  if message.isEmpty then .ok (requestCounter, q, [])
  else
    match Request.deserialize message with
    | .error e => .error e
    | .ok req =>
      match q.tryEnqueue (⟨clientId, requestCounter, req.type, req.params⟩, clientSocket) with
      | .error _ => .error .undefined
      | .ok (true, q') => .ok (requestCounter + 1, q', [])
      | .ok (false, q') =>
        .ok (requestCounter + 1, q',
          [⟨clientId, requestCounter, ResponseStatus.FAILURE,
            "Server busy, request queue full", ""⟩])

/-- The start of `main`: `initialize()` decides whether the server goes on
(`some`, the database) or returns 1 (`none`). -/
def startDatabase (dt : DoubleText) (files : DataFiles) :
    Except LoadError (Option DatabaseManager) :=
  match DatabaseManager.initializeDatabase dt files with
  | .error e => .error e
  | .ok (true, db) => .ok (some db)
  | .ok (false, _) => .ok none

end Server

/-! ## The text side of `double` in the "C" locale

`operator<<` with the default format (six significant digits, as `%g`), with
`fixed << setprecision(2)` (as `%.2f`), and `std::stod`. -/

namespace Double

open Snapshot

/-- The decimal exponent of a positive rational: `10^expo10 x <= x < 10^(expo10 x + 1)`. -/
def expo10 (x : ℚ) : ℤ :=
  if (10 : ℚ) ^ (((showNat x.num.toNat).length : ℤ) - ((showNat x.den).length : ℤ)) ≤ x then
    ((showNat x.num.toNat).length : ℤ) - ((showNat x.den).length : ℤ)
  else ((showNat x.num.toNat).length : ℤ) - ((showNat x.den).length : ℤ) - 1

/-- A digit string without its trailing zeros. -/
def stripZeros (ds : List Char) : List Char :=
  (ds.reverse.dropWhile (fun c => c = '0')).reverse

/-- The digits after the point, with the point, or nothing when they are all zero. -/
def fraction (ds : List Char) : List Char :=
  if (stripZeros ds).isEmpty then [] else '.' :: stripZeros ds

/-- The six significant digits of a positive rational and its decimal exponent
after rounding to these digits (ties to even). -/
def sixDigits (x : ℚ) : List Char × ℤ :=
  if rhe (x / (10 : ℚ) ^ (expo10 x - 5)) = 1000000 then (showNat 100000, expo10 x + 1)
  else (showNat (rhe (x / (10 : ℚ) ^ (expo10 x - 5))).toNat, expo10 x)

/-- The text of a positive rational in the format `%g`. -/
def showGPos (x : ℚ) : List Char :=
  let ds := (sixDigits x).1
  let e := (sixDigits x).2
  if -4 ≤ e ∧ e < 6 then
    if 0 ≤ e then ds.take (e.toNat + 1) ++ fraction (ds.drop (e.toNat + 1))
    else '0' :: '.' :: (List.replicate ((-e).toNat - 1) '0' ++ stripZeros ds)
  else
    ds.take 1 ++ fraction (ds.drop 1) ++
      ('e' :: (if e < 0 then '-' else '+') ::
        (if e.natAbs < 10 then '0' :: showNat e.natAbs else showNat e.natAbs))

/-- Output of `oss << x` for a `double` (default format, precision 6). -/
def showG : Double → List Char
  | finite q =>
    if q = 0 then ['0'] else if q < 0 then '-' :: showGPos (-q) else showGPos q
  | posInf => "inf".toList
  | negInf => "-inf".toList
  | nan => "nan".toList

/-- Output of `oss << fixed << setprecision(2) << x` for a `double`. -/
def showFixed2 : Double → List Char
  | finite q =>
    (if q < 0 then ['-'] else []) ++ showNat ((rhe (|q| * 100)).toNat / 100) ++
      ('.' :: Char.ofNat (48 + (rhe (|q| * 100)).toNat % 100 / 10) ::
        [Char.ofNat (48 + (rhe (|q| * 100)).toNat % 10)])
  | posInf => "inf".toList
  | negInf => "-inf".toList
  | nan => "nan".toList

/-- The value of a hexadecimal digit. -/
def hexValue (c : Char) : Nat :=
  if c.isDigit then c.toNat - 48
  else if 'a'.toNat ≤ c.toNat ∧ c.toNat ≤ 'f'.toNat then c.toNat - 87
  else c.toNat - 55

/-- The test `isxdigit`. -/
def isHexDigit (c : Char) : Bool :=
  c.isDigit || ('a'.toNat ≤ c.toNat && c.toNat ≤ 'f'.toNat) ||
    ('A'.toNat ≤ c.toNat && c.toNat ≤ 'F'.toNat)

/-- Value of a string of hexadecimal digits. -/
def hexDigitsValue : List Char → Nat → Nat
  | [], acc => acc
  | c :: cs, acc => hexDigitsValue cs (acc * 16 + hexValue c)

/-- The exponent part that follows a mantissa: the letter `mark` (either case), an
optional sign and at least one digit; `0` when the text does not go on like that. -/
def exponentPart (mark : Char) (s : List Char) : ℤ :=
  match s with
  | c :: r =>
    if c.toLower = mark then
      match r with
      | '-' :: r' =>
        if (r'.takeWhile Char.isDigit).isEmpty then 0
        else -(digitsValue (r'.takeWhile Char.isDigit) 0 : ℤ)
      | '+' :: r' => (digitsValue (r'.takeWhile Char.isDigit) 0 : ℤ)
      | _ => (digitsValue (r.takeWhile Char.isDigit) 0 : ℤ)
    else 0
  | [] => 0

/-- The rational a text denotes for `strtod` once white space and sign are gone:
a hexadecimal or a decimal number; `none` when no conversion can be made. -/
def magnitude (s : List Char) : Option ℚ :=
  let hex := s.drop 2
  let hi := hex.takeWhile isHexDigit
  let hf := match hex.drop hi.length with
    | '.' :: r => r.takeWhile isHexDigit
    | _ => []
  let hrest := match hex.drop hi.length with
    | '.' :: r => r.drop hf.length
    | r => r
  let di := s.takeWhile Char.isDigit
  let df := match s.drop di.length with
    | '.' :: r => r.takeWhile Char.isDigit
    | _ => []
  let drest := match s.drop di.length with
    | '.' :: r => r.drop df.length
    | r => r
  if (s.take 2).map Char.toLower = ['0', 'x'] ∧ ¬ (hi ++ hf).isEmpty then
    some ((hexDigitsValue (hi ++ hf) 0 : ℚ) / (16 : ℚ) ^ hf.length *
      (2 : ℚ) ^ exponentPart 'p' hrest)
  else if (di ++ df).isEmpty then none
  else
    some ((digitsValue (di ++ df) 0 : ℚ) / (10 : ℚ) ^ df.length *
      (10 : ℚ) ^ exponentPart 'e' drest)

/-- The call `std::stod(s)`: white space is skipped, then a sign, then `inf`,
`infinity`, `nan` or a number is read as far as it goes; the value is the
nearest `double`.  It throws when nothing can be read (`invalid_argument`) and
when the value is beyond the largest finite `double` or, not being zero, below
the smallest normal one (`out_of_range`). -/
def parse (s : List Char) : Except LoadError Double :=
  let s1 := s.dropWhile isSpace
  let negative := s1.head? = some '-'
  let s2 := match s1 with
    | '-' :: r => r
    | '+' :: r => r
    | _ => s1
  if (s2.take 3).map Char.toLower = "inf".toList then
    .ok (if negative then negInf else posInf)
  else if (s2.take 3).map Char.toLower = "nan".toList then .ok nan
  else
    match magnitude s2 with
    | none => .error .thrown
    | some q =>
      if q = 0 then .ok (finite 0)
      else if q < (1 : ℚ) / (2 : ℚ) ^ (1022 : ℕ) then .error .thrown
      else
        match roundPos q with
        | finite r => .ok (finite (if negative then -r else r))
        | _ => .error .thrown

end Double

/-! ## Sample values

Concrete values at which the definitions above are evaluated. -/

/-- The text side of `double` as the standard library provides it in the "C"
locale. -/
def DoubleText.plain : DoubleText := ⟨Double.showG, Double.showFixed2, Double.parse⟩

/-- Two files that exist and can be opened, both empty. -/
def DataFiles.blank : DataFiles := ⟨⟨true, true, true, []⟩, ⟨true, true, true, []⟩⟩

namespace Server

/-- A closed queue that still holds one request, put there by `enqueue` before
`close`. -/
def closedQueueOne : CircularQueue (Request × Int) QUEUE_CAPACITY :=
  match CircularQueue.create.enqueue (⟨1, 1, RequestType.GET_LOCATIONS, []⟩, 5) with
  | .ok (_, q) => q.close
  | .error _ => CircularQueue.create.close

/-- An open queue holding a `SHUTDOWN` request followed by one more request. -/
def shutdownQueue : CircularQueue (Request × Int) QUEUE_CAPACITY :=
  match CircularQueue.create.enqueue (⟨1, 1, RequestType.SHUTDOWN, []⟩, 5) with
  | .ok (_, q) =>
    match q.enqueue (⟨2, 1, RequestType.GET_LOCATIONS, []⟩, 6) with
    | .ok (_, q') => q'
    | .error _ => q
  | .error _ => CircularQueue.create

end Server

/-! ## Routes in a graph and the working invariant of `dijkstra` -/

namespace Graph

/-- Every node is stored under its own id (`nodes[location.id] = location` is the
only statement that writes to `nodes`). -/
def keyedById (g : Graph) : Bool := g.nodes.all (fun e => decide (e.2.id = e.1))

/-- Every adjacency entry has a finite distance above zero and points to a node. -/
def positiveArcs (g : Graph) : Bool :=
  g.adjacencyList.all (fun e => e.2.all (fun n =>
    (match n.distance with
      | .finite d => decide (0 < d)
      | _ => false) && g.nodeExists n.nodeId))

/-- The node list `path` follows adjacency entries whose distances are, in order,
the values `ds`: each node lists its successor with that distance. -/
def follows (g : Graph) : List Int → List ℚ → Bool
  | [_], [] => true
  | u :: v :: rest, d :: ds =>
    decide ((⟨v, .finite d⟩ : Neighbor) ∈ g.getNeighbors u) && follows g (v :: rest) ds
  | _, _ => false

/-- A graph with a node whose id is -1: node 1 lists node -1 at distance 1. -/
def withMinusOne : Graph :=
  ⟨[(-1, ⟨-1, "b", .finite 0, .finite 0, "park"⟩), (1, ⟨1, "a", .finite 0, .finite 0, "park"⟩)],
    [(-1, []), (1, [⟨-1, .finite 1⟩])]⟩

/-- A graph with two entries of distance `2^1023`, the sum of which is beyond the
largest finite `double`: node 1 lists node 2 and node 2 lists node 3. -/
def withHugeArcs : Graph :=
  ⟨[(1, ⟨1, "a", .finite 0, .finite 0, "park"⟩), (2, ⟨2, "b", .finite 0, .finite 0, "park"⟩),
      (3, ⟨3, "c", .finite 0, .finite 0, "park"⟩)],
    [(1, [⟨2, .finite (2 ^ 1023)⟩]), (2, [⟨3, .finite (2 ^ 1023)⟩]), (3, [])]⟩

/-- A graph whose two distances are the `double` values of the literals `0.1` and
`0.7`: node 1 lists node 2 and node 2 lists node 3. -/
def withTenths : Graph :=
  ⟨[(1, ⟨1, "a", .finite 0, .finite 0, "park"⟩), (2, ⟨2, "b", .finite 0, .finite 0, "park"⟩),
      (3, ⟨3, "c", .finite 0, .finite 0, "park"⟩)],
    [(1, [⟨2, .finite (3602879701896397 / 36028797018963968)⟩]),
      (2, [⟨3, .finite (3152519739159347 / 4503599627370496)⟩]), (3, [])]⟩

end Graph

namespace Navigation

/-- Every adjacency entry has a positive finite distance and points to a node. -/
def Positive (g : Graph) : Prop :=
  ∀ e ∈ g.adjacencyList, ∀ n ∈ e.2,
    (∃ d : ℚ, 0 < d ∧ n.distance = Double.finite d) ∧ g.nodeExists n.nodeId = true

/-- The total of the distances `ds` as `dijkstra` adds them up: starting from `0.0`,
one after the other in the order of the list, each sum being a `double`. -/
def total (ds : List ℚ) : Double :=
  ds.foldl (fun c d => c.add (Double.finite d)) (Double.finite 0)

/-- A walk along adjacency entries from the source `s` to a node, with the total of
the distances of its entries, added up from the source on. -/
inductive Walk (g : Graph) (s : Int) : Int → Double → Prop
  | refl : Walk g s s (Double.finite 0)
  | snoc {u v : Int} {c : Double} {d : ℚ} :
    Walk g s u c → (⟨v, .finite d⟩ : Neighbor) ∈ g.getNeighbors u →
    Walk g s v (c.add (Double.finite d))

/-- The nodes `p` reached from the source by following `previous` backwards from a
node, with the distances `ds` of the adjacency entries used. -/
inductive Chain (g : Graph) (previous : List (Int × Int)) (s : Int) :
    Int → List Int → List ℚ → Prop
  | base : StdMap.find previous s = some (-1) → Chain g previous s s [s] []
  | step {u v : Int} {p : List Int} {ds : List ℚ} {d : ℚ} :
    Chain g previous s u p ds → StdMap.find previous v = some u →
    (⟨v, .finite d⟩ : Neighbor) ∈ g.getNeighbors u →
    Chain g previous s v (p ++ [v]) (ds ++ [d])

/-- The measure that bounds the rounds of the loop: the size of the queue plus the
number of adjacency entries of the nodes not yet visited. -/
def potential (g : Graph) (st : State) : Nat :=
  st.pq.length +
    ((g.adjacencyList.filter (fun e => decide (e.1 ∉ st.visited))).map (fun e => e.2.length)).sum

/-- The working invariant of the loop of `dijkstra` from source `s` to destination
`t`; `pending u n` marks the adjacency entries of the current node that the `for`
loop has still to look at. -/
structure Inv (g : Graph) (s t : Int) (st : State) (pending : Int → Neighbor → Prop) :
    Prop where
  dom : ∀ v, g.nodeExists v = true → ∃ x, StdMap.find st.distances v = some x
  val : ∀ v x, StdMap.find st.distances v = some x → x.isDist
  chain : ∀ v (q : ℚ), StdMap.find st.distances v = some (Double.finite q) →
    ∃ p ds, Chain g st.previous s v p ds ∧ total ds = Double.finite q ∧ p.Nodup ∧
      (∀ x ∈ p, x = v ∨ x ∈ st.visited) ∧ (∀ x ∈ p, g.nodeExists x = true)
  opt : ∀ v ∈ st.visited, ∃ q : ℚ, StdMap.find st.distances v = some (Double.finite q) ∧
    ∀ c, Walk g s v c → (Double.finite q).le c = true
  arcs : ∀ u ∈ st.visited, ∀ n ∈ g.getNeighbors u, n.nodeId ∉ st.visited →
    pending u n ∨ ∃ (qu d : ℚ) (x : Double),
      StdMap.find st.distances u = some (Double.finite qu) ∧
      n.distance = Double.finite d ∧
      StdMap.find st.distances n.nodeId = some x ∧
      x.le ((Double.finite qu).add (Double.finite d)) = true
  queued : ∀ v (q : ℚ), v ∉ st.visited →
    StdMap.find st.distances v = some (Double.finite q) → (Double.finite q, v) ∈ st.pq
  pqv : ∀ e ∈ st.pq, ∃ q q' : ℚ, e.1 = Double.finite q ∧
    StdMap.find st.distances e.2 = some (Double.finite q') ∧ q' ≤ q
  src : s ∈ st.visited ∨ (st.visited = [] ∧ st.pq = [(Double.finite 0, s)])
  dest : t ∉ st.visited

end Navigation

namespace Graph

/-- The five locations of `initializeSampleData` with the ids that `addLocation`
gives them. -/
def sampleNodes : List Location :=
  [⟨1, "Central Station", .finite (407128 / 10000), .finite (-740060 / 10000), "station"⟩,
   ⟨2, "North Park", .finite (407200 / 10000), .finite (-740000 / 10000), "park"⟩,
   ⟨3, "East Market", .finite (407100 / 10000), .finite (-739950 / 10000), "market"⟩,
   ⟨4, "West Plaza", .finite (407150 / 10000), .finite (-740150 / 10000), "plaza"⟩,
   ⟨5, "South Mall", .finite (407050 / 10000), .finite (-740100 / 10000), "mall"⟩]

/-- The graph after the five `addNode` and seven `addEdge` calls that
`initializeSampleData` makes through `addLocation` and `addEdge`. -/
def sample : Graph :=
  DatabaseManager.sampleEdges.foldl (fun g e => g.addEdge e.1 e.2.1 e.2.2.1 true)
    (sampleNodes.foldl Graph.addNode Graph.empty)

end Graph

/-! ## The rounds of `dijkstra`, counted -/

namespace Navigation

/-- The loop of `dijkstra` as in `loop`, returning with the result the local
variables at the `return` and the number of `pq.push` calls so far.  `relax` only
appends to the queue, one pair per `pq.push`, so the growth of the queue during
`relax` is the number of its pushes. -/
def loopTrace (g : Graph) (sourceId destinationId : Int) :
    Nat → State → Nat → Option (PathResult × State × Nat)
  | 0, _, _ => none
  | fuel + 1, st, pushes =>
    match popMin st.pq with
    | none =>
      some (⟨false, [], .finite 0,
        String.mk ("No path found from ".toList ++ (g.getNode sourceId).name.toList ++
          " to ".toList ++ (g.getNode destinationId).name.toList ++ ".".toList)⟩, st, pushes)
    | some ((currentDist, currentNode), pq) =>
      if currentNode ∈ st.visited then
        loopTrace g sourceId destinationId fuel ⟨st.distances, st.previous, st.visited, pq⟩
          pushes
      else if currentNode = destinationId then
        match reconstructPath st.previous (st.previous.length + 1) destinationId [] with
        | none => none
        | some path =>
          some (⟨true, path, (StdMap.find st.distances destinationId).getD (Double.finite 0),
            ""⟩, ⟨st.distances, st.previous, st.visited, pq⟩, pushes)
      else
        loopTrace g sourceId destinationId fuel
          (relax currentNode currentDist (g.getNeighbors currentNode)
            ⟨st.distances, st.previous, currentNode :: st.visited, pq⟩)
          (pushes +
            ((relax currentNode currentDist (g.getNeighbors currentNode)
              ⟨st.distances, st.previous, currentNode :: st.visited, pq⟩).pq.length - pq.length))

/-- What holds of `visited` (most recent first) and `previous` at every round,
whatever the distances are: no node is in `visited` twice, and a predecessor other
than -1 is a visited node, visited before the node it is the predecessor of. -/
structure Settled (st : State) : Prop where
  nodup : st.visited.Nodup
  back : ∀ v u, StdMap.find st.previous v = some u → u ≠ -1 → u ∈ st.visited
  order : ∀ l1 x l2, st.visited = l1 ++ x :: l2 →
    ∀ u, StdMap.find st.previous x = some u → u ≠ -1 → u ∈ l2

end Navigation

/-! ## The id counters of `DatabaseManager` -/

namespace DatabaseManager

/-- Every key of the location store is below `nextLocationId` and every key of
the edge store is below `nextEdgeId`. -/
def idsAbove (db : DatabaseManager) : Bool :=
  db.locationBTree.traverseAll.all (fun e => decide (e.1 < db.nextLocationId)) &&
    db.edgeBTree.traverseAll.all (fun e => decide (e.1 < db.nextEdgeId))

/-- Both stores satisfy the node invariants and hold no empty value. -/
def storesValid (db : DatabaseManager) : Bool :=
  db.locationBTree.nodeInvariants && db.edgeBTree.nodeInvariants &&
    db.locationBTree.traverseAll.all (fun e => !e.2.isEmpty) &&
    db.edgeBTree.traverseAll.all (fun e => !e.2.isEmpty)

/-- The stores as the id-assigning calls need them: both satisfy the node
invariants and hold no empty value, both counters are at most 2147483647 (they
are `int` values), and in each store every key is below the counter unless the
counter is not positive, in which case no id is given out. -/
def storesUsable (db : DatabaseManager) : Bool :=
  db.storesValid && decide (db.nextLocationId ≤ 2147483647) &&
    decide (db.nextEdgeId ≤ 2147483647) &&
    (decide (db.nextLocationId ≤ 0) ||
      db.locationBTree.traverseAll.all (fun e => decide (e.1 < db.nextLocationId))) &&
    (decide (db.nextEdgeId ≤ 0) ||
      db.edgeBTree.traverseAll.all (fun e => decide (e.1 < db.nextEdgeId)))

end DatabaseManager

/-- A data directory whose locations file holds one leaf that lists key 2 before
key 1, next to the edges file of an empty store. -/
def DataFiles.unsortedLocations : DataFiles :=
  ⟨⟨true, true, true,
      ("ORDER=3\nROOT_INDEX=0\nNODE_COUNT=1\n\n" ++
        "NODE_0|LEAF=true|KEYS=[2,1]|VALUES=[a~b]\n").toList⟩,
    ⟨true, true, true, BTree.empty.saveToFile⟩⟩

/-- A data directory whose locations file holds one leaf with the record
`a|0|0|t` under the key `k`, next to the edges file of an empty store. -/
def DataFiles.oneLocation (k : Int) : DataFiles :=
  ⟨⟨true, true, true,
      "ORDER=3\nROOT_INDEX=0\nNODE_COUNT=1\n\n".toList ++
        ("NODE_0|LEAF=true|KEYS=[".toList ++ Snapshot.showInt k ++
          "]|VALUES=[a\\|0\\|0\\|t]\n".toList)⟩,
    ⟨true, true, true, BTree.empty.saveToFile⟩⟩

/-! ## A snapshot line read back -/

namespace Snapshot

/-- What `loadFromFile` read from a node line agrees with the record the line was
written from: the id, the leaf flag, the live pairs and the ids of the children. -/
def ParsedNode.agrees (p : ParsedNode) (rec : NodeRecord) : Prop :=
  p.nodeId = rec.id ∧ p.isLeaf = rec.node.isLeaf ∧ loadedEntries p = rec.node.entries ∧
    p.childIdx = rec.listedIds

end Snapshot

/-- A two-level tree whose values hold the characters the snapshot escapes, and
one empty value. -/
def BTree.sampleBrackets : BTree :=
  ⟨some (.mk false [(5, "a|b")]
    [some (.mk true [(1, "x]"), (2, "")] []), some (.mk true [(7, "[y"), (9, "\\]")] [])])⟩

/-! ## Producers and workers interleaved

The client threads and the worker threads share the request queue, whose calls
run under its mutex, and the database, which `processRequest` locks from its first
statement to its last.  A run of the server is the sequence of these steps in the
order in which they take effect: a client thread handing in one line, a worker
getting an item from `dequeue`, a worker processing the item it holds, `main`
closing the queue once its accept loop has ended.  `sendResponse` touches nothing
but the socket and is placed right after the step that made the response.  The
welcome message a client gets on connecting answers no request and is left out. -/

namespace Server

open Snapshot

/-- One step of a thread. -/
inductive PoolEvent where
  | submit (clientId requestCounter clientSocket : Int) (message : List Char)
  | take (worker : Nat)
  | process (worker : Nat)
  | close
  deriving DecidableEq

/-- Why a step is not made: an exception or an undefined operation stops the
thread (`fault`), `dequeue` waits on an empty open queue (`waits`), or the worker
is not at this statement (`notThere`). -/
inductive PoolStop where
  | fault (e : LoadError)
  | waits
  | notThere

/-- The shared state (`state`, `queue`), the item each worker holds between
`dequeue` and `processRequest` (`held`), the responses sent with their sockets
(`sent`), and the record of the run: the items the queue accepted and refused, the
items handed to the workers, the items processed with their responses, each in the
order in which it happened. -/
structure Pool where
  state : ServerState
  queue : CircularQueue (Request × Int) QUEUE_CAPACITY
  held : List (Nat × Request × Int)
  sent : List (Int × Response)
  accepted : List (Request × Int)
  refused : List (Request × Int)
  taken : List (Request × Int)
  done : List ((Request × Int) × Response)

/-- The item `handleClient` builds from a non-empty line: the request read, with
the client id and the request counter put in, and the socket. -/
def submitted (clientId requestCounter clientSocket : Int) (message : List Char) :
    Option (Request × Int) :=
  if message.isEmpty then none
  else
    match Request.deserialize message with
    | .error _ => none
    | .ok req => some (⟨clientId, requestCounter, req.type, req.params⟩, clientSocket)

/-- The response `handleClient` sends for an item the queue refused. -/
def busyResponse (item : Request × Int) : Int × Response :=
  (item.2, ⟨item.1.clientId, item.1.requestId, ResponseStatus.FAILURE,
    "Server busy, request queue full", ""⟩)

/-- The item worker `w` holds, and the list without it. -/
def releaseItem (w : Nat) :
    List (Nat × Request × Int) → Option ((Request × Int) × List (Nat × Request × Int))
  | [] => none
  | (w', item) :: r =>
    if w' = w then some (item, r)
    else
      match releaseItem w r with
      | none => none
      | some (i, r') => some (i, (w', item) :: r')

namespace Pool

/-- The server after `main` has started the workers: the database loaded, the
queue empty, no worker holding an item, nothing sent. -/
def start (db : DatabaseManager) (files : DataFiles) : Pool :=
  ⟨⟨db, files, true⟩, CircularQueue.create, [], [], [], [], [], []⟩

/-- One step: `submit` is the body of the inner loop of `handleClient` for one
line, `take` the call `g_requestQueue.dequeue(item)` of a worker that holds
nothing, `process` the calls `processRequest(req)` and `sendResponse` of a worker
that holds an item, `close` the call `g_requestQueue.close()` of `main`. -/
def step (dt : DoubleText) (p : Pool) : PoolEvent → Except PoolStop Pool
  | .submit clientId requestCounter clientSocket message =>
    match handleMessage clientId requestCounter clientSocket p.queue message with
    | .error e => .error (.fault e)
    | .ok (_, q', responses) =>
      .ok { p with
        queue := q',
        sent := p.sent ++ responses.map (fun r => (clientSocket, r)),
        accepted := p.accepted ++
          (if responses.isEmpty then
            (submitted clientId requestCounter clientSocket message).toList else []),
        refused := p.refused ++
          (if responses.isEmpty then []
            else (submitted clientId requestCounter clientSocket message).toList) }
  | .take w =>
    if p.held.any (fun h => h.1 == w) then .error .notThere
    else
      match p.queue.dequeue with
      | .error .blocks => .error .waits
      | .error .outOfBounds => .error (.fault .undefined)
      | .ok (none, q') => .ok { p with queue := q' }
      | .ok (some item, q') =>
        .ok { p with queue := q', held := (w, item) :: p.held, taken := p.taken ++ [item] }
  | .process w =>
    match releaseItem w p.held with
    | none => .error .notThere
    | some (item, held') =>
      match processRequest dt p.state item.1 with
      | .error e => .error (.fault e)
      | .ok (response, st') =>
        .ok { p with
          state := st',
          held := held',
          sent := p.sent ++ [(item.2, response)],
          done := p.done ++ [(item, response)] }
  | .close => .ok { p with queue := p.queue.close }

/-- The steps made one after the other. -/
def run (dt : DoubleText) : List PoolEvent → Pool → Except PoolStop Pool
  | [], p => .ok p
  | e :: es, p =>
    match p.step dt e with
    | .error s => .error s
    | .ok p' => run dt es p'

end Pool

/-- The number of requests handed in: the `submit` steps with a non-empty line. -/
def submissions (events : List PoolEvent) : Nat :=
  (events.filter (fun e =>
    match e with
    | .submit _ _ _ message => !message.isEmpty
    | _ => false)).length

/-- The items handed in during a run, in the order of the `submit` steps. -/
def requests (events : List PoolEvent) : List (Request × Int) :=
  events.filterMap (fun e =>
    match e with
    | .submit clientId requestCounter clientSocket message =>
      submitted clientId requestCounter clientSocket message
    | _ => none)

/-- What `sendResponse` sends for a processed item: the response, on the socket of
the item. -/
def deliveryOf (d : (Request × Int) × Response) : Int × Response := (d.1.2, d.2)

/-- The number of processed `ADD_LOCATION` requests answered with `SUCCESS`. -/
def addedLocations (done : List ((Request × Int) × Response)) : Nat :=
  (done.filter (fun d => decide (d.1.1.type = RequestType.ADD_LOCATION) &&
    decide (d.2.status = ResponseStatus.SUCCESS))).length

/-- The number of processed `ADD_ROAD` requests answered with `SUCCESS`. -/
def addedRoads (done : List ((Request × Int) × Response)) : Nat :=
  (done.filter (fun d => decide (d.1.1.type = RequestType.ADD_ROAD) &&
    decide (d.2.status = ResponseStatus.SUCCESS))).length

/-- The bookkeeping of a run that started from the database `db0` and in which the
items `reqs` were handed in: the ring invariant of the queue; every item handed in
was accepted or refused; the accepted items are those handed to the workers
followed by those still queued; the items handed to the workers are those
processed and those held; the responses sent are the refusals and the responses
of the processed items; a response carries the ids of its request; and, when the
stores of `db0` were usable and no `INIT_SAMPLE` request has been processed, the
stores are usable and hold one entry more for every add request answered with
`SUCCESS`. -/
def Pool.Inv (db0 : DatabaseManager) (reqs : List (Request × Int)) (p : Pool) : Prop :=
  p.queue.ringInv = true ∧
  List.Perm (p.accepted ++ p.refused) reqs ∧
  p.accepted = p.taken ++ p.queue.contents ∧
  List.Perm p.taken (p.done.map Prod.fst ++ p.held.map Prod.snd) ∧
  List.Perm p.sent (p.refused.map busyResponse ++ p.done.map deliveryOf) ∧
  (∀ d ∈ p.done, d.2.clientId = d.1.1.clientId ∧ d.2.requestId = d.1.1.requestId) ∧
  (db0.storesUsable = true → (∀ d ∈ p.done, d.1.1.type ≠ RequestType.INIT_SAMPLE) →
    p.state.database.storesUsable = true ∧
    p.state.database.getLocationCount = db0.getLocationCount + addedLocations p.done ∧
    p.state.database.getEdgeCount = db0.getEdgeCount + addedRoads p.done)

/-- Two clients and two workers: each client hands in two requests, three of
them add requests. -/
def pairEvents : List PoolEvent :=
  [.submit 1 1 7 "0|0|0|name=A;latitude=1;longitude=2;type=t".toList,
   .submit 2 1 8 "0|0|0|name=B;latitude=3;longitude=4;type=t".toList,
   .take 0, .take 1, .process 1, .process 0,
   .submit 1 2 7 "0|0|1|sourceId=1;destId=2;distance=3;roadName=R".toList,
   .submit 2 2 8 "0|0|3|".toList,
   .take 0, .process 0, .take 1, .process 1]

/-- The state after `pairEvents`, from an empty database. -/
def pairRun : Pool :=
  (Pool.run DoubleText.plain pairEvents
    (Pool.start DatabaseManager.create DataFiles.blank)).toOption.getD
    (Pool.start DatabaseManager.create DataFiles.blank)

/-- One client hands in an `INIT_SAMPLE` request, which a worker takes and
processes. -/
def sampleEvents : List PoolEvent :=
  [.submit 1 1 7 "0|0|6|".toList, .take 0, .process 0]

/-- One client hands in an `ADD_LOCATION` request, which a worker takes and
processes. -/
def oneAddEvents : List PoolEvent :=
  [.submit 1 1 7 "0|0|0|name=x;latitude=0;longitude=0;type=t".toList, .take 0, .process 0]

/-- The database after `loadData` on a locations file whose leaf lists key 2
before key 1 (the manager just created when `loadData` throws). -/
def unsortedDatabase : DatabaseManager :=
  ((DatabaseManager.create.loadData DoubleText.plain
    DataFiles.unsortedLocations).toOption.map Prod.snd).getD DatabaseManager.create

/-- The run in which one client hands in 101 `GET_LOCATIONS` requests before a
worker gets to the queue, after which one worker takes and processes the hundred
items the queue holds. -/
def floodEvents : List PoolEvent :=
  (List.range 101).map (fun i => PoolEvent.submit 1 (i + 1) 7 "0|0|3|".toList) ++
    (List.replicate 100 [PoolEvent.take 0, PoolEvent.process 0]).flatten

end Server

/-! ## Lemmas -/

namespace BTreeNode

theorem induct {P : BTreeNode → Prop}
    (h : ∀ l es cs, (∀ c, some c ∈ cs → P c) → P (.mk l es cs)) : ∀ n, P n := by
  intro n
  refine @BTreeNode.rec P (fun cs => ∀ c, some c ∈ cs → P c)
    (fun o => ∀ c, o = some c → P c) ?_ ?_ ?_ ?_ ?_ n
  · intro l es cs ih; exact h l es cs ih
  · intro c hc; simp at hc
  · intro o cs iho ihcs c hc
    rcases List.mem_cons.1 hc with h1 | h1
    · exact iho c h1.symm
    · exact ihcs c h1
  · intro c hc; cases hc
  · intro n ih c hc; cases hc; exact ih

theorem childAt_nil (i : Nat) : childAt [] i = none := by simp [childAt]

theorem childAt_cons_zero (o : Option BTreeNode) (cs : List (Option BTreeNode)) :
    childAt (o :: cs) 0 = o := by simp [childAt]

theorem childAt_cons_succ (o : Option BTreeNode) (cs : List (Option BTreeNode)) (i : Nat) :
    childAt (o :: cs) (i + 1) = childAt cs i := by simp [childAt]

theorem childAt_mem {cs : List (Option BTreeNode)} {i : Nat} {c : BTreeNode}
    (h : childAt cs i = some c) : some c ∈ cs := by
  unfold childAt at h
  cases hq : cs[i]? with
  | none => simp [hq] at h
  | some o =>
    simp [hq] at h
    subst h
    exact List.getElem?_mem hq

theorem childAt_some_of_lt {cs : List (Option BTreeNode)} (hs : ∀ o ∈ cs, o ≠ none)
    {i : Nat} (hi : i < cs.length) : ∃ c, childAt cs i = some c := by
  have hm : cs[i] ∈ cs := List.getElem_mem hi
  cases hq : cs[i] with
  | none => exact absurd hq (hs _ hm)
  | some c => exact ⟨c, by simp [childAt, List.getElem?_eq_getElem hi, hq]⟩

theorem searchAt_eq (cs : List (Option BTreeNode)) (i : Nat) (key : Int) :
    searchAt cs i key = (childAt cs i).bind (fun c => search c key) := by
  induction cs generalizing i with
  | nil => simp [searchAt, childAt]
  | cons o cs ih =>
    cases i with
    | zero => cases o <;> simp [searchAt, childAt]
    | succ i => simpa [searchAt, childAt] using ih i

theorem maxKeyAt_eq (cs : List (Option BTreeNode)) (i : Nat) :
    maxKeyAt cs i = (childAt cs i).bind maxKeyFrom := by
  induction cs generalizing i with
  | nil => simp [maxKeyAt, childAt]
  | cons o cs ih =>
    cases i with
    | zero => cases o <;> simp [maxKeyAt, childAt]
    | succ i => simpa [maxKeyAt, childAt] using ih i

theorem updateAt_eq (cs : List (Option BTreeNode)) (i : Nat) (key : Int) (value : String) :
    updateAt cs i key value =
      (childAt cs i).bind (fun c =>
        (updateInNode c key value).map (fun r => (r.1, cs.set i (some r.2)))) := by
  induction cs generalizing i with
  | nil => simp [updateAt, childAt]
  | cons o cs ih =>
    cases i with
    | zero =>
      cases o with
      | none => simp [updateAt, childAt]
      | some c =>
        simp only [updateAt, childAt_cons_zero, Option.some_bind, List.set_cons_zero]
        cases updateInNode c key value with
        | none => rfl
        | some r => rfl
    | succ i =>
      simp only [updateAt, childAt_cons_succ, List.set_cons_succ, ih i]
      cases childAt cs i with
      | none => rfl
      | some c =>
        simp only [Option.some_bind]
        cases updateInNode c key value with
        | none => rfl
        | some r => rfl

theorem traverseLoop_leaf (es : List (Int × String)) (cs : List (Option BTreeNode)) :
    traverseLoop true es cs = es := by
  induction es generalizing cs with
  | nil => cases cs <;> simp [traverseLoop]
  | cons e es ih => cases cs <;> simp [traverseLoop, ih]

theorem traverseLoop_nil_some (c : BTreeNode) (cs : List (Option BTreeNode)) :
    traverseLoop false [] (some c :: cs) = traverse c := by
  simp [traverseLoop, traversePtr]

theorem traverseLoop_cons_some (e : Int × String) (es : List (Int × String))
    (c : BTreeNode) (cs : List (Option BTreeNode)) :
    traverseLoop false (e :: es) (some c :: cs) = traverse c ++ e :: traverseLoop false es cs := by
  simp [traverseLoop, traversePtr]

theorem traverseLoop_append (es1 es2 : List (Int × String)) (cs1 cs2 : List (Option BTreeNode))
    (h : es1.length = cs1.length) :
    traverseLoop false (es1 ++ es2) (cs1 ++ cs2) =
      traverseLoop false es1 cs1 ++ traverseLoop false es2 cs2 := by
  induction es1 generalizing cs1 with
  | nil =>
    cases cs1 with
    | nil => simp [traverseLoop]
    | cons _ _ => simp at h
  | cons e es1 ih =>
    cases cs1 with
    | nil => simp at h
    | cons c cs1 =>
      simp only [List.length_cons, Nat.add_right_cancel_iff] at h
      simp [traverseLoop, ih cs1 h]

end BTreeNode

namespace BTreeNode

theorem searchIndex_le (k : Int) (es : List (Int × String)) : searchIndex k es ≤ es.length := by
  induction es with
  | nil => simp [searchIndex]
  | cons e es ih =>
    simp only [searchIndex]
    split
    · simpa using ih
    · simp

theorem searchIndex_take (k : Int) (es : List (Int × String)) :
    ∀ e ∈ es.take (searchIndex k es), e.1 < k := by
  induction es with
  | nil => simp [searchIndex]
  | cons e es ih =>
    simp only [searchIndex]
    split
    · intro x hx
      simp only [List.take_succ_cons, List.mem_cons] at hx
      rcases hx with rfl | hx
      · omega
      · exact ih x hx
    · simp

theorem searchIndex_get (k : Int) (es : List (Int × String)) :
    ∀ e, es[searchIndex k es]? = some e → k ≤ e.1 := by
  induction es with
  | nil => simp [searchIndex]
  | cons e es ih =>
    simp only [searchIndex]
    split
    · intro x hx
      simp only [List.getElem?_cons_succ] at hx
      exact ih x hx
    · intro x hx
      simp only [List.getElem?_cons_zero, Option.some.injEq] at hx
      subst hx; omega

theorem mem_traverseLoop_of_mem (l : Bool) (es : List (Int × String))
    (cs : List (Option BTreeNode)) : ∀ e ∈ es, e ∈ traverseLoop l es cs := by
  induction es generalizing cs with
  | nil => simp
  | cons e es ih =>
    intro x hx
    cases cs with
    | nil => simpa [traverseLoop] using hx
    | cons c cs =>
      simp only [traverseLoop, List.mem_append, List.mem_cons]
      rcases List.mem_cons.1 hx with rfl | hx
      · exact Or.inr (Or.inl rfl)
      · exact Or.inr (Or.inr (ih cs x hx))

theorem KeySorted.unique {l : List (Int × String)} (hs : KeySorted l) {a b : Int × String}
    (ha : a ∈ l) (hb : b ∈ l) (hab : a.1 = b.1) : a = b := by
  induction l with
  | nil => simp at ha
  | cons x l ih =>
    have hx := List.pairwise_cons.1 hs
    rcases List.mem_cons.1 ha with rfl | ha' <;> rcases List.mem_cons.1 hb with rfl | hb'
    · rfl
    · have := hx.1 b hb'; omega
    · have := hx.1 a ha'; omega
    · exact ih hx.2 ha' hb'

theorem traverseLoop_split (es : List (Int × String)) (cs : List (Option BTreeNode))
    (hlen : cs.length = es.length + 1) (hsome : ∀ o ∈ cs, o ≠ none)
    (i : Nat) (hi : i ≤ es.length) (hs : KeySorted (traverseLoop false es cs)) :
    ∃ c P S, childAt cs i = some c ∧
      traverseLoop false es cs = P ++ (traverse c ++ S) ∧
      (∀ c', traverseLoop false es (cs.set i (some c')) = P ++ (traverse c' ++ S)) ∧
      (∀ x ∈ P, ∃ e ∈ es.take i, x.1 ≤ e.1) ∧
      (∀ x ∈ S, ∃ e, es[i]? = some e ∧ e.1 ≤ x.1) := by
  induction i generalizing es cs with
  | zero =>
    cases cs with
    | nil => simp at hlen
    | cons o cs =>
      cases o with
      | none => exact absurd rfl (hsome none (by simp))
      | some c =>
        cases es with
        | nil =>
          refine ⟨c, [], [], by simp [childAt], by simp [traverseLoop_nil_some], ?_, by simp, by simp⟩
          intro c'; simp [traverseLoop_nil_some]
        | cons e es =>
          refine ⟨c, [], e :: traverseLoop false es cs, by simp [childAt],
            by simp [traverseLoop_cons_some], ?_, by simp, ?_⟩
          · intro c'; simp [traverseLoop_cons_some]
          · intro x hx
            refine ⟨e, by simp, ?_⟩
            rw [traverseLoop_cons_some] at hs
            have h2 := (List.pairwise_append.1 hs).2.1
            rcases List.mem_cons.1 hx with rfl | hx
            · exact le_refl _
            · exact le_of_lt ((List.pairwise_cons.1 h2).1 x hx)
  | succ i ih =>
    cases es with
    | nil => simp at hi
    | cons e es =>
      cases cs with
      | nil => simp at hlen
      | cons o cs =>
        cases o with
        | none => exact absurd rfl (hsome none (by simp))
        | some c0 =>
          rw [traverseLoop_cons_some] at hs
          have hs1 := List.pairwise_append.1 hs
          have hs2 := List.pairwise_cons.1 hs1.2.1
          obtain ⟨c, P, S, hc, heq, hset, hP, hS⟩ := ih es cs (by simpa using hlen)
            (fun o ho => hsome o (List.mem_cons_of_mem _ ho)) (by simpa using hi) hs2.2
          refine ⟨c, traverse c0 ++ e :: P, S, by simpa [childAt] using hc, ?_, ?_, ?_, ?_⟩
          · rw [traverseLoop_cons_some, heq]; simp
          · intro c'
            rw [List.set_cons_succ, traverseLoop_cons_some, hset c']; simp
          · intro x hx
            simp only [List.mem_append, List.mem_cons] at hx
            rcases hx with hx | rfl | hx
            · exact ⟨e, by simp, le_of_lt (hs1.2.2 x hx e (by simp))⟩
            · exact ⟨x, by simp, le_refl _⟩
            · obtain ⟨e', he', hle⟩ := hP x hx
              exact ⟨e', by simp [he'], hle⟩
          · intro x hx
            obtain ⟨e', he', hle⟩ := hS x hx
            exact ⟨e', by simpa using he', hle⟩

theorem Shaped.traverse_child {es : List (Int × String)}
    {cs : List (Option BTreeNode)} (hlen : cs.length = es.length + 1)
    (hsome : ∀ o ∈ cs, o ≠ none) {c : BTreeNode} (hc : some c ∈ cs)
    (hs : KeySorted (traverseLoop false es cs)) : KeySorted (traverse c) := by
  obtain ⟨i, hi⟩ := List.mem_iff_getElem?.1 hc
  have hil : i < cs.length := by
    rcases List.getElem?_eq_some.1 hi with ⟨h, _⟩; exact h
  obtain ⟨c', P, S, hc', heq, -, -, -⟩ :=
    traverseLoop_split es cs hlen hsome i (by omega) hs
  have : c = c' := by simpa [childAt, hi] using hc'
  subst this
  rw [heq] at hs
  exact (List.pairwise_append.1 (List.pairwise_append.1 hs).2.1).1

theorem search_spec {n : BTreeNode} (hn : Shaped n) (k : Int) :
    KeySorted (traverse n) →
      (∀ v, (k, v) ∈ traverse n → search n k = some v) ∧
      ((∀ e ∈ traverse n, e.1 ≠ k) → search n k = some "") := by
  induction hn with
  | leaf es =>
    intro hs
    simp only [traverse, traverseLoop] at hs ⊢
    have htake := searchIndex_take k es
    have hget := searchIndex_get k es
    constructor
    · intro v hv
      simp only [search]
      cases hq : es[searchIndex k es]? with
      | none =>
        exfalso
        have hlen : es.length ≤ searchIndex k es := by
          simpa [List.getElem?_eq_none_iff] using hq
        rw [List.take_of_length_le hlen] at htake
        have := htake _ hv; simp at this
      | some e =>
        simp only
        have he : e ∈ es := List.getElem?_mem hq
        by_cases hek : e.1 = k
        · have : e = (k, v) := hs.unique he hv (by simpa using hek)
          simp [this]
        · exfalso
          have hke : k < e.1 := lt_of_le_of_ne (hget e hq) (Ne.symm hek)
          have hsplit : es = es.take (searchIndex k es) ++ e :: es.drop (searchIndex k es + 1) := by
            have hlt : searchIndex k es < es.length := by
              rcases List.getElem?_eq_some.1 hq with ⟨h, _⟩; exact h
            have hee : es[searchIndex k es] = e := by
              rcases List.getElem?_eq_some.1 hq with ⟨_, h⟩; exact h
            rw [← hee, ← List.drop_eq_getElem_cons hlt, List.take_append_drop]
          rw [hsplit] at hv hs
          rcases List.mem_append.1 hv with h1 | h1
          · have := htake _ h1; simp at this
          · rcases List.mem_cons.1 h1 with h2 | h2
            · rw [← h2] at hke; simp at hke
            · have := (List.pairwise_cons.1 (List.pairwise_append.1 hs).2.1).1 _ h2
              simp at this; omega
    · intro hne
      simp only [search]
      cases hq : es[searchIndex k es]? with
      | none => simp
      | some e =>
        have he : e ∈ es := List.getElem?_mem hq
        simp [hne e he]
  | node es cs hlen hsome hch ih =>
    intro hs
    simp only [traverse] at hs ⊢
    have htake := searchIndex_take k es
    have hget := searchIndex_get k es
    obtain ⟨c, P, S, hc, heq, -, hP, hS⟩ :=
      traverseLoop_split es cs hlen hsome (searchIndex k es) (searchIndex_le k es) hs
    have hcm : some c ∈ cs := childAt_mem hc
    have hsc : KeySorted (traverse c) := Shaped.traverse_child hlen hsome hcm hs
    have ihc := ih c hcm hsc
    have hPlt : ∀ x ∈ P, x.1 < k := by
      intro x hx
      obtain ⟨e, he, hle⟩ := hP x hx
      have := htake e he; omega
    constructor
    · intro v hv
      simp only [search, searchAt_eq, hc, Option.some_bind]
      cases hq : es[searchIndex k es]? with
      | none =>
        simp only [Bool.false_eq_true, if_false]
        rw [heq] at hv
        rcases List.mem_append.1 hv with h1 | h1
        · have := hPlt _ h1; simp at this
        · rcases List.mem_append.1 h1 with h2 | h2
          · exact ihc.1 v h2
          · obtain ⟨e, he, _⟩ := hS _ h2
            rw [hq] at he; cases he
      | some e =>
        simp only [Bool.false_eq_true, if_false]
        have he : e ∈ traverseLoop false es cs :=
          mem_traverseLoop_of_mem false es cs e (List.getElem?_mem hq)
        by_cases hek : e.1 = k
        · have : e = (k, v) := hs.unique he hv (by simpa using hek)
          simp [this]
        · simp only [hek, if_false]
          have hke : k < e.1 := lt_of_le_of_ne (hget e hq) (Ne.symm hek)
          rw [heq] at hv
          rcases List.mem_append.1 hv with h1 | h1
          · have := hPlt _ h1; simp at this
          · rcases List.mem_append.1 h1 with h2 | h2
            · exact ihc.1 v h2
            · obtain ⟨e', he', hle⟩ := hS _ h2
              rw [hq] at he'; cases he'
              simp at hle; omega
    · intro hne
      have hnec : ∀ e ∈ traverse c, e.1 ≠ k := by
        intro e he
        apply hne
        rw [heq]; simp [he]
      simp only [search, searchAt_eq, hc, Option.some_bind]
      cases hq : es[searchIndex k es]? with
      | none => simpa using ihc.2 hnec
      | some e =>
        have he : e ∈ traverseLoop false es cs :=
          mem_traverseLoop_of_mem false es cs e (List.getElem?_mem hq)
        simpa [hne e he] using ihc.2 hnec

end BTreeNode

namespace BTreeNode

theorem keysAscending_iff (es : List (Int × String)) :
    keysAscending es = true ↔ KeySorted es := by
  induction es with
  | nil => simp [keysAscending, KeySorted]
  | cons a es ih =>
    cases es with
    | nil => simp [keysAscending, KeySorted]
    | cons b r =>
      simp only [keysAscending, Bool.and_eq_true, decide_eq_true_eq, ih]
      unfold KeySorted at *
      constructor
      · rintro ⟨hab, hbr⟩
        refine List.pairwise_cons.2 ⟨?_, hbr⟩
        intro x hx
        rcases List.mem_cons.1 hx with rfl | hx
        · exact hab
        · exact lt_trans hab ((List.pairwise_cons.1 hbr).1 x hx)
      · intro h
        have h' := List.pairwise_cons.1 h
        exact ⟨h'.1 b (by simp), h'.2⟩

theorem inBounds_iff (lo hi : Option Int) (x : Int) :
    inBounds lo hi x = true ↔ (∀ a, lo = some a → a < x) ∧ (∀ b, hi = some b → x < b) := by
  cases lo <;> cases hi <;> simp [inBounds]

theorem childrenInv_sorted (cs : List (Option BTreeNode)) :
    ∀ (lo : Option Int) (es : List (Int × String)),
      (∀ c, some c ∈ cs → searchTreeInv c = true → Shaped c ∧ KeySorted (traverse c)) →
      KeySorted es → childrenInv lo es cs = true → cs.length = es.length + 1 →
      (∀ e ∈ es, ∀ a, lo = some a → a < e.1) →
      (∀ o ∈ cs, o ≠ none) ∧ (∀ c, some c ∈ cs → Shaped c) ∧
        KeySorted (traverseLoop false es cs) ∧
        ∀ x ∈ traverseLoop false es cs, ∀ a, lo = some a → a < x.1 := by
  induction cs with
  | nil => intro lo es _ _ _ hlen; simp at hlen
  | cons o cs ih =>
    intro lo es hch hes hinv hlen hlo
    cases o with
    | none => simp [childrenInv] at hinv
    | some c =>
      simp only [childrenInv, Bool.and_eq_true, List.all_eq_true, inBounds_iff] at hinv
      obtain ⟨⟨hc, hb⟩, hrest⟩ := hinv
      obtain ⟨hcS, hcK⟩ := hch c (by simp) hc
      cases es with
      | nil =>
        have hcs : cs = [] := by
          cases cs with
          | nil => rfl
          | cons _ _ => simp at hlen
        subst hcs
        refine ⟨by simp, by simpa using hcS, by simpa [traverseLoop_nil_some] using hcK, ?_⟩
        intro x hx a ha
        rw [traverseLoop_nil_some] at hx
        exact (hb x hx).1 a ha
      | cons e es =>
        have hes' := List.pairwise_cons.1 hes
        obtain ⟨h1, h2, h3, h4⟩ := ih (some e.1) es
          (fun c' hc' => hch c' (List.mem_cons_of_mem _ hc')) hes'.2
          (by simpa using hrest) (by simpa using hlen)
          (fun x hx a ha => by cases ha; exact hes'.1 x hx)
        refine ⟨?_, ?_, ?_, ?_⟩
        · intro o ho
          rcases List.mem_cons.1 ho with rfl | ho
          · simp
          · exact h1 o ho
        · intro c' hc'
          rcases List.mem_cons.1 hc' with h | h
          · cases h; exact hcS
          · exact h2 c' h
        · rw [traverseLoop_cons_some]
          refine List.pairwise_append.2 ⟨hcK, List.pairwise_cons.2 ⟨fun x hx => h4 x hx _ rfl, h3⟩, ?_⟩
          intro x hx y hy
          have hxe : x.1 < e.1 := (hb x hx).2 e.1 (by simp)
          rcases List.mem_cons.1 hy with rfl | hy
          · exact hxe
          · exact lt_trans hxe (h4 y hy _ rfl)
        · intro x hx a ha
          rw [traverseLoop_cons_some] at hx
          rcases List.mem_append.1 hx with hx | hx
          · exact (hb x hx).1 a ha
          · rcases List.mem_cons.1 hx with rfl | hx
            · exact hlo x (by simp) a ha
            · exact lt_trans (hlo e (by simp) a ha) (h4 x hx _ rfl)

theorem shaped_sorted_of_inv : ∀ n : BTreeNode, searchTreeInv n = true →
    Shaped n ∧ KeySorted (traverse n) := by
  intro n
  induction n using induct with
  | h l es cs ih =>
    intro hinv
    simp only [searchTreeInv, Bool.and_eq_true, keysAscending_iff] at hinv
    obtain ⟨⟨hes, hshape⟩, hch⟩ := hinv
    cases l with
    | true =>
      have hcs : cs = [] := by simpa using hshape
      subst hcs
      exact ⟨Shaped.leaf es, by simpa [traverse, traverseLoop] using hes⟩
    | false =>
      have hlen : cs.length = es.length + 1 := by simpa using hshape
      obtain ⟨h1, h2, h3, -⟩ := childrenInv_sorted cs none es ih hes hch hlen (by simp)
      exact ⟨Shaped.node es cs hlen h1 h2, by simpa [traverse] using h3⟩

theorem childrenInv_of_sorted (cs : List (Option BTreeNode)) :
    ∀ (lo : Option Int) (es : List (Int × String)),
      cs.length = es.length + 1 → (∀ o ∈ cs, o ≠ none) →
      (∀ c, some c ∈ cs → KeySorted (traverse c) → searchTreeInv c = true) →
      KeySorted (traverseLoop false es cs) →
      (∀ x ∈ traverseLoop false es cs, ∀ a, lo = some a → a < x.1) →
      childrenInv lo es cs = true := by
  induction cs with
  | nil => intro lo es hlen; simp at hlen
  | cons o cs ih =>
    intro lo es hlen hsome hch hs hlo
    cases o with
    | none => exact absurd rfl (hsome none (by simp))
    | some c =>
      cases es with
      | nil =>
        have hcs : cs = [] := by
          cases cs with
          | nil => rfl
          | cons _ _ => simp at hlen
        subst hcs
        rw [traverseLoop_nil_some] at hs hlo
        simp only [childrenInv, Bool.and_eq_true, List.all_eq_true, inBounds_iff]
        exact ⟨⟨hch c (by simp) hs, fun x hx => ⟨hlo x hx, by simp⟩⟩, trivial⟩
      | cons e es =>
        rw [traverseLoop_cons_some] at hs hlo
        have hs1 := List.pairwise_append.1 hs
        have hs2 := List.pairwise_cons.1 hs1.2.1
        simp only [childrenInv, Bool.and_eq_true, List.all_eq_true, inBounds_iff]
        refine ⟨⟨hch c (by simp) hs1.1, fun x hx => ⟨hlo x (by simp [hx]), ?_⟩⟩, ?_⟩
        · intro b hb
          simp at hb; subst hb
          exact hs1.2.2 x hx e (by simp)
        · apply ih (some e.1) es (by simpa using hlen)
            (fun o ho => hsome o (List.mem_cons_of_mem _ ho))
            (fun c' hc' => hch c' (List.mem_cons_of_mem _ hc')) hs2.2
          intro x hx a ha
          cases ha
          exact hs2.1 x hx

theorem inv_of_shaped_sorted {n : BTreeNode} (hn : Shaped n) :
    KeySorted (traverse n) → searchTreeInv n = true := by
  induction hn with
  | leaf es =>
    intro hs
    simp only [traverse, traverseLoop] at hs
    simp [searchTreeInv, keysAscending_iff, hs, childrenInv]
  | node es cs hlen hsome hch ih =>
    intro hs
    simp only [traverse] at hs
    have hes : KeySorted es := by
      have hsub : List.Sublist es (traverseLoop false es cs) := by
        clear hs ih hch
        induction es generalizing cs with
        | nil => simp
        | cons e es ihes =>
          cases cs with
          | nil => simp at hlen
          | cons o cs =>
            cases o with
            | none => exact absurd rfl (hsome none (by simp))
            | some c =>
              rw [traverseLoop_cons_some]
              exact List.Sublist.trans
                (List.Sublist.cons₂ e (ihes cs (by simpa using hlen)
                  (fun o ho => hsome o (List.mem_cons_of_mem _ ho))))
                (List.sublist_append_right _ _)
      exact List.Pairwise.sublist hsub hs
    have hci := childrenInv_of_sorted cs none es hlen hsome
      (fun c hc hsc => ih c hc hsc) hs (by simp)
    simp [searchTreeInv, keysAscending_iff, hes, hlen, hci]

end BTreeNode

namespace BTreeNode

theorem set_getElem?_self {α : Type} {l : List α} {i : Nat} {a : α} (h : l[i]? = some a) :
    l.set i a = l := by
  induction l generalizing i with
  | nil => simp
  | cons x l ih =>
    cases i with
    | zero => simp at h; simp [h]
    | succ i => simp at h; simp [ih h]

theorem searchIndex_miss {k : Int} {es : List (Int × String)} (hs : KeySorted es)
    (hmiss : ∀ e, es[searchIndex k es]? = some e → e.1 ≠ k) : ∀ e ∈ es, e.1 ≠ k := by
  induction es with
  | nil => simp
  | cons x es ih =>
    have hx := List.pairwise_cons.1 hs
    simp only [searchIndex] at hmiss
    intro e he
    by_cases hk : k > x.1
    · simp only [hk, if_true, List.getElem?_cons_succ] at hmiss
      rcases List.mem_cons.1 he with rfl | he
      · omega
      · exact ih hx.2 hmiss e he
    · simp only [hk, if_false, List.getElem?_cons_zero, Option.some.injEq, forall_eq'] at hmiss
      rcases List.mem_cons.1 he with rfl | he
      · exact hmiss
      · have := hx.1 e he
        omega

theorem traverseLoop_entry (l : Bool) (es : List (Int × String)) :
    ∀ (cs : List (Option BTreeNode)) (i : Nat) (e : Int × String), es[i]? = some e →
      ∃ A B, traverseLoop l es cs = A ++ e :: B ∧
        ∀ x, traverseLoop l (es.set i x) cs = A ++ x :: B := by
  induction es with
  | nil => intro cs i e h; simp at h
  | cons y es ih =>
    intro cs i e h
    cases i with
    | zero =>
      simp only [List.getElem?_cons_zero, Option.some.injEq] at h
      subst h
      cases cs with
      | nil => exact ⟨[], es, by simp [traverseLoop], fun x => by simp [traverseLoop]⟩
      | cons c cs =>
        exact ⟨_, _, by simp only [traverseLoop]; rfl, fun x => by simp only [List.set_cons_zero, traverseLoop]⟩
    | succ i =>
      simp only [List.getElem?_cons_succ] at h
      cases cs with
      | nil =>
        obtain ⟨A, B, h1, h2⟩ := ih [] i e h
        simp only [traverseLoop] at h1 h2
        exact ⟨y :: A, B, by simp [traverseLoop, h1], fun x => by simp [traverseLoop, h2 x]⟩
      | cons c cs =>
        obtain ⟨A, B, h1, h2⟩ := ih cs i e h
        refine ⟨(if l = true then [] else traversePtr c) ++ y :: A, B, ?_, ?_⟩
        · simp only [traverseLoop, h1]; simp
        · intro x; simp only [List.set_cons_succ, traverseLoop, h2 x]; simp

theorem map_update_sorted {k : Int} (v : String) {A B : List (Int × String)} {e : Int × String}
    (hs : KeySorted (A ++ e :: B)) (hek : e.1 = k) :
    (A ++ e :: B).map (fun x => if x.1 = k then (x.1, v) else x) = A ++ (e.1, v) :: B := by
  have h1 := List.pairwise_append.1 hs
  have h2 := List.pairwise_cons.1 h1.2.1
  have hA : A.map (fun x => if x.1 = k then (x.1, v) else x) = A := by
    conv_rhs => rw [← List.map_id A]
    apply List.map_congr_left
    intro x hx
    have := h1.2.2 x hx e (by simp)
    have hne : x.1 ≠ k := by omega
    simp [hne]
  have hB : B.map (fun x => if x.1 = k then (x.1, v) else x) = B := by
    conv_rhs => rw [← List.map_id B]
    apply List.map_congr_left
    intro x hx
    have := h2.1 x hx
    have hne : x.1 ≠ k := by omega
    simp [hne]
  simp [hA, hB, hek]

theorem map_update_id {k : Int} (v : String) {A : List (Int × String)}
    (h : ∀ x ∈ A, x.1 ≠ k) :
    A.map (fun x => if x.1 = k then (x.1, v) else x) = A := by
  conv_rhs => rw [← List.map_id A]
  apply List.map_congr_left
  intro x hx
  simp [h x hx]

theorem eraseValuesList_set {cs : List (Option BTreeNode)} {i : Nat} {c c' : BTreeNode}
    (hc : childAt cs i = some c) (he : eraseValues c' = eraseValues c) :
    eraseValuesList (cs.set i (some c')) = eraseValuesList cs := by
  induction cs generalizing i with
  | nil => simp [childAt] at hc
  | cons o cs ih =>
    cases i with
    | zero =>
      simp only [childAt_cons_zero] at hc
      subst hc
      simp [eraseValuesList, he]
    | succ i =>
      simp only [childAt_cons_succ] at hc
      cases o <;> simp [eraseValuesList, ih hc]

theorem set_childAt_self {cs : List (Option BTreeNode)} {i : Nat} {c : BTreeNode}
    (hc : childAt cs i = some c) : cs.set i (some c) = cs := by
  induction cs generalizing i with
  | nil => simp
  | cons o cs ih =>
    cases i with
    | zero =>
      simp only [childAt_cons_zero] at hc
      subst hc; simp
    | succ i =>
      simp only [childAt_cons_succ] at hc
      simp [ih hc]

theorem descend_facts {k : Int} {es : List (Int × String)} {cs : List (Option BTreeNode)}
    (hlen : cs.length = es.length + 1) (hsome : ∀ o ∈ cs, o ≠ none)
    (hs : KeySorted (traverseLoop false es cs))
    (hmiss : ∀ e, es[searchIndex k es]? = some e → e.1 ≠ k) :
    ∃ c P S, childAt cs (searchIndex k es) = some c ∧
      traverseLoop false es cs = P ++ (traverse c ++ S) ∧
      (∀ c', traverseLoop false es (cs.set (searchIndex k es) (some c')) =
        P ++ (traverse c' ++ S)) ∧
      (∀ x ∈ P, x.1 < k) ∧ (∀ x ∈ S, k < x.1) ∧ KeySorted (traverse c) := by
  obtain ⟨c, P, S, hc, heq, hset, hP, hS⟩ :=
    traverseLoop_split es cs hlen hsome (searchIndex k es) (searchIndex_le k es) hs
  refine ⟨c, P, S, hc, heq, hset, ?_, ?_, Shaped.traverse_child hlen hsome (childAt_mem hc) hs⟩
  · intro x hx
    obtain ⟨e, he, hle⟩ := hP x hx
    have := searchIndex_take k es e he
    omega
  · intro x hx
    obtain ⟨e, he, hle⟩ := hS x hx
    have h1 := searchIndex_get k es e he
    have h2 := hmiss e he
    omega

theorem update_spec {n : BTreeNode} (hn : Shaped n) (k : Int) (v : String) :
    KeySorted (traverse n) →
      ((∀ e ∈ traverse n, e.1 ≠ k) → updateInNode n k v = some (false, n)) ∧
      ((∃ e ∈ traverse n, e.1 = k) → ∃ n', updateInNode n k v = some (true, n') ∧
        eraseValues n' = eraseValues n ∧
        traverse n' = (traverse n).map (fun x => if x.1 = k then (x.1, v) else x)) := by
  induction hn with
  | leaf es =>
    intro hs
    cases hq : es[searchIndex k es]? with
    | none =>
      have hmiss : ∀ e ∈ es, e.1 ≠ k :=
        searchIndex_miss (by simpa [traverse, traverseLoop] using hs) (by simp [hq])
      constructor
      · intro _; simp [updateInNode, hq]
      · rintro ⟨e, he, hek⟩
        simp only [traverse, traverseLoop] at he
        exact absurd hek (hmiss e he)
    | some e =>
      by_cases hek : e.1 = k
      · constructor
        · intro hne
          have he : e ∈ traverse (.mk true es []) := by
            simpa [traverse, traverseLoop] using List.getElem?_mem hq
          exact absurd hek (hne e he)
        · intro _
          obtain ⟨A, B, h1, h2⟩ := traverseLoop_entry true es [] (searchIndex k es) e hq
          refine ⟨.mk true (es.set (searchIndex k es) (e.1, v)) [], by simp [updateInNode, hq, hek], ?_, ?_⟩
          · simp only [eraseValues, List.map_set, mk.injEq, true_and, and_true]
            exact set_getElem?_self (by simp [hq])
          · simp only [traverse] at hs ⊢
            rw [h2, h1]
            rw [h1] at hs
            exact (map_update_sorted v hs hek).symm
      · have hmiss : ∀ e ∈ es, e.1 ≠ k :=
          searchIndex_miss (by simpa [traverse, traverseLoop] using hs)
            (by intro e' he'; rw [hq] at he'; cases he'; exact hek)
        constructor
        · intro _; simp [updateInNode, hq, hek]
        · rintro ⟨e', he', hek'⟩
          simp only [traverse, traverseLoop] at he'
          exact absurd hek' (hmiss e' he')
  | node es cs hlen hsome hch ih =>
    intro hs
    simp only [traverse] at hs ⊢
    cases hq : es[searchIndex k es]? with
    | none =>
      obtain ⟨c, P, S, hc, heq, hset, hP, hS, hsc⟩ :=
        descend_facts (k := k) hlen hsome hs (by simp [hq])
      have ihc := ih c (childAt_mem hc) hsc
      constructor
      · intro hne
        have h1 := ihc.1 (fun e he => hne e (by rw [heq]; simp [he]))
        simp [updateInNode, hq, updateAt_eq, hc, h1, set_childAt_self hc]
      · rintro ⟨e, he, hek⟩
        have hec : e ∈ traverse c := by
          rw [heq] at he
          rcases List.mem_append.1 he with h | h
          · have := hP e h; omega
          · rcases List.mem_append.1 h with h | h
            · exact h
            · have := hS e h; omega
        obtain ⟨c', h1, h2, h3⟩ := ihc.2 ⟨e, hec, hek⟩
        refine ⟨.mk false es (cs.set (searchIndex k es) (some c')), by simp [updateInNode, hq, updateAt_eq, hc, h1], ?_, ?_⟩
        · simp [eraseValues, eraseValuesList_set hc h2]
        · simp only [traverse]
          rw [hset c', heq, h3]
          simp [map_update_id v (fun x hx => ne_of_lt (hP x hx)),
            map_update_id v (fun x hx => ne_of_gt (hS x hx))]
    | some e =>
      by_cases hek : e.1 = k
      · constructor
        · intro hne
          exact absurd hek (hne e (mem_traverseLoop_of_mem false es cs e (List.getElem?_mem hq)))
        · intro _
          obtain ⟨A, B, h1, h2⟩ := traverseLoop_entry false es cs (searchIndex k es) e hq
          refine ⟨.mk false (es.set (searchIndex k es) (e.1, v)) cs, by simp [updateInNode, hq, hek], ?_, ?_⟩
          · simp only [eraseValues, List.map_set, mk.injEq, true_and, and_true]
            exact set_getElem?_self (by simp [hq])
          · simp only [traverse]
            rw [h2, h1]
            rw [h1] at hs
            exact (map_update_sorted v hs hek).symm
      · obtain ⟨c, P, S, hc, heq, hset, hP, hS, hsc⟩ :=
          descend_facts (k := k) hlen hsome hs
            (by intro e' he'; rw [hq] at he'; cases he'; exact hek)
        have ihc := ih c (childAt_mem hc) hsc
        constructor
        · intro hne
          have h1 := ihc.1 (fun e he => hne e (by rw [heq]; simp [he]))
          simp [updateInNode, hq, hek, updateAt_eq, hc, h1, set_childAt_self hc]
        · rintro ⟨e', he', hek'⟩
          have hec : e' ∈ traverse c := by
            rw [heq] at he'
            rcases List.mem_append.1 he' with h | h
            · have := hP e' h; omega
            · rcases List.mem_append.1 h with h | h
              · exact h
              · have := hS e' h; omega
          obtain ⟨c', h1, h2, h3⟩ := ihc.2 ⟨e', hec, hek'⟩
          refine ⟨.mk false es (cs.set (searchIndex k es) (some c')), by simp [updateInNode, hq, hek, updateAt_eq, hc, h1], ?_, ?_⟩
          · simp [eraseValues, eraseValuesList_set hc h2]
          · simp only [traverse]
            rw [hset c', heq, h3]
            simp [map_update_id v (fun x hx => ne_of_lt (hP x hx)),
              map_update_id v (fun x hx => ne_of_gt (hS x hx))]

end BTreeNode

namespace BTreeNode

theorem allNodesList_mem {p : BTreeNode → Bool} {cs : List (Option BTreeNode)}
    (h : allNodesList p cs = true) {c : BTreeNode} (hc : some c ∈ cs) : allNodes p c = true := by
  induction cs with
  | nil => simp at hc
  | cons o cs ih =>
    cases o with
    | none =>
      simp only [allNodesList] at h
      rcases List.mem_cons.1 hc with h1 | h1
      · cases h1
      · exact ih h h1
    | some c0 =>
      simp only [allNodesList, Bool.and_eq_true] at h
      rcases List.mem_cons.1 hc with h1 | h1
      · cases h1; exact h.1
      · exact ih h.2 h1

theorem maxKey_spec {n : BTreeNode} (hn : Shaped n) :
    allNodes (fun m => decide (1 ≤ m.numKeys)) n = true → KeySorted (traverse n) →
      ∃ e, e ∈ traverse n ∧ maxKeyFrom n = some e.1 ∧ ∀ x ∈ traverse n, x.1 ≤ e.1 := by
  induction hn with
  | leaf es =>
    intro hall hs
    simp only [allNodes, numKeys, entries, Bool.and_eq_true, decide_eq_true_eq] at hall
    simp only [traverse, traverseLoop] at hs ⊢
    have hne : es ≠ [] := by
      intro h; subst h; simp at hall
    refine ⟨es.getLast hne, List.getLast_mem hne, ?_, ?_⟩
    · simp [maxKeyFrom, List.getLast?_eq_getLast _ hne]
    · intro x hx
      have hd := List.dropLast_append_getLast hne
      rw [← hd] at hx hs
      rcases List.mem_append.1 hx with h | h
      · exact le_of_lt ((List.pairwise_append.1 hs).2.2 x h _ (by simp))
      · simp at h; rw [h]
  | node es cs hlen hsome hch ih =>
    intro hall hs
    simp only [allNodes, Bool.and_eq_true] at hall
    simp only [traverse] at hs ⊢
    obtain ⟨c, P, S, hc, heq, -, -, hS⟩ :=
      traverseLoop_split es cs hlen hsome es.length (le_refl _) hs
    have hSnil : ∀ x ∈ S, False := by
      intro x hx
      obtain ⟨e, he, _⟩ := hS x hx
      simp at he
    have hsc := Shaped.traverse_child hlen hsome (childAt_mem hc) hs
    obtain ⟨e, he, hmax, hle⟩ := ih c (childAt_mem hc) (allNodesList_mem hall.2 (childAt_mem hc)) hsc
    refine ⟨e, by rw [heq]; simp [he], by simp [maxKeyFrom, maxKeyAt_eq, hc, hmax], ?_⟩
    intro x hx
    rw [heq] at hx hs
    rcases List.mem_append.1 hx with h | h
    · exact le_of_lt ((List.pairwise_append.1 hs).2.2 x h e (by simp [he]))
    · rcases List.mem_append.1 h with h | h
      · exact hle x h
      · exact (hSnil x h).elim

theorem splitChild_eq {es : List (Int × String)} {cs : List (Option BTreeNode)} {i : Nat}
    {l cl : Bool} {e0 e1 e2 e3 e4 : Int × String} {ccs : List (Option BTreeNode)}
    (hlen : cs.length = es.length + 1) (hlt : es.length < MAX_KEYS) (hi : i ≤ es.length)
    (hc : childAt cs i = some (.mk cl [e0, e1, e2, e3, e4] ccs)) :
    splitChild (.mk l es cs) i = some (.mk l (es.take i ++ e2 :: es.drop i)
      (cs.take i ++ some (.mk cl [e0, e1] (if cl then ccs else ccs.take 3)) ::
        some (.mk cl [e3, e4] (if cl then [] else (ccs.drop 3).take 3)) :: cs.drop (i + 1))) := by
  have h1 : (cs.drop (i + 1)).take (es.length - i) = cs.drop (i + 1) := by
    apply List.take_of_length_le
    simp; omega
  have h2 : cs.drop (es.length + 2) = [] := by
    apply List.drop_of_length_le; omega
  simp [splitChild, hc, MAX_KEYS, BTREE_ORDER, hi, h1, h2]
  simpa [MAX_KEYS, BTREE_ORDER] using hlt

end BTreeNode

namespace BTreeNode

theorem insertScan_le (k : Int) (es : List (Int × String)) (j : Nat) :
    insertScan k es j ≤ j := by
  induction j with
  | zero => simp [insertScan]
  | succ j ih =>
    simp only [insertScan]
    split
    · split
      · omega
      · omega
    · omega

theorem insertScan_drop (k : Int) (es : List (Int × String)) (j : Nat) (hj : j ≤ es.length) :
    ∀ e ∈ (es.take j).drop (insertScan k es j), k < e.1 := by
  induction j with
  | zero => simp [insertScan]
  | succ j ih =>
    have hlt : j < es.length := by omega
    have hq : es[j]? = some es[j] := List.getElem?_eq_getElem hlt
    simp only [insertScan, hq]
    split
    · intro e he
      rw [List.take_succ, hq] at he
      simp only [Option.toList_some] at he
      have hle := insertScan_le k es j
      rw [List.drop_append_of_le_length (by simp; omega)] at he
      rcases List.mem_append.1 he with h | h
      · exact ih (by omega) e h
      · simp at h; subst h; omega
    · intro e he
      rw [List.drop_of_length_le (by simp)] at he
      simp at he

theorem insertScan_prev (k : Int) (es : List (Int × String)) (j : Nat) :
    ∀ r e, insertScan k es j = r + 1 → es[r]? = some e → e.1 ≤ k := by
  induction j with
  | zero => intro r e h; simp [insertScan] at h
  | succ j ih =>
    intro r e h he
    simp only [insertScan] at h
    cases hq : es[j]? with
    | none =>
      simp only [hq] at h
      have : r = j := by omega
      subst this
      rw [hq] at he; cases he
    | some x =>
      simp only [hq] at h
      by_cases hx : x.1 > k
      · simp only [hx, if_true] at h
        exact ih r e h he
      · simp only [hx, if_false] at h
        have : r = j := by omega
        subst this
        rw [hq] at he; cases he
        omega

theorem insertScan_facts {k : Int} {es : List (Int × String)} (hs : KeySorted es)
    (hne : ∀ e ∈ es, e.1 ≠ k) :
    insertScan k es es.length ≤ es.length ∧
    (∀ e ∈ es.take (insertScan k es es.length), e.1 < k) ∧
    (∀ e ∈ es.drop (insertScan k es es.length), k < e.1) := by
  refine ⟨insertScan_le k es _, ?_, ?_⟩
  · intro e he
    cases hr : insertScan k es es.length with
    | zero => rw [hr] at he; simp at he
    | succ r =>
      rw [hr] at he
      have hle := insertScan_le k es es.length
      have hlt : r < es.length := by omega
      have hq : es[r]? = some es[r] := List.getElem?_eq_getElem hlt
      have h1 := insertScan_prev k es es.length r es[r] hr hq
      have h2 := hne es[r] (List.getElem_mem hlt)
      have h3 : es[r].1 < k := lt_of_le_of_ne h1 h2
      rw [List.take_succ, hq] at he
      simp only [Option.toList_some] at he
      rcases List.mem_append.1 he with h | h
      · have hsplit : es = es.take r ++ es[r] :: es.drop (r + 1) := by
          rw [← List.drop_eq_getElem_cons hlt, List.take_append_drop]
        have hp : List.Pairwise (fun a b : Int × String => a.1 < b.1)
            (es.take r ++ es[r] :: es.drop (r + 1)) := by
          rw [← hsplit]; exact hs
        have := (List.pairwise_append.1 hp).2.2 e h es[r] (List.mem_cons_self _ _)
        omega
      · simp at h; subst h; exact h3
  · have := insertScan_drop k es es.length (le_refl _)
    simpa using this

theorem entries_sublist {es : List (Int × String)} {cs : List (Option BTreeNode)} (l : Bool) :
    List.Sublist es (traverseLoop l es cs) := by
  induction es generalizing cs with
  | nil => simp
  | cons e es ih =>
    cases cs with
    | nil => simp [traverseLoop]
    | cons o cs =>
      simp only [traverseLoop]
      exact List.Sublist.trans (List.Sublist.cons₂ e ih) (List.sublist_append_right _ _)

theorem cs_split_at {cs : List (Option BTreeNode)} {i : Nat} {c : BTreeNode}
    (hc : childAt cs i = some c) : cs = cs.take i ++ some c :: cs.drop (i + 1) := by
  induction cs generalizing i with
  | nil => simp [childAt] at hc
  | cons o cs ih =>
    cases i with
    | zero =>
      simp only [childAt_cons_zero] at hc
      subst hc; simp
    | succ i =>
      simp only [childAt_cons_succ] at hc
      simp only [List.take_succ_cons, List.drop_succ_cons, List.cons_append, List.cons.injEq, true_and]
      exact ih hc

theorem traverseLoop_child_swap (X : List (Int × String)) (Y : List (Option BTreeNode))
    (c L R : BTreeNode) (m : Int × String) (h : traverse c = traverse L ++ m :: traverse R) :
    traverseLoop false (m :: X) (some L :: some R :: Y) = traverseLoop false X (some c :: Y) := by
  cases X with
  | nil => simp [traverseLoop, traversePtr, h]
  | cons x X => simp [traverseLoop, traversePtr, h]

theorem splitChild_traverse {es : List (Int × String)} {cs : List (Option BTreeNode)} {i : Nat}
    {c L R : BTreeNode} {m : Int × String}
    (hlen : cs.length = es.length + 1) (hi : i ≤ es.length) (hc : childAt cs i = some c)
    (h : traverse c = traverse L ++ m :: traverse R) :
    traverseLoop false (es.take i ++ m :: es.drop i)
      (cs.take i ++ some L :: some R :: cs.drop (i + 1)) = traverseLoop false es cs := by
  have hl : (es.take i).length = (cs.take i).length := by simp; omega
  rw [traverseLoop_append _ _ _ _ hl, traverseLoop_child_swap _ _ c L R m h]
  rw [← traverseLoop_append _ _ _ _ hl, List.take_append_drop, ← cs_split_at hc]

theorem split_halves {cl : Bool} {e0 e1 e2 e3 e4 : Int × String} {ccs : List (Option BTreeNode)}
    {minK h : Nat} (hv : Valid minK h (.mk cl [e0, e1, e2, e3, e4] ccs)) :
    Valid MIN_KEYS h (.mk cl [e0, e1] (if cl then ccs else ccs.take 3)) ∧
    Valid MIN_KEYS h (.mk cl [e3, e4] (if cl then [] else (ccs.drop 3).take 3)) ∧
    traverse (.mk cl [e0, e1, e2, e3, e4] ccs) =
      traverse (.mk cl [e0, e1] (if cl then ccs else ccs.take 3)) ++
        e2 :: traverse (.mk cl [e3, e4] (if cl then [] else (ccs.drop 3).take 3)) := by
  cases hv with
  | leaf _ _ h1 h2 =>
    refine ⟨Valid.leaf _ _ (by simp [MIN_KEYS, BTREE_ORDER]) (by simp [MAX_KEYS, BTREE_ORDER]),
      Valid.leaf _ _ (by simp [MIN_KEYS, BTREE_ORDER]) (by simp [MAX_KEYS, BTREE_ORDER]), ?_⟩
    simp [traverse, traverseLoop]
  | node _ h' _ _ h1 h2 hlen hsome hch =>
    have hsub3 : ∀ o ∈ ccs.take 3, o ∈ ccs := fun o ho => List.mem_of_mem_take ho
    have hsubd : ∀ o ∈ (ccs.drop 3).take 3, o ∈ ccs :=
      fun o ho => List.mem_of_mem_drop (List.mem_of_mem_take ho)
    refine ⟨?_, ?_, ?_⟩
    · refine Valid.node _ _ _ _ (by simp [MIN_KEYS, BTREE_ORDER]) (by simp [MAX_KEYS, BTREE_ORDER])
        (by simp at hlen; simp [hlen]) (fun o ho => hsome o (hsub3 o (by simpa using ho)))
        (fun c hc => hch c (hsub3 _ (by simpa using hc)))
    · refine Valid.node _ _ _ _ (by simp [MIN_KEYS, BTREE_ORDER]) (by simp [MAX_KEYS, BTREE_ORDER])
        (by simp at hlen; simp [hlen]) (fun o ho => hsome o (hsubd o (by simpa using ho)))
        (fun c hc => hch c (hsubd _ (by simpa using hc)))
    · simp only [List.length_cons, List.length_nil] at hlen
      match ccs, hlen with
      | [o0, o1, o2, o3, o4, o5], _ =>
        simp [traverse, traverseLoop]

end BTreeNode

namespace BTreeNode

theorem descend_insert {es : List (Int × String)} {cs : List (Option BTreeNode)} {i : Nat}
    {k : Int} (v : String)
    (hlen : cs.length = es.length + 1) (hsome : ∀ o ∈ cs, o ≠ none) (hi : i ≤ es.length)
    (hs : KeySorted (traverseLoop false es cs))
    (htake : ∀ e ∈ es.take i, e.1 < k) (hget : ∀ e, es[i]? = some e → k < e.1) :
    ∃ c, childAt cs i = some c ∧ KeySorted (traverse c) ∧
      ((∀ e ∈ traverseLoop false es cs, e.1 ≠ k) → ∀ e ∈ traverse c, e.1 ≠ k) ∧
      ∀ c'' t1 t2, traverse c = t1 ++ t2 → traverse c'' = t1 ++ (k, v) :: t2 →
        (∀ e ∈ t1, e.1 < k) → (∀ e ∈ t2, k < e.1) →
        ∃ l1 l2, traverseLoop false es cs = l1 ++ l2 ∧
          traverseLoop false es (cs.set i (some c'')) = l1 ++ (k, v) :: l2 ∧
          (∀ e ∈ l1, e.1 < k) ∧ (∀ e ∈ l2, k < e.1) := by
  obtain ⟨c, P, S, hc, heq, hset, hP, hS⟩ := traverseLoop_split es cs hlen hsome i hi hs
  refine ⟨c, hc, Shaped.traverse_child hlen hsome (childAt_mem hc) hs, ?_, ?_⟩
  · intro hne e he
    exact hne e (by rw [heq]; simp [he])
  · intro c'' t1 t2 h1 h2 ht1 ht2
    refine ⟨P ++ t1, t2 ++ S, by rw [heq, h1]; simp, by rw [hset c'', h2]; simp, ?_, ?_⟩
    · intro e he
      rcases List.mem_append.1 he with h | h
      · obtain ⟨x, hx, hle⟩ := hP e h
        have := htake x hx
        omega
      · exact ht1 e h
    · intro e he
      rcases List.mem_append.1 he with h | h
      · exact ht2 e h
      · obtain ⟨x, hx, hle⟩ := hS e h
        have := hget x hx
        omega

theorem Valid.height_pos {minK h : Nat} {n : BTreeNode} (hv : Valid minK h n) : 1 ≤ h := by
  cases hv <;> omega

theorem children_set_valid {cs : List (Option BTreeNode)} {h i : Nat} {c : BTreeNode}
    (hsome : ∀ o ∈ cs, o ≠ none) (hch : ∀ c, some c ∈ cs → Valid MIN_KEYS h c)
    (hc : Valid MIN_KEYS h c) :
    (∀ o ∈ cs.set i (some c), o ≠ none) ∧
      (∀ x, some x ∈ cs.set i (some c) → Valid MIN_KEYS h x) := by
  constructor
  · intro o ho
    rcases List.mem_or_eq_of_mem_set ho with h1 | h1
    · exact hsome o h1
    · simp [h1]
  · intro x hx
    rcases List.mem_or_eq_of_mem_set hx with h1 | h1
    · exact hch x h1
    · cases h1; exact hc

theorem split_parent_facts {es : List (Int × String)} {cs : List (Option BTreeNode)} {r h : Nat}
    {L R : BTreeNode} (m : Int × String)
    (hlen : cs.length = es.length + 1) (hsome : ∀ o ∈ cs, o ≠ none)
    (hch : ∀ c, some c ∈ cs → Valid MIN_KEYS h c) (hr : r ≤ es.length)
    (hL : Valid MIN_KEYS h L) (hR : Valid MIN_KEYS h R) :
    (cs.take r ++ some L :: some R :: cs.drop (r + 1)).length =
        (es.take r ++ m :: es.drop r).length + 1 ∧
      (∀ o ∈ cs.take r ++ some L :: some R :: cs.drop (r + 1), o ≠ none) ∧
      (∀ x, some x ∈ cs.take r ++ some L :: some R :: cs.drop (r + 1) → Valid MIN_KEYS h x) ∧
      (es.take r ++ m :: es.drop r)[r]? = some m ∧
      childAt (cs.take r ++ some L :: some R :: cs.drop (r + 1)) r = some L ∧
      childAt (cs.take r ++ some L :: some R :: cs.drop (r + 1)) (r + 1) = some R ∧
      (es.take r ++ m :: es.drop r).take r = es.take r ∧
      (es.take r ++ m :: es.drop r).take (r + 1) = es.take r ++ [m] ∧
      (∀ e, (es.take r ++ m :: es.drop r)[r + 1]? = some e → e ∈ es.drop r) := by
  have hte : (es.take r).length = r := by simp; omega
  have htc : (cs.take r).length = r := by simp; omega
  refine ⟨by simp; omega, ?_, ?_, ?_, ?_, ?_, ?_, ?_, ?_⟩
  · intro o ho
    simp only [List.mem_append, List.mem_cons] at ho
    rcases ho with h | h | h | h
    · exact hsome o (List.mem_of_mem_take h)
    · simp [h]
    · simp [h]
    · exact hsome o (List.mem_of_mem_drop h)
  · intro x hx
    simp only [List.mem_append, List.mem_cons] at hx
    rcases hx with h | h | h | h
    · exact hch x (List.mem_of_mem_take h)
    · cases h; exact hL
    · cases h; exact hR
    · exact hch x (List.mem_of_mem_drop h)
  · rw [List.getElem?_append_right (by omega), hte]; simp
  · unfold childAt
    rw [List.getElem?_append_right (by omega), htc]; simp
  · unfold childAt
    rw [List.getElem?_append_right (by omega), htc]
    have : r + 1 - r = 1 := by omega
    rw [this]; simp
  · rw [List.take_append_eq_append_take, hte]
    simp
  · rw [List.take_append_eq_append_take, hte]
    have : r + 1 - r = 1 := by omega
    rw [this, List.take_of_length_le (by omega)]
    simp
  · intro e he
    rw [List.getElem?_append_right (by omega), hte] at he
    have : r + 1 - r = 1 := by omega
    rw [this] at he
    simp only [List.getElem?_cons_succ] at he
    exact List.getElem?_mem he

theorem insertNonFull_spec (fuel : Nat) :
    ∀ (n : BTreeNode) (minK h : Nat) (k : Int) (v : String),
      Valid minK h n → n.numKeys < MAX_KEYS → h ≤ fuel →
      KeySorted (traverse n) → (∀ e ∈ traverse n, e.1 ≠ k) →
      ∃ n', insertNonFull fuel n k v = some n' ∧ Valid minK h n' ∧
        ∃ l1 l2, traverse n = l1 ++ l2 ∧ traverse n' = l1 ++ (k, v) :: l2 ∧
          (∀ e ∈ l1, e.1 < k) ∧ (∀ e ∈ l2, k < e.1) := by
  induction fuel with
  | zero =>
    intro n minK h k v hv _ hh
    have := hv.height_pos
    omega
  | succ fuel ih =>
    intro n minK h k v hv hnf hh hs hne
    cases hv with
    | leaf _ es h1 h2 =>
      simp only [numKeys, entries] at hnf
      simp only [traverse, traverseLoop] at hs hne ⊢
      obtain ⟨hr, htake, hdrop⟩ := insertScan_facts hs hne
      refine ⟨.mk true (es.take (insertScan k es es.length) ++
          (k, v) :: es.drop (insertScan k es es.length)) [],
        by simp [insertNonFull, hnf], ?_, es.take (insertScan k es es.length),
        es.drop (insertScan k es es.length), by simp, by simp [traverse, traverseLoop], htake, hdrop⟩
      refine Valid.leaf _ _ ?_ ?_
      · simp; omega
      · simp; omega
    | node _ h' es cs h1 h2 hlen hsome hch =>
      simp only [numKeys, entries] at hnf
      simp only [traverse] at hs hne ⊢
      have hes : KeySorted es := List.Pairwise.sublist (entries_sublist false) hs
      have hnes : ∀ e ∈ es, e.1 ≠ k :=
        fun e he => hne e (mem_traverseLoop_of_mem false es cs e he)
      obtain ⟨hr, htake, hdrop⟩ := insertScan_facts hes hnes
      generalize hrdef : insertScan k es es.length = r at hr htake hdrop
      obtain ⟨c, hc⟩ := childAt_some_of_lt hsome (i := r) (by omega)
      have hcv := hch c (childAt_mem hc)
      by_cases hfull : c.isFull = true
      · obtain ⟨cl, ces, ccs⟩ := c
        have h5 : ces.length = 5 := by
          simpa [isFull, numKeys, entries, MAX_KEYS, BTREE_ORDER] using hfull
        match ces, h5 with
        | [e0, e1, e2, e3, e4], _ =>
          obtain ⟨hL, hR, htr⟩ := split_halves hcv
          have hsp := splitChild_eq (l := false) hlen hnf hr hc
          have hLn : (BTreeNode.mk cl [e0, e1] (if cl then ccs else ccs.take 3)).numKeys < MAX_KEYS := by
            simp [numKeys, entries, MAX_KEYS, BTREE_ORDER]
          have hRn : (BTreeNode.mk cl [e3, e4]
              (if cl then [] else (ccs.drop 3).take 3)).numKeys < MAX_KEYS := by
            simp [numKeys, entries, MAX_KEYS, BTREE_ORDER]
          generalize BTreeNode.mk cl [e0, e1] (if cl then ccs else ccs.take 3) = L
            at hL htr hsp hLn
          generalize BTreeNode.mk cl [e3, e4] (if cl then [] else (ccs.drop 3).take 3) = R
            at hR htr hsp hRn
          have htrav := splitChild_traverse hlen hr hc htr
          obtain ⟨hlen', hsome', hch', hgetr, hcL, hcR, htk0, htk1, hnext⟩ :=
            split_parent_facts e2 hlen hsome hch hr hL hR
          have hs' := hs
          rw [← htrav] at hs' hne
          have he2 : e2.1 ≠ k := hne e2 (mem_traverseLoop_of_mem false _ _ e2 (by simp))
          by_cases hlt : e2.1 < k
          · obtain ⟨c', hc', hsc', hnec', hfin⟩ := descend_insert (i := r + 1) v hlen' hsome'
              (by simp; omega) hs'
              (by
                intro e he
                rw [htk1] at he
                rcases List.mem_append.1 he with h | h
                · exact htake e h
                · simp at h; subst h; exact hlt)
              (fun e he => hdrop e (hnext e he))
            have hc'eq : c' = R := by
              rw [hcR] at hc'; exact (Option.some.inj hc').symm
            subst hc'eq
            obtain ⟨c'', hins, hv'', t1, t2, ht, ht', ht1, ht2⟩ :=
              ih c' MIN_KEYS h' k v hR hRn (by omega) hsc' (hnec' hne)
            obtain ⟨l1, l2, hl, hl', hl1, hl2⟩ := hfin c'' t1 t2 ht ht' ht1 ht2
            obtain ⟨hso, hvo⟩ := children_set_valid (i := r + 1) hsome' hch' hv''
            refine ⟨.mk false (es.take r ++ e2 :: es.drop r)
              ((cs.take r ++ some L :: some c' :: cs.drop (r + 1)).set (r + 1) (some c'')), by
              simp only [insertNonFull, hrdef, hc, hfull, hsp, hgetr, hlt, if_true, Bool.false_eq_true,
                if_false, hcR, hins], ?_, l1, l2, by rw [← hl, htrav], by simpa [traverse] using hl', hl1, hl2⟩
            refine Valid.node _ _ _ _ (by simp; omega) (by simp; omega) ?_ hso hvo
            rw [List.length_set]; exact hlen'
          · have hgt : k < e2.1 := by omega
            obtain ⟨c', hc', hsc', hnec', hfin⟩ := descend_insert (i := r) v hlen' hsome'
              (by simp; omega) hs'
              (by
                intro e he
                rw [htk0] at he
                exact htake e he)
              (by
                intro e he
                rw [hgetr] at he
                cases he; exact hgt)
            have hc'eq : c' = L := by
              rw [hcL] at hc'; exact (Option.some.inj hc').symm
            subst hc'eq
            obtain ⟨c'', hins, hv'', t1, t2, ht, ht', ht1, ht2⟩ :=
              ih c' MIN_KEYS h' k v hL hLn (by omega) hsc' (hnec' hne)
            obtain ⟨l1, l2, hl, hl', hl1, hl2⟩ := hfin c'' t1 t2 ht ht' ht1 ht2
            obtain ⟨hso, hvo⟩ := children_set_valid (i := r) hsome' hch' hv''
            refine ⟨.mk false (es.take r ++ e2 :: es.drop r)
              ((cs.take r ++ some c' :: some R :: cs.drop (r + 1)).set r (some c'')), by
              simp only [insertNonFull, hrdef, hc, hfull, hsp, hgetr, hlt, if_true, Bool.false_eq_true,
                if_false, hcL, hins], ?_, l1, l2, by rw [← hl, htrav], by simpa [traverse] using hl', hl1, hl2⟩
            refine Valid.node _ _ _ _ (by simp; omega) (by simp; omega) ?_ hso hvo
            rw [List.length_set]; exact hlen'
      · obtain ⟨c', hc', hsc', hnec', hfin⟩ := descend_insert (i := r) v hlen hsome hr hs htake
          (by
            intro e he
            exact hdrop e (by
              have hlt : r < es.length := by
                rcases List.getElem?_eq_some.1 he with ⟨h, _⟩; exact h
              rcases List.getElem?_eq_some.1 he with ⟨_, h⟩
              rw [List.drop_eq_getElem_cons hlt, h]
              exact List.mem_cons_self _ _))
        have hcc : c' = c := by
          rw [hc] at hc'; exact (Option.some.inj hc').symm
        subst hcc
        have hcn : c'.numKeys < MAX_KEYS := by
          have hle : c'.numKeys ≤ MAX_KEYS := by
            cases hcv <;> simpa [numKeys, entries]
          have hne5 : c'.numKeys ≠ MAX_KEYS := by
            simpa [isFull] using hfull
          omega
        obtain ⟨c'', hins, hv'', t1, t2, ht, ht', ht1, ht2⟩ :=
          ih c' MIN_KEYS h' k v hcv hcn (by omega) hsc' (hnec' hne)
        obtain ⟨l1, l2, hl, hl', hl1, hl2⟩ := hfin c'' t1 t2 ht ht' ht1 ht2
        obtain ⟨hso, hvo⟩ := children_set_valid (i := r) hsome hch hv''
        refine ⟨.mk false es (cs.set r (some c'')), by
          simp only [insertNonFull, hrdef, hc, hfull, Bool.false_eq_true, if_false, hins],
          ?_, l1, l2, hl, by simpa [traverse] using hl', hl1, hl2⟩
        refine Valid.node _ _ _ _ h1 h2 ?_ hso hvo
        rw [List.length_set]; exact hlen

end BTreeNode

namespace BTreeNode

theorem Valid.shaped {minK h : Nat} {n : BTreeNode} (hv : Valid minK h n) : Shaped n := by
  induction hv with
  | leaf _ es _ _ => exact Shaped.leaf es
  | node _ _ es cs _ _ hlen hsome _ ih => exact Shaped.node es cs hlen hsome ih

theorem Valid.mono {minK minK' h : Nat} {n : BTreeNode} (hv : Valid minK h n)
    (hle : minK' ≤ minK) : Valid minK' h n := by
  cases hv with
  | leaf _ es h1 h2 => exact Valid.leaf _ es (by omega) h2
  | node _ h' es cs h1 h2 hlen hsome hch => exact Valid.node _ h' es cs (by omega) h2 hlen hsome hch

theorem heightList_eq {cs : List (Option BTreeNode)} {h : Nat} (hne : cs ≠ [])
    (hsome : ∀ o ∈ cs, o ≠ none) (hh : ∀ c, some c ∈ cs → height c = h) :
    heightList cs = h := by
  induction cs with
  | nil => exact absurd rfl hne
  | cons o cs ih =>
    cases o with
    | none => exact absurd rfl (hsome none (by simp))
    | some c =>
      simp only [heightList]
      have hc : height c = h := hh c (by simp)
      cases cs with
      | nil => simp [heightList, hc]
      | cons o' cs' =>
        have := ih (by simp) (fun o ho => hsome o (List.mem_cons_of_mem _ ho))
          (fun x hx => hh x (List.mem_cons_of_mem _ hx))
        rw [this, hc]; simp

theorem Valid.height_eq {minK h : Nat} {n : BTreeNode} (hv : Valid minK h n) : height n = h := by
  induction hv with
  | leaf _ es _ _ => simp [height, heightList]
  | node _ h' es cs _ _ hlen hsome _ ih =>
    simp only [height]
    rw [heightList_eq (by intro h0; subst h0; simp at hlen) hsome ih]

theorem update_valid {minK h : Nat} {n : BTreeNode} (hv : Valid minK h n) (k : Int) (v : String) :
    ∀ b n', updateInNode n k v = some (b, n') → Valid minK h n' := by
  induction hv with
  | leaf minK es h1 h2 =>
    intro b n' hu
    simp only [updateInNode] at hu
    split at hu
    · split at hu
      · cases hu; exact Valid.leaf _ _ (by simpa using h1) (by simpa using h2)
      · simp at hu; rw [← hu.2]; exact Valid.leaf _ _ h1 h2
    · simp at hu; rw [← hu.2]; exact Valid.leaf _ _ h1 h2
  | node minK h' es cs h1 h2 hlen hsome hch ih =>
    intro b n' hu
    have key : ∀ b' cs', updateAt cs (searchIndex k es) k v = some (b', cs') →
        Valid minK (h' + 1) (.mk false es cs') := by
      intro b' cs' hua
      rw [updateAt_eq] at hua
      cases hc : childAt cs (searchIndex k es) with
      | none => simp [hc] at hua
      | some c =>
        simp only [hc, Option.some_bind, Option.map_eq_some'] at hua
        obtain ⟨⟨b'', c'⟩, hcu, heq⟩ := hua
        simp only [Prod.mk.injEq] at heq
        obtain ⟨hso, hvo⟩ := children_set_valid (i := searchIndex k es) hsome hch
          (ih c (childAt_mem hc) b'' c' hcu)
        rw [← heq.2]
        exact Valid.node _ _ _ _ h1 h2 (by rw [List.length_set]; exact hlen) hso hvo
    simp only [updateInNode] at hu
    split at hu
    · split at hu
      · cases hu
        exact Valid.node _ _ _ _ (by simpa using h1) (by simpa using h2)
          (by simpa using hlen) hsome hch
      · simp only [Bool.false_eq_true, if_false] at hu
        split at hu
        · cases hu; exact key _ _ (by assumption)
        · cases hu
    · simp only [Bool.false_eq_true, if_false] at hu
      split at hu
      · cases hu; exact key _ _ (by assumption)
      · cases hu

end BTreeNode

namespace BTree

open BTreeNode

theorem TreeOk.root_shaped {t : BTree} (h : TreeOk t) {r : BTreeNode} (hr : t.root = some r) :
    Shaped r ∧ KeySorted r.traverse := by
  unfold TreeOk at h
  rw [hr] at h
  obtain ⟨_, hv, hs⟩ := h
  exact ⟨hv.shaped, hs⟩

theorem exists_spec {r : BTreeNode} (hn : Shaped r) (hs : KeySorted r.traverse) (k : Int) :
    ((∀ e ∈ r.traverse, e.1 ≠ k) → BTree.exists ⟨some r⟩ k = some false) ∧
    (∀ v, (k, v) ∈ r.traverse → BTree.exists ⟨some r⟩ k = some (!v.isEmpty)) := by
  have h := search_spec hn k hs
  constructor
  · intro hne
    have he : ("" : String).isEmpty = true := by decide
    simp [BTree.exists, BTree.search, h.2 hne, he]
  · intro v hv
    simp [BTree.exists, BTree.search, h.1 v hv]

theorem insert_spec {t : BTree} (ht : TreeOk t) (k : Int) (v : String)
    (hne : ∀ e ∈ t.traverseAll, e.1 ≠ k) :
    ∃ t', t.insert k v = some t' ∧ TreeOk t' ∧
      ∃ l1 l2, t.traverseAll = l1 ++ l2 ∧ t'.traverseAll = l1 ++ (k, v) :: l2 ∧
        (∀ e ∈ l1, e.1 < k) ∧ (∀ e ∈ l2, k < e.1) := by
  obtain ⟨root⟩ := t
  cases root with
  | none =>
    refine ⟨⟨some (.mk true [(k, v)] [])⟩, by simp [insert], ?_, [], [], by simp [traverseAll],
      by simp [traverseAll, BTreeNode.traverse, traverseLoop], by simp, by simp⟩
    exact ⟨1, Valid.leaf _ _ (by simp) (by simp [MAX_KEYS, BTREE_ORDER]),
      by simp [BTreeNode.traverse, traverseLoop, KeySorted]⟩
  | some r =>
    obtain ⟨h, hv, hs⟩ := ht
    simp only [traverseAll] at hne ⊢
    have hex := (exists_spec hv.shaped hs k).1 hne
    have hheight := hv.height_eq
    by_cases hfull : r.isFull = true
    · obtain ⟨cl, ces, ccs⟩ := r
      have h5 : ces.length = 5 := by
        simpa [isFull, numKeys, entries, MAX_KEYS, BTREE_ORDER] using hfull
      match ces, h5 with
      | [e0, e1, e2, e3, e4], _ =>
        obtain ⟨hL, hR, htr⟩ := split_halves hv
        have hsp := @splitChild_eq [] [some (BTreeNode.mk cl [e0, e1, e2, e3, e4] ccs)] 0 false cl
          e0 e1 e2 e3 e4 ccs (by simp) (by simp [MAX_KEYS, BTREE_ORDER]) (by simp) (by simp [childAt])
        have hLn : (BTreeNode.mk cl [e0, e1] (if cl then ccs else ccs.take 3)).numKeys < MAX_KEYS := by
          simp [numKeys, entries, MAX_KEYS, BTREE_ORDER]
        have hRn : (BTreeNode.mk cl [e3, e4]
            (if cl then [] else (ccs.drop 3).take 3)).numKeys < MAX_KEYS := by
          simp [numKeys, entries, MAX_KEYS, BTREE_ORDER]
        generalize BTreeNode.mk cl [e0, e1] (if cl then ccs else ccs.take 3) = L
          at hL htr hsp hLn
        generalize BTreeNode.mk cl [e3, e4] (if cl then [] else (ccs.drop 3).take 3) = R
          at hR htr hsp hRn
        simp only [List.take_nil, List.drop_nil, List.nil_append, List.drop_succ_cons] at hsp
        have hs' : KeySorted (traverseLoop false [e2] [some L, some R]) := by
          simpa [traverseLoop, traversePtr, htr] using hs
        have hne' : ∀ e ∈ traverseLoop false [e2] [some L, some R], e.1 ≠ k := by
          simpa [traverseLoop, traversePtr, htr] using hne
        have htreq : traverseLoop false [e2] [some L, some R] =
            (BTreeNode.mk cl [e0, e1, e2, e3, e4] ccs).traverse := by
          simp [traverseLoop, traversePtr, htr]
        have hsome' : ∀ o ∈ [some L, some R], o ≠ none := by simp
        have hch' : ∀ x, some x ∈ [some L, some R] → Valid MIN_KEYS h x := by
          intro x hx
          simp at hx
          rcases hx with rfl | rfl
          · exact hL
          · exact hR
        have he2 : e2.1 ≠ k := hne' e2 (by simp [traverseLoop])
        by_cases hlt : e2.1 < k
        · obtain ⟨c', hc', hsc', hnec', hfin⟩ := @descend_insert [e2] [some L, some R] 1 k v (by simp) hsome' (by simp) hs'
            (by simpa using hlt) (by simp)
          have hc'eq : c' = R := by simpa [childAt] using hc'.symm
          subst hc'eq
          obtain ⟨c'', hins, hv'', t1, t2, ht, ht', ht1, ht2⟩ :=
            insertNonFull_spec h c' MIN_KEYS h k v hR hRn (le_refl _) hsc' (hnec' hne')
          obtain ⟨l1, l2, hl, hl', hl1, hl2⟩ := hfin c'' t1 t2 ht ht' ht1 ht2
          obtain ⟨hso, hvo⟩ := children_set_valid (i := 1) hsome' hch' hv''
          refine ⟨⟨some (.mk false [e2] ([some L, some c'].set 1 (some c'')))⟩, ?_, ?_,
            l1, l2, by rw [← hl, htreq], by simpa [BTreeNode.traverse] using hl', hl1, hl2⟩
          · simp only [insert, hex, hfull, if_true, hsp, List.getElem?_cons_zero, hlt, hheight]
            simp [childAt, hins]
          · refine ⟨h + 1, Valid.node _ _ _ _ (by simp) (by simp [MAX_KEYS, BTREE_ORDER])
              (by simp) hso hvo, ?_⟩
            simp only [BTreeNode.traverse]
            rw [hl']
            rw [hl] at hs'
            have hp := List.pairwise_append.1 hs'
            refine List.pairwise_append.2 ⟨hp.1, List.pairwise_cons.2 ⟨hl2, hp.2.1⟩, ?_⟩
            intro a ha b hb
            rcases List.mem_cons.1 hb with rfl | hb
            · exact hl1 a ha
            · exact hp.2.2 a ha b hb
        · have hgt : k < e2.1 := by omega
          obtain ⟨c', hc', hsc', hnec', hfin⟩ := @descend_insert [e2] [some L, some R] 0 k v (by simp) hsome' (by simp) hs'
            (by simp) (by simpa using hgt)
          have hc'eq : c' = L := by simpa [childAt] using hc'.symm
          subst hc'eq
          obtain ⟨c'', hins, hv'', t1, t2, ht, ht', ht1, ht2⟩ :=
            insertNonFull_spec h c' MIN_KEYS h k v hL hLn (le_refl _) hsc' (hnec' hne')
          obtain ⟨l1, l2, hl, hl', hl1, hl2⟩ := hfin c'' t1 t2 ht ht' ht1 ht2
          obtain ⟨hso, hvo⟩ := children_set_valid (i := 0) hsome' hch' hv''
          refine ⟨⟨some (.mk false [e2] ([some c', some R].set 0 (some c'')))⟩, ?_, ?_,
            l1, l2, by rw [← hl, htreq], by simpa [BTreeNode.traverse] using hl', hl1, hl2⟩
          · simp only [insert, hex, hfull, if_true, hsp, List.getElem?_cons_zero, hlt, hheight]
            simp [childAt, hins]
          · refine ⟨h + 1, Valid.node _ _ _ _ (by simp) (by simp [MAX_KEYS, BTREE_ORDER])
              (by simp) hso hvo, ?_⟩
            simp only [BTreeNode.traverse]
            rw [hl']
            rw [hl] at hs'
            have hp := List.pairwise_append.1 hs'
            refine List.pairwise_append.2 ⟨hp.1, List.pairwise_cons.2 ⟨hl2, hp.2.1⟩, ?_⟩
            intro a ha b hb
            rcases List.mem_cons.1 hb with rfl | hb
            · exact hl1 a ha
            · exact hp.2.2 a ha b hb
    · have hcn : r.numKeys < MAX_KEYS := by
        have hle : r.numKeys ≤ MAX_KEYS := by
          cases hv <;> simpa [numKeys, entries]
        have hne5 : r.numKeys ≠ MAX_KEYS := by
          simpa [isFull] using hfull
        omega
      obtain ⟨r', hins, hv', l1, l2, hl, hl', hl1, hl2⟩ :=
        insertNonFull_spec h r 1 h k v hv hcn (le_refl _) hs hne
      refine ⟨⟨some r'⟩, ?_, ⟨h, hv', ?_⟩, l1, l2, hl, hl', hl1, hl2⟩
      · simp [insert, hex, hfull, hheight, hins]
      · rw [hl']
        rw [hl] at hs
        have hp := List.pairwise_append.1 hs
        refine List.pairwise_append.2 ⟨hp.1, List.pairwise_cons.2 ⟨hl2, hp.2.1⟩, ?_⟩
        intro a ha b hb
        rcases List.mem_cons.1 hb with rfl | hb
        · exact hl1 a ha
        · exact hp.2.2 a ha b hb

end BTree

namespace BTree

open BTreeNode

theorem keySorted_insert {l1 l2 : List (Int × String)} {k : Int} (v : String)
    (hs : KeySorted (l1 ++ l2)) (h1 : ∀ e ∈ l1, e.1 < k) (h2 : ∀ e ∈ l2, k < e.1) :
    KeySorted (l1 ++ (k, v) :: l2) := by
  have hp := List.pairwise_append.1 hs
  refine List.pairwise_append.2 ⟨hp.1, List.pairwise_cons.2 ⟨h2, hp.2.1⟩, ?_⟩
  intro a ha b hb
  rcases List.mem_cons.1 hb with rfl | hb
  · exact h1 a ha
  · exact hp.2.2 a ha b hb

theorem update_tree_spec {t : BTree} (ht : TreeOk t) (k : Int) (v : String) :
    ((∀ e ∈ t.traverseAll, e.1 ≠ k) → t.update k v = some (false, t)) ∧
    ((∃ e ∈ t.traverseAll, e.1 = k) → ∃ t', t.update k v = some (true, t') ∧ TreeOk t' ∧
      t'.eraseValues = t.eraseValues ∧
      t'.traverseAll = t.traverseAll.map (fun x => if x.1 = k then (x.1, v) else x)) := by
  obtain ⟨root⟩ := t
  cases root with
  | none =>
    constructor
    · intro _; simp [update]
    · rintro ⟨e, he, _⟩; simp [traverseAll] at he
  | some r =>
    obtain ⟨h, hv, hs⟩ := ht
    have hu := update_spec hv.shaped k v hs
    constructor
    · intro hne
      simp [update, hu.1 hne]
    · intro hex
      obtain ⟨r', h1, h2, h3⟩ := hu.2 hex
      refine ⟨⟨some r'⟩, by simp [update, h1], ⟨h, update_valid hv k v _ _ h1, ?_⟩,
        by simp [BTree.eraseValues, h2], by simpa [traverseAll] using h3⟩
      rw [h3]
      unfold KeySorted at hs ⊢
      rw [List.pairwise_map]
      refine List.Pairwise.imp ?_ hs
      intro a b hab
      by_cases ha : a.1 = k <;> by_cases hb : b.1 = k <;> simp [ha, hb] <;> omega

theorem runOps_spec (ops : List Op) :
    ∀ (t : BTree) (cur : Int → Option String), TreeOk t →
      (∀ k v, (k, v) ∈ t.traverseAll ↔ cur k = some v) →
      (Op.insertedKeys ops).Nodup → (∀ k ∈ Op.insertedKeys ops, cur k = none) →
      ∃ t', runOps t ops = some t' ∧ TreeOk t' ∧
        ∀ k v, (k, v) ∈ t'.traverseAll ↔ ops.foldl (Op.stepValue k) (cur k) = some v := by
  induction ops with
  | nil =>
    intro t cur ht hcur _ _
    exact ⟨t, rfl, ht, by simpa using hcur⟩
  | cons op ops ih =>
    intro t cur ht hcur hnd hfresh
    cases op with
    | insert k0 v0 =>
      simp only [Op.insertedKeys, List.nodup_cons] at hnd
      have hk0 : cur k0 = none := hfresh k0 (by simp [Op.insertedKeys])
      have hne : ∀ e ∈ t.traverseAll, e.1 ≠ k0 := by
        intro e he hek
        have := (hcur e.1 e.2).1 he
        rw [hek, hk0] at this
        cases this
      obtain ⟨t1, hins, hok, l1, l2, hl, hl', -, -⟩ := insert_spec ht k0 v0 hne
      obtain ⟨t', hrun, hok', hval⟩ := ih t1 (fun k => Op.stepValue k (cur k) (.insert k0 v0)) hok
        (by
          intro k v
          rw [hl']
          simp only [Op.stepValue]
          by_cases hk : k0 = k
          · subst hk
            simp only [if_true, Option.some.injEq]
            constructor
            · intro hm
              rcases List.mem_append.1 hm with h | h
              · exact absurd rfl (hne _ (by rw [hl]; exact List.mem_append_left _ h))
              · rcases List.mem_cons.1 h with h | h
                · simp at h; exact h.symm
                · exact absurd rfl (hne _ (by rw [hl]; exact List.mem_append_right _ h))
            · intro hv; subst hv; simp
          · simp only [hk, if_false]
            rw [← hcur k v, hl]
            simp only [List.mem_append, List.mem_cons, Prod.mk.injEq]
            constructor
            · rintro (h | ⟨h, _⟩ | h)
              · exact Or.inl h
              · exact absurd h.symm hk
              · exact Or.inr h
            · rintro (h | h)
              · exact Or.inl h
              · exact Or.inr (Or.inr h))
        hnd.2
        (by
          intro k hk
          have hkne : k0 ≠ k := by
            intro h; subst h; exact hnd.1 hk
          simp only [Op.stepValue, hkne, if_false]
          exact hfresh k (by simp [Op.insertedKeys, hk]))
      exact ⟨t', by simp [runOps, applyOp, hins, hrun], hok', by simpa using hval⟩
    | update k0 v0 =>
      simp only [Op.insertedKeys] at hnd hfresh
      have hu := update_tree_spec ht k0 v0
      by_cases hex : ∃ e ∈ t.traverseAll, e.1 = k0
      · obtain ⟨t1, hupd, hok, -, htr⟩ := hu.2 hex
        obtain ⟨e0, he0, hek0⟩ := hex
        have hsome : (cur k0).isSome = true := by
          have := (hcur e0.1 e0.2).1 he0
          rw [hek0] at this
          simp [this]
        obtain ⟨t', hrun, hok', hval⟩ := ih t1 (fun k => Op.stepValue k (cur k) (.update k0 v0)) hok
          (by
            intro k v
            rw [htr]
            simp only [Op.stepValue, List.mem_map]
            by_cases hk : k0 = k
            · subst hk
              simp only [true_and, hsome, if_true, Option.some.injEq]
              constructor
              · rintro ⟨a, _, ha⟩
                by_cases hak : a.1 = k0
                · simp [hak] at ha; exact ha
                · simp only [hak, if_false] at ha
                  rw [ha] at hak; simp at hak
              · intro hv
                exact ⟨e0, he0, by simp [hek0, hv]⟩
            · simp only [hk, false_and, if_false]
              rw [← hcur k v]
              constructor
              · rintro ⟨a, ha, hav⟩
                by_cases hak : a.1 = k0
                · simp only [hak, if_true, Prod.mk.injEq] at hav
                  exact absurd hav.1 hk
                · simp only [hak, if_false] at hav
                  rw [← hav]; exact ha
              · intro hm
                refine ⟨(k, v), hm, ?_⟩
                have : ¬ (k = k0) := fun h => hk h.symm
                simp [this])
          hnd
          (by
            intro k hk
            have := hfresh k hk
            simp [Op.stepValue, this])
        exact ⟨t', by simp [runOps, applyOp, hupd, hrun], hok', by simpa using hval⟩
      · have hne : ∀ e ∈ t.traverseAll, e.1 ≠ k0 := by
          intro e he hek; exact hex ⟨e, he, hek⟩
        have hupd := hu.1 hne
        have hnone : cur k0 = none := by
          cases hc : cur k0 with
          | none => rfl
          | some x =>
            exact absurd rfl (hne _ ((hcur k0 x).2 hc))
        obtain ⟨t', hrun, hok', hval⟩ := ih t (fun k => Op.stepValue k (cur k) (.update k0 v0)) ht
          (by
            intro k v
            rw [hcur k v]
            simp only [Op.stepValue]
            by_cases hk : k0 = k
            · subst hk; simp [hnone]
            · simp [hk])
          hnd
          (by
            intro k hk
            have := hfresh k hk
            simp [Op.stepValue, this])
        exact ⟨t', by simp [runOps, applyOp, hupd, hrun], hok', by simpa using hval⟩

theorem foldl_stepValue_isSome (ops : List Op) (k : Int) :
    ∀ cur : Option String, (ops.foldl (Op.stepValue k) cur).isSome = true ↔
      (cur.isSome = true ∨ k ∈ Op.insertedKeys ops) := by
  induction ops with
  | nil => intro cur; simp [Op.insertedKeys]
  | cons op ops ih =>
    intro cur
    simp only [List.foldl_cons]
    rw [ih]
    cases op with
    | insert k0 v0 =>
      simp only [Op.stepValue, Op.insertedKeys, List.mem_cons]
      by_cases hk : k0 = k
      · subst hk; simp
      · have : ¬ (k = k0) := fun h => hk h.symm
        simp [hk, this]
    | update k0 v0 =>
      simp only [Op.stepValue, Op.insertedKeys]
      by_cases hk : k0 = k ∧ cur.isSome = true
      · simp [hk]
      · simp [hk]

end BTree

namespace BTreeNode

theorem allNodesList_of_mem {p : BTreeNode → Bool} {cs : List (Option BTreeNode)}
    (h : ∀ c, some c ∈ cs → allNodes p c = true) : allNodesList p cs = true := by
  induction cs with
  | nil => simp [allNodesList]
  | cons o cs ih =>
    have ih' := ih (fun c hc => h c (List.mem_cons_of_mem _ hc))
    cases o with
    | none => simpa [allNodesList] using ih'
    | some c => simp [allNodesList, ih', h c (by simp)]

theorem Valid.allNodes_max {minK h : Nat} {n : BTreeNode} (hv : Valid minK h n) :
    allNodes (fun m => decide (m.numKeys ≤ MAX_KEYS)) n = true := by
  induction hv with
  | leaf _ es _ h2 => simp [allNodes, allNodesList, numKeys, entries, h2]
  | node _ _ es cs _ h2 _ _ _ ih =>
    simp only [allNodes, Bool.and_eq_true, decide_eq_true_eq]
    exact ⟨by simpa [numKeys, entries] using h2, allNodesList_of_mem ih⟩

theorem Valid.allNodes_min {minK h : Nat} {n : BTreeNode} (hv : Valid minK h n) :
    allNodesList (fun m => decide (MIN_KEYS ≤ m.numKeys)) n.children = true ∧
      (MIN_KEYS ≤ minK → allNodes (fun m => decide (MIN_KEYS ≤ m.numKeys)) n = true) := by
  induction hv with
  | leaf _ es h1 _ =>
    refine ⟨by simp [children, allNodesList], fun hm => ?_⟩
    simp [allNodes, allNodesList, numKeys, entries]
    omega
  | node _ _ es cs h1 _ _ _ _ ih =>
    have hl : allNodesList (fun m => decide (MIN_KEYS ≤ m.numKeys)) cs = true :=
      allNodesList_of_mem (fun c hc => (ih c hc).2 (le_refl _))
    refine ⟨by simpa [children] using hl, fun hm => ?_⟩
    simp only [allNodes, Bool.and_eq_true, decide_eq_true_eq]
    exact ⟨by simp only [numKeys, entries]; omega, hl⟩

theorem mem_leafDepthsList {cs : List (Option BTreeNode)} {d x : Nat}
    (hx : x ∈ leafDepthsList cs d) : ∃ c, some c ∈ cs ∧ x ∈ leafDepths c d := by
  induction cs with
  | nil => simp [leafDepthsList] at hx
  | cons o cs ih =>
    cases o with
    | none =>
      simp only [leafDepthsList] at hx
      obtain ⟨c, hc, hxc⟩ := ih hx
      exact ⟨c, List.mem_cons_of_mem _ hc, hxc⟩
    | some c0 =>
      simp only [leafDepthsList, List.mem_append] at hx
      rcases hx with h | h
      · exact ⟨c0, by simp, h⟩
      · obtain ⟨c, hc, hxc⟩ := ih h
        exact ⟨c, List.mem_cons_of_mem _ hc, hxc⟩

theorem Valid.leafDepths_eq {minK h : Nat} {n : BTreeNode} (hv : Valid minK h n) :
    ∀ d, ∀ x ∈ leafDepths n d, x + 1 = d + h := by
  induction hv with
  | leaf _ es _ _ => intro d x hx; simp [leafDepths] at hx; omega
  | node _ h' es cs _ _ _ _ _ ih =>
    intro d x hx
    simp only [leafDepths, Bool.false_eq_true, if_false] at hx
    obtain ⟨c, hc, hxc⟩ := mem_leafDepthsList hx
    have := ih c hc (d + 1) x hxc
    omega

end BTreeNode

namespace Snapshot

theorem escapeSet_nil (s : List Char) : escapeSet [] s = s := by
  induction s with
  | nil => rfl
  | cons x xs ih => simp [escapeSet, ih]

theorem escapeSet_congr {s1 s2 : List Char} (h : ∀ x, x ∈ s1 ↔ x ∈ s2) (s : List Char) :
    escapeSet s1 s = escapeSet s2 s := by
  induction s with
  | nil => rfl
  | cons x xs ih =>
    by_cases hx : x ∈ s1
    · simp [escapeSet, hx, (h x).1 hx, ih]
    · have hx2 : x ∉ s2 := fun h2 => hx ((h x).2 h2)
      simp [escapeSet, hx, hx2, ih]

theorem escapeChar_escapeSet (c : Char) (set : List Char) (hc : c ≠ '\\') (hcs : c ∉ set)
    (s : List Char) : escapeChar c (escapeSet set s) = escapeSet (c :: set) s := by
  have h1 : ¬ (('\\' : Char) = c) := fun h => hc h.symm
  induction s with
  | nil => rfl
  | cons x xs ih =>
    by_cases hx : x ∈ set
    · have hxc : ¬ (x = c) := fun h => hcs (h ▸ hx)
      simp [escapeSet, hx, escapeChar, ih, h1, hxc]
    · by_cases hxc : x = c
      · subst hxc
        simp [escapeSet, hx, escapeChar, ih]
      · simp [escapeSet, hx, escapeChar, ih, hxc]

theorem escapeSet_head (c : Char) (set : List Char) (hc : c ≠ '\\') (s : List Char) :
    (escapeSet (c :: set) s).head? ≠ some c := by
  cases s with
  | nil => simp [escapeSet]
  | cons x xs =>
    by_cases hx : x ∈ c :: set
    · simp only [escapeSet, hx, if_true, List.head?_cons]
      intro h
      exact hc (Option.some.inj h).symm
    · simp only [escapeSet, hx, if_false, List.head?_cons]
      intro h
      exact hx (by rw [Option.some.inj h]; exact List.mem_cons_self _ _)

theorem unescapeChar_cons (c x : Char) (rest : List Char)
    (h : ¬ (x = '\\' ∧ rest.head? = some c)) :
    unescapeChar c (x :: rest) = x :: unescapeChar c rest := by
  cases rest with
  | nil => simp [unescapeChar]
  | cons y r =>
    have h' : ¬ (x = '\\' ∧ y = c) := by simpa using h
    simp [unescapeChar, h']

theorem unescapeChar_escapeSet (c : Char) (set : List Char) (hc : c ≠ '\\') (hcs : c ∉ set)
    (hb : '\\' ∉ set) (s : List Char) :
    unescapeChar c (escapeSet (c :: set) s) = escapeSet set s := by
  induction s with
  | nil => rfl
  | cons x xs ih =>
    by_cases hxc : x = c
    · subst hxc
      simp [escapeSet, hcs, unescapeChar, ih]
    · by_cases hx : x ∈ set
      · have hxb : x ≠ '\\' := fun h => hb (h ▸ hx)
        have hx' : x ∈ c :: set := List.mem_cons_of_mem _ hx
        simp only [escapeSet, hx, hx', if_true]
        rw [unescapeChar_cons c '\\' _ (by simp [hxc]),
          unescapeChar_cons c x _ (by simp [hxb]), ih]
      · have hx' : x ∉ c :: set := by simp [hxc, hx]
        simp only [escapeSet, hx, hx', if_false]
        rw [unescapeChar_cons c x _ (fun h => escapeSet_head c set hc xs h.2), ih]

theorem unescapeValue_escapeValue (v : List Char) : unescapeValue (escapeValue v) = v := by
  unfold unescapeValue escapeValue
  have e1 : escapeChar '|' v = escapeSet ['|'] v := by
    have := escapeChar_escapeSet '|' [] (by decide) (by simp) v
    rwa [escapeSet_nil] at this
  rw [e1, escapeChar_escapeSet '[' ['|'] (by decide) (by decide),
    escapeChar_escapeSet ']' ['[', '|'] (by decide) (by decide)]
  rw [@escapeSet_congr [']', '[', '|'] ['|', '[', ']'] (by intro x; simp; tauto)]
  rw [unescapeChar_escapeSet '|' ['[', ']'] (by decide) (by decide) (by decide),
    unescapeChar_escapeSet '[' [']'] (by decide) (by decide) (by decide),
    unescapeChar_escapeSet ']' [] (by decide) (by simp) (by simp), escapeSet_nil]

end Snapshot

namespace BTreeNode

theorem insertNonFullCalls_fst (fuel : Nat) : ∀ (n : BTreeNode) (k : Int) (v : String),
    (insertNonFullCalls fuel n k v).1 = insertNonFull fuel n k v := by
  induction fuel with
  | zero => intro n k v; rfl
  | succ fuel ih =>
    intro n k v
    obtain ⟨l, es, cs⟩ := n
    simp only [insertNonFullCalls, insertNonFull]
    cases l with
    | true => simp
    | false =>
      simp only [Bool.false_eq_true, if_false]
      cases childAt cs (insertScan k es es.length) with
      | none => rfl
      | some c =>
        simp only []
        cases c.isFull with
        | false =>
          simp only [Bool.false_eq_true, if_false, ih]
        | true =>
          simp only [if_true]
          cases splitChild (mk false es cs) (insertScan k es es.length) with
          | none => rfl
          | some p =>
            obtain ⟨l', es', cs'⟩ := p
            simp only []
            cases es'[insertScan k es es.length]? with
            | none => rfl
            | some m =>
              simp only []
              cases childAt cs' (if m.1 < k then insertScan k es es.length + 1
                  else insertScan k es es.length) with
              | none => rfl
              | some c' =>
                simp only [ih]

theorem mem_leafDepthsList_of_mem {cs : List (Option BTreeNode)} {c : BTreeNode} {d x : Nat}
    (hc : some c ∈ cs) (hx : x ∈ leafDepths c d) : x ∈ leafDepthsList cs d := by
  induction cs with
  | nil => simp at hc
  | cons o cs ih =>
    cases o with
    | none =>
      simp only [leafDepthsList]
      rcases List.mem_cons.1 hc with h | h
      · cases h
      · exact ih h
    | some c0 =>
      simp only [leafDepthsList, List.mem_append]
      rcases List.mem_cons.1 hc with h | h
      · cases h; exact Or.inl hx
      · exact Or.inr (ih h)

theorem Shaped.leafDepths_ne_nil {n : BTreeNode} (hn : Shaped n) :
    ∀ d, ∃ a, a ∈ leafDepths n d ∧ d ≤ a := by
  induction hn with
  | leaf es => intro d; exact ⟨d, by simp [leafDepths], le_refl _⟩
  | node es cs hlen hsome _ ih =>
    intro d
    obtain ⟨c, hc⟩ := childAt_some_of_lt hsome (show 0 < cs.length by omega)
    obtain ⟨a, ha, hle⟩ := ih c (childAt_mem hc) (d + 1)
    refine ⟨a, ?_, by omega⟩
    simp only [leafDepths, Bool.false_eq_true, if_false]
    exact mem_leafDepthsList_of_mem (childAt_mem hc) ha

theorem valid_of_invariants {n : BTreeNode} (hn : Shaped n) :
    ∀ (minK h d : Nat), allNodes (fun m => decide (m.numKeys ≤ MAX_KEYS)) n = true →
      allNodesList (fun m => decide (MIN_KEYS ≤ m.numKeys)) n.children = true →
      minK ≤ n.numKeys → (∀ a ∈ leafDepths n d, a + 1 = d + h) → Valid minK h n := by
  induction hn with
  | leaf es =>
    intro minK h d hmax _ hmin hd
    have h1 : h = 1 := by
      have := hd d (by simp [leafDepths]); omega
    subst h1
    simp only [allNodes, Bool.and_eq_true, decide_eq_true_eq, numKeys, entries] at hmax hmin
    exact Valid.leaf _ _ hmin hmax.1
  | node es cs hlen hsome hch ih =>
    intro minK h d hmax hminc hmin hd
    simp only [allNodes, Bool.and_eq_true, decide_eq_true_eq, numKeys, entries] at hmax hmin
    simp only [children] at hminc
    obtain ⟨a0, ha0, hle0⟩ := (Shaped.node es cs hlen hsome hch).leafDepths_ne_nil d
    have hh : 2 ≤ h := by
      have h1 := hd a0 ha0
      simp only [leafDepths, Bool.false_eq_true, if_false] at ha0
      obtain ⟨c, hc, hac⟩ := mem_leafDepthsList ha0
      obtain ⟨a1, ha1, hle1⟩ := (hch c hc).leafDepths_ne_nil (d + 1)
      have h2 := hd a1 (by
        simp only [leafDepths, Bool.false_eq_true, if_false]
        exact mem_leafDepthsList_of_mem hc ha1)
      omega
    obtain ⟨h', rfl⟩ : ∃ h', h = h' + 1 := ⟨h - 1, by omega⟩
    refine Valid.node _ _ _ _ hmin hmax.1 hlen hsome ?_
    intro c hc
    have hcmin := allNodesList_mem hminc hc
    have hcmax := allNodesList_mem hmax.2 hc
    refine ih c hc MIN_KEYS h' (d + 1) hcmax ?_ ?_ ?_
    · obtain ⟨l, ces, ccs⟩ := c
      simp only [allNodes, Bool.and_eq_true] at hcmin
      simpa [children] using hcmin.2
    · obtain ⟨l, ces, ccs⟩ := c
      simp only [allNodes, Bool.and_eq_true, decide_eq_true_eq] at hcmin
      exact hcmin.1
    · intro a ha
      have := hd a (by
        simp only [leafDepths, Bool.false_eq_true, if_false]
        exact mem_leafDepthsList_of_mem hc ha)
      omega

theorem insertNonFullCalls_inBounds (fuel : Nat) :
    ∀ (n : BTreeNode) (minK h : Nat) (k : Int) (v : String),
      Valid minK h n → n.numKeys < MAX_KEYS →
      ∀ c ∈ (insertNonFullCalls fuel n k v).2, c.inBounds = true := by
  induction fuel with
  | zero => intro n minK h k v _ _ c hc; simp [insertNonFullCalls] at hc
  | succ fuel ih =>
    intro n minK h k v hv hnf
    cases hv with
    | leaf _ es h1 h2 =>
      simp only [numKeys, entries] at hnf
      intro c hc
      simp only [insertNonFullCalls, if_true, List.mem_singleton] at hc
      subst hc
      simpa [InsertCall.inBounds] using hnf
    | node _ h' es cs h1 h2 hlen hsome hch =>
      simp only [numKeys, entries] at hnf
      have hself : (InsertCall.insertNonFull es.length).inBounds = true := by
        simpa [InsertCall.inBounds] using hnf
      have hr := insertScan_le k es es.length
      generalize hrdef : insertScan k es es.length = r at hr
      obtain ⟨c, hc⟩ := childAt_some_of_lt hsome (i := r) (by omega)
      have hcv := hch c (childAt_mem hc)
      by_cases hfull : c.isFull = true
      · obtain ⟨cl, ces, ccs⟩ := c
        have h5 : ces.length = 5 := by
          simpa [isFull, numKeys, entries, MAX_KEYS, BTREE_ORDER] using hfull
        match ces, h5 with
        | [e0, e1, e2, e3, e4], _ =>
          obtain ⟨hL, hR, _⟩ := split_halves hcv
          have hsp := splitChild_eq (l := false) hlen hnf hr hc
          have hLn : (BTreeNode.mk cl [e0, e1] (if cl then ccs else ccs.take 3)).numKeys < MAX_KEYS := by
            simp [numKeys, entries, MAX_KEYS, BTREE_ORDER]
          have hRn : (BTreeNode.mk cl [e3, e4]
              (if cl then [] else (ccs.drop 3).take 3)).numKeys < MAX_KEYS := by
            simp [numKeys, entries, MAX_KEYS, BTREE_ORDER]
          generalize BTreeNode.mk cl [e0, e1] (if cl then ccs else ccs.take 3) = L
            at hL hsp hLn
          generalize BTreeNode.mk cl [e3, e4] (if cl then [] else (ccs.drop 3).take 3) = R
            at hR hsp hRn
          obtain ⟨_, _, _, hgetr, hcL, hcR, _, _, _⟩ :=
            split_parent_facts e2 hlen hsome hch hr hL hR
          have hsplit : (InsertCall.splitChild es.length
              (BTreeNode.mk cl [e0, e1, e2, e3, e4] ccs).numKeys).inBounds = true := by
            simpa [InsertCall.inBounds, numKeys, entries, MAX_KEYS, BTREE_ORDER] using hnf
          intro x hx
          by_cases hlt : e2.1 < k
          · simp only [insertNonFullCalls, hrdef, hc, hfull, hsp, hgetr, hlt, if_true,
              Bool.false_eq_true, if_false, hcR, List.mem_cons] at hx
            rcases hx with rfl | rfl | hx
            · exact hself
            · exact hsplit
            · exact ih R MIN_KEYS h' k v hR hRn x hx
          · simp only [insertNonFullCalls, hrdef, hc, hfull, hsp, hgetr, hlt, if_true,
              Bool.false_eq_true, if_false, hcL, List.mem_cons] at hx
            rcases hx with rfl | rfl | hx
            · exact hself
            · exact hsplit
            · exact ih L MIN_KEYS h' k v hL hLn x hx
      · have hcn : c.numKeys < MAX_KEYS := by
          have hle : c.numKeys ≤ MAX_KEYS := by
            cases hcv <;> simpa [numKeys, entries]
          have hne5 : c.numKeys ≠ MAX_KEYS := by
            simpa [isFull] using hfull
          omega
        intro x hx
        simp only [insertNonFullCalls, hrdef, hc, hfull, Bool.false_eq_true, if_false,
          List.mem_cons] at hx
        rcases hx with rfl | hx
        · exact hself
        · exact ih c MIN_KEYS h' k v hcv hcn x hx

end BTreeNode

namespace BTree

open BTreeNode

theorem insertCalls_fst (t : BTree) (k : Int) (v : String) :
    (t.insertCalls k v).1 = t.insert k v := by
  obtain ⟨root⟩ := t
  cases root with
  | none => rfl
  | some r =>
    simp only [insertCalls, insert]
    cases BTree.exists ⟨some r⟩ k with
    | none => rfl
    | some b =>
      cases b with
      | true => rfl
      | false =>
        simp only []
        cases r.isFull with
        | false =>
          simp only [Bool.false_eq_true, if_false, insertNonFullCalls_fst]
        | true =>
          simp only [if_true]
          cases splitChild (BTreeNode.mk false [] [some r]) 0 with
          | none => rfl
          | some p =>
            obtain ⟨l, es, cs⟩ := p
            simp only []
            cases es[0]? with
            | none => rfl
            | some m =>
              simp only []
              cases childAt cs (if m.1 < k then 1 else 0) with
              | none => rfl
              | some c =>
                simp only [insertNonFullCalls_fst]

theorem treeOk_of_nodeInvariants {t : BTree} (h : t.nodeInvariants = true) : TreeOk t := by
  obtain ⟨root⟩ := t
  cases root with
  | none => trivial
  | some r =>
    simp only [nodeInvariants, Bool.and_eq_true, decide_eq_true_eq, List.all_eq_true,
      beq_iff_eq] at h
    obtain ⟨⟨⟨⟨hinv, hmax⟩, hmin⟩, hroot⟩, hdepth⟩ := h
    obtain ⟨hshape, hsorted⟩ := shaped_sorted_of_inv r hinv
    obtain ⟨a0, ha0, _⟩ := hshape.leafDepths_ne_nil 0
    refine ⟨a0 + 1, valid_of_invariants hshape 1 (a0 + 1) 0 hmax hmin hroot ?_, hsorted⟩
    intro a ha
    have := hdepth a ha a0 ha0
    omega

theorem insertCalls_inBounds {t : BTree} (ht : TreeOk t) (k : Int) (v : String)
    (hne : ∀ e ∈ t.traverseAll, e.1 ≠ k) :
    ∀ c ∈ (t.insertCalls k v).2, c.inBounds = true := by
  obtain ⟨root⟩ := t
  cases root with
  | none => intro c hc; simp [insertCalls] at hc
  | some r =>
    obtain ⟨h, hv, hs⟩ := ht
    simp only [traverseAll] at hne
    have hex := (exists_spec hv.shaped hs k).1 hne
    by_cases hfull : r.isFull = true
    · obtain ⟨cl, ces, ccs⟩ := r
      have h5 : ces.length = 5 := by
        simpa [isFull, numKeys, entries, MAX_KEYS, BTREE_ORDER] using hfull
      match ces, h5 with
      | [e0, e1, e2, e3, e4], _ =>
        obtain ⟨hL, hR, _⟩ := split_halves hv
        have hsp := @splitChild_eq [] [some (BTreeNode.mk cl [e0, e1, e2, e3, e4] ccs)] 0 false cl
          e0 e1 e2 e3 e4 ccs (by simp) (by simp [MAX_KEYS, BTREE_ORDER]) (by simp) (by simp [childAt])
        have hLn : (BTreeNode.mk cl [e0, e1] (if cl then ccs else ccs.take 3)).numKeys < MAX_KEYS := by
          simp [numKeys, entries, MAX_KEYS, BTREE_ORDER]
        have hRn : (BTreeNode.mk cl [e3, e4]
            (if cl then [] else (ccs.drop 3).take 3)).numKeys < MAX_KEYS := by
          simp [numKeys, entries, MAX_KEYS, BTREE_ORDER]
        generalize BTreeNode.mk cl [e0, e1] (if cl then ccs else ccs.take 3) = L
          at hL hsp hLn
        generalize BTreeNode.mk cl [e3, e4] (if cl then [] else (ccs.drop 3).take 3) = R
          at hR hsp hRn
        simp only [List.take_nil, List.drop_nil, List.nil_append, List.drop_succ_cons,
          List.take_zero] at hsp
        have hcL : childAt [some L, some R] 0 = some L := rfl
        have hcR : childAt [some L, some R] 1 = some R := rfl
        have hsplit : (InsertCall.splitChild 0
            (BTreeNode.mk cl [e0, e1, e2, e3, e4] ccs).numKeys).inBounds = true := by
          simp [InsertCall.inBounds, numKeys, entries, MAX_KEYS, BTREE_ORDER]
        intro x hx
        by_cases hlt : e2.1 < k
        · simp only [insertCalls, hex, hfull, if_true, hsp, List.getElem?_cons_zero, hlt,
            hcR, List.mem_cons] at hx
          rcases hx with rfl | hx
          · exact hsplit
          · exact insertNonFullCalls_inBounds _ R MIN_KEYS h k v hR hRn x hx
        · simp only [insertCalls, hex, hfull, if_true, hsp, List.getElem?_cons_zero, hlt,
            if_false, hcL, List.mem_cons] at hx
          rcases hx with rfl | hx
          · exact hsplit
          · exact insertNonFullCalls_inBounds _ L MIN_KEYS h k v hL hLn x hx
    · have hcn : r.numKeys < MAX_KEYS := by
        have hle : r.numKeys ≤ MAX_KEYS := by
          cases hv <;> simpa [numKeys, entries]
        have hne5 : r.numKeys ≠ MAX_KEYS := by
          simpa [isFull] using hfull
        omega
      intro x hx
      simp only [insertCalls, hex, hfull, Bool.false_eq_true, if_false] at hx
      exact insertNonFullCalls_inBounds _ r 1 h k v hv hcn x hx

end BTree

namespace BTreeNode

theorem slots_filterMap (cs : List (Option BTreeNode)) : ∀ k,
    ((List.range k).map (childAt cs)).filterMap id = (cs.take k).filterMap id := by
  induction cs with
  | nil =>
    intro k
    have : (List.range k).map (childAt []) = List.replicate k none := by
      induction k with
      | zero => rfl
      | succ k ih => rw [List.range_succ, List.map_append, ih]; simp [childAt, List.replicate_succ']
    rw [this]
    induction k with
    | zero => rfl
    | succ k ih => simp [List.replicate_succ]
  | cons o cs ih =>
    intro k
    cases k with
    | zero => rfl
    | succ k =>
      rw [List.range_succ_eq_map, List.map_cons, List.map_map, List.take_succ_cons]
      have hf : childAt (o :: cs) ∘ Nat.succ = childAt cs := by
        funext i; simp [childAt]
      rw [hf]
      cases o with
      | none => simpa [childAt] using ih k
      | some c => simpa [childAt] using ih k

theorem nodeCountSlots_eq (cs : List (Option BTreeNode)) : ∀ k,
    nodeCountSlots k cs = (((cs.take k).filterMap id).map nodeCount).sum := by
  induction cs with
  | nil => intro k; cases k <;> simp [nodeCountSlots]
  | cons o cs ih =>
    intro k
    cases k with
    | zero => simp [nodeCountSlots]
    | succ k =>
      cases o with
      | none => simp [nodeCountSlots, ih k]
      | some c => simp [nodeCountSlots, ih k]

theorem nodeCount_eq (n : BTreeNode) : nodeCount n = (n.queued.map nodeCount).sum + 1 := by
  obtain ⟨l, es, cs⟩ := n
  cases l with
  | true => simp [nodeCount, queued, isLeaf]
  | false =>
    simp only [nodeCount, queued, isLeaf, slots, numKeys, entries, children, Bool.false_eq_true,
      if_false]
    rw [slots_filterMap, nodeCountSlots_eq]

theorem nodeCountSlots_le (cs : List (Option BTreeNode))
    (h : ∀ c, some c ∈ cs → nodeCount c ≤ size c) : ∀ k, nodeCountSlots k cs ≤ sizeList cs := by
  induction cs with
  | nil => intro k; cases k <;> simp [nodeCountSlots]
  | cons o cs ih =>
    intro k
    have ih' := ih (fun c hc => h c (List.mem_cons_of_mem _ hc))
    cases k with
    | zero => simp [nodeCountSlots]
    | succ k =>
      cases o with
      | none => simpa [nodeCountSlots, sizeList] using ih' k
      | some c =>
        have := h c (by simp)
        have := ih' k
        simp only [nodeCountSlots, sizeList]
        omega

theorem nodeCount_le_size : ∀ n : BTreeNode, nodeCount n ≤ size n := by
  apply induct
  intro l es cs ih
  have := nodeCountSlots_le cs ih (es.length + 1)
  cases l with
  | true => simp [nodeCount, size]
  | false => simp only [nodeCount, size, Bool.false_eq_true, if_false]; omega

end BTreeNode

namespace Snapshot

open BTreeNode

theorem total_queued (x : BTreeNode) (q : List BTreeNode) :
    ((q ++ x.queued).map nodeCount).sum + 1 = ((x :: q).map nodeCount).sum := by
  have := nodeCount_eq x
  simp only [List.map_append, List.sum_append, List.map_cons, List.sum_cons]
  omega

theorem length_le_total (q : List BTreeNode) : q.length ≤ (q.map nodeCount).sum := by
  induction q with
  | nil => simp
  | cons x q ih =>
    have := nodeCount_eq x
    simp only [List.map_cons, List.sum_cons, List.length_cons]
    omega

theorem collectNodes_append (a : List BTreeNode) : ∀ (b : List BTreeNode) (f : Nat),
    ((a ++ b).map nodeCount).sum ≤ f →
    collectNodes f (a ++ b) = a ++ collectNodes (f - a.length) (b ++ (a.map queued).flatten) := by
  induction a with
  | nil => intro b f _; simp
  | cons x a ih =>
    intro b f h
    have ht := total_queued x (a ++ b)
    cases f with
    | zero =>
      have := nodeCount_eq x
      simp only [List.cons_append, List.map_cons, List.sum_cons] at h
      omega
    | succ f =>
      have hih := ih (b ++ x.queued) f (by
        rw [← List.append_assoc]; rw [List.cons_append] at h; omega)
      show collectNodes (f + 1) (x :: (a ++ b)) = _
      simp only [collectNodes, List.length_cons, Nat.add_sub_add_right,
        List.map_cons, List.flatten_cons]
      rw [List.append_assoc, hih]
      simp [List.append_assoc]

theorem collectNodes_length (f : Nat) : ∀ (q : List BTreeNode),
    (q.map nodeCount).sum ≤ f → (collectNodes f q).length = (q.map nodeCount).sum := by
  induction f with
  | zero =>
    intro q h
    have : q = [] := by
      have := length_le_total q
      exact List.length_eq_zero.1 (by omega)
    subst this
    rfl
  | succ f ih =>
    intro q h
    cases q with
    | nil => rfl
    | cons x q =>
      have ht := total_queued x q
      simp only [collectNodes, List.length_cons]
      rw [ih _ (by omega)]
      exact ht

theorem collectNodes_starts (f : Nat) (q : List BTreeNode) (h : (q.map nodeCount).sum ≤ f) :
    q <+: collectNodes f q := by
  have := collectNodes_append q [] f (by simpa using h)
  simp only [List.append_nil, List.nil_append] at this
  exact ⟨_, this.symm⟩

theorem nodeLines_eq (f : Nat) : ∀ (q : List BTreeNode) (id next : Nat),
    nodeLines f q id next =
      ((numbered (collectNodes f q) id next).map NodeRecord.line).flatten := by
  induction f with
  | zero => intro q id next; rfl
  | succ f ih =>
    intro q id next
    cases q with
    | nil => rfl
    | cons x q =>
      simp only [nodeLines, collectNodes, numbered, List.map_cons, List.flatten_cons, ih]
      rfl

theorem countNodes_eq (f : Nat) : ∀ (q : List BTreeNode),
    countNodes f q = (collectNodes f q).length := by
  induction f with
  | zero => intro q; rfl
  | succ f ih =>
    intro q
    cases q with
    | nil => rfl
    | cons x q => simp only [countNodes, collectNodes, List.length_cons, ih]

theorem numbered_ids : ∀ (ns : List BTreeNode) (id next : Nat),
    (numbered ns id next).map (fun r => r.id) = List.range' id ns.length ∧
    (numbered ns id next).map (fun r => r.node) = ns := by
  intro ns
  induction ns with
  | nil => intro id next; exact ⟨rfl, rfl⟩
  | cons x ns ih =>
    intro id next
    obtain ⟨h1, h2⟩ := ih (id + 1) (next + x.queued.length)
    simp only [numbered, List.map_cons, h1, h2, List.length_cons, List.range'_succ, and_self]

theorem numbered_children (f : Nat) : ∀ (q : List BTreeNode) (id next : Nat),
    (q.map nodeCount).sum ≤ f → next = id + q.length →
    ∀ r ∈ numbered (collectNodes f q) id next,
      id ≤ r.id ∧ r.id < r.next ∧ r.node.queued <+: (collectNodes f q).drop (r.next - id) := by
  induction f with
  | zero => intro q id next _ _ r hr; simp [collectNodes, numbered] at hr
  | succ f ih =>
    intro q id next h hn r hr
    cases q with
    | nil => simp [collectNodes, numbered] at hr
    | cons x q =>
      have ht := total_queued x q
      simp only [collectNodes, numbered, List.mem_cons] at hr
      simp only [List.length_cons] at hn
      rcases hr with rfl | hr
      · refine ⟨le_refl _, by simp only; omega, ?_⟩
        simp only [collectNodes]
        have hd : next - id = q.length + 1 := by omega
        rw [hd, List.drop_succ_cons]
        have hst := collectNodes_starts f (q ++ x.queued) (by omega)
        obtain ⟨t, ht'⟩ := hst
        rw [← ht', List.append_assoc, List.drop_left]
        exact ⟨t, by simp⟩
      · obtain ⟨h1, h2, h3⟩ := ih (q ++ x.queued) (id + 1) (next + x.queued.length) (by omega)
          (by simp only [List.length_append]; omega) r hr
        refine ⟨by omega, h2, ?_⟩
        simp only [collectNodes]
        have hd : r.next - id = (r.next - (id + 1)) + 1 := by omega
        rw [hd, List.drop_succ_cons]
        exact h3

end Snapshot

namespace Snapshot

open BTreeNode

theorem saveToFile_sample :
    BTree.saveToFile BTree.sampleTree =
      ("ORDER=3\nROOT_INDEX=0\nNODE_COUNT=3\n\n" ++
        "NODE_0|LEAF=false|KEYS=[5]|VALUES=[e]|CHILDREN=[1,2]\n" ++
        "NODE_1|LEAF=true|KEYS=[1,2]|VALUES=[a~b]\n" ++
        "NODE_2|LEAF=true|KEYS=[7,9]|VALUES=[g~i]\n").toList := by
  rfl

end Snapshot

namespace CircularQueue

theorem mod_of_lt_two {a c : Nat} (h : a < 2 * c) : a % c = if a < c then a else a - c := by
  split
  · exact Nat.mod_eq_of_lt ‹_›
  · rw [Nat.mod_eq_sub_mod (by omega)]
    exact Nat.mod_eq_of_lt (by omega)

theorem ringInv_iff {T : Type} {CAPACITY : Nat} (q : CircularQueue T CAPACITY) :
    q.ringInv = true ↔ q.buffer.length = CAPACITY ∧ q.head < CAPACITY ∧
      q.count ≤ CAPACITY ∧ q.tail = (q.head + q.count) % CAPACITY := by
  simp [ringInv, and_assoc]

theorem contents_length {T : Type} {CAPACITY : Nat} (q : CircularQueue T CAPACITY)
    (h : q.ringInv = true) : q.contents.length = q.count := by
  obtain ⟨hlen, hhead, hcount, htail⟩ := (ringInv_iff q).1 h
  have key : ∀ n, ((List.range n).filterMap
      (fun i => q.buffer[(q.head + i) % CAPACITY]?)).length = n := by
    intro n
    induction n with
    | zero => rfl
    | succ n ih =>
      rw [List.range_succ, List.filterMap_append, List.length_append, ih]
      have hlt : (q.head + n) % CAPACITY < q.buffer.length := by
        rw [hlen]; exact Nat.mod_lt _ (by omega)
      simp [List.getElem?_eq_getElem hlt]
  exact key q.count

theorem store_spec {T : Type} {CAPACITY : Nat} (q : CircularQueue T CAPACITY) (x : T)
    (h : q.ringInv = true) (hc : q.count < CAPACITY) :
    ∃ q', q.store x = .ok q' ∧ q'.ringInv = true ∧ q'.contents = q.contents ++ [x] ∧
      q'.closed = q.closed ∧ q'.count = q.count + 1 ∧ q'.head = q.head := by
  obtain ⟨hlen, hhead, hcount, htail⟩ := (ringInv_iff q).1 h
  have hpos : 0 < CAPACITY := by omega
  have htl : q.tail < CAPACITY := by rw [htail]; exact Nat.mod_lt _ hpos
  refine ⟨⟨q.buffer.set q.tail x, q.head, (q.tail + 1) % CAPACITY, q.count + 1, q.closed⟩,
    by simp only [store, htl, if_true], ?_, ?_, rfl, rfl, rfl⟩
  · rw [ringInv_iff]
    refine ⟨by simp [hlen], hhead, by simp; omega, ?_⟩
    simp only [htail]
    rw [Nat.mod_add_mod, Nat.add_assoc]
  · simp only [contents]
    rw [List.range_succ, List.filterMap_append]
    congr 1
    · apply List.filterMap_congr
      intro i hi
      have hi' : i < q.count := List.mem_range.1 hi
      have hne : q.tail ≠ (q.head + i) % CAPACITY := by
        rw [htail, mod_of_lt_two (show q.head + q.count < 2 * CAPACITY by omega),
          mod_of_lt_two (show q.head + i < 2 * CAPACITY by omega)]
        split <;> split <;> omega
      simp [List.getElem?_set, hne]
    · have : (q.head + q.count) % CAPACITY = q.tail := htail.symm
      simp [this, List.getElem?_set, hlen, htl]

theorem take_spec {T : Type} {CAPACITY : Nat} (q : CircularQueue T CAPACITY)
    (h : q.ringInv = true) (hc : 0 < q.count) :
    ∃ x q', q.take = .ok (x, q') ∧ q'.ringInv = true ∧ q.contents = x :: q'.contents ∧
      q'.closed = q.closed ∧ q'.count + 1 = q.count ∧ q'.buffer = q.buffer := by
  obtain ⟨hlen, hhead, hcount, htail⟩ := (ringInv_iff q).1 h
  have hlt : q.head < q.buffer.length := by omega
  refine ⟨q.buffer[q.head], { q with head := (q.head + 1) % CAPACITY, count := q.count - 1 },
    by simp [take, hhead, List.getElem?_eq_getElem hlt], ?_, ?_, rfl, by simp; omega, rfl⟩
  · rw [ringInv_iff]
    refine ⟨hlen, Nat.mod_lt _ (by omega), by simp; omega, ?_⟩
    simp only [htail]
    rw [Nat.mod_add_mod]
    congr 1
    omega
  · simp only [contents]
    obtain ⟨n, hn⟩ : ∃ n, q.count = n + 1 := ⟨q.count - 1, by omega⟩
    rw [hn, List.range_succ_eq_map, List.filterMap_cons, List.filterMap_map]
    simp only [Nat.add_zero, Nat.mod_eq_of_lt hhead, List.getElem?_eq_getElem hlt,
      Nat.add_sub_cancel]
    congr 1
    apply List.filterMap_congr
    intro i _
    simp only [Function.comp, Nat.mod_add_mod]
    congr 2
    omega

theorem call_sim {T : Type} {CAPACITY : Nat} (q : CircularQueue T CAPACITY)
    (h : q.ringInv = true) (c : QueueCall T) :
    (∀ e, q.call c = .error e → q.toFifo.call c = .error e) ∧
    (∀ r q', q.call c = .ok (r, q') →
      q.toFifo.call c = .ok (r, q'.toFifo) ∧ q'.ringInv = true) := by
  have hlen := contents_length q h
  obtain ⟨hbl, hhead, hcount, htail⟩ := (ringInv_iff q).1 h
  cases c with
  | enqueue x =>
    cases hcl : q.closed with
    | true => simp [call, enqueue, FifoList.call, toFifo, hcl, h]
    | false =>
      by_cases hc : q.count < CAPACITY
      · obtain ⟨q', hst, hinv, hcont, hcl', _, _⟩ := store_spec q x h hc
        simp [call, enqueue, FifoList.call, toFifo, hcl, hc, hst, hlen, hinv, hcont, hcl']
      · simp [call, enqueue, FifoList.call, toFifo, hcl, hc, hlen]
  | tryEnqueue x =>
    cases hcl : q.closed with
    | true => simp [call, tryEnqueue, FifoList.call, toFifo, hcl, h]
    | false =>
      by_cases hc : q.count < CAPACITY
      · obtain ⟨q', hst, hinv, hcont, hcl', _, _⟩ := store_spec q x h hc
        have hc2 : ¬ CAPACITY ≤ q.count := by omega
        simp [call, tryEnqueue, FifoList.call, toFifo, hcl, hc, hc2, hst, hlen, hinv, hcont, hcl']
      · have hc2 : CAPACITY ≤ q.count := by omega
        simp [call, tryEnqueue, FifoList.call, toFifo, hcl, hc, hc2, hlen, h]
  | dequeue =>
    by_cases hc : 0 < q.count
    · obtain ⟨x, q', htk, hinv, hcont, hcl', _, _⟩ := take_spec q h hc
      have hc0 : q.count ≠ 0 := by omega
      simp [call, dequeue, FifoList.call, toFifo, hc, hc0, htk, hinv, hcont, hcl']
    · have hc0 : q.count = 0 := by omega
      have hnil : q.contents = [] := by simp [contents, hc0]
      cases hcl : q.closed <;>
        simp [call, dequeue, FifoList.call, toFifo, hc0, hnil, hcl, h]
  | tryDequeue =>
    by_cases hc : 0 < q.count
    · obtain ⟨x, q', htk, hinv, hcont, hcl', _, _⟩ := take_spec q h hc
      have hc0 : q.count ≠ 0 := by omega
      simp [call, tryDequeue, FifoList.call, toFifo, hc0, htk, hinv, hcont, hcl']
    · have hc0 : q.count = 0 := by omega
      have hnil : q.contents = [] := by simp [contents, hc0]
      simp [call, tryDequeue, FifoList.call, toFifo, hc0, hnil, h]
  | close =>
    simp [call, close, FifoList.call, toFifo, contents]
    simpa [ringInv] using h

theorem run_sim {T : Type} {CAPACITY : Nat} (calls : List (QueueCall T)) :
    ∀ (q : CircularQueue T CAPACITY), q.ringInv = true →
      (q.run calls).log = (q.toFifo.run calls).log ∧
      (q.run calls).stop = (q.toFifo.run calls).stop ∧
      (q.run calls).final.toFifo = (q.toFifo.run calls).final ∧
      (q.run calls).final.ringInv = true := by
  induction calls with
  | nil => intro q h; simp [run, FifoList.run, h]
  | cons c rest ih =>
    intro q h
    obtain ⟨herr, hok⟩ := call_sim q h c
    cases hq : q.call c with
    | error e =>
      simp [run, FifoList.run, hq, herr e hq, h]
    | ok p =>
      obtain ⟨r, q'⟩ := p
      obtain ⟨hs, hinv⟩ := hok r q' hq
      obtain ⟨h1, h2, h3, h4⟩ := ih q' hinv
      simp only [run, FifoList.run, hq, hs]
      exact ⟨by rw [h1], h2, h3, h4⟩

theorem create_ringInv {T : Type} {CAPACITY : Nat} [Inhabited T] (h : 0 < CAPACITY) :
    (create : CircularQueue T CAPACITY).ringInv = true := by
  simp [ringInv, create, h]

end CircularQueue

namespace FifoList

theorem run_fifo {T : Type} {CAPACITY : Nat} (calls : List (QueueCall T)) :
    ∀ (s : FifoList T CAPACITY),
      s.items ++ QueueRun.accepted (s.run calls).log =
        QueueRun.dequeued (s.run calls).log ++ (s.run calls).final.items := by
  induction calls with
  | nil => intro s; simp [run, QueueRun.accepted, QueueRun.dequeued]
  | cons c rest ih =>
    intro s
    obtain ⟨items, closed⟩ := s
    cases c with
    | enqueue x =>
      simp only [run, call]
      split
      · rename_i heq
        split at heq
        · cases heq
        · split at heq
          · cases heq
          · simp [QueueRun.accepted, QueueRun.dequeued]
      · rename_i r s' heq
        split at heq
        · cases heq
          have := ih ⟨items, closed⟩
          simpa [QueueRun.accepted, QueueRun.dequeued] using this
        · split at heq
          · cases heq
            have := ih ⟨items ++ [x], closed⟩
            simpa [QueueRun.accepted, QueueRun.dequeued] using this
          · cases heq
    | tryEnqueue x =>
      simp only [run, call]
      split
      · rename_i heq
        split at heq
        · cases heq
        · split at heq <;> cases heq
      · rename_i r s' heq
        split at heq
        · cases heq
          have := ih ⟨items, closed⟩
          simpa [QueueRun.accepted, QueueRun.dequeued] using this
        · split at heq
          · cases heq
            have := ih ⟨items ++ [x], closed⟩
            simpa [QueueRun.accepted, QueueRun.dequeued] using this
          · cases heq
            have := ih ⟨items, closed⟩
            simpa [QueueRun.accepted, QueueRun.dequeued] using this
    | dequeue =>
      cases items with
      | nil =>
        cases closed with
        | true =>
          have := ih ⟨[], true⟩
          simpa [run, call, QueueRun.accepted, QueueRun.dequeued] using this
        | false => simp [run, call, QueueRun.accepted, QueueRun.dequeued]
      | cons x rest' =>
        have := ih ⟨rest', closed⟩
        simpa [run, call, QueueRun.accepted, QueueRun.dequeued] using this
    | tryDequeue =>
      cases items with
      | nil =>
        have := ih ⟨[], closed⟩
        simpa [run, call, QueueRun.accepted, QueueRun.dequeued] using this
      | cons x rest' =>
        have := ih ⟨rest', closed⟩
        simpa [run, call, QueueRun.accepted, QueueRun.dequeued] using this
    | close =>
      have := ih ⟨items, true⟩
      simpa [run, call, QueueRun.accepted, QueueRun.dequeued] using this

end FifoList

namespace CircularQueue

theorem run_cons {T : Type} {CAPACITY : Nat} {q q' : CircularQueue T CAPACITY}
    {c : QueueCall T} {r : QueueReturn T} (h : q.call c = .ok (r, q'))
    (rest : List (QueueCall T)) :
    q.run (c :: rest) =
      ⟨(c, r) :: (q'.run rest).log, (q'.run rest).final, (q'.run rest).stop⟩ := by
  simp only [run, h]

theorem run_drain {T : Type} {CAPACITY : Nat} (n : Nat) :
    ∀ (q : CircularQueue T CAPACITY), q.ringInv = true → q.closed = true → q.count = n →
      (q.run (List.replicate (n + 1) QueueCall.dequeue)).log =
          q.contents.map (fun x => (QueueCall.dequeue, QueueReturn.item (some x))) ++
            [(QueueCall.dequeue, QueueReturn.item none)] ∧
        (q.run (List.replicate (n + 1) QueueCall.dequeue)).stop = none := by
  induction n with
  | zero =>
    intro q _ hcl hc
    have hnil : q.contents = [] := by simp [contents, hc]
    simp [List.replicate, run, call, dequeue, hcl, hc, hnil]
  | succ n ih =>
    intro q hinv hcl hc
    obtain ⟨x, q', htk, hinv', hcont, hcl', hcount', _⟩ := take_spec q hinv (by omega)
    obtain ⟨h1, h2⟩ := ih q' hinv' (by rw [hcl', hcl]) (by omega)
    have hcall : q.call QueueCall.dequeue = .ok (QueueReturn.item (some x), q') := by
      simp [call, dequeue, hcl, hc, htk]
    rw [List.replicate_succ, run_cons hcall]
    simp only [h1, h2, hcont, List.map_cons, List.cons_append, and_self]

theorem take_closed {T : Type} {CAPACITY : Nat} {q q' : CircularQueue T CAPACITY} {x : T}
    (h : q.take = .ok (x, q')) : q'.closed = q.closed := by
  unfold take at h
  by_cases hh : q.head < CAPACITY
  · simp only [hh, if_true] at h
    cases hb : q.buffer[q.head]? with
    | none => simp [hb] at h
    | some y =>
      simp only [hb, Except.ok.injEq, Prod.mk.injEq] at h
      obtain ⟨_, rfl⟩ := h
      rfl
  · simp [hh] at h

theorem closed_call {T : Type} {CAPACITY : Nat} (q : CircularQueue T CAPACITY)
    (hcl : q.closed = true) (c : QueueCall T) (r : QueueReturn T) (q' : CircularQueue T CAPACITY)
    (h : q.call c = .ok (r, q')) :
    q'.closed = true ∧ QueueRun.accepted [(c, r)] = [] := by
  cases c with
  | enqueue x =>
    simp [call, enqueue, hcl] at h
    obtain ⟨rfl, rfl⟩ := h
    exact ⟨hcl, rfl⟩
  | tryEnqueue x =>
    simp [call, tryEnqueue, hcl] at h
    obtain ⟨rfl, rfl⟩ := h
    exact ⟨hcl, rfl⟩
  | dequeue =>
    by_cases hc : q.count = 0
    · simp [call, dequeue, hcl, hc] at h
      obtain ⟨rfl, rfl⟩ := h
      exact ⟨hcl, rfl⟩
    · cases htk : q.take with
      | error e => simp [call, dequeue, hcl, hc, htk] at h
      | ok p =>
        obtain ⟨y, q1⟩ := p
        simp [call, dequeue, hcl, hc, htk] at h
        obtain ⟨rfl, rfl⟩ := h
        exact ⟨by rw [take_closed htk, hcl], rfl⟩
  | tryDequeue =>
    by_cases hc : q.count = 0
    · simp [call, tryDequeue, hc] at h
      obtain ⟨rfl, rfl⟩ := h
      exact ⟨hcl, rfl⟩
    · cases htk : q.take with
      | error e => simp [call, tryDequeue, hc, htk] at h
      | ok p =>
        obtain ⟨y, q1⟩ := p
        simp [call, tryDequeue, hc, htk] at h
        obtain ⟨rfl, rfl⟩ := h
        exact ⟨by rw [take_closed htk, hcl], rfl⟩
  | close =>
    simp [call, close] at h
    obtain ⟨rfl, rfl⟩ := h
    exact ⟨rfl, rfl⟩

theorem closed_run {T : Type} {CAPACITY : Nat} (calls : List (QueueCall T)) :
    ∀ (q : CircularQueue T CAPACITY), q.closed = true →
      QueueRun.accepted (q.run calls).log = [] ∧ (q.run calls).final.closed = true := by
  induction calls with
  | nil => intro q h; simp [run, QueueRun.accepted, h]
  | cons c rest ih =>
    intro q h
    cases hq : q.call c with
    | error e => simp [run, hq, QueueRun.accepted, h]
    | ok p =>
      obtain ⟨r, q'⟩ := p
      obtain ⟨h1, h2⟩ := closed_call q h c r q' hq
      obtain ⟨h3, h4⟩ := ih q' h1
      simp only [run, hq]
      refine ⟨?_, h4⟩
      have : QueueRun.accepted ((c, r) :: (q'.run rest).log) =
          QueueRun.accepted [(c, r)] ++ QueueRun.accepted (q'.run rest).log := by
        unfold QueueRun.accepted
        rw [← List.filterMap_append]
        rfl
      rw [this, h2, h3]; rfl

end CircularQueue

namespace Snapshot

theorem digit_facts : ∀ d, d < 10 →
    (Char.ofNat (48 + d)).isDigit = true ∧ (Char.ofNat (48 + d)).toNat - 48 = d := by
  decide

theorem digit_not_sign {c : Char} (h : c.isDigit = true) :
    isSpace c = false ∧ c ≠ '-' ∧ c ≠ '+' ∧ c ≠ '|' := by
  refine ⟨?_, ?_, ?_, ?_⟩
  · cases hs : isSpace c with
    | false => rfl
    | true =>
      simp only [isSpace, Bool.or_eq_true, decide_eq_true_eq] at hs
      rcases hs with ((((rfl | rfl) | rfl) | rfl) | rfl) | rfl <;> exact absurd h (by decide)
  · rintro rfl; exact absurd h (by decide)
  · rintro rfl; exact absurd h (by decide)
  · rintro rfl; exact absurd h (by decide)

theorem digitsValue_append (a b : List Char) (acc : Nat) :
    digitsValue (a ++ b) acc = digitsValue b (digitsValue a acc) := by
  induction a generalizing acc with
  | nil => rfl
  | cons c a ih => simp [digitsValue, ih]

theorem natDigits_spec (fuel : Nat) : ∀ (n : Nat) (acc : List Char), n < fuel →
    ∃ ds, natDigits fuel n acc = ds ++ acc ∧ ds ≠ [] ∧ (∀ c ∈ ds, c.isDigit = true) ∧
      ∀ a, digitsValue ds a = a * 10 ^ ds.length + n := by
  induction fuel with
  | zero => intro n acc h; omega
  | succ fuel ih =>
    intro n acc h
    obtain ⟨hd1, hd2⟩ := digit_facts (n % 10) (Nat.mod_lt _ (by omega))
    by_cases h0 : n / 10 = 0
    · refine ⟨[Char.ofNat (48 + n % 10)], by simp [natDigits, h0], by simp, by simpa using hd1, ?_⟩
      intro a
      have hn : n % 10 = n := Nat.mod_eq_of_lt (by omega)
      simp only [digitsValue, List.length_singleton, pow_one]
      rw [hd2, hn]
    · have hlt : n / 10 < fuel := by omega
      obtain ⟨ds, hds, hne, hdig, hval⟩ := ih (n / 10) (Char.ofNat (48 + n % 10) :: acc) hlt
      refine ⟨ds ++ [Char.ofNat (48 + n % 10)], by simp [natDigits, h0, hds], by simp, ?_, ?_⟩
      · intro c hc
        rcases List.mem_append.1 hc with hc | hc
        · exact hdig c hc
        · simp at hc; subst hc; exact hd1
      · intro a
        rw [digitsValue_append, hval]
        simp only [digitsValue, hd2, List.length_append, List.length_singleton, pow_succ]
        have := Nat.div_add_mod n 10
        nlinarith [this]

theorem showNat_spec (n : Nat) :
    showNat n ≠ [] ∧ (∀ c ∈ showNat n, c.isDigit = true) ∧ digitsValue (showNat n) 0 = n := by
  obtain ⟨ds, hds, hne, hdig, hval⟩ := natDigits_spec (n + 1) n [] (by omega)
  simp only [List.append_nil] at hds
  unfold showNat
  rw [hds]
  exact ⟨hne, hdig, by simpa using hval 0⟩

theorem stoi_digits {ds : List Char} (hne : ds ≠ []) (hd : ∀ c ∈ ds, c.isDigit = true) :
    stoi ds = if 2147483647 < (digitsValue ds 0 : Int) then Except.error LoadError.thrown
      else Except.ok (digitsValue ds 0 : Int) := by
  cases ds with
  | nil => exact absurd rfl hne
  | cons c rest =>
    have hc := hd c (by simp)
    obtain ⟨hsp, hm, hp, _⟩ := digit_not_sign hc
    have htw : (c :: rest).takeWhile Char.isDigit = c :: rest :=
      List.takeWhile_eq_self_iff.2 hd
    have hdw : (c :: rest).dropWhile isSpace = c :: rest := by
      simp [List.dropWhile, hsp]
    have hhead : ¬ ((c :: rest).head? = some '-') := by
      simp only [List.head?_cons, Option.some.injEq]; exact hm
    have hnn : ¬ ((digitsValue (c :: rest) 0 : Int) < -2147483648) := by omega
    unfold stoi
    simp only [hdw]
    unfold stoi.match_1
    simp only [List.casesOn, dif_neg hm, dif_neg hp, htw, hhead, if_false, List.isEmpty_cons,
      Bool.false_eq_true, hnn, false_or]

theorem stoi_neg_digits {ds : List Char} (hne : ds ≠ []) (hd : ∀ c ∈ ds, c.isDigit = true) :
    stoi ('-' :: ds) =
      if -(digitsValue ds 0 : Int) < -2147483648 then Except.error LoadError.thrown
      else Except.ok (-(digitsValue ds 0 : Int)) := by
  have htw : ds.takeWhile Char.isDigit = ds := List.takeWhile_eq_self_iff.2 hd
  have hdw : ('-' :: ds).dropWhile isSpace = '-' :: ds := by
    have : isSpace '-' = false := by decide
    simp [List.dropWhile, this]
  have hempty : ds.isEmpty = false := by
    cases ds with
    | nil => exact absurd rfl hne
    | cons _ _ => rfl
  unfold stoi
  simp only [hdw, htw, hempty, List.head?_cons, if_true, Bool.false_eq_true, if_false]
  have hnn : ¬ (2147483647 < -(digitsValue ds 0 : Int)) := by omega
  simp only [hnn, or_false]

theorem stoi_showInt (i : Int) (h1 : -2147483648 ≤ i) (h2 : i ≤ 2147483647) :
    stoi (showInt i) = Except.ok i := by
  obtain ⟨hne, hdig, hval⟩ := showNat_spec i.natAbs
  unfold showInt
  by_cases hneg : i < 0
  · simp only [hneg, if_true]
    rw [stoi_neg_digits hne hdig, hval]
    have : -(i.natAbs : Int) = i := by omega
    rw [this]
    simp only [show ¬ (i < -2147483648) by omega, if_false]
  · simp only [hneg, if_false]
    rw [stoi_digits hne hdig, hval]
    have : (i.natAbs : Int) = i := by omega
    rw [this]
    simp only [show ¬ (2147483647 < i) by omega, if_false]

theorem showInt_no_bar (i : Int) : '|' ∉ showInt i := by
  obtain ⟨_, hdig, _⟩ := showNat_spec i.natAbs
  have hnat : '|' ∉ showNat i.natAbs := fun h => (digit_not_sign (hdig _ h)).2.2.2 rfl
  unfold showInt
  split
  · intro h
    rcases List.mem_cons.1 h with h | h
    · exact absurd h (by decide)
    · exact hnat h
  · exact hnat

theorem splitAux_append (d : Char) (a : List Char) : ∀ (cur rest : List Char), d ∉ a →
    splitAux d (a ++ d :: rest) cur = (cur.reverse ++ a) :: splitAux d rest [] := by
  induction a with
  | nil => intro cur rest _; simp [splitAux]
  | cons c a ih =>
    intro cur rest h
    have hc : c ≠ d := fun e => h (by simp [e])
    have ha : d ∉ a := fun e => h (List.mem_cons_of_mem _ e)
    have := ih (c :: cur) rest ha
    show splitAux d (c :: (a ++ d :: rest)) cur = _
    simp only [splitAux, hc, if_false]
    rw [this]
    simp

theorem splitAux_last (d : Char) (a : List Char) : ∀ (cur : List Char), d ∉ a →
    splitAux d a cur = if (cur.reverse ++ a).isEmpty then [] else [cur.reverse ++ a] := by
  induction a with
  | nil => intro cur _; simp [splitAux]
  | cons c a ih =>
    intro cur h
    have hc : c ≠ d := fun e => h (by simp [e])
    have ha : d ∉ a := fun e => h (List.mem_cons_of_mem _ e)
    simp only [splitAux, hc, if_false]
    rw [ih (c :: cur) ha]
    simp

end Snapshot

namespace Response

open Snapshot

theorem indexOf_cons_none {pat : List Char} {c : Char} {s : List Char} :
    indexOf pat (c :: s) = none ↔ pat.isPrefixOf (c :: s) = false ∧ indexOf pat s = none := by
  simp only [indexOf]
  cases hp : pat.isPrefixOf (c :: s) with
  | true => simp
  | false =>
    cases hi : indexOf pat s with
    | none => simp
    | some i => simp

theorem indexOf_cons_some {pat : List Char} {c : Char} {s : List Char} {i : Nat}
    (hp : pat.isPrefixOf (c :: s) = false) (hi : indexOf pat s = some i) :
    indexOf pat (c :: s) = some (i + 1) := by
  simp only [indexOf, hp, hi, Bool.false_eq_true, if_false]

theorem indexOf_bar_none {s : List Char} (h : '|' ∉ s) : indexOf ['|'] s = none := by
  induction s with
  | nil => rfl
  | cons c s ih =>
    have hc : c ≠ '|' := fun e => h (by simp [e])
    rw [indexOf_cons_none]
    refine ⟨?_, ih (fun e => h (List.mem_cons_of_mem _ e))⟩
    simp [List.isPrefixOf, Ne.symm hc]

theorem indexOf_bar_some {a : List Char} (b : List Char) (h : '|' ∉ a) :
    indexOf ['|'] (a ++ '|' :: b) = some a.length := by
  induction a with
  | nil => simp [indexOf, List.isPrefixOf]
  | cons c a ih =>
    have hc : c ≠ '|' := fun e => h (by simp [e])
    have := ih (fun e => h (List.mem_cons_of_mem _ e))
    rw [List.cons_append, indexOf_cons_some _ this]
    · rfl
    · simp [List.isPrefixOf, Ne.symm hc]

theorem first_bar (m : List Char) :
    '|' ∉ m ∨ ∃ a b, m = a ++ '|' :: b ∧ '|' ∉ a := by
  induction m with
  | nil => exact Or.inl (by simp)
  | cons c m ih =>
    by_cases hc : c = '|'
    · exact Or.inr ⟨[], m, by simp [hc], by simp⟩
    · rcases ih with h | ⟨a, b, rfl, ha⟩
      · refine Or.inl ?_
        intro hmem
        rcases List.mem_cons.1 hmem with e | e
        · exact hc e.symm
        · exact h e
      · refine Or.inr ⟨c :: a, b, rfl, ?_⟩
        intro hmem
        rcases List.mem_cons.1 hmem with e | e
        · exact hc e.symm
        · exact ha e

theorem escapePass_eq_self {m : List Char} (h : '|' ∉ m) : escapePass m = m := by
  induction m with
  | nil => rfl
  | cons c m ih =>
    have hc : c ≠ '|' := fun e => h (by simp [e])
    simp only [escapePass, hc, if_false, ih (fun e => h (List.mem_cons_of_mem _ e))]

theorem escapePass_append {a : List Char} (b : List Char) (h : '|' ∉ a) :
    escapePass (a ++ '|' :: b) = a ++ '\\' :: 'p' :: escapePass b := by
  induction a with
  | nil => simp [escapePass]
  | cons c a ih =>
    have hc : c ≠ '|' := fun e => h (by simp [e])
    have := ih (fun e => h (List.mem_cons_of_mem _ e))
    show escapePass (c :: (a ++ '|' :: b)) = c :: (a ++ '\\' :: 'p' :: escapePass b)
    simp only [escapePass, hc, if_false, this]

theorem escapePass_no_bar (m : List Char) : '|' ∉ escapePass m := by
  induction m with
  | nil => simp [escapePass]
  | cons c m ih =>
    by_cases hc : c = '|'
    · simp only [escapePass, hc, if_true]
      intro h
      rcases List.mem_cons.1 h with e | e
      · exact absurd e (by decide)
      · rcases List.mem_cons.1 e with e | e
        · exact absurd e (by decide)
        · exact ih e
    · simp only [escapePass, hc, if_false]
      intro h
      rcases List.mem_cons.1 h with e | e
      · exact hc e.symm
      · exact ih e

theorem length_le_escapePass (m : List Char) : m.length ≤ (escapePass m).length := by
  induction m with
  | nil => simp [escapePass]
  | cons c m ih =>
    simp only [escapePass]
    split <;> simp <;> omega

theorem replace_at (a mid b new : List Char) :
    replace (a ++ mid ++ b) a.length mid.length new = a ++ new ++ b := by
  simp [replace, List.take_append_eq_append_take, List.drop_append_eq_append_drop]

theorem escapeLoop_eq (fuel : Nat) : ∀ (u m : List Char), '|' ∉ u → m.length ≤ fuel →
    escapeLoop fuel (u ++ m) = u ++ escapePass m := by
  induction fuel with
  | zero =>
    intro u m _ hm
    have : m = [] := List.length_eq_zero.1 (by omega)
    subst this
    simp [escapeLoop, escapePass]
  | succ fuel ih =>
    intro u m hu hm
    rcases first_bar m with h | ⟨a, b, rfl, ha⟩
    · have hnone : indexOf ['|'] (u ++ m) = none :=
        indexOf_bar_none (by simp [hu, h])
      simp only [escapeLoop, hnone, escapePass_eq_self h]
    · have hua : '|' ∉ u ++ a := by simp [hu, ha]
      have hsome : indexOf ['|'] (u ++ (a ++ '|' :: b)) = some (u ++ a).length := by
        rw [← List.append_assoc]; exact indexOf_bar_some b hua
      have hrep : replace (u ++ (a ++ '|' :: b)) (u ++ a).length 1 ['\\', 'p'] =
          (u ++ a ++ ['\\', 'p']) ++ b := by
        have := replace_at (u ++ a) ['|'] b ['\\', 'p']
        simpa using this
      simp only [escapeLoop, hsome, hrep]
      rw [ih (u ++ a ++ ['\\', 'p']) b (by simp [hu, ha]) (by simp at hm; omega),
        escapePass_append b ha]
      simp

theorem escape_eq (m : List Char) : escape m = escapePass m := by
  have := escapeLoop_eq m.length [] m (by simp) (le_refl _)
  simpa [escape] using this

theorem tok_after_bar {x : List Char} (y : List Char)
    (h : indexOf ['\\', 'p'] (x ++ '|' :: y) = none) :
    indexOf ['\\', 'p'] (x ++ ['\\']) = none := by
  induction x with
  | nil => simp [indexOf, List.isPrefixOf]
  | cons c x ih =>
    rw [List.cons_append, indexOf_cons_none] at h ⊢
    refine ⟨?_, ih h.2⟩
    have h1 := h.1
    cases x with
    | nil => simp [List.isPrefixOf]
    | cons d x' => simpa [List.isPrefixOf] using h1

theorem indexOf_tok_some {a : List Char} (b : List Char)
    (h : indexOf ['\\', 'p'] (a ++ ['\\']) = none) :
    indexOf ['\\', 'p'] (a ++ '\\' :: 'p' :: b) = some a.length := by
  induction a with
  | nil => simp [indexOf, List.isPrefixOf]
  | cons c a ih =>
    rw [List.cons_append, indexOf_cons_none] at h
    have := ih h.2
    rw [List.cons_append, indexOf_cons_some _ this]
    · rfl
    · have h1 := h.1
      cases a with
      | nil => simp [List.isPrefixOf]
      | cons d a' => simpa [List.isPrefixOf] using h1

theorem unescapeLoop_eq (fuel : Nat) : ∀ (u m : List Char),
    indexOf ['\\', 'p'] (u ++ m) = none → m.length ≤ fuel →
    unescapeLoop fuel (u ++ escapePass m) = u ++ m := by
  induction fuel with
  | zero =>
    intro u m _ hm
    have : m = [] := List.length_eq_zero.1 (by omega)
    subst this
    simp [unescapeLoop, escapePass]
  | succ fuel ih =>
    intro u m hu hm
    rcases first_bar m with h | ⟨a, b, rfl, ha⟩
    · rw [escapePass_eq_self h]
      simp only [unescapeLoop, hu]
    · have hu' : indexOf ['\\', 'p'] ((u ++ a) ++ '|' :: b) = none := by
        rw [List.append_assoc]; exact hu
      have hsome : indexOf ['\\', 'p'] (u ++ (a ++ '\\' :: 'p' :: escapePass b)) =
          some (u ++ a).length := by
        rw [← List.append_assoc]; exact indexOf_tok_some _ (tok_after_bar b hu')
      have hrep : replace (u ++ (a ++ '\\' :: 'p' :: escapePass b)) (u ++ a).length 2 ['|'] =
          (u ++ a ++ ['|']) ++ escapePass b := by
        have := replace_at (u ++ a) ['\\', 'p'] (escapePass b) ['|']
        simpa using this
      rw [escapePass_append b ha]
      simp only [unescapeLoop, hsome, hrep]
      rw [ih (u ++ a ++ ['|']) b (by simpa using hu) (by simp at hm; omega)]
      simp

theorem unescapeBars_escapeBars {m : List Char} (h : indexOf ['\\', 'p'] m = none) :
    unescape (escape m) = m := by
  rw [escape_eq]
  have := unescapeLoop_eq (escapePass m).length [] m (by simpa using h) (length_le_escapePass m)
  simpa [unescape] using this

end Response

namespace Response

open Snapshot

theorem split_five {a b c m d : List Char} (ha : '|' ∉ a) (hb : '|' ∉ b) (hc : '|' ∉ c)
    (hm : '|' ∉ m) (hd : '|' ∉ d) :
    split '|' (a ++ '|' :: (b ++ '|' :: (c ++ '|' :: (m ++ '|' :: d)))) =
      a :: b :: c :: m :: (if d.isEmpty then [] else [d]) := by
  unfold split
  rw [splitAux_append _ _ _ _ ha, splitAux_append _ _ _ _ hb, splitAux_append _ _ _ _ hc,
    splitAux_append _ _ _ _ hm, splitAux_last _ _ _ hd]
  simp

theorem escape_no_bar (m : List Char) : '|' ∉ escape m := by
  rw [escape_eq]; exact escapePass_no_bar m

end Response

namespace StdMap

theorem find_insert {K V : Type} [LT K] [∀ a b : K, Decidable (a < b)] [DecidableEq K]
    (k : K) (v : V) (m : List (K × V)) (k' : K) :
    find (insert k v m) k' = if k = k' then some v else find m k' := by
  induction m with
  | nil => simp [insert, find]
  | cons e m ih =>
    obtain ⟨a, b⟩ := e
    simp only [insert]
    by_cases h1 : k < a
    · simp only [h1, if_true, find]
    · simp only [h1, if_false]
      by_cases h2 : k = a
      · subst h2
        simp only [if_true, find]
        by_cases h3 : k = k'
        · simp [h3]
        · simp [h3]
      · simp only [h2, if_false, find, ih]
        by_cases h3 : a = k'
        · have : k ≠ k' := fun e => h2 (e.trans h3.symm)
          simp [h3, this]
        · simp [h3]

theorem insert_last {K V : Type} [Preorder K] [∀ a b : K, Decidable (a < b)] [DecidableEq K]
    (k : K) (v : V) (m : List (K × V)) (h : ∀ e ∈ m, e.1 < k) :
    insert k v m = m ++ [(k, v)] := by
  induction m with
  | nil => rfl
  | cons e m ih =>
    obtain ⟨a, b⟩ := e
    have ha : a < k := h (a, b) (by simp)
    have h1 : ¬ k < a := lt_asymm ha
    have h2 : k ≠ a := fun e => lt_irrefl a (e ▸ ha)
    simp only [insert, h1, h2, if_false, List.cons_append,
      ih (fun e he => h e (List.mem_cons_of_mem _ he))]

end StdMap

namespace Request

open Snapshot

theorem indexOf_char_some (c : Char) {a : List Char} (b : List Char) (h : c ∉ a) :
    Response.indexOf [c] (a ++ c :: b) = some a.length := by
  induction a with
  | nil => simp [Response.indexOf, List.isPrefixOf]
  | cons x a ih =>
    have hx : x ≠ c := fun e => h (by simp [e])
    have := ih (fun e => h (List.mem_cons_of_mem _ e))
    rw [List.cons_append, Response.indexOf_cons_some _ this]
    · rfl
    · simp [List.isPrefixOf, Ne.symm hx]

theorem split_joinWith (d : Char) : ∀ (xs : List (List Char)),
    (∀ x ∈ xs, d ∉ x ∧ x ≠ []) → split d (joinWith d xs) = xs := by
  intro xs
  induction xs with
  | nil => intro _; rfl
  | cons x xs ih =>
    intro h
    obtain ⟨hx, hne⟩ := h x (by simp)
    cases xs with
    | nil =>
      simp only [joinWith, split]
      rw [splitAux_last d x [] hx]
      cases x with
      | nil => exact absurd rfl hne
      | cons _ _ => simp
    | cons y r =>
      have := ih (fun z hz => h z (List.mem_cons_of_mem _ hz))
      simp only [joinWith, split] at this ⊢
      rw [splitAux_append d x [] _ hx, this]
      simp

theorem joinWith_no_char (c d : Char) (hcd : c ≠ d) : ∀ (xs : List (List Char)),
    (∀ x ∈ xs, c ∉ x) → c ∉ joinWith d xs := by
  intro xs
  induction xs with
  | nil => intro _; simp [joinWith]
  | cons x xs ih =>
    intro h
    cases xs with
    | nil => simpa [joinWith] using h x (by simp)
    | cons y r =>
      have := ih (fun z hz => h z (List.mem_cons_of_mem _ hz))
      simp only [joinWith, List.mem_append, List.mem_cons, not_or]
      exact ⟨h x (by simp), hcd, this⟩

theorem joinWith_isEmpty (d : Char) (xs : List (List Char)) (h : ∀ x ∈ xs, x ≠ []) :
    (joinWith d xs).isEmpty = xs.isEmpty := by
  cases xs with
  | nil => rfl
  | cons x xs =>
    have hx := h x (by simp)
    cases xs with
    | nil =>
      cases x with
      | nil => exact absurd rfl hx
      | cons _ _ => rfl
    | cons y r =>
      cases x with
      | nil => exact absurd rfl hx
      | cons _ _ => rfl

theorem parseParam_paramText (done : List (List Char × List Char)) (p : List Char × List Char)
    (hk : '=' ∉ p.1) (hlt : ∀ e ∈ done, e.1 < p.1) :
    parseParam done (paramText p) = done ++ [p] := by
  obtain ⟨k, v⟩ := p
  simp only [parseParam, paramText, indexOf_char_some '=' v hk, List.take_left,
    List.drop_succ_cons, List.drop_left]
  have : List.drop (k.length + 1) (k ++ '=' :: v) = v := by
    rw [List.drop_append_eq_append_drop]
    simp
  rw [this]
  exact StdMap.insert_last k v done hlt

theorem foldl_parseParam : ∀ (rest done : List (List Char × List Char)),
    (done ++ rest).Pairwise (fun a b => a.1 < b.1) → (∀ p ∈ rest, '=' ∉ p.1) →
    (rest.map paramText).foldl parseParam done = done ++ rest := by
  intro rest
  induction rest with
  | nil => intro done _ _; simp
  | cons p rest ih =>
    intro done hs hk
    have hlt : ∀ e ∈ done, e.1 < p.1 := by
      intro e he
      exact (List.pairwise_append.1 hs).2.2 e he p (by simp)
    simp only [List.map_cons, List.foldl_cons, parseParam_paramText done p (hk p (by simp)) hlt]
    rw [ih (done ++ [p]) (by simpa using hs) (fun q hq => hk q (List.mem_cons_of_mem _ hq))]
    simp

theorem split_four {a b c p : List Char} (ha : '|' ∉ a) (hb : '|' ∉ b) (hc : '|' ∉ c)
    (hp : '|' ∉ p) :
    split '|' (a ++ '|' :: (b ++ '|' :: (c ++ '|' :: p))) =
      a :: b :: c :: (if p.isEmpty then [] else [p]) := by
  unfold split
  rw [splitAux_append _ _ _ _ ha, splitAux_append _ _ _ _ hb, splitAux_append _ _ _ _ hc,
    splitAux_last _ _ _ hp]
  simp

end Request

namespace BTree

theorem search_absent {t : BTree} (hinv : t.searchTreeInv = true) (k : Int)
    (h : ∀ e ∈ t.traverseAll, e.1 ≠ k) : t.search k = some "" := by
  obtain ⟨root⟩ := t
  cases root with
  | none => rfl
  | some r =>
    have hr := BTreeNode.shaped_sorted_of_inv r hinv
    exact (BTreeNode.search_spec hr.1 k hr.2).2 h

theorem search_total {t : BTree} (hinv : t.searchTreeInv = true) (k : Int) :
    ∃ v, t.search k = some v := by
  obtain ⟨root⟩ := t
  cases root with
  | none => exact ⟨_, rfl⟩
  | some r =>
    have hr := BTreeNode.shaped_sorted_of_inv r hinv
    by_cases hk : ∃ v, (k, v) ∈ r.traverse
    · obtain ⟨v, hv⟩ := hk
      exact ⟨v, (BTreeNode.search_spec hr.1 k hr.2).1 v hv⟩
    · refine ⟨"", (BTreeNode.search_spec hr.1 k hr.2).2 ?_⟩
      intro e he hek
      exact hk ⟨e.2, by rw [← hek]; exact he⟩

theorem exists_absent {t : BTree} (hinv : t.searchTreeInv = true) (k : Int)
    (h : ∀ e ∈ t.traverseAll, e.1 ≠ k) : t.exists k = some false := by
  have he : ("" : String).isEmpty = true := by decide
  simp [BTree.exists, search_absent hinv k h, he]

theorem exists_total {t : BTree} (hinv : t.searchTreeInv = true) (k : Int) :
    ∃ b, t.exists k = some b := by
  obtain ⟨v, hv⟩ := search_total hinv k
  exact ⟨!v.isEmpty, by simp [BTree.exists, hv]⟩

end BTree

namespace Double

theorem lt_false_of_le {a b : Double} (h : a.le b = true) : b.lt a = false := by
  cases a <;> cases b <;> simp_all [Double.le, Double.lt]

end Double

namespace DatabaseManager

theorem addLocation_invalid (dt : DoubleText) (db : DatabaseManager) (name : String)
    (lat lon : Double) (type : String)
    (h : Location.isValid ⟨db.nextLocationId, name, lat, lon, type⟩ = false) :
    addLocation dt db name lat lon type = Except.ok (-1, db) := by
  simp [addLocation, h]

theorem addEdge_rejects (dt : DoubleText) (db : DatabaseManager) (sourceId destId : Int)
    (distance : Double) (roadName : String) (bidirectional : Bool)
    (hinv : db.locationBTree.searchTreeInv = true)
    (h : db.locationBTree.exists sourceId = some false ∨
      db.locationBTree.exists destId = some false ∨
      Edge.isValid ⟨db.nextEdgeId, sourceId, destId, distance, roadName, bidirectional⟩ = false) :
    addEdge dt db sourceId destId distance roadName bidirectional = Except.ok (-1, db) := by
  obtain ⟨b1, h1⟩ := BTree.exists_total hinv sourceId
  obtain ⟨b2, h2⟩ := BTree.exists_total hinv destId
  cases b1 <;> cases b2 <;> simp_all [addEdge, locationExists]

theorem addLocation_minus_one (dt : DoubleText) (db db' : DatabaseManager) (name : String)
    (lat lon : Double) (type : String)
    (h : addLocation dt db name lat lon type = Except.ok (-1, db')) : db' = db := by
  unfold addLocation at h
  by_cases hv : Location.isValid ⟨db.nextLocationId, name, lat, lon, type⟩ = true
  · have hid : db.nextLocationId > 0 := by
      simp only [Location.isValid, Bool.and_eq_true, decide_eq_true_eq] at hv
      exact hv.1.1.1.1.1
    simp only [hv, Bool.not_true, Bool.false_eq_true, if_false] at h
    split at h
    · cases h
    · simp only [Except.ok.injEq, Prod.mk.injEq] at h
      omega
  · simp only [Bool.not_eq_true] at hv
    simp only [hv, Bool.not_false, if_true, Except.ok.injEq, Prod.mk.injEq, true_and] at h
    exact h.symm

theorem addEdge_minus_one (dt : DoubleText) (db db' : DatabaseManager) (sourceId destId : Int)
    (distance : Double) (roadName : String) (bidirectional : Bool)
    (h : addEdge dt db sourceId destId distance roadName bidirectional = Except.ok (-1, db')) :
    db' = db := by
  unfold addEdge at h
  split at h
  · cases h
  · simp only [Except.ok.injEq, Prod.mk.injEq, true_and] at h
    exact h.symm
  · split at h
    · cases h
    · simp only [Except.ok.injEq, Prod.mk.injEq, true_and] at h
      exact h.symm
    · by_cases hv : Edge.isValid
          ⟨db.nextEdgeId, sourceId, destId, distance, roadName, bidirectional⟩ = true
      · have hid : db.nextEdgeId > 0 := by
          simp only [Edge.isValid, Bool.and_eq_true, decide_eq_true_eq] at hv
          exact hv.1.1.1.1
        simp only [hv, Bool.not_true, Bool.false_eq_true, if_false] at h
        split at h
        · cases h
        · simp only [Except.ok.injEq, Prod.mk.injEq] at h
          omega
      · simp only [Bool.not_eq_true] at hv
        simp only [hv, Bool.not_false, if_true, Except.ok.injEq, Prod.mk.injEq, true_and] at h
        exact h.symm

end DatabaseManager

namespace Server

theorem processRequest_flag (dt : DoubleText) (st st' : ServerState) (req : Request)
    (resp : Response) (h : processRequest dt st req = Except.ok (resp, st'))
    (hflag : st.serverRunning = false) : st'.serverRunning = false := by
  unfold processRequest at h
  by_cases h1 : req.type = RequestType.ADD_LOCATION
  · rw [if_pos h1] at h
    dsimp only at h
    split_ifs at h
    · cases h; exact hflag
    · split at h
      · cases h
      · split_ifs at h <;> (cases h; exact hflag)
  rw [if_neg h1] at h
  by_cases h2 : req.type = RequestType.ADD_ROAD
  · rw [if_pos h2] at h
    dsimp only at h
    split_ifs at h
    · cases h; exact hflag
    · split at h
      · cases h
      · split_ifs at h <;> (cases h; exact hflag)
  rw [if_neg h2] at h
  by_cases h3 : req.type = RequestType.FIND_PATH
  · rw [if_pos h3] at h
    dsimp only at h
    split_ifs at h
    · cases h; exact hflag
    · split at h
      · cases h
      · split_ifs at h
        · split at h
          · cases h
          · cases h; exact hflag
        · cases h; exact hflag
  rw [if_neg h3] at h
  by_cases h4 : req.type = RequestType.GET_LOCATIONS
  · rw [if_pos h4] at h
    split at h
    · cases h
    · cases h; exact hflag
  rw [if_neg h4] at h
  by_cases h5 : req.type = RequestType.GET_ROADS
  · rw [if_pos h5] at h
    split at h
    · cases h
    · cases h; exact hflag
  rw [if_neg h5] at h
  by_cases h6 : req.type = RequestType.GET_LOCATION
  · rw [if_pos h6] at h
    dsimp only at h
    split at h
    · cases h
    · split_ifs at h <;> (cases h; exact hflag)
  rw [if_neg h6] at h
  by_cases h7 : req.type = RequestType.INIT_SAMPLE
  · rw [if_pos h7] at h
    split at h
    · cases h
    · cases h; exact hflag
  rw [if_neg h7] at h
  by_cases h8 : req.type = RequestType.SAVE_DATA
  · rw [if_pos h8] at h
    split_ifs at h <;> (cases h; exact hflag)
  rw [if_neg h8] at h
  split_ifs at h
  · cases h; rfl
  · cases h; exact hflag

theorem workerThread_stopped (dt : DoubleText) (fuel : Nat) (st : ServerState)
    (q : CircularQueue (Request × Int) QUEUE_CAPACITY) (hflag : st.serverRunning = false) :
    workerThread dt (fuel + 1) st q = ⟨[], st, q, .exited⟩ := by
  simp [workerThread, hflag]

end Server

namespace DatabaseManager

theorem loadFromFileAt_false {t : BTree} {f : SnapshotFile}
    (h : t.loadFromFileAt f = Except.ok (false, t)) : (f.present && f.readable) = false := by
  unfold BTree.loadFromFileAt at h
  cases hc : (f.present && f.readable)
  · rfl
  · rw [hc] at h
    simp only [if_true] at h
    split at h
    · cases h
    · cases h

theorem loadData_flag (dt : DoubleText) (files : DataFiles) (b : Bool) (db : DatabaseManager)
    (h : loadData dt create files = Except.ok (b, db)) :
    b = ((files.locationFile.present && files.locationFile.readable) &&
      (files.edgeFile.present && files.edgeFile.readable)) ∧
    ((files.locationFile.present && files.locationFile.readable) = false →
      db.locationBTree = BTree.empty) ∧
    ((files.edgeFile.present && files.edgeFile.readable) = false →
      db.edgeBTree = BTree.empty) := by
  unfold loadData at h
  split at h
  · cases h
  rename_i ok1 locations h1
  split at h
  · cases h
  rename_i ok2 edges h2
  split at h
  swap
  · cases h
  split at h
  · cases h
  rename_i db' hb
  simp only [Except.ok.injEq, Prod.mk.injEq] at h
  obtain ⟨hb1, hb2⟩ := h
  subst hb2
  have hl : db'.locationBTree = locations ∧ db'.edgeBTree = edges := by
    unfold buildGraph at hb
    split at hb
    · cases hb
    split at hb
    · cases hb
    cases hb
    exact ⟨rfl, rfl⟩
  have e1 : ok1 = (files.locationFile.present && files.locationFile.readable) ∧
      ((files.locationFile.present && files.locationFile.readable) = false →
        locations = BTree.empty) := by
    unfold BTree.loadFromFileAt at h1
    cases hc : (files.locationFile.present && files.locationFile.readable)
    · rw [hc] at h1
      cases h1
      exact ⟨rfl, fun _ => rfl⟩
    · rw [hc] at h1
      simp only [if_true] at h1
      split at h1
      · cases h1
      · cases h1
        exact ⟨rfl, fun h => by cases h⟩
  have e2 : ok2 = (files.edgeFile.present && files.edgeFile.readable) ∧
      ((files.edgeFile.present && files.edgeFile.readable) = false →
        edges = BTree.empty) := by
    unfold BTree.loadFromFileAt at h2
    cases hc : (files.edgeFile.present && files.edgeFile.readable)
    · rw [hc] at h2
      cases h2
      exact ⟨rfl, fun _ => rfl⟩
    · rw [hc] at h2
      simp only [if_true] at h2
      split at h2
      · cases h2
      · cases h2
        exact ⟨rfl, fun h => by cases h⟩
  refine ⟨?_, ?_, ?_⟩
  · rw [← hb1, e1.1, e2.1]
  · intro hc; rw [hl.1]; exact e1.2 hc
  · intro hc; rw [hl.2]; exact e2.2 hc

end DatabaseManager

namespace Double

theorem log2Aux_spec : ∀ (fuel n : Nat), n ≤ fuel → 0 < n →
    2 ^ log2Aux fuel n ≤ n ∧ n < 2 ^ (log2Aux fuel n + 1)
  | 0, n, h, h0 => by omega
  | fuel + 1, n, h, h0 => by
    simp only [log2Aux]
    by_cases h2 : n < 2
    · rw [if_pos h2]
      simp only [pow_zero, zero_add, pow_one]
      omega
    · rw [if_neg h2]
      have ih := log2Aux_spec fuel (n / 2) (by omega) (by omega)
      rw [pow_succ, pow_succ]
      constructor
      · have := Nat.div_mul_le_self n 2
        nlinarith [ih.1]
      · have := Nat.lt_succ_iff.2 (Nat.le_refl (n / 2))
        have h3 : n < (n / 2 + 1) * 2 := by omega
        nlinarith [ih.2]

theorem log2_spec (n : Nat) (h : 0 < n) : 2 ^ log2 n ≤ n ∧ n < 2 ^ (log2 n + 1) :=
  log2Aux_spec n n (Nat.le_refl n) h

theorem expo_spec (x : ℚ) (hx : 0 < x) :
    (2 : ℚ) ^ expo x ≤ x ∧ x < (2 : ℚ) ^ (expo x + 1) := by
  have hnum : 0 < x.num := Rat.num_pos.2 hx
  have hden : 0 < x.den := x.den_pos
  obtain ⟨a1, a2⟩ := log2_spec x.num.toNat (by omega)
  obtain ⟨b1, b2⟩ := log2_spec x.den hden
  have hxe : x = (x.num.toNat : ℚ) / (x.den : ℚ) := by
    have h1 : ((x.num.toNat : ℤ) : ℚ) = (x.num : ℚ) := by
      rw [Int.toNat_of_nonneg hnum.le]
    have h2 : ((x.num.toNat : ℕ) : ℚ) = ((x.num.toNat : ℤ) : ℚ) := by norm_cast
    rw [h2, h1]
    exact (Rat.num_div_den x).symm
  have hA1 : ((2 : ℚ) ^ (log2 x.num.toNat)) ≤ (x.num.toNat : ℚ) := by exact_mod_cast a1
  have hA2 : (x.num.toNat : ℚ) < ((2 : ℚ) ^ (log2 x.num.toNat + 1)) := by exact_mod_cast a2
  have hB1 : ((2 : ℚ) ^ (log2 x.den)) ≤ (x.den : ℚ) := by exact_mod_cast b1
  have hB2 : (x.den : ℚ) < ((2 : ℚ) ^ (log2 x.den + 1)) := by exact_mod_cast b2
  have hdq : (0 : ℚ) < (x.den : ℚ) := by exact_mod_cast hden
  have two : (0 : ℚ) < 2 := by norm_num
  have hlow : (2 : ℚ) ^ ((log2 x.num.toNat : ℤ) - (log2 x.den : ℤ) - 1) < x := by
    rw [zpow_sub₀ two.ne', zpow_sub₀ two.ne', zpow_natCast, zpow_natCast, zpow_one]
    rw [div_div, div_lt_iff₀ (by positivity)]
    nth_rewrite 2 [hxe]
    rw [div_mul_eq_mul_div, lt_div_iff₀ hdq]
    have : (x.den : ℚ) < (2 : ℚ) ^ log2 x.den * 2 := by
      rw [← pow_succ]; exact hB2
    calc (2 : ℚ) ^ log2 x.num.toNat * (x.den : ℚ)
        < (2 : ℚ) ^ log2 x.num.toNat * ((2 : ℚ) ^ log2 x.den * 2) := by
          apply mul_lt_mul_of_pos_left this (by positivity)
      _ ≤ (x.num.toNat : ℚ) * ((2 : ℚ) ^ log2 x.den * 2) := by
          apply mul_le_mul_of_nonneg_right hA1 (by positivity)
  have hhigh : x < (2 : ℚ) ^ ((log2 x.num.toNat : ℤ) - (log2 x.den : ℤ) + 1) := by
    rw [zpow_add₀ two.ne', zpow_sub₀ two.ne', zpow_natCast, zpow_natCast, zpow_one]
    nth_rewrite 1 [hxe]
    rw [div_mul_eq_mul_div, div_lt_div_iff₀ hdq (by positivity)]
    have : (x.num.toNat : ℚ) < (2 : ℚ) ^ log2 x.num.toNat * 2 := by
      rw [← pow_succ]; exact hA2
    calc (x.num.toNat : ℚ) * (2 : ℚ) ^ log2 x.den
        < (2 : ℚ) ^ log2 x.num.toNat * 2 * (2 : ℚ) ^ log2 x.den := by
          apply mul_lt_mul_of_pos_right this (by positivity)
      _ ≤ (2 : ℚ) ^ log2 x.num.toNat * 2 * (x.den : ℚ) := by
          apply mul_le_mul_of_nonneg_left hB1 (by positivity)
  unfold expo
  split_ifs with h
  · exact ⟨h, hhigh⟩
  · refine ⟨hlow.le, ?_⟩
    rw [sub_add_cancel]
    exact lt_of_not_le h

theorem expo_unique (x : ℚ) (e : ℤ) (h1 : (2 : ℚ) ^ e ≤ x) (h2 : x < (2 : ℚ) ^ (e + 1)) :
    expo x = e := by
  have hx : 0 < x := lt_of_lt_of_le (by positivity) h1
  obtain ⟨s1, s2⟩ := expo_spec x hx
  have two : (1 : ℚ) < 2 := by norm_num
  have a : expo x < e + 1 := (zpow_lt_zpow_iff_right₀ two).1 (lt_of_le_of_lt s1 h2)
  have b : e < expo x + 1 := (zpow_lt_zpow_iff_right₀ two).1 (lt_of_le_of_lt h1 s2)
  omega

theorem expo_mono (x y : ℚ) (hx : 0 < x) (hxy : x ≤ y) : expo x ≤ expo y := by
  obtain ⟨s1, _⟩ := expo_spec x hx
  obtain ⟨_, t2⟩ := expo_spec y (lt_of_lt_of_le hx hxy)
  have two : (1 : ℚ) < 2 := by norm_num
  have a : expo x < expo y + 1 :=
    (zpow_lt_zpow_iff_right₀ two).1 (lt_of_le_of_lt (s1.trans hxy) t2)
  omega

theorem rhe_int (n : ℤ) : rhe (n : ℚ) = n := by
  simp [rhe]

theorem rhe_cases (y : ℚ) : rhe y = ⌊y⌋ ∨ rhe y = ⌊y⌋ + 1 := by
  unfold rhe
  split_ifs <;> simp

theorem rhe_mono (x y : ℚ) (h : x ≤ y) : rhe x ≤ rhe y := by
  have hf : ⌊x⌋ ≤ ⌊y⌋ := Int.floor_mono h
  rcases lt_or_eq_of_le hf with hlt | heq
  · rcases rhe_cases x with h1 | h1 <;> rcases rhe_cases y with h2 | h2 <;> omega
  · have hd : x - ⌊x⌋ ≤ y - ⌊y⌋ := by rw [heq]; linarith
    unfold rhe
    rw [heq] at hd ⊢
    split_ifs <;> first | omega | linarith

theorem rhe_nonneg (y : ℚ) (h : 0 ≤ y) : 0 ≤ rhe y := by
  have := rhe_mono 0 y h
  have h0 : rhe (0 : ℚ) = 0 := by
    have := rhe_int 0
    simpa using this
  omega

end Double

namespace Double

/-- The value `roundPos` rounds to before the overflow test. -/
theorem roundPos_eq (x : ℚ) :
    roundPos x =
      if (2 : ℚ) ^ (1024 : ℕ) ≤ (rhe (x / (2 : ℚ) ^ quantum x) : ℚ) * (2 : ℚ) ^ quantum x
      then posInf
      else finite ((rhe (x / (2 : ℚ) ^ quantum x) : ℚ) * (2 : ℚ) ^ quantum x) := rfl

theorem quantum_ge (x : ℚ) : -1074 ≤ quantum x ∧ expo x - 52 ≤ quantum x := by
  unfold quantum
  constructor
  · exact le_max_right _ _
  · exact le_max_left _ _

theorem scaled_lt (x : ℚ) (hx : 0 < x) : x / (2 : ℚ) ^ quantum x < (2 : ℚ) ^ (53 : ℕ) := by
  obtain ⟨_, h2⟩ := expo_spec x hx
  obtain ⟨_, hq⟩ := quantum_ge x
  have two : (1 : ℚ) < 2 := by norm_num
  have hpos : (0 : ℚ) < (2 : ℚ) ^ quantum x := by positivity
  rw [div_lt_iff₀ hpos]
  have : (2 : ℚ) ^ (53 : ℕ) * (2 : ℚ) ^ quantum x = (2 : ℚ) ^ ((53 : ℤ) + quantum x) := by
    rw [zpow_add₀ (by norm_num : (2 : ℚ) ≠ 0)]
    norm_cast
  rw [this]
  refine lt_of_lt_of_le h2 ?_
  exact (zpow_le_zpow_iff_right₀ two).2 (by omega)

theorem scaled_ge (x : ℚ) (hx : 0 < x) (hk : quantum x = expo x - 52) :
    (2 : ℚ) ^ (52 : ℕ) ≤ x / (2 : ℚ) ^ quantum x := by
  obtain ⟨h1, _⟩ := expo_spec x hx
  have hpos : (0 : ℚ) < (2 : ℚ) ^ quantum x := by positivity
  rw [le_div_iff₀ hpos]
  have : (2 : ℚ) ^ (52 : ℕ) * (2 : ℚ) ^ quantum x = (2 : ℚ) ^ ((52 : ℤ) + quantum x) := by
    rw [zpow_add₀ (by norm_num : (2 : ℚ) ≠ 0)]
    norm_cast
  rw [this, hk]
  have : (52 : ℤ) + (expo x - 52) = expo x := by omega
  rw [this]
  exact h1

theorem rhe_le_of_le (y : ℚ) (m : ℤ) (h : y ≤ m) : rhe y ≤ m := by
  have := rhe_mono y m h
  rwa [rhe_int] at this

theorem le_rhe_of_le (y : ℚ) (m : ℤ) (h : (m : ℚ) ≤ y) : m ≤ rhe y := by
  have := rhe_mono m y h
  rwa [rhe_int] at this

theorem mantissa_bounds (x : ℚ) (hx : 0 < x) :
    0 ≤ rhe (x / (2 : ℚ) ^ quantum x) ∧ rhe (x / (2 : ℚ) ^ quantum x) ≤ 2 ^ (53 : ℕ) := by
  constructor
  · exact rhe_nonneg _ (by positivity)
  · apply rhe_le_of_le
    have := scaled_lt x hx
    push_cast
    exact this.le

/-- The rounded magnitudes are ordered like the numbers rounded. -/
theorem val_mono (x y : ℚ) (hx : 0 < x) (hxy : x ≤ y) :
    (rhe (x / (2 : ℚ) ^ quantum x) : ℚ) * (2 : ℚ) ^ quantum x ≤
      (rhe (y / (2 : ℚ) ^ quantum y) : ℚ) * (2 : ℚ) ^ quantum y := by
  have hy : 0 < y := lt_of_lt_of_le hx hxy
  have he := expo_mono x y hx hxy
  have hk : quantum x ≤ quantum y := by
    unfold quantum
    exact max_le_max (by omega) (le_refl _)
  have two : (1 : ℚ) < 2 := by norm_num
  rcases lt_or_eq_of_le hk with hlt | heq
  · have hky : quantum y = expo y - 52 := by
      obtain ⟨h1, _⟩ := quantum_ge x
      unfold quantum at hlt ⊢
      rcases max_cases (expo y - 52) (-1074) with ⟨h, _⟩ | ⟨h, _⟩
      · exact h
      · rw [h] at hlt
        unfold quantum at h1
        omega
    have h1 : (2 : ℤ) ^ (52 : ℕ) ≤ rhe (y / (2 : ℚ) ^ quantum y) := by
      apply le_rhe_of_le
      push_cast
      exact scaled_ge y hy hky
    have h2 := (mantissa_bounds x hx).2
    have h1' : ((2 : ℚ) ^ (52 : ℕ)) ≤ (rhe (y / (2 : ℚ) ^ quantum y) : ℚ) := by
      exact_mod_cast h1
    have h2' : (rhe (x / (2 : ℚ) ^ quantum x) : ℚ) ≤ (2 : ℚ) ^ (53 : ℕ) := by
      exact_mod_cast h2
    calc (rhe (x / (2 : ℚ) ^ quantum x) : ℚ) * (2 : ℚ) ^ quantum x
        ≤ (2 : ℚ) ^ (53 : ℕ) * (2 : ℚ) ^ quantum x :=
          mul_le_mul_of_nonneg_right h2' (by positivity)
      _ = (2 : ℚ) ^ ((53 : ℤ) + quantum x) := by
          rw [zpow_add₀ (by norm_num : (2 : ℚ) ≠ 0)]; norm_cast
      _ ≤ (2 : ℚ) ^ ((52 : ℤ) + quantum y) :=
          (zpow_le_zpow_iff_right₀ two).2 (by omega)
      _ = (2 : ℚ) ^ (52 : ℕ) * (2 : ℚ) ^ quantum y := by
          rw [zpow_add₀ (by norm_num : (2 : ℚ) ≠ 0)]; norm_cast
      _ ≤ (rhe (y / (2 : ℚ) ^ quantum y) : ℚ) * (2 : ℚ) ^ quantum y :=
          mul_le_mul_of_nonneg_right h1' (by positivity)
  · rw [← heq]
    apply mul_le_mul_of_nonneg_right _ (by positivity)
    have : rhe (x / (2 : ℚ) ^ quantum x) ≤ rhe (y / (2 : ℚ) ^ quantum x) :=
      rhe_mono _ _ (div_le_div_of_nonneg_right hxy (by positivity))
    exact_mod_cast this

/-- A positive number `n * 2^k` with `n <= 2^53` and `k >= -1074` rounds to itself. -/
theorem val_fixed (n k : ℤ) (hn : 0 < n) (hn' : n ≤ 2 ^ (53 : ℕ)) (hk : -1074 ≤ k) :
    (rhe (((n : ℚ) * (2 : ℚ) ^ k) / (2 : ℚ) ^ quantum ((n : ℚ) * (2 : ℚ) ^ k)) : ℚ) *
      (2 : ℚ) ^ quantum ((n : ℚ) * (2 : ℚ) ^ k) = (n : ℚ) * (2 : ℚ) ^ k := by
  have two : (1 : ℚ) < 2 := by norm_num
  have two0 : (2 : ℚ) ≠ 0 := by norm_num
  have hnq : (0 : ℚ) < (n : ℚ) := by exact_mod_cast hn
  have hr : (0 : ℚ) < (n : ℚ) * (2 : ℚ) ^ k := by positivity
  rcases lt_or_eq_of_le hn' with hlt | heq
  · -- n < 2^53: the quantum is at most k
    have hup : (n : ℚ) * (2 : ℚ) ^ k < (2 : ℚ) ^ ((53 : ℤ) + k) := by
      rw [zpow_add₀ two0]
      apply mul_lt_mul_of_pos_right _ (by positivity)
      have : (n : ℚ) < ((2 ^ (53 : ℕ) : ℤ) : ℚ) := by exact_mod_cast hlt
      push_cast at this
      exact_mod_cast this
    obtain ⟨s1, _⟩ := expo_spec _ hr
    have he : expo ((n : ℚ) * (2 : ℚ) ^ k) < 53 + k :=
      (zpow_lt_zpow_iff_right₀ two).1 (lt_of_le_of_lt s1 hup)
    have hq : quantum ((n : ℚ) * (2 : ℚ) ^ k) ≤ k := by
      unfold quantum
      exact max_le (by omega) hk
    obtain ⟨j, hj⟩ : ∃ j : ℕ, k = quantum ((n : ℚ) * (2 : ℚ) ^ k) + j :=
      ⟨(k - quantum ((n : ℚ) * (2 : ℚ) ^ k)).toNat, by omega⟩
    generalize quantum ((n : ℚ) * (2 : ℚ) ^ k) = q at hj ⊢
    have hsc : (n : ℚ) * (2 : ℚ) ^ k / (2 : ℚ) ^ q = ((n * 2 ^ j : ℤ) : ℚ) := by
      rw [hj, zpow_add₀ two0, zpow_natCast]
      push_cast
      field_simp
      ring
    rw [hsc, rhe_int, hj, zpow_add₀ two0, zpow_natCast]
    push_cast
    ring
  · -- n = 2^53: the value is 2^(53+k) and the quantum is k+1
    have hval : (n : ℚ) * (2 : ℚ) ^ k = (2 : ℚ) ^ ((53 : ℤ) + k) := by
      rw [zpow_add₀ two0, heq]
      norm_cast
    have he : expo ((n : ℚ) * (2 : ℚ) ^ k) = 53 + k := by
      apply expo_unique
      · rw [hval]
      · rw [hval]
        exact (zpow_lt_zpow_iff_right₀ two).2 (by omega)
    have hq : quantum ((n : ℚ) * (2 : ℚ) ^ k) = k + 1 := by
      unfold quantum
      rw [he]
      rw [max_eq_left (by omega)]
      omega
    rw [hq]
    have hsc : (n : ℚ) * (2 : ℚ) ^ k / (2 : ℚ) ^ (k + 1) = ((2 ^ (52 : ℕ) : ℤ) : ℚ) := by
      rw [hval, ← zpow_sub₀ two0]
      have : (53 : ℤ) + k - (k + 1) = (52 : ℕ) := by omega
      rw [this, zpow_natCast]
      norm_cast
    rw [hsc, rhe_int, hval]
    have h52 : (((2 ^ (52 : ℕ) : ℤ)) : ℚ) = (2 : ℚ) ^ ((52 : ℤ)) := by norm_cast
    rw [h52, ← zpow_add₀ two0]
    congr 1
    omega

end Double

namespace Double

theorem roundPos_isDist (x : ℚ) (hx : 0 < x) : isDist (roundPos x) := by
  rw [roundPos_eq]
  obtain ⟨m1, m2⟩ := mantissa_bounds x hx
  split_ifs with hov
  · trivial
  · have hnn : (0 : ℚ) ≤ (rhe (x / (2 : ℚ) ^ quantum x) : ℚ) := by exact_mod_cast m1
    refine ⟨by positivity, ?_⟩
    rcases lt_or_eq_of_le m1 with hpos | hzero
    · have hfix := val_fixed (rhe (x / (2 : ℚ) ^ quantum x)) (quantum x) hpos m2
        (quantum_ge x).1
      have hr : (0 : ℚ) < (rhe (x / (2 : ℚ) ^ quantum x) : ℚ) * (2 : ℚ) ^ quantum x := by
        have : (0 : ℚ) < (rhe (x / (2 : ℚ) ^ quantum x) : ℚ) := by exact_mod_cast hpos
        positivity
      unfold round
      rw [if_neg hr.ne', if_pos hr, roundPos_eq, hfix, if_neg hov]
    · rw [← hzero]
      simp [round]

theorem round_isDist (x : ℚ) (hx : 0 ≤ x) : isDist (round x) := by
  unfold round
  split_ifs with h0 hpos
  · exact ⟨le_refl _, by simp [round]⟩
  · exact roundPos_isDist x hpos
  · exact absurd (lt_of_le_of_ne hx (Ne.symm h0)) hpos

theorem roundPos_mono (x y : ℚ) (hx : 0 < x) (hxy : x ≤ y) :
    (roundPos x).le (roundPos y) = true := by
  have hv := val_mono x y hx hxy
  rw [roundPos_eq, roundPos_eq]
  split_ifs with h1 h2 h2
  · rfl
  · exact absurd (h1.trans hv) h2
  · rfl
  · simpa [le] using hv

theorem isDist_le_posInf (c : Double) (h : isDist c) : c.le posInf = true := by
  cases c <;> simp_all [isDist, le]

theorem isDist_zero_le (c : Double) (h : isDist c) : (finite 0).le c = true := by
  cases c <;> simp_all [isDist, le]

theorem isDist_le_refl (c : Double) (h : isDist c) : c.le c = true := by
  cases c <;> simp_all [isDist, le]

theorem isDist_le_trans (a b c : Double) (hb : isDist b) (h1 : a.le b = true)
    (h2 : b.le c = true) : a.le c = true := by
  cases a <;> cases b <;> cases c <;> simp_all [isDist, le]
  exact h1.trans h2

theorem round_mono (x y : ℚ) (hx : 0 ≤ x) (hxy : x ≤ y) : (round x).le (round y) = true := by
  rcases lt_or_eq_of_le hx with hpos | hzero
  · have hy : 0 < y := lt_of_lt_of_le hpos hxy
    unfold round
    rw [if_neg hpos.ne', if_pos hpos, if_neg hy.ne', if_pos hy]
    exact roundPos_mono x y hpos hxy
  · rw [← hzero]
    have : round 0 = finite 0 := by simp [round]
    rw [this]
    exact isDist_zero_le _ (round_isDist y (hzero ▸ hxy))

theorem add_isDist (c : Double) (d : ℚ) (hc : isDist c) (hd : 0 ≤ d) :
    isDist (c.add (finite d)) := by
  cases c with
  | finite q =>
    obtain ⟨hq, _⟩ := hc
    exact round_isDist (q + d) (by linarith)
  | posInf => trivial
  | negInf => exact absurd hc id
  | nan => exact absurd hc id

theorem le_add_right (c : Double) (d : ℚ) (hc : isDist c) (hd : 0 ≤ d) :
    c.le (c.add (finite d)) = true := by
  cases c with
  | finite q =>
    obtain ⟨hq, hfix⟩ := hc
    have := round_mono q (q + d) hq (by linarith)
    rw [hfix] at this
    exact this
  | posInf => rfl
  | negInf => exact absurd hc id
  | nan => exact absurd hc id

theorem add_le_add_right (a b : Double) (d : ℚ) (ha : isDist a) (hb : isDist b)
    (hab : a.le b = true) (hd : 0 ≤ d) :
    (a.add (finite d)).le (b.add (finite d)) = true := by
  cases b with
  | finite qb =>
    cases a with
    | finite qa =>
      have hle : qa ≤ qb := by simpa [le] using hab
      exact round_mono (qa + d) (qb + d) (by linarith [ha.1]) (by linarith)
    | posInf => simp [le] at hab
    | negInf => exact absurd ha id
    | nan => exact absurd ha id
  | posInf => exact isDist_le_posInf _ (add_isDist a d ha hd)
  | negInf => exact absurd hb id
  | nan => exact absurd hb id

end Double

namespace StdMap

theorem find_some_mem {K V : Type} [DecidableEq K] {m : List (K × V)} {k : K} {v : V}
    (h : find m k = some v) : (k, v) ∈ m := by
  induction m with
  | nil => simp [find] at h
  | cons e m ih =>
    obtain ⟨a, b⟩ := e
    simp only [find] at h
    by_cases hk : a = k
    · simp only [hk, if_true, Option.some.injEq] at h
      subst hk; subst h
      exact List.mem_cons_self _ _
    · simp only [hk, if_false] at h
      exact List.mem_cons_of_mem _ (ih h)

theorem find_isSome_iff {K V : Type} [DecidableEq K] (m : List (K × V)) (k : K) :
    (find m k).isSome = true ↔ k ∈ m.map Prod.fst := by
  induction m with
  | nil => simp [find]
  | cons e m ih =>
    obtain ⟨a, b⟩ := e
    simp only [find, List.map_cons, List.mem_cons]
    by_cases hk : a = k
    · simp [hk]
    · simp only [hk, if_false, ih]
      constructor
      · exact Or.inr
      · rintro (h | h)
        · exact absurd h.symm hk
        · exact h

end StdMap

namespace Navigation

theorem Positive.arc {g : Graph} (hpos : Positive g) {u : Int} {n : Neighbor}
    (h : n ∈ g.getNeighbors u) :
    (∃ d : ℚ, 0 < d ∧ n.distance = Double.finite d) ∧ g.nodeExists n.nodeId = true := by
  unfold Graph.getNeighbors at h
  cases hf : StdMap.find g.adjacencyList u with
  | none => simp [hf] at h
  | some ns =>
    simp only [hf, Option.getD_some] at h
    exact hpos _ (StdMap.find_some_mem hf) n h

theorem Positive.dist {g : Graph} (hpos : Positive g) {u v : Int} {d : ℚ}
    (h : (⟨v, .finite d⟩ : Neighbor) ∈ g.getNeighbors u) : 0 < d := by
  obtain ⟨⟨d', hd', he⟩, _⟩ := hpos.arc h
  simp only [Double.finite.injEq] at he
  rw [he]
  exact hd'

theorem total_snoc (ds : List ℚ) (d : ℚ) :
    total (ds ++ [d]) = (total ds).add (Double.finite d) := by
  simp [total, List.foldl_append]

theorem isDist_zero : (Double.finite 0).isDist :=
  ⟨le_refl _, by simp [Double.round]⟩

theorem Walk.isDist {g : Graph} (hpos : Positive g) {s v : Int} {c : Double}
    (h : Walk g s v c) : c.isDist := by
  induction h with
  | refl => exact isDist_zero
  | snoc _ ha ih => exact Double.add_isDist _ _ ih (hpos.dist ha).le

/-- A walk from a visited node to an unvisited one crosses an adjacency entry that
leaves the visited set, and its total is not below the total up to that entry. -/
theorem Walk.crossing {g : Graph} (hpos : Positive g) (V : List Int) {s w : Int}
    {c : Double} (h : Walk g s w c) (hs : s ∈ V) (hw : w ∉ V) :
    ∃ (x y : Int) (c1 : Double) (d : ℚ), Walk g s x c1 ∧ x ∈ V ∧ y ∉ V ∧
      (⟨y, .finite d⟩ : Neighbor) ∈ g.getNeighbors x ∧
      (c1.add (Double.finite d)).le c = true := by
  induction h with
  | refl => exact absurd hs hw
  | @snoc u v c d hwalk ha ih =>
    by_cases hu : u ∈ V
    · exact ⟨u, v, c, d, hwalk, hu, hw, ha,
        Double.isDist_le_refl _ (Double.add_isDist _ _ (hwalk.isDist hpos) (hpos.dist ha).le)⟩
    · obtain ⟨x, y, c1, d', hwx, hx, hy, harc, hle⟩ := ih hu
      exact ⟨x, y, c1, d', hwx, hx, hy, harc,
        Double.isDist_le_trans _ _ _ (hwalk.isDist hpos) hle
          (Double.le_add_right _ _ (hwalk.isDist hpos) (hpos.dist ha).le)⟩

theorem follows_walk_from (g : Graph) (s : Int) : ∀ (p : List Int) (ds : List ℚ) (u w : Int)
    (c : Double), Walk g s u c → p.head? = some u → p.getLast? = some w →
    g.follows p ds = true →
    Walk g s w (ds.foldl (fun c d => c.add (Double.finite d)) c)
  | [], _, _, _, _, _, h, _, _ => by simp at h
  | [a], [], u, w, c, hw, h1, h2, _ => by
    simp only [List.head?_cons, Option.some.injEq] at h1
    simp only [List.getLast?_singleton, Option.some.injEq] at h2
    subst h1; subst h2
    exact hw
  | [a], d :: ds, _, _, _, _, _, _, h => by simp [Graph.follows] at h
  | a :: b :: rest, [], _, _, _, _, _, _, h => by simp [Graph.follows] at h
  | a :: b :: rest, d :: ds, u, w, c, hw, h1, h2, h => by
    simp only [List.head?_cons, Option.some.injEq] at h1
    subst h1
    simp only [Graph.follows, Bool.and_eq_true, decide_eq_true_eq] at h
    have h2' : (b :: rest).getLast? = some w := by
      rw [List.getLast?_cons_cons] at h2
      exact h2
    simp only [List.foldl_cons]
    exact follows_walk_from g s (b :: rest) ds b w _ (Walk.snoc hw h.1) rfl h2' h.2

theorem follows_walk (g : Graph) (p : List Int) (ds : List ℚ) (u w : Int)
    (h1 : p.head? = some u) (h2 : p.getLast? = some w) (h : g.follows p ds = true) :
    Walk g u w (total ds) :=
  follows_walk_from g u p ds u w _ Walk.refl h1 h2 h

theorem follows_snoc (g : Graph) : ∀ (p : List Int) (ds : List ℚ) (u v : Int) (d : ℚ),
    p.getLast? = some u → g.follows p ds = true →
    (⟨v, .finite d⟩ : Neighbor) ∈ g.getNeighbors u →
    g.follows (p ++ [v]) (ds ++ [d]) = true
  | [], _, _, _, _, h, _, _ => by simp at h
  | [a], [], u, v, d, h1, _, h3 => by
    simp only [List.getLast?_singleton, Option.some.injEq] at h1
    subst h1
    simp [Graph.follows, h3]
  | [a], d :: ds, _, _, _, _, h, _ => by simp [Graph.follows] at h
  | a :: b :: rest, [], _, _, _, _, h, _ => by simp [Graph.follows] at h
  | a :: b :: rest, d' :: ds, u, v, d, h1, h2, h3 => by
    simp only [Graph.follows, Bool.and_eq_true, decide_eq_true_eq] at h2
    have h1' : (b :: rest).getLast? = some u := by
      rw [List.getLast?_cons_cons] at h1
      exact h1
    have := follows_snoc g (b :: rest) ds u v d h1' h2.2 h3
    simp only [List.cons_append, Graph.follows, Bool.and_eq_true, decide_eq_true_eq]
    exact ⟨h2.1, this⟩

theorem walk_follows {g : Graph} {s v : Int} {c : Double} (h : Walk g s v c) :
    ∃ p ds, p.head? = some s ∧ p.getLast? = some v ∧ g.follows p ds = true ∧
      total ds = c := by
  induction h with
  | refl => exact ⟨[s], [], rfl, rfl, rfl, rfl⟩
  | @snoc u v c d _ ha ih =>
    obtain ⟨p, ds, h1, h2, h3, h4⟩ := ih
    refine ⟨p ++ [v], ds ++ [d], ?_, by simp, follows_snoc g p ds u v d h2 h3 ha, ?_⟩
    · cases p with
      | nil => simp at h1
      | cons a r => simpa using h1
    · rw [total_snoc, h4]

end Navigation

namespace Navigation

theorem pairLt_le {a b : ℚ} {i j : Int} (h : pairLt (.finite a, i) (.finite b, j) = true) :
    a ≤ b := by
  simp only [pairLt, Double.lt, Bool.or_eq_true, decide_eq_true_eq, Bool.and_eq_true,
    Bool.not_eq_true', decide_eq_false_iff_not, not_lt] at h
  rcases h with h | h
  · exact le_of_lt h
  · exact h.1

theorem not_pairLt_le {a b : ℚ} {i j : Int} (h : ¬ pairLt (.finite a, i) (.finite b, j) = true) :
    b ≤ a := by
  simp only [pairLt, Double.lt, Bool.or_eq_true, decide_eq_true_eq, Bool.and_eq_true,
    Bool.not_eq_true', decide_eq_false_iff_not, not_lt, not_or, not_and] at h
  exact h.1

theorem least_mem (best : Double × Int) (l : List (Double × Int)) : least best l ∈ best :: l := by
  induction l generalizing best with
  | nil => simp [least]
  | cons x r ih =>
    simp only [least]
    have := ih (if pairLt x best = true then x else best)
    simp only [List.mem_cons] at this ⊢
    rcases this with h | h
    · rw [h]
      split_ifs
      · exact Or.inr (Or.inl rfl)
      · exact Or.inl rfl
    · exact Or.inr (Or.inr h)

theorem least_le (best : Double × Int) (l : List (Double × Int))
    (hfin : ∀ e ∈ best :: l, ∃ q : ℚ, e.1 = Double.finite q) :
    ∀ e ∈ best :: l, ∀ qm qe : ℚ, (least best l).1 = Double.finite qm →
      e.1 = Double.finite qe → qm ≤ qe := by
  induction l generalizing best with
  | nil =>
    intro e he qm qe hm hq
    simp only [List.mem_singleton] at he
    subst he
    simp only [least] at hm
    rw [hm] at hq
    cases hq
    exact le_refl _
  | cons x r ih =>
    intro e he qm qe hm hq
    simp only [least] at hm
    obtain ⟨qb, hqb⟩ := hfin best (by simp)
    obtain ⟨qx, hqx⟩ := hfin x (by simp)
    obtain ⟨b1, b2⟩ := best
    obtain ⟨x1, x2⟩ := x
    simp only at hqb hqx
    subst hqb; subst hqx
    by_cases hlt : pairLt (Double.finite qx, x2) (Double.finite qb, b2) = true
    · rw [if_pos hlt] at hm
      have hfin' : ∀ e ∈ (Double.finite qx, x2) :: r, ∃ q : ℚ, e.1 = Double.finite q := by
        intro e he
        apply hfin
        simp only [List.mem_cons] at he ⊢
        rcases he with h | h
        · exact Or.inr (Or.inl h)
        · exact Or.inr (Or.inr h)
      have hx := ih _ hfin' (Double.finite qx, x2) (by simp) qm qx hm rfl
      simp only [List.mem_cons] at he
      rcases he with h | h | h
      · subst h
        cases hq
        exact le_trans hx (pairLt_le hlt)
      · subst h
        cases hq
        exact hx
      · exact ih _ hfin' e (List.mem_cons_of_mem _ h) qm qe hm hq
    · rw [if_neg hlt] at hm
      have hfin' : ∀ e ∈ (Double.finite qb, b2) :: r, ∃ q : ℚ, e.1 = Double.finite q := by
        intro e he
        apply hfin
        simp only [List.mem_cons] at he ⊢
        rcases he with h | h
        · exact Or.inl h
        · exact Or.inr (Or.inr h)
      have hb := ih _ hfin' (Double.finite qb, b2) (by simp) qm qb hm rfl
      simp only [List.mem_cons] at he
      rcases he with h | h | h
      · subst h
        cases hq
        exact hb
      · subst h
        cases hq
        exact le_trans hb (not_pairLt_le hlt)
      · exact ih _ hfin' e (List.mem_cons_of_mem _ h) qm qe hm hq

theorem popMin_none {pq : List (Double × Int)} (h : popMin pq = none) : pq = [] := by
  cases pq with
  | nil => rfl
  | cons x r => simp [popMin] at h

theorem popMin_some {pq pq' : List (Double × Int)} {top : Double × Int}
    (h : popMin pq = some (top, pq')) :
    top ∈ pq ∧ pq' = pq.erase top ∧ pq'.length + 1 = pq.length ∧
    ((∀ e ∈ pq, ∃ q : ℚ, e.1 = Double.finite q) →
      ∀ e ∈ pq, ∀ qm qe : ℚ, top.1 = Double.finite qm → e.1 = Double.finite qe → qm ≤ qe) := by
  cases pq with
  | nil => simp [popMin] at h
  | cons x r =>
    simp only [popMin, Option.some.injEq, Prod.mk.injEq] at h
    obtain ⟨h1, h2⟩ := h
    subst h1
    have hm := least_mem x r
    refine ⟨hm, h2.symm, ?_, fun hfin => least_le x r hfin⟩
    rw [← h2, List.length_erase_of_mem hm]
    simp

theorem filter_sum_le (V : List Int) (u : Int) (hu : u ∉ V) (l : List (Int × List Neighbor)) :
    ((l.filter (fun e => decide (e.1 ∉ u :: V))).map (fun e => e.2.length)).sum +
        ((StdMap.find l u).getD []).length ≤
      ((l.filter (fun e => decide (e.1 ∉ V))).map (fun e => e.2.length)).sum := by
  induction l with
  | nil => simp [StdMap.find]
  | cons e l ih =>
    obtain ⟨k, ns⟩ := e
    by_cases hk : k = u
    · subst hk
      have h1 : decide (k ∉ k :: V) = false := by simp
      have h2 : decide (k ∉ V) = true := by simp [hu]
      simp only [List.filter_cons, h1, h2, if_true, StdMap.find, Option.getD_some,
        List.map_cons, List.sum_cons, Bool.false_eq_true, if_false]
      omega
    · by_cases hv : k ∈ V
      · have h1 : decide (k ∉ u :: V) = false := by simp [hv]
        have h2 : decide (k ∉ V) = false := by simp [hv]
        simp only [List.filter_cons, h1, h2, StdMap.find, hk, if_false, Bool.false_eq_true]
        exact ih
      · have h1 : decide (k ∉ u :: V) = true := by simp [hv, hk]
        have h2 : decide (k ∉ V) = true := by simp [hv]
        simp only [List.filter_cons, h1, h2, if_true, StdMap.find, hk, if_false,
          List.map_cons, List.sum_cons]
        omega

theorem relax_shape (u : Int) (cd : Double) (ns : List Neighbor) (st : State) :
    (relax u cd ns st).visited = st.visited ∧
      (relax u cd ns st).pq.length ≤ st.pq.length + ns.length := by
  induction ns generalizing st with
  | nil => simp [relax]
  | cons n rest ih =>
    simp only [relax]
    split_ifs
    · have := ih st
      exact ⟨this.1, by simp only [List.length_cons]; omega⟩
    · have := ih ⟨StdMap.insert n.nodeId (cd.add n.distance)
          (StdMap.insert n.nodeId (Double.finite 0) st.distances),
        StdMap.insert n.nodeId u st.previous, st.visited,
        st.pq ++ [(cd.add n.distance, n.nodeId)]⟩
      refine ⟨this.1, ?_⟩
      have h2 := this.2
      dsimp only at h2
      simp only [List.length_append, List.length_singleton, List.length_cons, List.length_nil] at h2 ⊢
      omega
    · have := ih ⟨StdMap.insert n.nodeId (Double.finite 0) st.distances, st.previous,
        st.visited, st.pq⟩
      exact ⟨this.1, by simp only [List.length_cons]; have := this.2; simp only at this; omega⟩
    · have := ih ⟨StdMap.insert n.nodeId (cd.add n.distance) st.distances,
        StdMap.insert n.nodeId u st.previous, st.visited,
        st.pq ++ [(cd.add n.distance, n.nodeId)]⟩
      refine ⟨this.1, ?_⟩
      have h2 := this.2
      dsimp only at h2
      simp only [List.length_append, List.length_singleton, List.length_cons, List.length_nil] at h2 ⊢
      omega
    · have := ih ⟨st.distances, st.previous, st.visited, st.pq⟩
      exact ⟨this.1, by simp only [List.length_cons]; have := this.2; simp only at this; omega⟩

end Navigation

namespace Navigation

theorem Chain.route {g : Graph} {previous : List (Int × Int)} {s v : Int} {p : List Int}
    {ds : List ℚ} (h : Chain g previous s v p ds) :
    p.head? = some s ∧ p.getLast? = some v ∧ g.follows p ds = true := by
  induction h with
  | base _ => exact ⟨rfl, rfl, rfl⟩
  | @step u v p ds d hc _ ha ih =>
    obtain ⟨h1, h2, h3⟩ := ih
    refine ⟨?_, by simp, follows_snoc g p ds u v d h2 h3 ha⟩
    cases p with
    | nil => simp at h1
    | cons a r => simpa using h1

theorem Chain.keys {g : Graph} {previous : List (Int × Int)} {s v : Int} {p : List Int}
    {ds : List ℚ} (h : Chain g previous s v p ds) :
    ∀ x ∈ p, x ∈ previous.map Prod.fst := by
  induction h with
  | base hb =>
    intro x hx
    simp only [List.mem_singleton] at hx
    subst hx
    exact (StdMap.find_isSome_iff previous x).1 (by simp [hb])
  | @step u v p ds d hc hp ha ih =>
    intro x hx
    simp only [List.mem_append, List.mem_singleton] at hx
    rcases hx with hx | hx
    · exact ih x hx
    · subst hx
      exact (StdMap.find_isSome_iff previous x).1 (by simp [hp])

theorem Chain.congr {g : Graph} {previous previous' : List (Int × Int)} {s v : Int}
    {p : List Int} {ds : List ℚ} (h : Chain g previous s v p ds)
    (heq : ∀ x ∈ p, StdMap.find previous' x = StdMap.find previous x) :
    Chain g previous' s v p ds := by
  induction h with
  | base hb => exact Chain.base (by rw [heq s (by simp)]; exact hb)
  | @step u v p ds d hc hp ha ih =>
    refine Chain.step (ih fun x hx => heq x (by simp [hx])) ?_ ha
    rw [heq v (by simp)]
    exact hp

theorem Chain.reconstruct {g : Graph} {previous : List (Int × Int)} {s v : Int}
    {p : List Int} {ds : List ℚ} (h : Chain g previous s v p ds)
    (hne : ∀ x ∈ p, x ≠ -1) :
    ∀ (fuel : Nat) (acc : List Int), p.length + 1 ≤ fuel →
      reconstructPath previous fuel v acc = some (p ++ acc) := by
  induction h with
  | base hb =>
    intro fuel acc hf
    obtain ⟨f, rfl⟩ : ∃ f, fuel = f + 2 := ⟨fuel - 2, by simp at hf; omega⟩
    have hs : s ≠ -1 := hne s (by simp)
    simp [reconstructPath, hs, hb]
  | @step u v p ds d hc hp ha ih =>
    intro fuel acc hf
    obtain ⟨f, rfl⟩ : ∃ f, fuel = f + 1 := ⟨fuel - 1, by omega⟩
    have hv : v ≠ -1 := hne v (by simp)
    simp only [reconstructPath, hv, if_false, hp]
    rw [ih (fun x hx => hne x (by simp [hx])) f (v :: acc)
      (by simp only [List.length_append, List.length_singleton] at hf; omega)]
    simp

theorem Chain.length_le {g : Graph} {previous : List (Int × Int)} {s v : Int}
    {p : List Int} {ds : List ℚ} (h : Chain g previous s v p ds) (hnd : p.Nodup) :
    p.length ≤ previous.length := by
  have := (List.Nodup.subperm hnd (fun x hx => h.keys x hx)).length_le
  simpa using this

theorem Chain.length_eq {g : Graph} {previous : List (Int × Int)} {s v : Int}
    {p : List Int} {ds : List ℚ} (h : Chain g previous s v p ds) :
    p.length = ds.length + 1 := by
  induction h with
  | base _ => rfl
  | step _ _ _ ih => simp [ih]

end Navigation
namespace Navigation

theorem lt_le_trans (a : ℚ) (b c : Double) (hb : b.isDist) (h1 : (Double.finite a).lt b = true)
    (h2 : b.le c = true) : (Double.finite a).le c = true := by
  cases b <;> cases c <;> simp_all [Double.isDist, Double.le, Double.lt]
  exact (le_of_lt h1).trans h2

theorem le_of_not_lt (a b : Double) (ha : a.isDist) (hb : b.isDist)
    (h : ¬ a.lt b = true) : b.le a = true := by
  cases a <;> cases b <;> simp_all [Double.isDist, Double.le, Double.lt]

theorem finite_of_lt (a b : Double) (ha : a.isDist) (h : a.lt b = true) :
    ∃ q : ℚ, a = Double.finite q := by
  cases a with
  | finite q => exact ⟨q, rfl⟩
  | posInf => cases b <;> simp [Double.lt] at h
  | negInf => exact absurd ha id
  | nan => exact absurd ha id

theorem Inv.repend {g : Graph} {s t : Int} {st : State} {P Q : Int → Neighbor → Prop}
    (inv : Inv g s t st P)
    (hPQ : ∀ x ∈ st.visited, ∀ m ∈ g.getNeighbors x, m.nodeId ∉ st.visited → P x m →
      Q x m ∨ ∃ (qu d : ℚ) (y : Double),
        StdMap.find st.distances x = some (Double.finite qu) ∧
        m.distance = Double.finite d ∧
        StdMap.find st.distances m.nodeId = some y ∧
        y.le ((Double.finite qu).add (Double.finite d)) = true) :
    Inv g s t st Q :=
  { dom := inv.dom
    val := inv.val
    chain := inv.chain
    opt := inv.opt
    arcs := fun x hx m hm hmv => by
      rcases inv.arcs x hx m hm hmv with h | h
      · exact hPQ x hx m hm hmv h
      · exact Or.inr h
    queued := inv.queued
    pqv := inv.pqv
    src := inv.src
    dest := inv.dest }

theorem Inv.source_visited {g : Graph} {s t : Int} {st : State} {P : Int → Neighbor → Prop}
    (inv : Inv g s t st P) {u : Int} (hu : u ∈ st.visited) : s ∈ st.visited := by
  rcases inv.src with h | h
  · exact h
  · rw [h.1] at hu
    cases hu

theorem Inv.update {g : Graph} {s t : Int} {st : State} {P P' : Int → Neighbor → Prop}
    (inv : Inv g s t st P) {u y : Int} {qu d nd : ℚ}
    (hu : u ∈ st.visited) (hdu : StdMap.find st.distances u = some (Double.finite qu))
    (hy : y ∉ st.visited) (harc : (⟨y, .finite d⟩ : Neighbor) ∈ g.getNeighbors u)
    (hnode : g.nodeExists y = true) (hd : 0 ≤ d)
    (hadd : (Double.finite qu).add (Double.finite d) = Double.finite nd)
    (hlt : ∀ x : Double, StdMap.find st.distances y = some x →
      (Double.finite nd).lt x = true)
    (hP : ∀ x ∈ st.visited, ∀ m ∈ g.getNeighbors x, m.nodeId ∉ st.visited → P x m →
      P' x m ∨ (x = u ∧ m = ⟨y, .finite d⟩)) :
    Inv g s t ⟨StdMap.insert y (Double.finite nd) st.distances,
      StdMap.insert y u st.previous, st.visited,
      st.pq ++ [(Double.finite nd, y)]⟩ P' := by
  have huy : y ≠ u := fun h => hy (h ▸ hu)
  have hnd : (Double.finite nd).isDist := by
    rw [← hadd]
    exact Double.add_isDist _ _ (inv.val u _ hdu) hd
  refine ⟨?_, ?_, ?_, ?_, ?_, ?_, ?_, ?_, ?_⟩
  · intro v hv
    simp only [StdMap.find_insert]
    by_cases h : y = v
    · exact ⟨_, by rw [if_pos h]⟩
    · rw [if_neg h]
      exact inv.dom v hv
  · intro v x hx
    simp only [StdMap.find_insert] at hx
    by_cases h : y = v
    · rw [if_pos h] at hx
      cases hx
      exact hnd
    · rw [if_neg h] at hx
      exact inv.val v x hx
  · intro v q hq
    simp only [StdMap.find_insert] at hq
    by_cases h : y = v
    · rw [if_pos h] at hq
      simp only [Option.some.injEq, Double.finite.injEq] at hq
      subst h
      obtain ⟨p, ds, hc, hsum, hnd', hvis, hnodes⟩ := inv.chain u qu hdu
      have hpv : ∀ x ∈ p, x ∈ st.visited := by
        intro x hx
        rcases hvis x hx with h | h
        · rw [h]; exact hu
        · exact h
      have hyp : y ∉ p := fun h => hy (hpv y h)
      refine ⟨p ++ [y], ds ++ [d], ?_, ?_, ?_, ?_, ?_⟩
      · refine Chain.step (hc.congr ?_) ?_ harc
        · intro x hx
          have : y ≠ x := fun h => hyp (h ▸ hx)
          simp only [StdMap.find_insert, if_neg this]
        · simp only [StdMap.find_insert, if_true]
      · rw [total_snoc, hsum, hadd, hq]
      · rw [List.nodup_append]
        refine ⟨hnd', List.nodup_singleton _, ?_⟩
        intro a ha hb
        simp only [List.mem_singleton] at hb
        exact hyp (hb ▸ ha)
      · intro x hx
        simp only [List.mem_append, List.mem_singleton] at hx
        rcases hx with hx | hx
        · exact Or.inr (hpv x hx)
        · exact Or.inl hx
      · intro x hx
        simp only [List.mem_append, List.mem_singleton] at hx
        rcases hx with hx | hx
        · exact hnodes x hx
        · rw [hx]; exact hnode
    · rw [if_neg h] at hq
      obtain ⟨p, ds, hc, hsum, hnd', hvis, hnodes⟩ := inv.chain v q hq
      refine ⟨p, ds, hc.congr ?_, hsum, hnd', hvis, hnodes⟩
      intro x hx
      have : y ≠ x := by
        rcases hvis x hx with h' | h'
        · rw [h']; exact h
        · exact fun e => hy (e ▸ h')
      simp only [StdMap.find_insert, if_neg this]
  · intro v hv
    have : y ≠ v := fun e => hy (e ▸ hv)
    simp only [StdMap.find_insert, if_neg this]
    exact inv.opt v hv
  · intro x hx m hm hmv
    have hxy : y ≠ x := fun e => hy (e ▸ hx)
    simp only [StdMap.find_insert, if_neg hxy]
    rcases inv.arcs x hx m hm hmv with h | ⟨qx, d', xv, h1, h2, h3, h4⟩
    · rcases hP x hx m hm hmv h with h' | ⟨h1, h2⟩
      · exact Or.inl h'
      · subst h1; subst h2
        refine Or.inr ⟨qu, d, Double.finite nd, hdu, rfl, by simp, ?_⟩
        rw [hadd]
        exact Double.isDist_le_refl _ hnd
    · refine Or.inr ?_
      by_cases hmy : y = m.nodeId
      · refine ⟨qx, d', Double.finite nd, h1, h2, by rw [if_pos hmy], ?_⟩
        have hx' := hlt xv (by rw [hmy]; exact h3)
        exact lt_le_trans nd xv _ (inv.val _ _ h3) hx' h4
      · exact ⟨qx, d', xv, h1, h2, by rw [if_neg hmy]; exact h3, h4⟩
  · intro v q hv hq
    simp only [StdMap.find_insert] at hq
    simp only [List.mem_append, List.mem_singleton]
    by_cases h : y = v
    · rw [if_pos h] at hq
      simp only [Option.some.injEq, Double.finite.injEq] at hq
      exact Or.inr (by rw [← hq, h])
    · rw [if_neg h] at hq
      exact Or.inl (inv.queued v q hv hq)
  · intro e he
    simp only [List.mem_append, List.mem_singleton] at he
    simp only [StdMap.find_insert]
    rcases he with he | he
    · obtain ⟨q, q', h1, h2, h3⟩ := inv.pqv e he
      by_cases h : y = e.2
      · refine ⟨q, nd, h1, by rw [if_pos h], ?_⟩
        have := hlt _ (by rw [h]; exact h2)
        simp only [Double.lt, decide_eq_true_eq] at this
        linarith
      · exact ⟨q, q', h1, by rw [if_neg h]; exact h2, h3⟩
    · subst he
      exact ⟨nd, nd, rfl, by simp, le_refl _⟩
  · exact Or.inl (inv.source_visited hu)
  · exact inv.dest

theorem relax_inv {g : Graph} {s t : Int} (hpos : Positive g) (u : Int) (qu : ℚ) :
    ∀ (ns : List Neighbor) (st : State),
      (∀ n ∈ ns, n ∈ g.getNeighbors u) → u ∈ st.visited →
      StdMap.find st.distances u = some (Double.finite qu) →
      Inv g s t st (fun x n => x = u ∧ n ∈ ns) →
      Inv g s t (relax u (Double.finite qu) ns st) (fun _ _ => False) := by
  intro ns
  induction ns with
  | nil =>
    intro st _ _ _ inv
    simp only [relax]
    exact inv.repend (fun x _ m _ _ h => by simp at h)
  | cons n rest ih =>
    intro st hns hu hdu inv
    have hrest : ∀ m ∈ rest, m ∈ g.getNeighbors u :=
      fun m hm => hns m (List.mem_cons_of_mem _ hm)
    have hn := hns n (List.mem_cons_self _ _)
    by_cases hvis : n.nodeId ∈ st.visited
    · simp only [relax, hvis, if_true]
      apply ih st hrest hu hdu
      apply inv.repend
      intro x hx m hm hmv hp
      refine Or.inl ⟨hp.1, ?_⟩
      rcases List.mem_cons.1 hp.2 with h | h
      · rw [h] at hmv
        exact absurd hvis hmv
      · exact h
    · obtain ⟨⟨d, hd, hnd⟩, hnode⟩ := hpos.arc hn
      obtain ⟨x, hx⟩ := inv.dom n.nodeId hnode
      have hn' : n = ⟨n.nodeId, Double.finite d⟩ := by
        cases n
        simp only at hnd
        rw [hnd]
      have hsum : ((Double.finite qu).add (Double.finite d)).isDist :=
        Double.add_isDist _ _ (inv.val u _ hdu) hd.le
      simp only [relax, hvis, if_false, hx, Option.isNone_some, Bool.false_eq_true,
        Option.getD_some, hnd]
      by_cases hlt : ((Double.finite qu).add (Double.finite d)).lt x = true
      · rw [if_pos hlt]
        obtain ⟨nd, hadd⟩ := finite_of_lt _ _ hsum hlt
        rw [hadd] at hlt ⊢
        have hy : n.nodeId ≠ u := fun h => hvis (h ▸ hu)
        apply ih ⟨StdMap.insert n.nodeId (Double.finite nd) st.distances,
          StdMap.insert n.nodeId u st.previous, st.visited,
          st.pq ++ [(Double.finite nd, n.nodeId)]⟩ hrest hu
          (by simp only [StdMap.find_insert, if_neg hy]; exact hdu)
        apply inv.update hu hdu hvis (by rw [← hn']; exact hn) hnode hd.le hadd
        · intro x' hx'
          rw [hx] at hx'
          cases hx'
          exact hlt
        · intro a ha m hm hmv hp
          rcases List.mem_cons.1 hp.2 with h | h
          · exact Or.inr ⟨hp.1, by rw [h]; exact hn'⟩
          · exact Or.inl ⟨hp.1, h⟩
      · rw [if_neg hlt]
        have hst : (⟨st.distances, st.previous, st.visited, st.pq⟩ : State) = st := by
          cases st; rfl
        rw [hst]
        apply ih st hrest hu hdu
        apply inv.repend
        intro a ha m hm hmv hp
        rcases List.mem_cons.1 hp.2 with h | h
        · refine Or.inr ?_
          rw [hp.1, h]
          exact ⟨qu, d, x, hdu, hnd, hx, le_of_not_lt _ _ hsum (inv.val _ _ hx) hlt⟩
        · exact Or.inl ⟨hp.1, h⟩

end Navigation
namespace Navigation

theorem eq_posInf_of_le (c : Double) (h : Double.posInf.le c = true) : c = Double.posInf := by
  cases c <;> simp_all [Double.le]

theorem loop_spec {g : Graph} {s t : Int} (hpos : Positive g)
    (hsentinel : g.nodeExists (-1) = false) :
    ∀ (fuel : Nat) (st : State), Inv g s t st (fun _ _ => False) → potential g st < fuel →
      ∃ r, loop g s t fuel st = some r ∧
        (r.found = false → ∀ c, Walk g s t c → c = Double.posInf) ∧
        (r.found = true → ∃ ds : List ℚ, r.path.head? = some s ∧
          r.path.getLast? = some t ∧ g.follows r.path ds = true ∧
          r.totalDistance = total ds ∧ total ds ≠ Double.posInf ∧
          ∀ c, Walk g s t c → (total ds).le c = true) := by
  intro fuel
  induction fuel with
  | zero => intro st _ h; omega
  | succ fuel ih =>
    intro st inv hfuel
    simp only [loop]
    cases hpop : popMin st.pq with
    | none =>
      have hpq := popMin_none hpop
      refine ⟨_, rfl, ?_, fun h => by simp at h⟩
      intro _ c hw
      have hs : s ∈ st.visited := by
        rcases inv.src with h | h
        · exact h
        · rw [hpq] at h
          simp at h
      obtain ⟨x, y, c1, d, hwx, hx, hy, harc, hle⟩ :=
        hw.crossing hpos st.visited hs inv.dest
      obtain ⟨qx, hqx, hoptx⟩ := inv.opt x hx
      rcases inv.arcs x hx _ harc hy with h | ⟨qu, d', xv, h1, h2, h3, h4⟩
      · exact absurd h id
      · rw [hqx] at h1
        simp only [Option.some.injEq, Double.finite.injEq] at h1 h2
        subst h1; subst h2
        have hxv : xv = Double.posInf := by
          cases hxv : xv with
          | finite qv =>
            rw [hxv] at h3
            have := inv.queued y qv hy h3
            rw [hpq] at this
            simp at this
          | posInf => rfl
          | negInf => rw [hxv] at h3; exact absurd (inv.val _ _ h3) id
          | nan => rw [hxv] at h3; exact absurd (inv.val _ _ h3) id
        rw [hxv] at h4
        have hd := hpos.dist harc
        have e1 := eq_posInf_of_le _ h4
        have e2 := Double.add_le_add_right _ _ d (inv.val _ _ hqx) (hwx.isDist hpos)
          (hoptx c1 hwx) hd.le
        rw [e1] at e2
        have e3 := eq_posInf_of_le _ e2
        rw [e3] at hle
        exact eq_posInf_of_le _ hle
    | some top =>
      obtain ⟨⟨cd, cn⟩, pq'⟩ := top
      obtain ⟨hmem, hpq', hlen, hmin⟩ := popMin_some hpop
      have hfin : ∀ e ∈ st.pq, ∃ q : ℚ, e.1 = Double.finite q := by
        intro e he
        obtain ⟨q, _, h, _⟩ := inv.pqv e he
        exact ⟨q, h⟩
      have hmin' := hmin hfin
      have hsub : ∀ e ∈ pq', e ∈ st.pq := by
        intro e he
        rw [hpq'] at he
        exact List.mem_of_mem_erase he
      have hkeep : ∀ (v : Int) (q : ℚ), v ≠ cn → (Double.finite q, v) ∈ st.pq →
          (Double.finite q, v) ∈ pq' := by
        intro v q hv he
        rw [hpq']
        exact (List.mem_erase_of_ne (by
          intro h
          simp only [Prod.mk.injEq] at h
          exact hv h.2)).2 he
      simp only
      by_cases hv : cn ∈ st.visited
      · rw [if_pos hv]
        apply ih
        · exact
            { dom := inv.dom
              val := inv.val
              chain := inv.chain
              opt := inv.opt
              arcs := inv.arcs
              queued := fun v q hvv hq =>
                hkeep v q (fun h => hvv (h ▸ hv)) (inv.queued v q hvv hq)
              pqv := fun e he => inv.pqv e (hsub e he)
              src := Or.inl (inv.source_visited hv)
              dest := inv.dest }
        · simp only [potential] at hfuel ⊢
          omega
      · rw [if_neg hv]
        obtain ⟨q, q', hcd, hdist, hle⟩ := inv.pqv _ hmem
        simp only at hcd hdist
        subst hcd
        have hq : q = q' :=
          le_antisymm (hmin' _ (inv.queued cn q' hv hdist) q q' rfl rfl) hle |>.symm ▸ rfl
        subst hq
        have hopt : ∀ c, Walk g s cn c → (Double.finite q).le c = true := by
          intro c hw
          rcases inv.src with hs | ⟨_, hs⟩
          · obtain ⟨x, y, c1, d, hwx, hx, hy, harc, hle'⟩ :=
              hw.crossing hpos st.visited hs hv
            obtain ⟨qx, hqx, hoptx⟩ := inv.opt x hx
            have hd := hpos.dist harc
            have hc1 := hwx.isDist hpos
            rcases inv.arcs x hx _ harc hy with h | ⟨qu, d', xv, h1, h2, h3, h4⟩
            · exact absurd h id
            · rw [hqx] at h1
              simp only [Option.some.injEq, Double.finite.injEq] at h1 h2
              subst h1; subst h2
              have e2 := Double.add_le_add_right _ _ d (inv.val _ _ hqx) hc1
                (hoptx c1 hwx) hd.le
              have e3 : xv.le c = true :=
                Double.isDist_le_trans _ _ _ (Double.add_isDist _ _ hc1 hd.le)
                  (Double.isDist_le_trans _ _ _
                    (Double.add_isDist _ _ (inv.val _ _ hqx) hd.le) h4 e2) hle'
              cases hxv : xv with
              | finite qv =>
                rw [hxv] at h3 e3
                have h5 := hmin' _ (inv.queued y qv hy h3) q qv rfl rfl
                have h6 : (Double.finite q).le (Double.finite qv) = true := by
                  simpa [Double.le] using h5
                exact Double.isDist_le_trans _ _ _ (inv.val _ _ h3) h6 e3
              | posInf =>
                rw [hxv] at e3
                rw [eq_posInf_of_le _ e3]
                rfl
              | negInf => rw [hxv] at h3; exact absurd (inv.val _ _ h3) id
              | nan => rw [hxv] at h3; exact absurd (inv.val _ _ h3) id
          · rw [hs] at hmem
            simp only [List.mem_singleton, Prod.mk.injEq, Double.finite.injEq] at hmem
            rw [hmem.1]
            rw [hmem.2] at hw
            exact Double.isDist_zero_le _ (hw.isDist hpos)
        by_cases ht : cn = t
        · rw [if_pos ht]
          subst ht
          obtain ⟨p, ds, hc, hsum, hnd, _, hnodes⟩ := inv.chain cn q hdist
          have hne : ∀ x ∈ p, x ≠ -1 := by
            intro x hx h
            have := hnodes x hx
            rw [h, hsentinel] at this
            cases this
          have hrec := hc.reconstruct hne (st.previous.length + 1) []
            (by have := hc.length_le hnd; omega)
          simp only [hrec, List.append_nil, hdist, Option.getD_some]
          obtain ⟨h1, h2, h3⟩ := hc.route
          refine ⟨_, rfl, fun h => by simp at h, fun _ => ⟨ds, h1, h2, h3, ?_, ?_, ?_⟩⟩
          · simp only [hsum]
          · rw [hsum]
            intro h
            cases h
          · rw [hsum]; exact hopt
        · rw [if_neg ht]
          have inv1 : Inv g s t ⟨st.distances, st.previous, cn :: st.visited, pq'⟩
              (fun x n => x = cn ∧ n ∈ g.getNeighbors cn) :=
            { dom := inv.dom
              val := inv.val
              chain := fun v qv hqv => by
                obtain ⟨p, ds, hc, hsum, hnd, hvis, hnodes⟩ := inv.chain v qv hqv
                refine ⟨p, ds, hc, hsum, hnd, fun x hx => ?_, hnodes⟩
                rcases hvis x hx with h | h
                · exact Or.inl h
                · exact Or.inr (List.mem_cons_of_mem _ h)
              opt := fun v hvv => by
                rcases List.mem_cons.1 hvv with h | h
                · subst h
                  exact ⟨q, hdist, hopt⟩
                · exact inv.opt v h
              arcs := fun x hx m hm hmv => by
                rcases List.mem_cons.1 hx with h | h
                · exact Or.inl ⟨h, h ▸ hm⟩
                · rcases inv.arcs x h m hm (fun h' => hmv (List.mem_cons_of_mem _ h')) with
                    h' | h'
                  · exact absurd h' id
                  · exact Or.inr h'
              queued := fun v qv hvv hqv => by
                have h1 : v ≠ cn := fun h => hvv (h ▸ List.mem_cons_self _ _)
                have h2 : v ∉ st.visited := fun h => hvv (List.mem_cons_of_mem _ h)
                exact hkeep v qv h1 (inv.queued v qv h2 hqv)
              pqv := fun e he => inv.pqv e (hsub e he)
              src := by
                rcases inv.src with h | ⟨_, h⟩
                · exact Or.inl (List.mem_cons_of_mem _ h)
                · rw [h] at hmem
                  simp only [List.mem_singleton, Prod.mk.injEq] at hmem
                  exact Or.inl (by rw [hmem.2]; exact List.mem_cons_self _ _)
              dest := fun h => by
                rcases List.mem_cons.1 h with h | h
                · exact ht h.symm
                · exact inv.dest h }
          have inv2 := relax_inv hpos cn q (g.getNeighbors cn)
            ⟨st.distances, st.previous, cn :: st.visited, pq'⟩ (fun n h => h)
            (List.mem_cons_self _ _) hdist inv1
          apply ih _ inv2
          have hshape := relax_shape cn (Double.finite q) (g.getNeighbors cn)
            ⟨st.distances, st.previous, cn :: st.visited, pq'⟩
          have hsum := filter_sum_le st.visited cn hv g.adjacencyList
          simp only [potential, hshape.1] at hfuel ⊢
          have h2 := hshape.2
          simp only [Graph.getNeighbors] at h2 hsum ⊢
          omega

end Navigation

namespace Navigation

theorem find_foldl_const {V : Type} (c : V) (l : List Location) (m0 : List (Int × V))
    (k : Int) :
    StdMap.find (l.foldl (fun m loc => StdMap.insert loc.id c m) m0) k =
      if k ∈ l.map (fun loc => loc.id) then some c else StdMap.find m0 k := by
  induction l generalizing m0 with
  | nil => simp
  | cons a l ih =>
    simp only [List.foldl_cons, ih, StdMap.find_insert, List.map_cons, List.mem_cons]
    by_cases h1 : k ∈ l.map (fun loc => loc.id)
    · simp [h1]
    · by_cases h2 : a.id = k
      · simp [h2]
      · have h3 : ¬ k = a.id := fun h => h2 h.symm
        simp [h1, h2, h3]

theorem nodeExists_iff {g : Graph} (hkeys : g.keyedById = true) (v : Int) :
    g.nodeExists v = true ↔ v ∈ g.getAllNodes.map (fun loc => loc.id) := by
  have h : g.getAllNodes.map (fun loc => loc.id) = g.nodes.map Prod.fst := by
    simp only [Graph.getAllNodes, List.map_map]
    apply List.map_congr_left
    intro e he
    simp only [Graph.keyedById, List.all_eq_true, decide_eq_true_eq] at hkeys
    exact hkeys e he
  rw [h]
  exact StdMap.find_isSome_iff g.nodes v

theorem positive_of_positiveArcs {g : Graph} (h : g.positiveArcs = true) : Positive g := by
  intro e he n hn
  simp only [Graph.positiveArcs, List.all_eq_true, Bool.and_eq_true] at h
  obtain ⟨h1, h2⟩ := h e he n hn
  refine ⟨?_, h2⟩
  cases hd : n.distance with
  | finite d =>
    rw [hd] at h1
    exact ⟨d, by simpa using h1, rfl⟩
  | posInf => rw [hd] at h1; cases h1
  | negInf => rw [hd] at h1; cases h1
  | nan => rw [hd] at h1; cases h1

theorem start_inv {g : Graph} {s t : Int} (hkeys : g.keyedById = true)
    (hs : g.nodeExists s = true) : Inv g s t (start g s) (fun _ _ => False) := by
  have hsm := (nodeExists_iff hkeys s).1 hs
  have hfind : ∀ v, StdMap.find (start g s).distances v =
      if s = v then some (Double.finite 0)
      else if v ∈ g.getAllNodes.map (fun loc => loc.id) then some Double.posInf else none := by
    intro v
    simp only [start, StdMap.find_insert, find_foldl_const, StdMap.find]
  have hfin : ∀ v (q : ℚ), StdMap.find (start g s).distances v = some (Double.finite q) →
      s = v ∧ q = 0 := by
    intro v q h
    rw [hfind] at h
    by_cases h1 : s = v
    · rw [if_pos h1] at h
      simp only [Option.some.injEq, Double.finite.injEq] at h
      exact ⟨h1, h.symm⟩
    · rw [if_neg h1] at h
      split_ifs at h
      cases h
  refine ⟨?_, ?_, ?_, ?_, ?_, ?_, ?_, ?_, ?_⟩
  · intro v hv
    rw [hfind]
    by_cases h1 : s = v
    · exact ⟨_, by rw [if_pos h1]⟩
    · exact ⟨_, by rw [if_neg h1, if_pos ((nodeExists_iff hkeys v).1 hv)]⟩
  · intro v x hx
    rw [hfind] at hx
    by_cases h1 : s = v
    · rw [if_pos h1] at hx
      cases hx
      exact isDist_zero
    · rw [if_neg h1] at hx
      split_ifs at hx
      cases hx
      trivial
  · intro v q hq
    obtain ⟨h1, h2⟩ := hfin v q hq
    subst h1; subst h2
    refine ⟨[s], [], Chain.base ?_, rfl, List.nodup_singleton _, ?_, ?_⟩
    · simp only [start, find_foldl_const, if_pos hsm]
    · intro x hx
      exact Or.inl (List.mem_singleton.1 hx)
    · intro x hx
      rw [List.mem_singleton.1 hx]
      exact hs
  · intro v hv
    simp [start] at hv
  · intro u hu
    simp [start] at hu
  · intro v q _ hq
    obtain ⟨h1, h2⟩ := hfin v q hq
    subst h1; subst h2
    simp [start]
  · intro e he
    simp only [start, List.mem_singleton] at he
    subst he
    exact ⟨0, 0, rfl, by rw [hfind]; simp, le_refl _⟩
  · exact Or.inr ⟨rfl, rfl⟩
  · simp [start]

theorem start_potential (g : Graph) (s : Int) : potential g (start g s) = g.getEdgeCount + 1 := by
  simp [potential, start, Graph.getEdgeCount]
  omega

end Navigation
theorem wrapInt_small (x : Int) (h1 : -2147483648 ≤ x) (h2 : x ≤ 2147483647) :
    wrapInt x = x := by
  unfold wrapInt
  omega

namespace DatabaseManager

theorem mk_isEmpty (l : List Char) (hl : l ≠ []) : (String.mk l).isEmpty = false := by
  rw [Bool.eq_false_iff, ne_eq, String.isEmpty_iff]
  intro h
  exact hl (congrArg String.data h)

theorem serialize_location_nonempty (dt : DoubleText) (loc : Location) :
    (String.mk (loc.serialize dt)).isEmpty = false := by
  apply mk_isEmpty
  simp [Location.serialize]

theorem serialize_edge_nonempty (dt : DoubleText) (e : Edge) :
    (String.mk (e.serialize dt)).isEmpty = false := by
  apply mk_isEmpty
  simp [Edge.serialize]

theorem insert_at_end {t : BTree} (ht : BTree.TreeOk t) (k : Int) (v : String)
    (hfresh : ∀ e ∈ t.traverseAll, e.1 < k) :
    ∃ t', t.insert k v = some t' ∧ BTree.TreeOk t' ∧
      t'.traverseAll = t.traverseAll ++ [(k, v)] := by
  obtain ⟨t', h1, h2, l1, l2, h3, h4, _, h6⟩ :=
    BTree.insert_spec ht k v (fun e he => ne_of_lt (hfresh e he))
  refine ⟨t', h1, h2, ?_⟩
  cases l2 with
  | nil => rw [h4, h3, List.append_nil]
  | cons e r =>
    have h7 := h6 e (List.mem_cons_self _ _)
    have h8 := hfresh e (by rw [h3]; simp)
    omega

theorem addLocation_ok (dt : DoubleText) (db : DatabaseManager) (name : String)
    (lat lon : Double) (type : String) (ht : BTree.TreeOk db.locationBTree)
    (hfresh : ∀ e ∈ db.locationBTree.traverseAll, e.1 < db.nextLocationId)
    (hv : Location.isValid ⟨db.nextLocationId, name, lat, lon, type⟩ = true) :
    ∃ t', db.addLocation dt name lat lon type =
        Except.ok (db.nextLocationId,
          ⟨t', db.edgeBTree, db.graph.addNode ⟨db.nextLocationId, name, lat, lon, type⟩,
            wrapInt (db.nextLocationId + 1), db.nextEdgeId, true⟩) ∧
      BTree.TreeOk t' ∧
      t'.traverseAll = db.locationBTree.traverseAll ++
        [(db.nextLocationId,
          String.mk (Location.serialize dt ⟨db.nextLocationId, name, lat, lon, type⟩))] := by
  obtain ⟨t', h1, h2, h3⟩ := insert_at_end ht db.nextLocationId
    (String.mk (Location.serialize dt ⟨db.nextLocationId, name, lat, lon, type⟩)) hfresh
  refine ⟨t', ?_, h2, h3⟩
  simp only [addLocation, hv, Bool.not_true, Bool.false_eq_true, if_false, h1]

theorem locationExists_stored {db : DatabaseManager} (ht : BTree.TreeOk db.locationBTree)
    {k : Int} {v : String} (hmem : (k, v) ∈ db.locationBTree.traverseAll)
    (hv : v.isEmpty = false) : db.locationExists k = Except.ok true := by
  obtain ⟨locationBTree, e, g, a, b, c⟩ := db
  obtain ⟨root⟩ := locationBTree
  cases root with
  | none => simp [BTree.traverseAll] at hmem
  | some r =>
    obtain ⟨hs, hk⟩ := BTree.TreeOk.root_shaped ht (r := r) rfl
    have := (BTree.exists_spec hs hk k).2 v hmem
    simp only [locationExists, this, hv, Bool.not_false]

theorem addEdge_ok (dt : DoubleText) (db : DatabaseManager) (sourceId destId : Int)
    (distance : Double) (roadName : String) (bidirectional : Bool)
    (hloc : BTree.TreeOk db.locationBTree)
    (hs : ∃ v, (sourceId, v) ∈ db.locationBTree.traverseAll ∧ v.isEmpty = false)
    (hd : ∃ v, (destId, v) ∈ db.locationBTree.traverseAll ∧ v.isEmpty = false)
    (ht : BTree.TreeOk db.edgeBTree)
    (hfresh : ∀ e ∈ db.edgeBTree.traverseAll, e.1 < db.nextEdgeId)
    (hv : Edge.isValid
      ⟨db.nextEdgeId, sourceId, destId, distance, roadName, bidirectional⟩ = true) :
    ∃ t', db.addEdge dt sourceId destId distance roadName bidirectional =
        Except.ok (db.nextEdgeId,
          ⟨db.locationBTree, t', db.graph.addEdge sourceId destId distance bidirectional,
            db.nextLocationId, wrapInt (db.nextEdgeId + 1), true⟩) ∧
      BTree.TreeOk t' ∧
      t'.traverseAll = db.edgeBTree.traverseAll ++
        [(db.nextEdgeId, String.mk (Edge.serialize dt
          ⟨db.nextEdgeId, sourceId, destId, distance, roadName, bidirectional⟩))] := by
  obtain ⟨t', h1, h2, h3⟩ := insert_at_end ht db.nextEdgeId
    (String.mk (Edge.serialize dt
      ⟨db.nextEdgeId, sourceId, destId, distance, roadName, bidirectional⟩)) hfresh
  obtain ⟨vs, hvs, hvs'⟩ := hs
  obtain ⟨vd, hvd, hvd'⟩ := hd
  refine ⟨t', ?_, h2, h3⟩
  simp only [addEdge, locationExists_stored hloc hvs hvs', locationExists_stored hloc hvd hvd',
    hv, Bool.not_true, Bool.false_eq_true, if_false, h1]

end DatabaseManager

namespace DatabaseManager

theorem saveData_graph (db : DatabaseManager) (files : DataFiles) :
    (db.saveData files).2.1.graph = db.graph := by
  simp only [saveData, saveDataOn]
  split_ifs <;> rfl

theorem treeOk_empty : BTree.TreeOk BTree.empty := by
  simp [BTree.TreeOk, BTree.empty]

theorem addLocation_fold (dt : DoubleText) :
    ∀ (ls : List (String × Double × Double × String)) (db : DatabaseManager),
      BTree.TreeOk db.locationBTree →
      (∀ e ∈ db.locationBTree.traverseAll, e.1 < db.nextLocationId ∧ e.2.isEmpty = false) →
      (∀ l ∈ ls, ∀ id : Int, 0 < id →
        Location.isValid ⟨id, l.1, l.2.1, l.2.2.1, l.2.2.2⟩ = true) →
      0 < db.nextLocationId → db.nextLocationId + ls.length ≤ 2147483647 →
      ∃ db', ls.foldlM (fun d (l : String × Double × Double × String) =>
          (addLocation dt d l.1 l.2.1 l.2.2.1 l.2.2.2).map Prod.snd) db = Except.ok db' ∧
        BTree.TreeOk db'.locationBTree ∧
        (∀ e ∈ db'.locationBTree.traverseAll,
          e.1 < db'.nextLocationId ∧ e.2.isEmpty = false) ∧
        (∀ k, db.nextLocationId ≤ k → k < db'.nextLocationId →
          ∃ v, (k, v) ∈ db'.locationBTree.traverseAll) ∧
        (∀ e ∈ db.locationBTree.traverseAll, e ∈ db'.locationBTree.traverseAll) ∧
        db'.nextLocationId = db.nextLocationId + ls.length ∧
        db'.edgeBTree = db.edgeBTree ∧ db'.nextEdgeId = db.nextEdgeId ∧
        db'.graph = (ls.foldl (fun (p : Graph × Int) l =>
          (p.1.addNode ⟨p.2, l.1, l.2.1, l.2.2.1, l.2.2.2⟩, p.2 + 1))
          (db.graph, db.nextLocationId)).1 := by
  intro ls
  induction ls with
  | nil =>
    intro db ht hfresh _ _ _
    exact ⟨db, rfl, ht, hfresh, fun k h1 h2 => by omega, fun e he => he, by simp, rfl, rfl, rfl⟩
  | cons l ls ih =>
    intro db ht hfresh hvalid hpos hmax
    simp only [List.length_cons, Nat.cast_add, Nat.cast_one] at hmax
    obtain ⟨t', h1, h2, h3⟩ := addLocation_ok dt db l.1 l.2.1 l.2.2.1 l.2.2.2 ht
      (fun e he => (hfresh e he).1) (hvalid l (List.mem_cons_self _ _) _ hpos)
    rw [wrapInt_small _ (by omega) (by omega)] at h1
    obtain ⟨db', e1, e2, e3, e4, e5, e6, e7, e8, e9⟩ := ih
      ⟨t', db.edgeBTree, db.graph.addNode ⟨db.nextLocationId, l.1, l.2.1, l.2.2.1, l.2.2.2⟩,
        db.nextLocationId + 1, db.nextEdgeId, true⟩ h2
      (by
        intro e he
        simp only [h3, List.mem_append, List.mem_singleton] at he
        rcases he with he | he
        · exact ⟨by have := (hfresh e he).1; simp only; omega, (hfresh e he).2⟩
        · rw [he]
          exact ⟨by simp, serialize_location_nonempty dt _⟩)
      (fun l' hl' => hvalid l' (List.mem_cons_of_mem _ hl'))
      (by simp only; omega) (by simp only; omega)
    refine ⟨db', ?_, e2, e3, ?_, ?_, ?_, e7, e8, ?_⟩
    · simp only [List.foldlM_cons, h1, Except.map, bind, Except.bind]
      exact e1
    · intro k hk1 hk2
      by_cases hk : k = db.nextLocationId
      · refine ⟨String.mk (Location.serialize dt
          ⟨db.nextLocationId, l.1, l.2.1, l.2.2.1, l.2.2.2⟩), e5 _ ?_⟩
        simp only [h3, List.mem_append, List.mem_singleton]
        exact Or.inr (by rw [hk])
      · exact e4 k (by simp only; omega) hk2
    · intro e he
      apply e5
      simp only [h3, List.mem_append]
      exact Or.inl he
    · rw [e6]
      simp only [List.length_cons]
      push_cast
      omega
    · rw [e9]
      simp only [List.foldl_cons]

theorem addEdge_fold (dt : DoubleText) :
    ∀ (es : List (Int × Int × Double × String)) (db : DatabaseManager),
      BTree.TreeOk db.locationBTree → BTree.TreeOk db.edgeBTree →
      (∀ e ∈ db.edgeBTree.traverseAll, e.1 < db.nextEdgeId) →
      (∀ e ∈ es,
        (∃ v, (e.1, v) ∈ db.locationBTree.traverseAll ∧ v.isEmpty = false) ∧
        (∃ v, (e.2.1, v) ∈ db.locationBTree.traverseAll ∧ v.isEmpty = false) ∧
        ∀ id : Int, 0 < id → Edge.isValid ⟨id, e.1, e.2.1, e.2.2.1, e.2.2.2, true⟩ = true) →
      0 < db.nextEdgeId → db.nextEdgeId + es.length ≤ 2147483647 →
      ∃ db', es.foldlM (fun d (e : Int × Int × Double × String) =>
          (addEdge dt d e.1 e.2.1 e.2.2.1 e.2.2.2 true).map Prod.snd) db = Except.ok db' ∧
        db'.graph = es.foldl (fun g e => g.addEdge e.1 e.2.1 e.2.2.1 true) db.graph := by
  intro es
  induction es with
  | nil =>
    intro db _ _ _ _ _ _
    exact ⟨db, rfl, rfl⟩
  | cons e es ih =>
    intro db hl ht hfresh hvalid hpos hmax
    simp only [List.length_cons, Nat.cast_add, Nat.cast_one] at hmax
    obtain ⟨hs, hd, hv⟩ := hvalid e (List.mem_cons_self _ _)
    obtain ⟨t', h1, h2, h3⟩ := addEdge_ok dt db e.1 e.2.1 e.2.2.1 e.2.2.2 true hl hs hd ht
      hfresh (hv _ hpos)
    rw [wrapInt_small _ (by omega) (by omega)] at h1
    obtain ⟨db', e1, e2⟩ := ih
      ⟨db.locationBTree, t', db.graph.addEdge e.1 e.2.1 e.2.2.1 true, db.nextLocationId,
        db.nextEdgeId + 1, true⟩ hl h2
      (by
        intro x hx
        simp only [h3, List.mem_append, List.mem_singleton] at hx
        rcases hx with hx | hx
        · have := hfresh x hx
          simp only
          omega
        · rw [hx]
          simp)
      (fun e' he' => hvalid e' (List.mem_cons_of_mem _ he'))
      (by simp only; omega) (by simp only; omega)
    refine ⟨db', ?_, ?_⟩
    · simp only [List.foldlM_cons, h1, Except.map, bind, Except.bind]
      exact e1
    · rw [e2]
      simp only [List.foldl_cons]

theorem initializeSampleData_graph (dt : DoubleText) (db : DatabaseManager)
    (files : DataFiles) :
    ∃ db' files', db.initializeSampleData dt files = Except.ok (db', files') ∧
      db'.graph = Graph.sample := by
  obtain ⟨db1, h1, ok1, fresh1, stored1, _, next1, edge1, nextEdge1, graph1⟩ :=
    addLocation_fold dt sampleLocations db.clearAll treeOk_empty
      (by intro e he; cases he)
      (by
        intro l hl id hid
        simp only [sampleLocations, List.mem_cons, List.mem_singleton, List.not_mem_nil,
          or_false] at hl
        have hle : ∀ a b : ℚ, a ≤ b → Double.le (.finite a) (.finite b) = true := by
          intro a b h
          simpa [Double.le] using h
        rcases hl with rfl | rfl | rfl | rfl | rfl <;>
          simp only [Location.isValid, gt_iff_lt, hid, decide_True, Bool.and_eq_true,
            Bool.not_eq_true', true_and] <;>
          refine ⟨⟨⟨⟨by decide, hle _ _ (by norm_num)⟩, hle _ _ (by norm_num)⟩,
            hle _ _ (by norm_num)⟩, hle _ _ (by norm_num)⟩)
      (by simp [clearAll])
      (by simp [clearAll, sampleLocations])
  have hstored : ∀ k : Int, 1 ≤ k → k ≤ 5 →
      ∃ v, (k, v) ∈ db1.locationBTree.traverseAll ∧ v.isEmpty = false := by
    intro k hk1 hk5
    obtain ⟨v, hv⟩ := stored1 k hk1 (by
      rw [next1]
      simp only [clearAll, sampleLocations, List.length_cons, List.length_nil]
      omega)
    exact ⟨v, hv, (fresh1 _ hv).2⟩
  obtain ⟨db2, h2, graph2⟩ := addEdge_fold dt sampleEdges db1 ok1
    (by rw [edge1]; exact treeOk_empty)
    (by rw [edge1]; intro e he; cases he)
    (by
      intro e he
      simp only [sampleEdges, List.mem_cons, List.mem_singleton, List.not_mem_nil,
        or_false] at he
      have hlt : ∀ a b : ℚ, a < b → Double.lt (.finite a) (.finite b) = true := by
        intro a b h
        simpa [Double.lt] using h
      rcases he with rfl | rfl | rfl | rfl | rfl | rfl | rfl <;>
        refine ⟨hstored _ (by decide) (by decide), hstored _ (by decide) (by decide), ?_⟩ <;>
        intro id hid <;>
        simp only [Edge.isValid, gt_iff_lt, hid, decide_True, Bool.and_eq_true,
          true_and] <;>
        exact ⟨⟨⟨by simp, by simp⟩, hlt _ _ (by norm_num)⟩, by simp⟩)
    (by rw [nextEdge1]; simp [clearAll])
    (by rw [nextEdge1]; simp [clearAll, sampleEdges])
  refine ⟨(db2.saveData files).2.1, (db2.saveData files).2.2, ?_, ?_⟩
  · unfold initializeSampleData
    rw [h1]
    dsimp only
    rw [h2]
  · rw [saveData_graph, graph2, graph1]
    unfold Graph.sample
    congr 1

end DatabaseManager

namespace BTreeNode

theorem traverseLoop_take (es : List (Int × String)) :
    ∀ cs : List (Option BTreeNode),
      traverseLoop false es (cs.take (es.length + 1) ++ cs.drop (es.length + 2)) =
        traverseLoop false es cs := by
  induction es with
  | nil =>
    intro cs
    cases cs with
    | nil => simp [traverseLoop]
    | cons c cs => simp [traverseLoop]
  | cons e es ih =>
    intro cs
    cases cs with
    | nil => simp [traverseLoop]
    | cons c cs =>
      simp only [List.length_cons, List.take_succ_cons, List.cons_append, traverseLoop,
        List.drop_succ_cons, List.append_eq]
      rw [ih cs]

theorem halves_traverse (cl : Bool) (e0 e1 e2 e3 e4 : Int × String)
    (ccs : List (Option BTreeNode)) :
    traverseLoop cl [e0, e1, e2, e3, e4] ccs =
      traverseLoop cl [e0, e1] (if cl then ccs else ccs.take 3) ++
        e2 :: traverseLoop cl [e3, e4] (if cl then [] else (ccs.drop 3).take 3) := by
  cases cl with
  | true => simp [traverseLoop_leaf]
  | false =>
    rcases ccs with _ | ⟨a, _ | ⟨b, _ | ⟨c, _ | ⟨d, _ | ⟨e, _ | ⟨f, r⟩⟩⟩⟩⟩⟩ <;>
      simp [traverseLoop]

theorem split_traverse_general (L R c : BTreeNode) (m : Int × String)
    (h : traverse c = traverse L ++ m :: traverse R) :
    ∀ (i : Nat) (es : List (Int × String)) (cs : List (Option BTreeNode)),
      i ≤ es.length → childAt cs i = some c →
      traverseLoop false (es.take i ++ m :: es.drop i)
        (cs.take i ++ some L :: some R ::
          ((cs.drop (i + 1)).take (es.length - i) ++ cs.drop (es.length + 2))) =
        traverseLoop false es cs := by
  intro i
  induction i with
  | zero =>
    intro es cs _ hc
    cases cs with
    | nil => simp [childAt] at hc
    | cons o cs =>
      simp only [childAt_cons_zero] at hc
      subst hc
      simp only [List.take_zero, List.nil_append, List.drop_zero, Nat.sub_zero, Nat.zero_add,
        List.drop_succ_cons]
      cases es with
      | nil => simp [traverseLoop, traversePtr, h]
      | cons e es =>
        have := traverseLoop_take es cs
        simp only [List.length_cons, List.take_succ_cons, List.cons_append, traverseLoop,
          traversePtr, Bool.false_eq_true, if_false, h, List.append_assoc, List.append_eq]
        cases es with
        | nil =>
          cases cs with
          | nil => simp [traverseLoop]
          | cons o' cs => simp [traverseLoop]
        | cons e' es =>
          cases cs with
          | nil => simp [traverseLoop]
          | cons o' cs =>
            simp only [List.length_cons, List.take_succ_cons, List.cons_append,
              List.drop_succ_cons, traverseLoop, Bool.false_eq_true, if_false,
              List.append_eq] at this ⊢
            simp only [List.cons_append, List.cons.injEq, List.append_cancel_left_eq, true_and]
            simpa using this
  | succ i ih =>
    intro es cs hi hc
    cases es with
    | nil => simp at hi
    | cons e es =>
      cases cs with
      | nil => simp [childAt] at hc
      | cons o cs =>
        simp only [childAt_cons_succ] at hc
        simp only [List.length_cons] at hi
        have := ih es cs (by omega) hc
        simp only [List.take_succ_cons, List.cons_append, List.drop_succ_cons,
          List.length_cons, Nat.add_sub_add_right, traverseLoop, List.append_eq]
        rw [this]

end BTreeNode

namespace Graph

theorem addArc_neighbors (adj : List (Int × List Neighbor)) (s d : Int) (w : Double)
    (u : Int) :
    (StdMap.find (addArc adj s d w) u).getD [] =
      if u = s then
        (if ((StdMap.find adj s).getD []).any (fun n => n.nodeId == d) then
          (StdMap.find adj s).getD []
        else (StdMap.find adj s).getD [] ++ [⟨d, w⟩])
      else (StdMap.find adj u).getD [] := by
  unfold addArc
  cases hf : StdMap.find adj s with
  | none =>
    simp only [Option.isNone_none, if_true, StdMap.find_insert, Option.getD_some,
      List.any_nil, Bool.false_eq_true, if_false, List.nil_append, Option.getD_none]
    by_cases hu : u = s
    · subst hu
      simp
    · have hu' : ¬ s = u := fun h => hu h.symm
      simp [hu, hu']
  | some ns =>
    simp only [Option.isNone_some, Bool.false_eq_true, if_false, hf, Option.getD_some]
    by_cases hl : ns.any (fun n => n.nodeId == d) = true
    · simp only [hl, if_true]
      by_cases hu : u = s
      · subst hu
        simp [hf]
      · simp [hu]
    · simp only [hl, if_false, StdMap.find_insert, Bool.false_eq_true]
      by_cases hu : u = s
      · subst hu
        simp
      · have hu' : ¬ s = u := fun h => hu h.symm
        simp [hu, hu']

end Graph

namespace Navigation

theorem reconstruct_visited {st : State} (hs : Settled st) :
    ∀ (S l1 : List Int), st.visited = l1 ++ S → ∀ c ∈ S, ∀ (fuel : Nat) (acc : List Int),
      (S.filter (fun x => decide (x ∈ st.previous.map Prod.fst))).length + 1 ≤ fuel →
      ∃ path, reconstructPath st.previous fuel c acc = some path := by
  intro S
  induction S with
  | nil => intro l1 _ c hc; cases hc
  | cons x S ih =>
    intro l1 hl c hc fuel acc hfuel
    have hmono : (S.filter (fun x => decide (x ∈ st.previous.map Prod.fst))).length ≤
        ((x :: S).filter (fun x => decide (x ∈ st.previous.map Prod.fst))).length := by
      simp only [List.filter_cons]
      split_ifs <;> simp
    have hl' : st.visited = (l1 ++ [x]) ++ S := by simp [hl]
    by_cases hcS : c ∈ S
    · exact ih (l1 ++ [x]) hl' c hcS fuel acc (by omega)
    · have hcx : c = x := by
        rcases List.mem_cons.1 hc with h | h
        · exact h
        · exact absurd h hcS
      subst hcx
      obtain ⟨f, rfl⟩ : ∃ f, fuel = f + 1 := ⟨fuel - 1, by omega⟩
      simp only [reconstructPath]
      by_cases h1 : c = -1
      · exact ⟨_, by rw [if_pos h1]⟩
      · rw [if_neg h1]
        cases hf : StdMap.find st.previous c with
        | none => exact ⟨_, rfl⟩
        | some u =>
          simp only
          have hkey : c ∈ st.previous.map Prod.fst :=
            (StdMap.find_isSome_iff st.previous c).1 (by simp [hf])
          have hcount : ((c :: S).filter
              (fun x => decide (x ∈ st.previous.map Prod.fst))).length =
              (S.filter (fun x => decide (x ∈ st.previous.map Prod.fst))).length + 1 := by
            simp [List.filter_cons, hkey]
          by_cases hu : u = -1
          · obtain ⟨f', rfl⟩ : ∃ f', f = f' + 1 := ⟨f - 1, by omega⟩
            exact ⟨c :: acc, by simp [reconstructPath, hu]⟩
          · have huS := hs.order l1 c S hl u hf hu
            exact ih (l1 ++ [c]) hl' u huS f (c :: acc) (by omega)

theorem reconstruct_any {st : State} (hs : Settled st) (x : Int) :
    ∃ path, reconstructPath st.previous (st.previous.length + 1) x [] = some path := by
  simp only [reconstructPath]
  by_cases h1 : x = -1
  · exact ⟨_, by rw [if_pos h1]⟩
  · rw [if_neg h1]
    cases hf : StdMap.find st.previous x with
    | none => exact ⟨_, rfl⟩
    | some u =>
      simp only
      have hkey : x ∈ st.previous.map Prod.fst :=
        (StdMap.find_isSome_iff st.previous x).1 (by simp [hf])
      have hbound : ∀ S : List Int, S.Nodup → x ∉ S →
          (S.filter (fun y => decide (y ∈ st.previous.map Prod.fst))).length + 1 ≤
            st.previous.length := by
        intro S hS hx
        have hnd : (x :: S.filter
            (fun y => decide (y ∈ st.previous.map Prod.fst))).Nodup := by
          rw [List.nodup_cons]
          exact ⟨fun h => hx (List.mem_of_mem_filter h), hS.filter _⟩
        have hsub : ∀ y ∈ x :: S.filter
            (fun y => decide (y ∈ st.previous.map Prod.fst)), y ∈ st.previous.map Prod.fst := by
          intro y hy
          rcases List.mem_cons.1 hy with h | h
          · rw [h]; exact hkey
          · simpa using (List.mem_filter.1 h).2
        have := (List.Nodup.subperm hnd hsub).length_le
        simpa using this
      by_cases hu : u = -1
      · have hlen : 0 < st.previous.length := by
          cases hp : st.previous with
          | nil => rw [hp] at hkey; simp at hkey
          | cons a l => simp
        obtain ⟨f', hf'⟩ : ∃ f', st.previous.length = f' + 1 :=
          ⟨st.previous.length - 1, by omega⟩
        rw [hf']
        exact ⟨[x], by simp [reconstructPath, hu]⟩
      · have huv := hs.back x u hf hu
        by_cases hxv : x ∈ st.visited
        · obtain ⟨l1, l2, hl⟩ := List.append_of_mem hxv
          have hnd := hs.nodup
          rw [hl] at hnd
          have hx2 : x ∉ l2 := by
            have := (List.nodup_append.1 hnd).2.1
            exact (List.nodup_cons.1 this).1
          have hl2 : l2.Nodup := ((List.nodup_cons.1 (List.nodup_append.1 hnd).2.1)).2
          exact reconstruct_visited hs l2 (l1 ++ [x]) (by simp [hl]) u
            (hs.order l1 x l2 hl u hf hu) _ _ (hbound l2 hl2 hx2)
        · exact reconstruct_visited hs st.visited [] rfl u huv _ _
            (hbound st.visited hs.nodup hxv)

theorem Settled.visit {st : State} (hs : Settled st) {cn : Int} (hcn : cn ∉ st.visited)
    (pq : List (Double × Int)) :
    Settled ⟨st.distances, st.previous, cn :: st.visited, pq⟩ :=
  { nodup := List.nodup_cons.2 ⟨hcn, hs.nodup⟩
    back := fun v u h hu => List.mem_cons_of_mem _ (hs.back v u h hu)
    order := by
      intro l1 x l2 hl u hf hu
      cases l1 with
      | nil =>
        simp only [List.nil_append, List.cons.injEq] at hl
        obtain ⟨h1, h2⟩ := hl
        subst h1
        rw [← h2]
        exact hs.back cn u hf hu
      | cons a l1 =>
        simp only [List.cons_append, List.cons.injEq] at hl
        exact hs.order l1 x l2 hl.2 u hf hu }

theorem relax_settled (cn : Int) (cd : Double) :
    ∀ (ns : List Neighbor) (st : State), cn ∈ st.visited → Settled st →
      Settled (relax cn cd ns st) := by
  intro ns
  induction ns with
  | nil => intro st _ hs; exact hs
  | cons n rest ih =>
    intro st hcn hs
    have hupd : ∀ (distances : List (Int × Double)) (pq : List (Double × Int)),
        n.nodeId ∉ st.visited →
        Settled ⟨distances, StdMap.insert n.nodeId cn st.previous, st.visited, pq⟩ := by
      intro distances pq hvis
      refine ⟨hs.nodup, ?_, ?_⟩
      · intro v u hf hu
        simp only [StdMap.find_insert] at hf
        by_cases h : n.nodeId = v
        · rw [if_pos h] at hf
          cases hf
          exact hcn
        · rw [if_neg h] at hf
          exact hs.back v u hf hu
      · intro l1 x l2 hl u hf hu
        have hx : x ∈ st.visited := by
          simp only at hl
          rw [hl]
          simp
        have hne : n.nodeId ≠ x := fun h => hvis (h ▸ hx)
        simp only [StdMap.find_insert, if_neg hne] at hf
        exact hs.order l1 x l2 hl u hf hu
    have hsame : ∀ (distances : List (Int × Double)),
        Settled ⟨distances, st.previous, st.visited, st.pq⟩ :=
      fun _ => ⟨hs.nodup, hs.back, hs.order⟩
    simp only [relax]
    split_ifs with h1 h2 h3 h4
    · exact ih st hcn hs
    · exact ih _ hcn (hupd _ _ h1)
    · exact ih _ hcn (hsame _)
    · exact ih _ hcn (hupd _ _ h1)
    · exact ih _ hcn (hsame _)

theorem start_settled (g : Graph) (s : Int) : Settled (start g s) := by
  have hprev : ∀ v u, StdMap.find (start g s).previous v = some u → u = -1 := by
    intro v u h
    simp only [start, find_foldl_const, StdMap.find] at h
    split_ifs at h
    cases h
    rfl
  refine ⟨by simp [start], fun v u h hu => absurd (hprev v u h) hu,
    fun l1 x l2 _ u h hu => absurd (hprev x u h) hu⟩

theorem loopTrace_spec (g : Graph) (s t : Int) :
    ∀ (fuel : Nat) (st : State) (n : Nat), Settled st → potential g st < fuel →
      n + ((g.adjacencyList.filter (fun e => decide (e.1 ∉ st.visited))).map
        (fun e => e.2.length)).sum ≤ 1 + g.getEdgeCount →
      ∃ r stF n', loopTrace g s t fuel st n = some (r, stF, n') ∧
        loop g s t fuel st = some r ∧ Settled stF ∧ n' ≤ 1 + g.getEdgeCount := by
  intro fuel
  induction fuel with
  | zero => intro st n _ h; omega
  | succ fuel ih =>
    intro st n hs hfuel hn
    simp only [loopTrace, loop]
    cases hpop : popMin st.pq with
    | none => exact ⟨_, _, _, rfl, rfl, hs, by omega⟩
    | some top =>
      obtain ⟨⟨cd, cn⟩, pq'⟩ := top
      obtain ⟨_, _, hlen, _⟩ := popMin_some hpop
      simp only
      by_cases hv : cn ∈ st.visited
      · simp only [if_pos hv]
        apply ih ⟨st.distances, st.previous, st.visited, pq'⟩ n ⟨hs.nodup, hs.back, hs.order⟩
        · simp only [potential] at hfuel ⊢
          omega
        · exact hn
      · simp only [if_neg hv]
        by_cases ht : cn = t
        · simp only [if_pos ht]
          obtain ⟨path, hp⟩ := reconstruct_any hs t
          simp only [hp]
          exact ⟨_, _, _, rfl, rfl, ⟨hs.nodup, hs.back, hs.order⟩, by omega⟩
        · simp only [if_neg ht]
          have hshape := relax_shape cn cd (g.getNeighbors cn)
            ⟨st.distances, st.previous, cn :: st.visited, pq'⟩
          have hsum := filter_sum_le st.visited cn hv g.adjacencyList
          have h2 := hshape.2
          simp only [Graph.getNeighbors] at h2 hsum hshape ⊢
          apply ih (relax cn cd ((StdMap.find g.adjacencyList cn).getD [])
              ⟨st.distances, st.previous, cn :: st.visited, pq'⟩) _
            (relax_settled cn cd _ _ (List.mem_cons_self _ _) (hs.visit hv pq'))
          · simp only [potential, hshape.1] at hfuel ⊢
            omega
          · simp only [hshape.1]
            omega

end Navigation

namespace BTreeNode

theorem Valid.numKeys_ge {minK h : Nat} {n : BTreeNode} (hv : Valid minK h n) :
    minK ≤ n.numKeys := by
  cases hv <;> simpa [numKeys, entries]

theorem Valid.allNodes_pos {minK h : Nat} {n : BTreeNode} (hv : Valid minK h n) :
    1 ≤ minK → allNodes (fun m => decide (1 ≤ m.numKeys)) n = true := by
  induction hv with
  | leaf _ es h1 _ =>
    intro hm
    simp [allNodes, allNodesList, numKeys, entries]
    omega
  | node _ _ es cs h1 _ _ _ _ ih =>
    intro hm
    simp only [allNodes, Bool.and_eq_true, decide_eq_true_eq]
    refine ⟨?_, allNodesList_of_mem (fun c hc => ih c hc (by simp [MIN_KEYS, BTREE_ORDER]))⟩
    simp only [numKeys, entries]
    omega

end BTreeNode

namespace BTree

open BTreeNode

theorem nodeInvariants_of_treeOk {t : BTree} (h : TreeOk t) : t.nodeInvariants = true := by
  obtain ⟨root⟩ := t
  cases root with
  | none => rfl
  | some r =>
    obtain ⟨ht, hv, hs⟩ := h
    simp only [nodeInvariants, Bool.and_eq_true, decide_eq_true_eq, List.all_eq_true,
      beq_iff_eq]
    refine ⟨⟨⟨⟨inv_of_shaped_sorted hv.shaped hs, hv.allNodes_max⟩, hv.allNodes_min.1⟩,
      hv.numKeys_ge⟩, ?_⟩
    intro a ha b hb
    have h1 := hv.leafDepths_eq 0 a ha
    have h2 := hv.leafDepths_eq 0 b hb
    omega

theorem getMaxKey_above {t : BTree} (ht : TreeOk t) :
    ∃ m, t.getMaxKey = some m ∧ ∀ e ∈ t.traverseAll, e.1 ≤ m := by
  obtain ⟨root⟩ := t
  cases root with
  | none => exact ⟨0, rfl, by simp [traverseAll]⟩
  | some r =>
    obtain ⟨h, hv, hs⟩ := ht
    obtain ⟨e, _, hmax, hle⟩ := maxKey_spec hv.shaped (hv.allNodes_pos (le_refl 1)) hs
    exact ⟨e.1, by simp [getMaxKey, hmax], by simpa [traverseAll] using hle⟩

theorem insert_any {t : BTree} (ht : TreeOk t)
    (hval : ∀ e ∈ t.traverseAll, e.2.isEmpty = false) (k : Int) (v : String)
    (hv : v.isEmpty = false) :
    ∃ t', t.insert k v = some t' ∧ TreeOk t' ∧
      (∀ e ∈ t'.traverseAll, e.2.isEmpty = false) ∧
      (∀ e ∈ t'.traverseAll, e.1 = k ∨ ∃ x ∈ t.traverseAll, x.1 = e.1) ∧
      (∀ e ∈ t.traverseAll, ∃ x ∈ t'.traverseAll, x.1 = e.1) := by
  by_cases hk : ∃ e ∈ t.traverseAll, e.1 = k
  · obtain ⟨t', h1, h2, _, h4⟩ := (update_tree_spec ht k v).2 hk
    obtain ⟨e, he, hek⟩ := hk
    obtain ⟨root⟩ := t
    cases root with
    | none => simp [traverseAll] at he
    | some r =>
      obtain ⟨hsh, hso⟩ := TreeOk.root_shaped ht (r := r) rfl
      have hex : BTree.exists ⟨some r⟩ k = some true := by
        have := (exists_spec hsh hso k).2 e.2 (by rw [← hek]; exact he)
        rw [this, hval e he]; rfl
      refine ⟨t', by simp only [insert, hex, h1], h2, ?_, ?_, ?_⟩
      · intro x hx
        rw [h4, List.mem_map] at hx
        obtain ⟨y, hy, rfl⟩ := hx
        by_cases hyk : y.1 = k
        · simpa [hyk] using hv
        · simpa [hyk] using hval y hy
      · intro x hx
        rw [h4, List.mem_map] at hx
        obtain ⟨y, hy, rfl⟩ := hx
        refine Or.inr ⟨y, hy, ?_⟩
        by_cases hyk : y.1 = k <;> simp [hyk]
      · intro x hx
        refine ⟨_, by rw [h4]; exact List.mem_map_of_mem _ hx, ?_⟩
        by_cases hyk : x.1 = k <;> simp [hyk]
  · have hne : ∀ e ∈ t.traverseAll, e.1 ≠ k := fun e he hek => hk ⟨e, he, hek⟩
    obtain ⟨t', h1, h2, l1, l2, h3, h4, _, _⟩ := insert_spec ht k v hne
    refine ⟨t', h1, h2, ?_, ?_, ?_⟩
    · intro x hx
      rw [h4] at hx
      rcases List.mem_append.1 hx with h | h
      · exact hval x (by rw [h3]; exact List.mem_append_left _ h)
      · rcases List.mem_cons.1 h with h | h
        · rw [h]; exact hv
        · exact hval x (by rw [h3]; exact List.mem_append_right _ h)
    · intro x hx
      rw [h4] at hx
      rcases List.mem_append.1 hx with h | h
      · exact Or.inr ⟨x, by rw [h3]; exact List.mem_append_left _ h, rfl⟩
      · rcases List.mem_cons.1 h with h | h
        · rw [h]; exact Or.inl rfl
        · exact Or.inr ⟨x, by rw [h3]; exact List.mem_append_right _ h, rfl⟩
    · intro x hx
      rw [h3] at hx
      refine ⟨x, ?_, rfl⟩
      rw [h4]
      rcases List.mem_append.1 hx with h | h
      · exact List.mem_append_left _ h
      · exact List.mem_append_right _ (List.mem_cons_of_mem _ h)

end BTree

namespace DatabaseManager

open BTree

theorem stores_iff (db : DatabaseManager) :
    (db.storesValid = true ∧ db.idsAbove = true) ↔
      (TreeOk db.locationBTree ∧ TreeOk db.edgeBTree ∧
        (∀ e ∈ db.locationBTree.traverseAll, e.1 < db.nextLocationId ∧ e.2.isEmpty = false) ∧
        (∀ e ∈ db.edgeBTree.traverseAll, e.1 < db.nextEdgeId ∧ e.2.isEmpty = false)) := by
  simp only [storesValid, idsAbove, Bool.and_eq_true, List.all_eq_true, decide_eq_true_eq,
    Bool.not_eq_true']
  constructor
  · rintro ⟨⟨⟨⟨h1, h2⟩, h3⟩, h4⟩, h5, h6⟩
    exact ⟨treeOk_of_nodeInvariants h1, treeOk_of_nodeInvariants h2,
      fun e he => ⟨h5 e he, h3 e he⟩, fun e he => ⟨h6 e he, h4 e he⟩⟩
  · rintro ⟨h1, h2, h3, h4⟩
    exact ⟨⟨⟨⟨nodeInvariants_of_treeOk h1, nodeInvariants_of_treeOk h2⟩,
      fun e he => (h3 e he).2⟩, fun e he => (h4 e he).2⟩,
      fun e he => (h3 e he).1, fun e he => (h4 e he).1⟩

theorem locationExists_total {db : DatabaseManager} (ht : TreeOk db.locationBTree) (k : Int) :
    ∃ b, db.locationExists k = Except.ok b := by
  have hinv : db.locationBTree.searchTreeInv = true := by
    have h := nodeInvariants_of_treeOk ht
    revert h
    unfold nodeInvariants BTree.searchTreeInv
    cases db.locationBTree.root with
    | none => simp
    | some r =>
      simp only [Bool.and_eq_true]
      rintro ⟨⟨⟨⟨h, _⟩, _⟩, _⟩, _⟩
      exact h
  obtain ⟨b, hb⟩ := exists_total hinv k
  exact ⟨b, by simp [locationExists, hb]⟩

theorem addLocation_keeps (dt : DoubleText) (db : DatabaseManager) (name : String)
    (lat lon : Double) (type : String)
    (hvalid : db.storesValid = true) (hids : db.idsAbove = true) :
    ∃ r db', db.addLocation dt name lat lon type = Except.ok (r, db') ∧
      db'.storesValid = true ∧
      db'.edgeBTree = db.edgeBTree ∧ db'.nextEdgeId = db.nextEdgeId ∧
      ((r = -1 ∧ db' = db) ∨
        (0 < r ∧ r = db.nextLocationId ∧ db'.nextLocationId = wrapInt (r + 1) ∧
          db'.locationBTree.traverseAll = db.locationBTree.traverseAll ++
            [(r, String.mk (Location.serialize dt ⟨r, name, lat, lon, type⟩))] ∧
          (r < 2147483647 → db'.idsAbove = true ∧ db'.nextLocationId = r + 1))) := by
  obtain ⟨h1, h2, h3, h4⟩ := (stores_iff db).1 ⟨hvalid, hids⟩
  cases hv : Location.isValid ⟨db.nextLocationId, name, lat, lon, type⟩ with
  | false =>
    exact ⟨-1, db, by simp [addLocation, hv], hvalid, rfl, rfl, Or.inl ⟨rfl, rfl⟩⟩
  | true =>
    obtain ⟨t', h5, h6, h7⟩ := addLocation_ok dt db name lat lon type h1
      (fun e he => (h3 e he).1) hv
    have hpos : 0 < db.nextLocationId := by
      simp only [Location.isValid, Bool.and_eq_true, decide_eq_true_eq] at hv
      exact hv.1.1.1.1.1
    have hval : ∀ e ∈ t'.traverseAll, e.2.isEmpty = false := by
      intro e he
      rw [h7] at he
      rcases List.mem_append.1 he with h | h
      · exact (h3 e h).2
      · rw [List.mem_singleton] at h
        rw [h]
        exact serialize_location_nonempty dt _
    have hsv : (⟨t', db.edgeBTree,
        db.graph.addNode ⟨db.nextLocationId, name, lat, lon, type⟩,
        wrapInt (db.nextLocationId + 1), db.nextEdgeId, true⟩ :
        DatabaseManager).storesValid = true := by
      simp only [storesValid, Bool.and_eq_true, List.all_eq_true, Bool.not_eq_true']
      exact ⟨⟨⟨nodeInvariants_of_treeOk h6, nodeInvariants_of_treeOk h2⟩, hval⟩,
        fun e he => (h4 e he).2⟩
    refine ⟨_, _, h5, hsv, rfl, rfl, Or.inr ⟨hpos, rfl, rfl, h7, ?_⟩⟩
    intro hmax
    rw [wrapInt_small _ (by omega) (by omega)]
    refine ⟨?_, rfl⟩
    have hnew : ∀ e ∈ t'.traverseAll,
        e.1 < db.nextLocationId + 1 ∧ e.2.isEmpty = false := by
      intro e he
      refine ⟨?_, hval e he⟩
      rw [h7] at he
      rcases List.mem_append.1 he with h | h
      · have := (h3 e h).1; omega
      · rw [List.mem_singleton] at h
        rw [h]
        dsimp only; omega
    exact ((stores_iff ⟨t', db.edgeBTree,
      db.graph.addNode ⟨db.nextLocationId, name, lat, lon, type⟩,
      db.nextLocationId + 1, db.nextEdgeId, true⟩).2 ⟨h6, h2, hnew, h4⟩).2

theorem addEdge_keeps (dt : DoubleText) (db : DatabaseManager) (sourceId destId : Int)
    (distance : Double) (roadName : String) (bidirectional : Bool)
    (hvalid : db.storesValid = true) (hids : db.idsAbove = true) :
    ∃ r db', db.addEdge dt sourceId destId distance roadName bidirectional =
        Except.ok (r, db') ∧
      db'.storesValid = true ∧
      db'.locationBTree = db.locationBTree ∧ db'.nextLocationId = db.nextLocationId ∧
      ((r = -1 ∧ db' = db) ∨
        (0 < r ∧ r = db.nextEdgeId ∧ db'.nextEdgeId = wrapInt (r + 1) ∧
          db'.edgeBTree.traverseAll = db.edgeBTree.traverseAll ++
            [(r, String.mk (Edge.serialize dt
              ⟨r, sourceId, destId, distance, roadName, bidirectional⟩))] ∧
          (r < 2147483647 → db'.idsAbove = true ∧ db'.nextEdgeId = r + 1))) := by
  obtain ⟨h1, h2, h3, h4⟩ := (stores_iff db).1 ⟨hvalid, hids⟩
  have hrej : db.addEdge dt sourceId destId distance roadName bidirectional =
        Except.ok (-1, db) →
      ∃ r db', db.addEdge dt sourceId destId distance roadName bidirectional =
          Except.ok (r, db') ∧
      db'.storesValid = true ∧
      db'.locationBTree = db.locationBTree ∧ db'.nextLocationId = db.nextLocationId ∧
      ((r = -1 ∧ db' = db) ∨
        (0 < r ∧ r = db.nextEdgeId ∧ db'.nextEdgeId = wrapInt (r + 1) ∧
          db'.edgeBTree.traverseAll = db.edgeBTree.traverseAll ++
            [(r, String.mk (Edge.serialize dt
              ⟨r, sourceId, destId, distance, roadName, bidirectional⟩))] ∧
          (r < 2147483647 → db'.idsAbove = true ∧ db'.nextEdgeId = r + 1))) :=
    fun hx => ⟨-1, db, hx, hvalid, rfl, rfl, Or.inl ⟨rfl, rfl⟩⟩
  obtain ⟨b1, hb1⟩ := locationExists_total h1 sourceId
  obtain ⟨b2, hb2⟩ := locationExists_total h1 destId
  cases b1 with
  | false => exact hrej (by simp [addEdge, hb1])
  | true =>
    cases b2 with
    | false => exact hrej (by simp [addEdge, hb1, hb2])
    | true =>
      cases hv : Edge.isValid
          ⟨db.nextEdgeId, sourceId, destId, distance, roadName, bidirectional⟩ with
      | false => exact hrej (by simp [addEdge, hb1, hb2, hv])
      | true =>
        obtain ⟨t', h5, h6, h7⟩ := insert_at_end h2 db.nextEdgeId
          (String.mk (Edge.serialize dt
            ⟨db.nextEdgeId, sourceId, destId, distance, roadName, bidirectional⟩))
          (fun e he => (h4 e he).1)
        have hpos : 0 < db.nextEdgeId := by
          simp only [Edge.isValid, Bool.and_eq_true, decide_eq_true_eq] at hv
          exact hv.1.1.1.1
        have hval : ∀ e ∈ t'.traverseAll, e.2.isEmpty = false := by
          intro e he
          rw [h7] at he
          rcases List.mem_append.1 he with h | h
          · exact (h4 e h).2
          · rw [List.mem_singleton] at h
            rw [h]
            exact serialize_edge_nonempty dt _
        have hsv : (⟨db.locationBTree, t',
            db.graph.addEdge sourceId destId distance bidirectional,
            db.nextLocationId, wrapInt (db.nextEdgeId + 1), true⟩ :
            DatabaseManager).storesValid = true := by
          simp only [storesValid, Bool.and_eq_true, List.all_eq_true, Bool.not_eq_true']
          exact ⟨⟨⟨nodeInvariants_of_treeOk h1, nodeInvariants_of_treeOk h6⟩,
            fun e he => (h3 e he).2⟩, hval⟩
        refine ⟨db.nextEdgeId, ⟨db.locationBTree, t',
          db.graph.addEdge sourceId destId distance bidirectional,
          db.nextLocationId, wrapInt (db.nextEdgeId + 1), true⟩, ?_, hsv, rfl, rfl,
          Or.inr ⟨hpos, rfl, rfl, h7, ?_⟩⟩
        · simp [addEdge, hb1, hb2, hv, h5]
        · intro hmax
          dsimp only
          rw [wrapInt_small _ (by omega) (by omega)]
          refine ⟨?_, rfl⟩
          have hnew : ∀ e ∈ t'.traverseAll,
              e.1 < db.nextEdgeId + 1 ∧ e.2.isEmpty = false := by
            intro e he
            refine ⟨?_, hval e he⟩
            rw [h7] at he
            rcases List.mem_append.1 he with h | h
            · have := (h4 e h).1; omega
            · rw [List.mem_singleton] at h
              rw [h]
              dsimp only; omega
          exact ((stores_iff ⟨db.locationBTree, t',
            db.graph.addEdge sourceId destId distance bidirectional,
            db.nextLocationId, db.nextEdgeId + 1, true⟩).2 ⟨h1, h6, h3, hnew⟩).2

theorem addLocationRecord_keeps (dt : DoubleText) (db : DatabaseManager) (location : Location)
    (hvalid : db.storesValid = true) (hids : db.idsAbove = true)
    (hmax : location.id < 2147483647) :
    ∃ b db', db.addLocationRecord dt location = Except.ok (b, db') ∧
      db'.storesValid = true ∧ db'.idsAbove = true ∧
      db.nextLocationId ≤ db'.nextLocationId ∧ db'.nextEdgeId = db.nextEdgeId ∧
      db'.edgeBTree = db.edgeBTree := by
  obtain ⟨h1, h2, h3, h4⟩ := (stores_iff db).1 ⟨hvalid, hids⟩
  cases hv : location.isValid with
  | false =>
    exact ⟨false, db, by simp [addLocationRecord, hv], hvalid, hids, le_refl _, rfl, rfl⟩
  | true =>
    obtain ⟨t', h5, h6, h7, h8, _⟩ := insert_any h1 (fun e he => (h3 e he).2) location.id
      (String.mk (location.serialize dt)) (serialize_location_nonempty dt location)
    have hpos : 0 < location.id := by
      simp only [Location.isValid, Bool.and_eq_true, decide_eq_true_eq] at hv
      exact hv.1.1.1.1.1
    have hw : wrapInt (location.id + 1) = location.id + 1 :=
      wrapInt_small _ (by omega) (by omega)
    have hnew : ∀ e ∈ t'.traverseAll,
        e.1 < (if location.id ≥ db.nextLocationId then location.id + 1
          else db.nextLocationId) ∧ e.2.isEmpty = false := by
      intro e he
      refine ⟨?_, h7 e he⟩
      rcases h8 e he with h | ⟨x, hx, hxe⟩
      · split_ifs <;> omega
      · have := (h3 x hx).1
        split_ifs <;> omega
    have hkeep := (stores_iff ⟨t', db.edgeBTree, db.graph.addNode location,
      if location.id ≥ db.nextLocationId then location.id + 1 else db.nextLocationId,
      db.nextEdgeId, true⟩).2 ⟨h6, h2, hnew, h4⟩
    refine ⟨true, ⟨t', db.edgeBTree, db.graph.addNode location,
      if location.id ≥ db.nextLocationId then location.id + 1 else db.nextLocationId,
      db.nextEdgeId, true⟩, ?_, hkeep.1, hkeep.2, ?_, rfl, rfl⟩
    · simp [addLocationRecord, hv, h5, hw]
    · dsimp only
      split_ifs <;> omega

theorem addEdgeRecord_keeps (dt : DoubleText) (db : DatabaseManager) (edge : Edge)
    (hvalid : db.storesValid = true) (hids : db.idsAbove = true)
    (hmax : edge.edgeId < 2147483647) :
    ∃ b db', db.addEdgeRecord dt edge = Except.ok (b, db') ∧
      db'.storesValid = true ∧ db'.idsAbove = true ∧
      db.nextEdgeId ≤ db'.nextEdgeId ∧ db'.nextLocationId = db.nextLocationId ∧
      db'.locationBTree = db.locationBTree := by
  obtain ⟨h1, h2, h3, h4⟩ := (stores_iff db).1 ⟨hvalid, hids⟩
  cases hv : edge.isValid with
  | false =>
    exact ⟨false, db, by simp [addEdgeRecord, hv], hvalid, hids, le_refl _, rfl, rfl⟩
  | true =>
    obtain ⟨t', h5, h6, h7, h8, _⟩ := insert_any h2 (fun e he => (h4 e he).2) edge.edgeId
      (String.mk (edge.serialize dt)) (serialize_edge_nonempty dt edge)
    have hpos : 0 < edge.edgeId := by
      simp only [Edge.isValid, Bool.and_eq_true, decide_eq_true_eq] at hv
      exact hv.1.1.1.1
    have hw : wrapInt (edge.edgeId + 1) = edge.edgeId + 1 :=
      wrapInt_small _ (by omega) (by omega)
    have hnew : ∀ e ∈ t'.traverseAll,
        e.1 < (if edge.edgeId ≥ db.nextEdgeId then edge.edgeId + 1
          else db.nextEdgeId) ∧ e.2.isEmpty = false := by
      intro e he
      refine ⟨?_, h7 e he⟩
      rcases h8 e he with h | ⟨x, hx, hxe⟩
      · split_ifs <;> omega
      · have := (h4 x hx).1
        split_ifs <;> omega
    have hkeep := (stores_iff ⟨db.locationBTree, t',
      db.graph.addEdge edge.sourceId edge.destinationId edge.distance edge.isBidirectional,
      db.nextLocationId,
      if edge.edgeId ≥ db.nextEdgeId then edge.edgeId + 1 else db.nextEdgeId, true⟩).2
      ⟨h1, h6, h3, hnew⟩
    refine ⟨true, ⟨db.locationBTree, t',
      db.graph.addEdge edge.sourceId edge.destinationId edge.distance edge.isBidirectional,
      db.nextLocationId,
      if edge.edgeId ≥ db.nextEdgeId then edge.edgeId + 1 else db.nextEdgeId, true⟩,
      ?_, hkeep.1, hkeep.2, ?_, rfl, rfl⟩
    · simp [addEdgeRecord, hv, h5, hw]
    · dsimp only
      split_ifs <;> omega

theorem buildGraph_keeps (dt : DoubleText) {db db' : DatabaseManager}
    (h : buildGraph dt db = Except.ok db') :
    db'.locationBTree = db.locationBTree ∧ db'.edgeBTree = db.edgeBTree ∧
      db'.nextLocationId = db.nextLocationId ∧ db'.nextEdgeId = db.nextEdgeId := by
  unfold buildGraph at h
  split at h
  · cases h
  · split at h
    · cases h
    · cases h
      exact ⟨rfl, rfl, rfl, rfl⟩

theorem getMaxKey_range {t : BTree} (ht : TreeOk t)
    (hr : ∀ e ∈ t.traverseAll, -2147483648 ≤ e.1 ∧ e.1 < 2147483647) :
    ∃ m, t.getMaxKey = some m ∧ -2147483648 ≤ m ∧ m < 2147483647 ∧
      ∀ e ∈ t.traverseAll, e.1 ≤ m := by
  obtain ⟨root⟩ := t
  cases root with
  | none => exact ⟨0, rfl, by omega, by omega, by simp [traverseAll]⟩
  | some r =>
    obtain ⟨h, hv, hs⟩ := ht
    obtain ⟨e, hmem, hmax, hle⟩ :=
      BTreeNode.maxKey_spec hv.shaped (hv.allNodes_pos (le_refl 1)) hs
    have hb := hr e (by simpa [traverseAll] using hmem)
    exact ⟨e.1, by simp [getMaxKey, hmax], hb.1, hb.2, by simpa [traverseAll] using hle⟩

theorem loadData_counters (dt : DoubleText) (db : DatabaseManager) (files : DataFiles)
    {b : Bool} {db' : DatabaseManager} (h : db.loadData dt files = Except.ok (b, db')) :
    (db'.locationBTree.nodeInvariants = true →
      (∀ e ∈ db'.locationBTree.traverseAll, -2147483648 ≤ e.1 ∧ e.1 < 2147483647) →
      ∀ e ∈ db'.locationBTree.traverseAll, e.1 < db'.nextLocationId) ∧
    (db'.edgeBTree.nodeInvariants = true →
      (∀ e ∈ db'.edgeBTree.traverseAll, -2147483648 ≤ e.1 ∧ e.1 < 2147483647) →
      ∀ e ∈ db'.edgeBTree.traverseAll, e.1 < db'.nextEdgeId) := by
  unfold loadData at h
  split at h
  · cases h
  · rename_i ok1 locations _
    split at h
    · cases h
    · rename_i ok2 edges _
      split at h
      · rename_i maxLocation maxEdge hl he
        split at h
        · cases h
        · rename_i db2 hb
          cases h
          obtain ⟨e1, e2, e3, e4⟩ := buildGraph_keeps dt hb
          rw [e1, e2, e3, e4]
          dsimp only
          constructor
          · intro hinv hr e hmem
            obtain ⟨m, hm, m1, m2, hle⟩ := getMaxKey_range (treeOk_of_nodeInvariants hinv) hr
            rw [hl] at hm
            cases hm
            rw [wrapInt_small _ (by omega) (by omega)]
            have := hle e hmem
            omega
          · intro hinv hr e hmem
            obtain ⟨m, hm, m1, m2, hle⟩ := getMaxKey_range (treeOk_of_nodeInvariants hinv) hr
            rw [he] at hm
            cases hm
            rw [wrapInt_small _ (by omega) (by omega)]
            have := hle e hmem
            omega
      · cases h

theorem addLocation_returns (dt : DoubleText) (db db' : DatabaseManager) (name : String)
    (lat lon : Double) (type : String) (r : Int)
    (h : db.addLocation dt name lat lon type = Except.ok (r, db')) :
    r = -1 ∨ r = db.nextLocationId := by
  unfold addLocation at h
  dsimp only at h
  split_ifs at h
  · cases h; exact Or.inl rfl
  · split at h
    · cases h
    · cases h; exact Or.inr rfl

theorem addEdge_returns (dt : DoubleText) (db db' : DatabaseManager) (sourceId destId : Int)
    (distance : Double) (roadName : String) (bidirectional : Bool) (r : Int)
    (h : db.addEdge dt sourceId destId distance roadName bidirectional = Except.ok (r, db')) :
    r = -1 ∨ r = db.nextEdgeId := by
  unfold addEdge at h
  split at h
  · cases h
  · cases h; exact Or.inl rfl
  · split at h
    · cases h
    · cases h; exact Or.inl rfl
    · dsimp only at h
      split_ifs at h
      · cases h; exact Or.inl rfl
      · split at h
        · cases h
        · cases h; exact Or.inr rfl

theorem wrapInt_range (x : Int) : -2147483648 ≤ wrapInt x ∧ wrapInt x ≤ 2147483647 := by
  unfold wrapInt
  omega

theorem usable_iff (db : DatabaseManager) :
    db.storesUsable = true ↔
      (TreeOk db.locationBTree ∧ TreeOk db.edgeBTree ∧
        (∀ e ∈ db.locationBTree.traverseAll, e.2.isEmpty = false) ∧
        (∀ e ∈ db.edgeBTree.traverseAll, e.2.isEmpty = false) ∧
        db.nextLocationId ≤ 2147483647 ∧ db.nextEdgeId ≤ 2147483647 ∧
        (db.nextLocationId ≤ 0 ∨
          ∀ e ∈ db.locationBTree.traverseAll, e.1 < db.nextLocationId) ∧
        (db.nextEdgeId ≤ 0 ∨ ∀ e ∈ db.edgeBTree.traverseAll, e.1 < db.nextEdgeId)) := by
  simp only [storesUsable, storesValid, Bool.and_eq_true, Bool.or_eq_true, List.all_eq_true,
    decide_eq_true_eq, Bool.not_eq_true']
  constructor
  · rintro ⟨⟨⟨⟨⟨⟨⟨h1, h2⟩, h3⟩, h4⟩, h5⟩, h6⟩, h7⟩, h8⟩
    exact ⟨treeOk_of_nodeInvariants h1, treeOk_of_nodeInvariants h2, h3, h4, h5, h6, h7, h8⟩
  · rintro ⟨h1, h2, h3, h4, h5, h6, h7, h8⟩
    exact ⟨⟨⟨⟨⟨⟨⟨nodeInvariants_of_treeOk h1, nodeInvariants_of_treeOk h2⟩, h3⟩, h4⟩, h5⟩,
      h6⟩, h7⟩, h8⟩

theorem usable_of_valid (db : DatabaseManager) (hvalid : db.storesValid = true)
    (hids : db.idsAbove = true) (hl : db.nextLocationId ≤ 2147483647)
    (he : db.nextEdgeId ≤ 2147483647) : db.storesUsable = true := by
  obtain ⟨h1, h2, h3, h4⟩ := (stores_iff db).1 ⟨hvalid, hids⟩
  exact (usable_iff db).2 ⟨h1, h2, fun e h => (h3 e h).2, fun e h => (h4 e h).2, hl, he,
    Or.inr fun e h => (h3 e h).1, Or.inr fun e h => (h4 e h).1⟩

theorem addLocation_usable (dt : DoubleText) (db : DatabaseManager) (name : String)
    (lat lon : Double) (type : String) (husable : db.storesUsable = true) :
    ∃ r db', db.addLocation dt name lat lon type = Except.ok (r, db') ∧
      db'.storesUsable = true ∧ db'.getEdgeCount = db.getEdgeCount ∧
      ((r = -1 ∧ db' = db) ∨
        (0 < r ∧ db'.getLocationCount = db.getLocationCount + 1)) := by
  obtain ⟨h1, h2, h3, h4, h5, h6, h7, h8⟩ := (usable_iff db).1 husable
  cases hv : Location.isValid ⟨db.nextLocationId, name, lat, lon, type⟩ with
  | false =>
    exact ⟨-1, db, by simp [addLocation, hv], husable, rfl, Or.inl ⟨rfl, rfl⟩⟩
  | true =>
    have hpos : 0 < db.nextLocationId := by
      simp only [Location.isValid, Bool.and_eq_true, decide_eq_true_eq] at hv
      exact hv.1.1.1.1.1
    have hfresh : ∀ e ∈ db.locationBTree.traverseAll, e.1 < db.nextLocationId := by
      rcases h7 with h | h
      · omega
      · exact h
    obtain ⟨t', k1, k2, k3⟩ := addLocation_ok dt db name lat lon type h1 hfresh hv
    refine ⟨_, _, k1, ?_, rfl, Or.inr ⟨hpos, ?_⟩⟩
    · refine (usable_iff _).2 ⟨k2, h2, ?_, h4, (wrapInt_range _).2, h6, ?_, h8⟩
      · intro e he
        rw [k3] at he
        rcases List.mem_append.1 he with h | h
        · exact h3 e h
        · rw [List.mem_singleton] at h
          rw [h]
          exact serialize_location_nonempty dt _
      · dsimp only
        by_cases hm : db.nextLocationId < 2147483647
        · right
          intro e he
          rw [wrapInt_small _ (by omega) (by omega)]
          rw [k3] at he
          rcases List.mem_append.1 he with h | h
          · have := hfresh e h; omega
          · rw [List.mem_singleton] at h
            rw [h]
            dsimp only; omega
        · left
          have : db.nextLocationId = 2147483647 := by omega
          rw [this]
          decide
    · simp only [getLocationCount, BTree.getCount, k3, List.length_append,
        List.length_singleton]

theorem addEdge_usable (dt : DoubleText) (db : DatabaseManager) (sourceId destId : Int)
    (distance : Double) (roadName : String) (bidirectional : Bool)
    (husable : db.storesUsable = true) :
    ∃ r db', db.addEdge dt sourceId destId distance roadName bidirectional =
        Except.ok (r, db') ∧
      db'.storesUsable = true ∧ db'.getLocationCount = db.getLocationCount ∧
      ((r = -1 ∧ db' = db) ∨ (0 < r ∧ db'.getEdgeCount = db.getEdgeCount + 1)) := by
  obtain ⟨h1, h2, h3, h4, h5, h6, h7, h8⟩ := (usable_iff db).1 husable
  have hrej : db.addEdge dt sourceId destId distance roadName bidirectional =
        Except.ok (-1, db) →
      ∃ r db', db.addEdge dt sourceId destId distance roadName bidirectional =
          Except.ok (r, db') ∧
        db'.storesUsable = true ∧ db'.getLocationCount = db.getLocationCount ∧
        ((r = -1 ∧ db' = db) ∨ (0 < r ∧ db'.getEdgeCount = db.getEdgeCount + 1)) :=
    fun hx => ⟨-1, db, hx, husable, rfl, Or.inl ⟨rfl, rfl⟩⟩
  obtain ⟨b1, hb1⟩ := locationExists_total h1 sourceId
  obtain ⟨b2, hb2⟩ := locationExists_total h1 destId
  cases b1 with
  | false => exact hrej (by simp [addEdge, hb1])
  | true =>
    cases b2 with
    | false => exact hrej (by simp [addEdge, hb1, hb2])
    | true =>
      cases hv : Edge.isValid
          ⟨db.nextEdgeId, sourceId, destId, distance, roadName, bidirectional⟩ with
      | false => exact hrej (by simp [addEdge, hb1, hb2, hv])
      | true =>
        have hpos : 0 < db.nextEdgeId := by
          simp only [Edge.isValid, Bool.and_eq_true, decide_eq_true_eq] at hv
          exact hv.1.1.1.1
        have hfresh : ∀ e ∈ db.edgeBTree.traverseAll, e.1 < db.nextEdgeId := by
          rcases h8 with h | h
          · omega
          · exact h
        obtain ⟨t', k1, k2, k3⟩ := insert_at_end h2 db.nextEdgeId
          (String.mk (Edge.serialize dt
            ⟨db.nextEdgeId, sourceId, destId, distance, roadName, bidirectional⟩)) hfresh
        refine ⟨db.nextEdgeId, ⟨db.locationBTree, t',
          db.graph.addEdge sourceId destId distance bidirectional,
          db.nextLocationId, wrapInt (db.nextEdgeId + 1), true⟩, ?_, ?_, rfl,
          Or.inr ⟨hpos, ?_⟩⟩
        · simp [addEdge, hb1, hb2, hv, k1]
        · refine (usable_iff _).2 ⟨h1, k2, h3, ?_, h5, (wrapInt_range _).2, h7, ?_⟩
          · intro e he
            rw [k3] at he
            rcases List.mem_append.1 he with h | h
            · exact h4 e h
            · rw [List.mem_singleton] at h
              rw [h]
              exact serialize_edge_nonempty dt _
          · dsimp only
            by_cases hm : db.nextEdgeId < 2147483647
            · right
              intro e he
              rw [wrapInt_small _ (by omega) (by omega)]
              rw [k3] at he
              rcases List.mem_append.1 he with h | h
              · have := hfresh e h; omega
              · rw [List.mem_singleton] at h
                rw [h]
                dsimp only; omega
            · left
              have : db.nextEdgeId = 2147483647 := by omega
              rw [this]
              decide
        · simp only [getEdgeCount, BTree.getCount, k3, List.length_append,
            List.length_singleton]

end DatabaseManager

namespace Location

open Snapshot

theorem ok_of_toOption {ε α : Type} {x : Except ε α} {a : α} (h : x.toOption = some a) :
    x = Except.ok a := by
  cases x with
  | error e => cases h
  | ok b =>
    simp only [Except.toOption, Option.some.injEq] at h
    rw [h]

theorem deserialize_fields (dt : DoubleText) (id : Int) (name latText lonText type : List Char)
    (a b : Double) (hname : '|' ∉ name) (htype : '|' ∉ type) (hlat : '|' ∉ latText)
    (hlon : '|' ∉ lonText) (ha : dt.stod latText = Except.ok a)
    (hb : dt.stod lonText = Except.ok b) :
    deserialize dt id (name ++ '|' :: (latText ++ '|' :: (lonText ++ '|' :: type))) =
      Except.ok ⟨id, String.mk name, a, b, String.mk type⟩ := by
  unfold deserialize
  rw [Request.split_four hname hlat hlon htype]
  simp only [List.getElem?_cons_succ, List.getElem?_cons_zero, ha, hb, Option.getD_some]
  cases type with
  | nil => rfl
  | cons c r => rfl

end Location

namespace DatabaseManager

open BTree

theorem getLocation_stored (dt : DoubleText) {db : DatabaseManager}
    (ht : TreeOk db.locationBTree) {k : Int} {v : List Char}
    (hmem : (k, String.mk v) ∈ db.locationBTree.traverseAll) (hv : v ≠ []) :
    db.getLocation dt k = Location.deserialize dt k v := by
  obtain ⟨locationBTree, e, g, a, b, c⟩ := db
  obtain ⟨root⟩ := locationBTree
  cases root with
  | none => simp [BTree.traverseAll] at hmem
  | some r =>
    obtain ⟨hs, hk⟩ := TreeOk.root_shaped ht (r := r) rfl
    have h1 := (BTreeNode.search_spec hs k hk).1 _ hmem
    have h2 : BTree.search ⟨some r⟩ k = some (String.mk v) := by
      simpa [BTree.search] using h1
    simp only [getLocation, h2, mk_isEmpty v hv]
    rfl

end DatabaseManager

namespace Snapshot

theorem findAt_here (pat : List Char) : ∀ (s : List Char) (idx : Nat),
    pat.isPrefixOf s = true → findAt pat s idx = idx := by
  intro s idx h
  cases s with
  | nil =>
    cases pat with
    | nil => rfl
    | cons p ps => simp [List.isPrefixOf] at h
  | cons c cs => simp [findAt, h]

theorem findAt_append_skip (pat : List Char) : ∀ (a b : List Char) (idx : Nat),
    (∀ k, k < a.length → pat.isPrefixOf (a.drop k ++ b) = false) →
    findAt pat (a ++ b) idx = findAt pat b (idx + a.length) := by
  intro a
  induction a with
  | nil => intro b idx _; rfl
  | cons c a ih =>
    intro b idx h
    have h0 := h 0 (by simp)
    simp only [List.drop_zero] at h0
    have hrest : ∀ k, k < a.length → pat.isPrefixOf (a.drop k ++ b) = false := by
      intro k hk
      have := h (k + 1) (by simp; omega)
      simpa using this
    show findAt pat (c :: (a ++ b)) idx = _
    have h0' : pat.isPrefixOf (c :: (a ++ b)) = false := h0
    simp only [findAt, h0', Bool.false_eq_true, if_false]
    rw [ih b (idx + 1) hrest]
    simp only [List.length_cons]
    congr 1
    omega

theorem findAt_nil (pat : List Char) (hne : pat ≠ []) (idx : Nat) : findAt pat [] idx = npos := by
  cases pat with
  | nil => exact absurd rfl hne
  | cons p ps => rfl

theorem findAt_none (pat : List Char) (hne : pat ≠ []) (a : List Char) (idx : Nat)
    (h : ∀ k, k < a.length → pat.isPrefixOf (a.drop k) = false) : findAt pat a idx = npos := by
  have := findAt_append_skip pat a [] idx (by simpa using h)
  rw [List.append_nil] at this
  rw [this, findAt_nil pat hne]

theorem isPrefixOf_false_of_head {c : Char} {p : List Char} {s : List Char}
    (h : s.head? ≠ some c) : (c :: p).isPrefixOf s = false := by
  cases s with
  | nil => rfl
  | cons x xs =>
    have hx : c ≠ x := fun e => h (by simp [e])
    simp [List.isPrefixOf, hx]

theorem no_prefix_of_head (c : Char) (p : List Char) (a b : List Char) (hc : c ∉ a) :
    ∀ k, k < a.length → (c :: p).isPrefixOf (a.drop k ++ b) = false := by
  intro k hk
  apply isPrefixOf_false_of_head
  have hne : a.drop k ≠ [] := by
    intro h
    have := congrArg List.length h
    simp at this
    omega
  cases hd : a.drop k with
  | nil => exact absurd hd hne
  | cons x xs =>
    have hx : x ∈ a := List.mem_of_mem_drop (by rw [hd]; simp)
    simp only [List.cons_append, List.head?_cons, ne_eq, Option.some.injEq]
    rintro rfl
    exact hc hx

theorem isPrefixOf_iff (pat s : List Char) : pat.isPrefixOf s = true ↔ pat <+: s := by
  simp

theorem no_prefix_of_sep (pat a b : List Char) (d : Char) (hd : d ∉ pat)
    (hin : ¬ pat <:+: a) :
    ∀ k, pat.isPrefixOf (a.drop k ++ d :: b) = false := by
  intro k
  rw [Bool.eq_false_iff, ne_eq, isPrefixOf_iff]
  intro hp
  have h2 : a.drop k ++ [d] <+: a.drop k ++ d :: b := ⟨b, by simp⟩
  rcases List.prefix_or_prefix_of_prefix hp h2 with h | h
  · obtain ⟨t, ht⟩ := h
    -- pat ++ t = a.drop k ++ [d]
    rcases List.eq_nil_or_concat t with rfl | ⟨t', x, rfl⟩
    · rw [List.append_nil] at ht
      exact hd (by rw [ht]; simp)
    · rw [List.concat_eq_append, ← List.append_assoc] at ht
      have := List.append_inj' ht rfl
      apply hin
      refine ⟨a.take k, t', ?_⟩
      rw [List.append_assoc, this.1, List.take_append_drop]
  · obtain ⟨t, ht⟩ := h
    exact hd (by rw [← ht]; simp)

theorem find_zero (s pat : List Char) : find s pat 0 = findAt pat s 0 := by
  simp [find]

theorem find_from (s pat : List Char) (pos : Nat) (h : pos ≤ s.length) :
    find s pat pos = findAt pat (s.drop pos) pos := by
  simp [find, Nat.not_lt.2 h]

theorem substr_ok (s : List Char) (pos len : Nat) (h : pos ≤ s.length) :
    substr s pos len = Except.ok ((s.drop pos).take len) := by
  simp [substr, Nat.not_lt.2 h]

theorem wrapAdd_small {a b : Nat} (h : a + b < 2 ^ 64) : wrapAdd a b = a + b := by
  unfold wrapAdd
  exact Nat.mod_eq_of_lt h

theorem wrapSub_small {a b : Nat} (hb : b ≤ a) (ha : a < 2 ^ 64) : wrapSub a b = a - b := by
  unfold wrapSub
  have hb' : b % 2 ^ 64 = b := Nat.mod_eq_of_lt (by omega)
  rw [hb']
  have : a + 2 ^ 64 - b = (a - b) + 2 ^ 64 := by omega
  rw [this, Nat.add_mod_right]
  exact Nat.mod_eq_of_lt (by omega)

end Snapshot

namespace Snapshot

theorem first_occurrence (c : Char) : ∀ (s : List Char), c ∈ s →
    ∃ l1 l2, s = l1 ++ c :: l2 ∧ c ∉ l1 := by
  intro s
  induction s with
  | nil => intro h; simp at h
  | cons x s ih =>
    intro h
    by_cases hx : x = c
    · exact ⟨[], s, by simp [hx], by simp⟩
    · have hs : c ∈ s := by
        rcases List.mem_cons.1 h with h | h
        · exact absurd h.symm hx
        · exact h
      obtain ⟨l1, l2, h1, h2⟩ := ih hs
      refine ⟨x :: l1, l2, by simp [h1], ?_⟩
      simp only [List.mem_cons, not_or]
      exact ⟨fun e => hx e.symm, h2⟩

theorem findAt_head (c : Char) (p l1 l2 : List Char) (idx : Nat) (h : c ∉ l1) :
    findAt (c :: p) (l1 ++ ((c :: p) ++ l2)) idx = idx + l1.length := by
  rw [findAt_append_skip _ _ _ _ (no_prefix_of_head c p l1 _ h), findAt_here]
  rw [isPrefixOf_iff]
  exact ⟨l2, rfl⟩

theorem getElem?_pred_append (W : List Char) (x : Char) (post : List Char) (hW : W ≠ []) :
    (W ++ x :: post)[W.length - 1]? = W.getLast? := by
  have hpos : 0 < W.length := List.length_pos.2 hW
  rw [List.getElem?_append_left (by omega), List.getLast?_eq_getElem?]

theorem skipEscaped_spec (pre V post : List Char) (hpre : pre.getLast? = some '[')
    (hesc : ∀ l1 l2, V = l1 ++ ']' :: l2 → ∃ l1', l1 = l1' ++ ['\\'])
    (hlast : V.getLast? ≠ some '\\')
    (hlen : (pre ++ (V ++ ']' :: post)).length + 2 < 2 ^ 64) :
    ∀ (n : Nat) (l1 l2 : List Char), V ++ [']'] = l1 ++ ']' :: l2 → l2.length < n →
      skipEscaped (pre ++ (V ++ ']' :: post)) n (pre.length + l1.length) =
        Except.ok (pre.length + V.length) := by
  have hprene : pre ≠ [] := by
    intro h; subst h; simp at hpre
  have hprepos : 0 < pre.length := List.length_pos.2 hprene
  intro n
  induction n with
  | zero => intro l1 l2 _ h; omega
  | succ n ih =>
    intro l1 l2 hsplit hn
    have hl1 : l1.length ≤ V.length := by
      have := congrArg List.length hsplit
      simp at this
      omega
    have hlenr : (pre ++ (V ++ ']' :: post)).length =
        pre.length + V.length + 1 + post.length := by
      simp; omega
    rw [hlenr] at hlen
    unfold skipEscaped
    rw [if_neg (by omega), if_neg (by rw [hlenr]; omega)]
    rcases List.eq_nil_or_concat l2 with rfl | ⟨l2', x, rfl⟩
    · -- the closing bracket
      have hV : l1 = V := by
        have := List.append_inj' hsplit rfl
        exact this.1.symm
      subst hV
      have hW : (pre ++ l1) ≠ [] := by simp [hprene]
      have hget : (pre ++ (l1 ++ ']' :: post))[pre.length + l1.length - 1]? =
          (pre ++ l1).getLast? := by
        have := getElem?_pred_append (pre ++ l1) ']' post hW
        simpa using this
      rw [hget, List.getLast?_append]
      have hne : (l1.getLast?.or pre.getLast?) ≠ some '\\' := by
        cases hq : l1.getLast? with
        | none => simp [hpre]
        | some y =>
          simp only [Option.or_some]
          rw [hq] at hlast
          exact hlast
      rw [if_neg hne]
    · -- an escaped bracket inside the values
      rw [List.concat_eq_append] at hsplit
      have hV : V = l1 ++ ']' :: l2' ∧ x = ']' := by
        have h' : V ++ [']'] = (l1 ++ ']' :: l2') ++ [x] := by simpa using hsplit
        have := List.append_inj' h' rfl
        exact ⟨this.1, by simpa using this.2.symm⟩
      obtain ⟨hV, rfl⟩ := hV
      obtain ⟨l1', rfl⟩ := hesc l1 l2' hV
      subst hV
      have hget : (pre ++ ((l1' ++ ['\\'] ++ ']' :: l2') ++ ']' :: post))[
          pre.length + (l1' ++ ['\\']).length - 1]? = some '\\' := by
        have e : pre ++ ((l1' ++ ['\\'] ++ ']' :: l2') ++ ']' :: post) =
            (pre ++ l1') ++ '\\' :: (']' :: l2' ++ ']' :: post) := by simp
        have i : pre.length + (l1' ++ ['\\']).length - 1 = (pre ++ l1').length := by simp
        rw [e, i, List.getElem?_append_right (le_refl _)]
        simp
      rw [hget, if_pos rfl]
      have hw : wrapAdd (pre.length + (l1' ++ ['\\']).length) 1 =
          pre.length + (l1' ++ ['\\']).length + 1 := by
        apply wrapAdd_small
        simp at hlen ⊢
        omega
      rw [hw]
      obtain ⟨m1, m2, hm, hm1⟩ := first_occurrence ']' (l2' ++ [']']) (by simp)
      have hdrop : (pre ++ ((l1' ++ ['\\'] ++ ']' :: l2') ++ ']' :: post)).drop
          (pre.length + (l1' ++ ['\\']).length + 1) = m1 ++ ([']'] ++ (m2 ++ post)) := by
        have e : pre ++ ((l1' ++ ['\\'] ++ ']' :: l2') ++ ']' :: post) =
            (pre ++ (l1' ++ ['\\']) ++ [']']) ++ ((l2' ++ [']']) ++ post) := by simp
        have i : pre.length + (l1' ++ ['\\']).length + 1 =
            (pre ++ (l1' ++ ['\\']) ++ [']']).length := by simp; omega
        rw [e, i, List.drop_left, hm]
        simp
      have hpat : "]".toList = [']'] := rfl
      rw [find_from _ _ _ (by simp at hlen ⊢; omega), hdrop, hpat,
        findAt_head ']' [] m1 _ _ hm1]
      have hnext := ih (l1' ++ ['\\'] ++ ']' :: m1) m2 (by
        have : l2' ++ [']'] = m1 ++ ']' :: m2 := hm
        simp only [List.append_assoc, List.cons_append, List.nil_append, List.singleton_append]
        simp only [List.append_assoc, List.cons_append, List.nil_append,
          List.singleton_append] at this
        rw [this]) (by
        have := congrArg List.length hm
        simp at this hn
        omega)
      have hidx : pre.length + (l1' ++ ['\\']).length + 1 + m1.length =
          pre.length + (l1' ++ ['\\'] ++ ']' :: m1).length := by
        simp; omega
      rw [hidx]
      exact hnext

end Snapshot

namespace Snapshot

theorem drop_len_add (a b : List Char) (k : Nat) : (a ++ b).drop (a.length + k) = b.drop k := by
  induction a with
  | nil => simp
  | cons x a ih =>
    have : (x :: a).length + k = (a.length + k) + 1 := by simp; omega
    rw [this, List.cons_append, List.drop_succ_cons, ih]

theorem take_len (a b : List Char) : (a ++ b).take a.length = a := by
  induction a with
  | nil => simp
  | cons x a ih => simp [ih]

theorem values_end (pre V post : List Char) (hpre : pre.getLast? = some '[')
    (hesc : ∀ l1 l2, V = l1 ++ ']' :: l2 → ∃ l1', l1 = l1' ++ ['\\'])
    (hlast : V.getLast? ≠ some '\\')
    (hlen : (pre ++ (V ++ ']' :: post)).length + 2 < 2 ^ 64) :
    skipEscaped (pre ++ (V ++ ']' :: post)) ((pre ++ (V ++ ']' :: post)).length + 2)
      (find (pre ++ (V ++ ']' :: post)) "]".toList pre.length) =
        Except.ok (pre.length + V.length) := by
  obtain ⟨m1, m2, hm, hm1⟩ := first_occurrence ']' (V ++ [']']) (by simp)
  have hpat : "]".toList = [']'] := rfl
  have hdrop : (pre ++ (V ++ ']' :: post)).drop pre.length = m1 ++ ([']'] ++ (m2 ++ post)) := by
    rw [List.drop_left]
    have : V ++ ']' :: post = (V ++ [']']) ++ post := by simp
    rw [this, hm]
    simp
  rw [find_from _ _ _ (by simp), hdrop, hpat, findAt_head ']' [] m1 _ _ hm1]
  apply skipEscaped_spec pre V post hpre hesc hlast hlen _ m1 m2 hm
  have := congrArg List.length hm
  simp at this ⊢
  omega

theorem rest_facts (X K V T : List Char) (hXK : 'K' ∉ X) (hXV : 'V' ∉ X)
    (hK : ∀ c ∈ K, c.isDigit = true ∨ c = '-' ∨ c = ',')
    (hesc : ∀ l1 l2, V = l1 ++ ']' :: l2 → ∃ l1', l1 = l1' ++ ['\\'])
    (hlast : V.getLast? ≠ some '\\')
    (hlen : (X ++ ("KEYS=[".toList ++ (K ++ ("]|VALUES=[".toList ++
      (V ++ (']' :: T)))))).length + 2 < 2 ^ 64) :
    find (X ++ ("KEYS=[".toList ++ (K ++ ("]|VALUES=[".toList ++ (V ++ (']' :: T))))))
        "KEYS=[".toList 0 = X.length ∧
    find (X ++ ("KEYS=[".toList ++ (K ++ ("]|VALUES=[".toList ++ (V ++ (']' :: T))))))
        "]".toList (X.length + 6) = X.length + 6 + K.length ∧
    substr (X ++ ("KEYS=[".toList ++ (K ++ ("]|VALUES=[".toList ++ (V ++ (']' :: T))))))
        (X.length + 6) K.length = Except.ok K ∧
    find (X ++ ("KEYS=[".toList ++ (K ++ ("]|VALUES=[".toList ++ (V ++ (']' :: T))))))
        "VALUES=[".toList 0 = X.length + 6 + K.length + 2 ∧
    skipEscaped (X ++ ("KEYS=[".toList ++ (K ++ ("]|VALUES=[".toList ++ (V ++ (']' :: T))))))
        ((X ++ ("KEYS=[".toList ++ (K ++ ("]|VALUES=[".toList ++
          (V ++ (']' :: T)))))).length + 2)
        (find (X ++ ("KEYS=[".toList ++ (K ++ ("]|VALUES=[".toList ++ (V ++ (']' :: T))))))
          "]".toList (X.length + 6 + K.length + 10)) =
      Except.ok (X.length + 6 + K.length + 10 + V.length) ∧
    substr (X ++ ("KEYS=[".toList ++ (K ++ ("]|VALUES=[".toList ++ (V ++ (']' :: T))))))
        (X.length + 6 + K.length + 10) V.length = Except.ok V := by
  have hKc : ∀ c : Char, c.isDigit = false → c ≠ '-' → c ≠ ',' → c ∉ K := by
    intro c h1 h2 h3 hc
    rcases hK c hc with h | h | h
    · rw [h] at h1; exact absurd h1 (by decide)
    · exact h2 h
    · exact h3 h
  have hKb : ']' ∉ K := hKc ']' (by decide) (by decide) (by decide)
  have hKV : 'V' ∉ K := hKc 'V' (by decide) (by decide) (by decide)
  have hd6 : ∀ Z : List Char, (X ++ ("KEYS=[".toList ++ Z)).drop (X.length + 6) = Z := by
    intro Z
    rw [drop_len_add]; rfl
  have hd16 : ∀ Z : List Char,
      (X ++ ("KEYS=[".toList ++ (K ++ ("]|VALUES=[".toList ++ Z)))).drop
        (X.length + 6 + K.length + 10) = Z := by
    intro Z
    have e : X ++ ("KEYS=[".toList ++ (K ++ ("]|VALUES=[".toList ++ Z))) =
        (X ++ "KEYS=[".toList ++ K) ++ ("]|VALUES=[".toList ++ Z) := by simp
    have i : X.length + 6 + K.length + 10 = (X ++ "KEYS=[".toList ++ K).length + 10 := by
      simp; omega
    rw [e, i, drop_len_add]; rfl
  have hpat : "]".toList = [']'] := rfl
  refine ⟨?_, ?_, ?_, ?_, ?_, ?_⟩
  · rw [find_zero]
    have := findAt_head 'K' "EYS=[".toList X
      (K ++ ("]|VALUES=[".toList ++ (V ++ (']' :: T)))) 0 hXK
    simpa using this
  · rw [find_from _ _ _ (by simp), hd6]
    have := findAt_head ']' [] K ("|VALUES=[".toList ++ (V ++ (']' :: T))) (X.length + 6) hKb
    simpa using this
  · rw [substr_ok _ _ _ (by simp), hd6, take_len]
  · rw [find_zero]
    have e : X ++ ("KEYS=[".toList ++ (K ++ ("]|VALUES=[".toList ++ (V ++ (']' :: T))))) =
        (X ++ "KEYS=[".toList ++ K ++ "]|".toList) ++
          (('V' :: "ALUES=[".toList) ++ (V ++ (']' :: T))) := by simp
    rw [e]
    have hpv : "VALUES=[".toList = 'V' :: "ALUES=[".toList := rfl
    rw [hpv, findAt_head 'V' _ _ _ _ (by
      simp only [List.mem_append, not_or]
      exact ⟨⟨⟨hXV, by decide⟩, hKV⟩, by decide⟩)]
    simp
    omega
  · have e : X ++ ("KEYS=[".toList ++ (K ++ ("]|VALUES=[".toList ++ (V ++ (']' :: T))))) =
        (X ++ "KEYS=[".toList ++ K ++ "]|VALUES=[".toList) ++ (V ++ (']' :: T)) := by simp
    have i : X.length + 6 + K.length + 10 =
        (X ++ "KEYS=[".toList ++ K ++ "]|VALUES=[".toList).length := by simp; omega
    have j : X.length + 6 + K.length + 10 + V.length =
        (X ++ "KEYS=[".toList ++ K ++ "]|VALUES=[".toList).length + V.length := by
      simp; omega
    rw [j, i, e]
    apply values_end _ V T _ hesc hlast
    · rw [← e]; exact hlen
    · have : X ++ "KEYS=[".toList ++ K ++ "]|VALUES=[".toList =
          (X ++ "KEYS=[".toList ++ K ++ "]|VALUES=".toList) ++ ['['] := by simp
      rw [this, List.getLast?_append]
      rfl
  · rw [substr_ok _ _ _ (by simp; omega), hd16, take_len]

end Snapshot

namespace Snapshot

theorem no_char_of_class {K : List Char} (hK : ∀ c ∈ K, c.isDigit = true ∨ c = '-' ∨ c = ',')
    (c : Char) (h1 : c.isDigit = false) (h2 : c ≠ '-') (h3 : c ≠ ',') : c ∉ K := by
  intro hc
  rcases hK c hc with h | h | h
  · rw [h] at h1; exact absurd h1 (by decide)
  · exact h2 h
  · exact h3 h

theorem not_infix_of_escaped (V : List Char) (c x : Char) (p q : List Char) (hx : x ≠ '\\')
    (hesc : ∀ l1 l2, V = l1 ++ c :: l2 → ∃ l1', l1 = l1' ++ ['\\']) :
    ¬ (p ++ x :: c :: q) <:+: V := by
  rintro ⟨s, t, h⟩
  have e : V = (s ++ p ++ [x]) ++ c :: (q ++ t) := by
    rw [← h]; simp
  obtain ⟨l1', h1⟩ := hesc _ _ e
  have := List.append_inj' h1 rfl
  simp at this
  exact hx this.2

theorem internal_facts (K V C : List Char)
    (hK : ∀ c ∈ K, c.isDigit = true ∨ c = '-' ∨ c = ',')
    (hC : ∀ c ∈ C, c.isDigit = true ∨ c = '-' ∨ c = ',')
    (hescL : ∀ l1 l2, V = l1 ++ '[' :: l2 → ∃ l1', l1 = l1' ++ ['\\'])
    (hleaf : ¬ "LEAF=true".toList <:+: V) :
    find ("LEAF=false|".toList ++ ("KEYS=[".toList ++ (K ++ ("]|VALUES=[".toList ++
        (V ++ (']' :: ("|CHILDREN=[".toList ++ (C ++ [']']))))))))
      "LEAF=true".toList 0 = npos ∧
    find ("LEAF=false|".toList ++ ("KEYS=[".toList ++ (K ++ ("]|VALUES=[".toList ++
        (V ++ (']' :: ("|CHILDREN=[".toList ++ (C ++ [']']))))))))
      "CHILDREN=[".toList 0 = 11 + 6 + K.length + 10 + V.length + 2 ∧
    find ("LEAF=false|".toList ++ ("KEYS=[".toList ++ (K ++ ("]|VALUES=[".toList ++
        (V ++ (']' :: ("|CHILDREN=[".toList ++ (C ++ [']']))))))))
      "]".toList (11 + 6 + K.length + 10 + V.length + 2 + 10) =
        11 + 6 + K.length + 10 + V.length + 2 + 10 + C.length ∧
    substr ("LEAF=false|".toList ++ ("KEYS=[".toList ++ (K ++ ("]|VALUES=[".toList ++
        (V ++ (']' :: ("|CHILDREN=[".toList ++ (C ++ [']']))))))))
      (11 + 6 + K.length + 10 + V.length + 2 + 10) C.length = Except.ok C := by
  have hKL : 'L' ∉ K := no_char_of_class hK 'L' (by decide) (by decide) (by decide)
  have hKC : 'C' ∉ K := no_char_of_class hK 'C' (by decide) (by decide) (by decide)
  have hCL : 'L' ∉ C := no_char_of_class hC 'L' (by decide) (by decide) (by decide)
  have hCb : ']' ∉ C := no_char_of_class hC ']' (by decide) (by decide) (by decide)
  have hd : ∀ Z : List Char,
      ("LEAF=false|".toList ++ ("KEYS=[".toList ++ (K ++ ("]|VALUES=[".toList ++
        (V ++ (']' :: ("|CHILDREN=[".toList ++ Z))))))).drop
        (11 + 6 + K.length + 10 + V.length + 2 + 10) = Z := by
    intro Z
    have e : "LEAF=false|".toList ++ ("KEYS=[".toList ++ (K ++ ("]|VALUES=[".toList ++
        (V ++ (']' :: ("|CHILDREN=[".toList ++ Z)))))) =
        ("LEAF=false|KEYS=[".toList ++ K ++ "]|VALUES=[".toList ++ V) ++
          ("]|CHILDREN=[".toList ++ Z) := by simp
    have i : 11 + 6 + K.length + 10 + V.length + 2 + 10 =
        ("LEAF=false|KEYS=[".toList ++ K ++ "]|VALUES=[".toList ++ V).length + 12 := by
      simp; omega
    rw [e, i, drop_len_add]; rfl
  refine ⟨?_, ?_, ?_, ?_⟩
  · rw [find_zero]
    have e : "LEAF=false|".toList ++ ("KEYS=[".toList ++ (K ++ ("]|VALUES=[".toList ++
        (V ++ (']' :: ("|CHILDREN=[".toList ++ (C ++ [']']))))))) =
        "LEAF=false|KEYS=[".toList ++ (K ++ ("]|VALUES=[".toList ++
          (V ++ (']' :: ("|CHILDREN=[".toList ++ (C ++ ([']'] ++ []))))))) := by simp
    rw [e]
    have hp : "LEAF=true".toList = 'L' :: "EAF=true".toList := rfl
    rw [findAt_append_skip _ "LEAF=false|KEYS=[".toList _ _ (by
      intro k hk
      have hk' : k < 17 := hk
      interval_cases k <;> simp [List.isPrefixOf])]
    rw [hp, findAt_append_skip _ K _ _ (no_prefix_of_head 'L' _ K _ hKL), ← hp]
    rw [findAt_append_skip _ "]|VALUES=[".toList _ _ (by
      intro k hk
      have hk' : k < 10 := hk
      interval_cases k <;> simp [List.isPrefixOf])]
    rw [findAt_append_skip _ V _ _ (fun k _ =>
      no_prefix_of_sep "LEAF=true".toList V _ ']' (by decide) hleaf k)]
    have e2 : ']' :: ("|CHILDREN=[".toList ++ (C ++ ([']'] ++ []))) =
        "]|CHILDREN=[".toList ++ (C ++ ([']'] ++ [])) := by simp
    rw [e2, findAt_append_skip _ "]|CHILDREN=[".toList _ _ (by
      intro k hk
      have hk' : k < 12 := hk
      interval_cases k <;> simp [List.isPrefixOf])]
    rw [hp, findAt_append_skip _ C _ _ (no_prefix_of_head 'L' _ C _ hCL), ← hp]
    rw [findAt_append_skip _ [']'] _ _ (by
      intro k hk
      have hk' : k < 1 := hk
      interval_cases k
      simp [List.isPrefixOf])]
    rfl
  · rw [find_zero]
    have e : "LEAF=false|".toList ++ ("KEYS=[".toList ++ (K ++ ("]|VALUES=[".toList ++
        (V ++ (']' :: ("|CHILDREN=[".toList ++ (C ++ [']']))))))) =
        ("LEAF=false|KEYS=[".toList ++ K ++ "]|VALUES=[".toList) ++
          (V ++ (']' :: ("|".toList ++ ("CHILDREN=[".toList ++ (C ++ [']']))))) := by simp
    rw [e]
    have hp : "CHILDREN=[".toList = 'C' :: "HILDREN=[".toList := rfl
    rw [hp, findAt_append_skip _ _ _ _ (no_prefix_of_head 'C' _
      ("LEAF=false|KEYS=[".toList ++ K ++ "]|VALUES=[".toList) _ (by
        simp only [List.mem_append, not_or]
        exact ⟨⟨by decide, hKC⟩, by decide⟩)), ← hp]
    have hnin : ¬ "CHILDREN=[".toList <:+: V := by
      have := not_infix_of_escaped V '[' '=' "CHILDREN".toList [] (by decide) hescL
      simpa using this
    rw [findAt_append_skip _ V _ _ (fun k _ =>
      no_prefix_of_sep "CHILDREN=[".toList V _ ']' (by decide) hnin k)]
    have e2 : ']' :: ("|".toList ++ ("CHILDREN=[".toList ++ (C ++ [']']))) =
        "]|".toList ++ ("CHILDREN=[".toList ++ (C ++ [']'])) := by simp
    rw [e2, findAt_append_skip _ "]|".toList _ _ (by
      intro k hk
      have hk' : k < 2 := hk
      interval_cases k <;> simp [List.isPrefixOf])]
    rw [findAt_here _ _ _ (by rw [isPrefixOf_iff]; exact ⟨_, rfl⟩)]
    simp
    omega
  · rw [find_from _ _ _ (by simp; omega), hd]
    have := findAt_head ']' [] C [] (11 + 6 + K.length + 10 + V.length + 2 + 10) hCb
    simpa using this
  · rw [substr_ok _ _ _ (by simp; omega), hd, take_len]

end Snapshot

namespace Snapshot

theorem showInt_natCast (n : Nat) : showInt (n : Int) = showNat n := by
  unfold showInt
  have : ¬ ((n : Int) < 0) := by omega
  simp [this]

theorem line_facts (id : Nat) (R : List Char) (hid : (id : Int) ≤ 2147483647)
    (hlen : ("NODE_".toList ++ (showNat id ++ ('|' :: R))).length + 2 < 2 ^ 64) :
    find ("NODE_".toList ++ (showNat id ++ ('|' :: R))) "|".toList 0 =
      5 + (showNat id).length ∧
    substr ("NODE_".toList ++ (showNat id ++ ('|' :: R))) 5
      (wrapSub (5 + (showNat id).length) 5) = Except.ok (showNat id) ∧
    stoi (showNat id) = Except.ok (id : Int) ∧
    substr ("NODE_".toList ++ (showNat id ++ ('|' :: R)))
      (wrapAdd (5 + (showNat id).length) 1) npos = Except.ok R := by
  obtain ⟨_, hdig, _⟩ := showNat_spec id
  have hbar : '|' ∉ "NODE_".toList ++ showNat id := by
    simp only [List.mem_append, not_or]
    exact ⟨by decide, fun h => (digit_not_sign (hdig _ h)).2.2.2 rfl⟩
  have hl : ("NODE_".toList ++ (showNat id ++ ('|' :: R))).length =
      5 + (showNat id).length + 1 + R.length := by
    simp; omega
  rw [hl] at hlen
  refine ⟨?_, ?_, ?_, ?_⟩
  · rw [find_zero]
    have := findAt_head '|' [] ("NODE_".toList ++ showNat id) R 0 hbar
    have e : "NODE_".toList ++ (showNat id ++ ('|' :: R)) =
        ("NODE_".toList ++ showNat id) ++ (['|'] ++ R) := by simp
    have hp : "|".toList = ['|'] := rfl
    rw [e, hp, this]
    simp
    omega
  · rw [wrapSub_small (by omega) (by omega), substr_ok _ _ _ (by rw [hl]; omega)]
    have : 5 + (showNat id).length - 5 = (showNat id).length := by omega
    rw [this]
    have e : "NODE_".toList ++ (showNat id ++ ('|' :: R)) =
        "NODE_".toList ++ (showNat id ++ ('|' :: R)) := rfl
    have h5 : ("NODE_".toList ++ (showNat id ++ ('|' :: R))).drop 5 =
        showNat id ++ ('|' :: R) := rfl
    rw [h5, take_len]
  · have := stoi_showInt (id : Int) (by omega) hid
    rwa [showInt_natCast] at this
  · rw [wrapAdd_small (by omega), substr_ok _ _ _ (by rw [hl]; omega)]
    have e : "NODE_".toList ++ (showNat id ++ ('|' :: R)) =
        ("NODE_".toList ++ showNat id ++ ['|']) ++ R := by simp
    have i : 5 + (showNat id).length + 1 = ("NODE_".toList ++ showNat id ++ ['|']).length := by
      simp; omega
    rw [e, i, List.drop_left]
    congr 1
    apply List.take_of_length_le
    unfold npos
    omega

theorem parseNodeLine_leaf (nodeCount id : Nat) (K V : List Char) (keys : List Int)
    (tokens : List (List Char)) (line R : List Char)
    (hR : R = "LEAF=true|".toList ++
      ("KEYS=[".toList ++ (K ++ ("]|VALUES=[".toList ++ (V ++ [']'])))))
    (hline : line = "NODE_".toList ++ (showNat id ++ ('|' :: R)))
    (hid : id < nodeCount) (hidmax : (id : Int) ≤ 2147483647)
    (hK : ∀ c ∈ K, c.isDigit = true ∨ c = '-' ∨ c = ',')
    (hesc : ∀ l1 l2, V = l1 ++ ']' :: l2 → ∃ l1', l1 = l1' ++ ['\\'])
    (hlast : V.getLast? ≠ some '\\')
    (hlen : line.length + 2 < 2 ^ 64)
    (hkeys : (if K.isEmpty then Except.ok [] else parseKeys (split ',' K) 0) = Except.ok keys)
    (htok : (if V.isEmpty then [] else split '~' V) = tokens)
    (htl : tokens.length ≤ MAX_KEYS) :
    parseNodeLine nodeCount line =
      Except.ok ⟨id, true, keys, tokens.map (fun tok => String.mk (unescapeValue tok)), []⟩ := by
  have hlen' := hlen
  rw [hline] at hlen'
  obtain ⟨l1, l2, l3, l4⟩ := line_facts id R hidmax hlen'
  rw [← hline] at l1 l2 l4
  have hRlen : R.length + 2 < 2 ^ 64 := by
    simp at hlen'
    omega
  have hRlen' := hRlen
  rw [hR] at hRlen'
  obtain ⟨f1, f2, f3, f4, f5, f6⟩ := rest_facts "LEAF=true|".toList K V [] (by decide)
    (by decide) hK hesc hlast hRlen'
  have hX : "LEAF=true|".toList.length = 10 := rfl
  rw [hX] at f1 f2 f3 f4 f5 f6
  have hflag : find R "LEAF=true".toList 0 = 0 := by
    rw [hR, find_zero, findAt_here]
    rw [isPrefixOf_iff]
    exact ⟨'|' :: ("KEYS=[".toList ++ (K ++ ("]|VALUES=[".toList ++ (V ++ [']'])))), rfl⟩
  rw [← hR] at f1 f2 f3 f4 f5 f6
  have hbd : K.length + V.length + 29 < 2 ^ 64 := by
    simp at hRlen'
    omega
  have w1 : wrapAdd 10 6 = 10 + 6 := wrapAdd_small (by omega)
  have w2 : wrapSub (10 + 6 + K.length) (10 + 6) = K.length := by
    rw [wrapSub_small (by omega) (by omega)]; omega
  have w3 : wrapAdd (10 + 6 + K.length + 2) 8 = 10 + 6 + K.length + 10 := by
    rw [wrapAdd_small (by omega)]
  have w4 : wrapSub (10 + 6 + K.length + 10 + V.length) (10 + 6 + K.length + 10) =
      V.length := by
    rw [wrapSub_small (by omega) (by omega)]; omega
  have hin : decide ((0 : Int) ≤ (id : Int) ∧ (id : Int) < (nodeCount : Int)) = true := by
    simp; omega
  have hnp : ((0 : Nat) != npos) = true := by decide
  have htl' : ¬ MAX_KEYS < tokens.length := by omega
  clear hline hR hlen hlen' hRlen hRlen'
  unfold parseNodeLine
  simp only [l1, l2, l3, l4, hflag, f1, w1, f2, w2, f3, hkeys, f4, w3, f5, w4, f6,
    htok, hin, hnp, htl', if_false, Bool.true_or, if_true, Bool.not_true, Bool.false_eq_true,
    Int.toNat_ofNat]

end Snapshot

namespace Snapshot

theorem parseNodeLine_internal (nodeCount id : Nat) (K V C : List Char) (keys : List Int)
    (tokens : List (List Char)) (childIdx : List Int) (line R : List Char)
    (hR : R = "LEAF=false|".toList ++ ("KEYS=[".toList ++ (K ++ ("]|VALUES=[".toList ++
        (V ++ (']' :: ("|CHILDREN=[".toList ++ (C ++ [']']))))))))
    (hline : line = "NODE_".toList ++ (showNat id ++ ('|' :: R)))
    (hid : id < nodeCount) (hidmax : (id : Int) ≤ 2147483647)
    (hK : ∀ c ∈ K, c.isDigit = true ∨ c = '-' ∨ c = ',')
    (hC : ∀ c ∈ C, c.isDigit = true ∨ c = '-' ∨ c = ',')
    (hesc : ∀ l1 l2, V = l1 ++ ']' :: l2 → ∃ l1', l1 = l1' ++ ['\\'])
    (hescL : ∀ l1 l2, V = l1 ++ '[' :: l2 → ∃ l1', l1 = l1' ++ ['\\'])
    (hlast : V.getLast? ≠ some '\\')
    (hleaf : ¬ "LEAF=true".toList <:+: V)
    (hlen : line.length + 2 < 2 ^ 64)
    (hkeys : (if K.isEmpty then Except.ok [] else parseKeys (split ',' K) 0) = Except.ok keys)
    (htok : (if V.isEmpty then [] else split '~' V) = tokens)
    (htl : tokens.length ≤ MAX_KEYS)
    (hchild : parseChildIdx (split ',' C) = Except.ok childIdx) :
    parseNodeLine nodeCount line =
      Except.ok ⟨id, false, keys, tokens.map (fun tok => String.mk (unescapeValue tok)),
        childIdx⟩ := by
  have hlen' := hlen
  rw [hline] at hlen'
  obtain ⟨l1, l2, l3, l4⟩ := line_facts id R hidmax hlen'
  rw [← hline] at l1 l2 l4
  have hRlen : R.length + 2 < 2 ^ 64 := by
    simp at hlen'
    omega
  have hRlen' := hRlen
  rw [hR] at hRlen'
  obtain ⟨f1, f2, f3, f4, f5, f6⟩ := rest_facts "LEAF=false|".toList K V
    ("|CHILDREN=[".toList ++ (C ++ [']'])) (by decide) (by decide) hK hesc hlast hRlen'
  obtain ⟨g1, g2, g3, g4⟩ := internal_facts K V C hK hC hescL hleaf
  have hX : "LEAF=false|".toList.length = 11 := rfl
  rw [hX] at f1 f2 f3 f4 f5 f6
  rw [← hR] at f1 f2 f3 f4 f5 f6 g1 g2 g3 g4
  have hbd : K.length + V.length + C.length + 42 < 2 ^ 64 := by
    simp at hRlen'
    omega
  have w1 : wrapAdd 11 6 = 11 + 6 := wrapAdd_small (by omega)
  have w2 : wrapSub (11 + 6 + K.length) (11 + 6) = K.length := by
    rw [wrapSub_small (by omega) (by omega)]; omega
  have w3 : wrapAdd (11 + 6 + K.length + 2) 8 = 11 + 6 + K.length + 10 := by
    rw [wrapAdd_small (by omega)]
  have w4 : wrapSub (11 + 6 + K.length + 10 + V.length) (11 + 6 + K.length + 10) =
      V.length := by
    rw [wrapSub_small (by omega) (by omega)]; omega
  have w5 : wrapAdd (11 + 6 + K.length + 10 + V.length + 2) 10 =
      11 + 6 + K.length + 10 + V.length + 2 + 10 := wrapAdd_small (by omega)
  have w6 : wrapSub (11 + 6 + K.length + 10 + V.length + 2 + 10 + C.length)
      (11 + 6 + K.length + 10 + V.length + 2 + 10) = C.length := by
    rw [wrapSub_small (by omega) (by omega)]; omega
  have hin : decide ((0 : Int) ≤ (id : Int) ∧ (id : Int) < (nodeCount : Int)) = true := by
    simp; omega
  have hnp : (npos != npos) = false := by simp
  have hcs : (11 + 6 + K.length + 10 + V.length + 2 == npos) = false := by
    have : 11 + 6 + K.length + 10 + V.length + 2 ≠ npos := by
      unfold npos; omega
    simpa using this
  have htl' : ¬ MAX_KEYS < tokens.length := by omega
  have hch : (if (split ',' C).isEmpty = true then Except.ok []
      else parseChildIdx (split ',' C)) = (Except.ok childIdx : Except LoadError (List Int)) := by
    split
    · rename_i he
      have : split ',' C = [] := by simpa using he
      rw [this] at hchild
      exact hchild
    · exact hchild
  clear hline hR hlen hlen' hRlen hRlen'
  unfold parseNodeLine
  simp only [l1, l2, l3, l4, g1, f1, w1, f2, w2, f3, hkeys, f4, w3, f5, w4, f6,
    htok, hin, hnp, htl', g2, hcs, w5, g3, w6, g4, hch, if_false, Bool.or_false, if_true,
    Bool.not_true, Bool.false_eq_true, Int.toNat_ofNat]

end Snapshot

namespace Snapshot

theorem escapeValue_eq (v : List Char) : escapeValue v = escapeSet ['|', '[', ']'] v := by
  unfold escapeValue
  have e1 : escapeChar '|' v = escapeSet ['|'] v := by
    have := escapeChar_escapeSet '|' [] (by decide) (by simp) v
    rwa [escapeSet_nil] at this
  rw [e1, escapeChar_escapeSet '[' ['|'] (by decide) (by decide),
    escapeChar_escapeSet ']' ['[', '|'] (by decide) (by decide)]
  exact escapeSet_congr (by intro x; simp; tauto) v

theorem escapeSet_mem (set : List Char) (c : Char) (hc : c ≠ '\\') :
    ∀ v : List Char, c ∈ escapeSet set v → c ∈ v := by
  intro v
  induction v with
  | nil => simp [escapeSet]
  | cons x xs ih =>
    intro h
    simp only [escapeSet] at h
    split at h
    · simp only [List.mem_cons] at h ⊢
      rcases h with h | h | h
      · exact absurd h hc
      · exact Or.inl h
      · exact Or.inr (ih h)
    · simp only [List.mem_cons] at h ⊢
      rcases h with h | h
      · exact Or.inl h
      · exact Or.inr (ih h)

theorem escapeSet_eq_nil (set : List Char) (v : List Char) (h : escapeSet set v = []) :
    v = [] := by
  cases v with
  | nil => rfl
  | cons x xs =>
    simp only [escapeSet] at h
    split at h <;> simp at h

theorem escapeSet_getLast (set : List Char) : ∀ v : List Char,
    (escapeSet set v).getLast? = v.getLast? := by
  intro v
  induction v with
  | nil => rfl
  | cons x xs ih =>
    cases xs with
    | nil =>
      simp only [escapeSet]
      split <;> simp
    | cons y ys =>
      have hne : escapeSet set (y :: ys) ≠ [] := fun h => by
        have := escapeSet_eq_nil set _ h
        simp at this
      have h1 : ∀ p : List Char, (p ++ escapeSet set (y :: ys)).getLast? =
          (escapeSet set (y :: ys)).getLast? := by
        intro p
        rw [List.getLast?_append]
        cases hq : (escapeSet set (y :: ys)).getLast? with
        | none =>
          rw [List.getLast?_eq_none_iff] at hq
          exact absurd hq hne
        | some z => simp
      have h2 : (x :: y :: ys).getLast? = (y :: ys).getLast? := by simp
      rw [h2, ← ih]
      show (escapeSet set (x :: (y :: ys))).getLast? = _
      rw [escapeSet]
      split
      · exact h1 ['\\', x]
      · exact h1 [x]

/-- Every occurrence of `c` in `V` comes right after a backslash. -/
theorem guarded_append {c : Char} {a b : List Char}
    (ha : ∀ l1 l2, a = l1 ++ c :: l2 → l1.getLast? = some '\\')
    (hb : ∀ l1 l2, b = l1 ++ c :: l2 → l1.getLast? = some '\\') :
    ∀ l1 l2, a ++ b = l1 ++ c :: l2 → l1.getLast? = some '\\' := by
  intro l1 l2 h
  rcases List.append_eq_append_iff.1 h with ⟨a', h1, h2⟩ | ⟨c', h1, h2⟩
  · -- l1 = a ++ a', b = a' ++ c :: l2
    have hb' := hb a' l2 h2
    rw [h1, List.getLast?_append, hb']
    rfl
  · -- a = l1 ++ c', c :: l2 = c' ++ b
    cases c' with
    | nil =>
      simp only [List.nil_append] at h2
      have hb' := hb [] l2 h2.symm
      simp at hb'
    | cons z zs =>
      simp only [List.cons_append, List.cons.injEq] at h2
      obtain ⟨rfl, _⟩ := h2
      exact ha l1 zs h1

theorem guarded_escapeSet (set : List Char) (c : Char) (hc : c ∈ set) (hs : '\\' ∉ set) :
    ∀ (v l1 l2 : List Char), escapeSet set v = l1 ++ c :: l2 → l1.getLast? = some '\\' := by
  have hcb : c ≠ '\\' := fun h => hs (h ▸ hc)
  intro v
  induction v with
  | nil => intro l1 l2 h; simp [escapeSet] at h
  | cons x xs ih =>
    intro l1 l2 h
    simp only [escapeSet] at h
    split at h
    · have e : '\\' :: x :: escapeSet set xs = ['\\', x] ++ escapeSet set xs := rfl
      rw [e] at h
      refine guarded_append (c := c) (a := ['\\', x]) ?_ ih l1 l2 h
      intro m1 m2 hm
      cases m1 with
      | nil => simp at hm; exact absurd hm.1.symm hcb
      | cons y ys =>
        cases ys with
        | nil => simp at hm; simp [← hm.1]
        | cons z zs =>
          have := congrArg List.length hm
          simp at this
    · rename_i hx
      have e : x :: escapeSet set xs = [x] ++ escapeSet set xs := rfl
      rw [e] at h
      refine guarded_append (c := c) (a := [x]) ?_ ih l1 l2 h
      intro m1 m2 hm
      cases m1 with
      | nil => simp at hm; exact absurd (hm.1 ▸ hc) hx
      | cons y ys =>
        have := congrArg List.length hm
        simp at this

theorem guarded_joinWith (c d : Char) (hcd : d ≠ c) : ∀ (xs : List (List Char)),
    (∀ x ∈ xs, ∀ l1 l2, x = l1 ++ c :: l2 → l1.getLast? = some '\\') →
    ∀ l1 l2, joinWith d xs = l1 ++ c :: l2 → l1.getLast? = some '\\' := by
  intro xs
  induction xs with
  | nil => intro _ l1 l2 h; simp [joinWith] at h
  | cons x xs ih =>
    intro hx
    cases xs with
    | nil => simpa [joinWith] using hx x (by simp)
    | cons y r =>
      have ih' := ih (fun z hz => hx z (List.mem_cons_of_mem _ hz))
      simp only [joinWith]
      have e : x ++ d :: joinWith d (y :: r) = x ++ ([d] ++ joinWith d (y :: r)) := rfl
      rw [e]
      refine guarded_append (hx x (by simp)) (guarded_append ?_ ih')
      intro m1 m2 hm
      cases m1 with
      | nil => simp at hm; exact absurd hm.1 hcd
      | cons y ys =>
        have := congrArg List.length hm
        simp at this

theorem joinWith_getLast (d : Char) (hd : d ≠ '\\') : ∀ (xs : List (List Char)),
    (∀ x ∈ xs, x.getLast? ≠ some '\\') → (joinWith d xs).getLast? ≠ some '\\' := by
  intro xs
  induction xs with
  | nil => intro _; simp [joinWith]
  | cons x xs ih =>
    intro hx
    cases xs with
    | nil => simpa [joinWith] using hx x (by simp)
    | cons y r =>
      have ih' := ih (fun z hz => hx z (List.mem_cons_of_mem _ hz))
      simp only [joinWith]
      have e : x ++ d :: joinWith d (y :: r) = x ++ ([d] ++ joinWith d (y :: r)) := rfl
      rw [e, List.getLast?_append, List.getLast?_append]
      cases hq : (joinWith d (y :: r)).getLast? with
      | none => simpa using hd
      | some z =>
        rw [hq] at ih'
        simpa using ih'

theorem prefix_escapeSet (set : List Char) (pat : List Char) (hp : '\\' ∉ pat) :
    ∀ v : List Char, pat <+: escapeSet set v → pat <+: v := by
  induction pat with
  | nil => intro v _; exact List.nil_prefix
  | cons p ps ih =>
    have hps : '\\' ∉ ps := fun h => hp (List.mem_cons_of_mem _ h)
    have hpb : p ≠ '\\' := fun h => hp (by simp [h])
    intro v h
    cases v with
    | nil => simp [escapeSet] at h
    | cons x xs =>
      simp only [escapeSet] at h
      split at h
      · rw [List.cons_prefix_cons] at h
        exact absurd h.1 hpb
      · rw [List.cons_prefix_cons] at h ⊢
        exact ⟨h.1, ih hps xs h.2⟩

theorem infix_escapeSet (set : List Char) (pat : List Char) (hp : '\\' ∉ pat) :
    ∀ v : List Char, pat <:+: escapeSet set v → pat <:+: v := by
  intro v
  induction v with
  | nil => intro h; exact h
  | cons x xs ih =>
    intro h
    have hpre : pat <+: escapeSet set (x :: xs) → pat <:+: x :: xs :=
      fun h => (prefix_escapeSet set pat hp _ h).isInfix
    have hrest : pat <:+: escapeSet set xs → pat <:+: x :: xs :=
      fun h => List.infix_cons (ih h)
    by_cases hx : x ∈ set
    · have e : escapeSet set (x :: xs) = '\\' :: x :: escapeSet set xs := by
        simp [escapeSet, hx]
      rw [e, List.infix_cons_iff] at h
      rcases h with h | h
      · exact hpre (by rw [e]; exact h)
      · rw [List.infix_cons_iff] at h
        rcases h with h | h
        · cases pat with
          | nil => exact List.nil_infix
          | cons p ps =>
            rw [List.cons_prefix_cons] at h
            have hps : '\\' ∉ ps := fun h => hp (List.mem_cons_of_mem _ h)
            have := prefix_escapeSet set ps hps xs h.2
            exact (List.cons_prefix_cons.2 ⟨h.1, this⟩).isInfix
        · exact hrest h
    · have e : escapeSet set (x :: xs) = x :: escapeSet set xs := by
        simp [escapeSet, hx]
      rw [e, List.infix_cons_iff] at h
      rcases h with h | h
      · exact hpre (by rw [e]; exact h)
      · exact hrest h

theorem infix_sep (pat : List Char) (d : Char) (hd : d ∉ pat) (b : List Char)
    (hb : ¬ pat <:+: b) : ∀ a : List Char, ¬ pat <:+: a → ¬ pat <:+: a ++ d :: b := by
  intro a
  induction a with
  | nil =>
    intro ha h
    rw [List.nil_append, List.infix_cons_iff] at h
    rcases h with h | h
    · have := no_prefix_of_sep pat [] b d hd ha 0
      rw [Bool.eq_false_iff, ne_eq, isPrefixOf_iff] at this
      exact this h
    · exact hb h
  | cons y ys ih =>
    intro ha h
    rw [List.cons_append, List.infix_cons_iff] at h
    rcases h with h | h
    · have := no_prefix_of_sep pat (y :: ys) b d hd ha 0
      rw [Bool.eq_false_iff, ne_eq, isPrefixOf_iff] at this
      exact this h
    · exact ih (fun h' => ha (List.infix_cons h')) h

theorem infix_joinWith (d : Char) (pat : List Char) (hd : d ∉ pat) (hne : pat ≠ []) :
    ∀ (xs : List (List Char)), (∀ x ∈ xs, ¬ pat <:+: x) → ¬ pat <:+: joinWith d xs := by
  intro xs
  induction xs with
  | nil =>
    intro _ h
    simp only [joinWith, List.infix_nil] at h
    exact hne h
  | cons x xs ih =>
    intro hx
    cases xs with
    | nil => simpa [joinWith] using hx x (by simp)
    | cons y r =>
      have ih' := ih (fun z hz => hx z (List.mem_cons_of_mem _ hz))
      simp only [joinWith]
      exact infix_sep pat d hd _ ih' x (hx x (by simp))

end Snapshot

namespace Snapshot

theorem showInt_class (i : Int) : ∀ c ∈ showInt i, c.isDigit = true ∨ c = '-' ∨ c = ',' := by
  obtain ⟨_, hdig, _⟩ := showNat_spec i.natAbs
  intro c hc
  unfold showInt at hc
  split at hc
  · rcases List.mem_cons.1 hc with h | h
    · exact Or.inr (Or.inl h)
    · exact Or.inl (hdig c h)
  · exact Or.inl (hdig c hc)

theorem showInt_ne_nil (i : Int) : showInt i ≠ [] := by
  obtain ⟨hne, _, _⟩ := showNat_spec i.natAbs
  unfold showInt
  split
  · simp
  · exact hne

theorem showInt_no_comma (i : Int) : ',' ∉ showInt i := by
  obtain ⟨_, hdig, _⟩ := showNat_spec i.natAbs
  have hnat : ',' ∉ showNat i.natAbs := fun h => absurd (hdig _ h) (by decide)
  unfold showInt
  split
  · intro h
    rcases List.mem_cons.1 h with h | h
    · exact absurd h (by decide)
    · exact hnat h
  · exact hnat

theorem joinWith_class (P : Char → Prop) (d : Char) (hd : P d) : ∀ (xs : List (List Char)),
    (∀ x ∈ xs, ∀ c ∈ x, P c) → ∀ c ∈ joinWith d xs, P c := by
  intro xs
  induction xs with
  | nil => intro _ c hc; simp [joinWith] at hc
  | cons x xs ih =>
    intro hx
    cases xs with
    | nil => simpa [joinWith] using hx x (by simp)
    | cons y r =>
      have ih' := ih (fun z hz => hx z (List.mem_cons_of_mem _ hz))
      intro c hc
      simp only [joinWith, List.mem_append, List.mem_cons] at hc
      rcases hc with h | h | h
      · exact hx x (by simp) c h
      · rw [h]; exact hd
      · exact ih' c h

theorem ints_class (ks : List Int) :
    ∀ c ∈ joinWith ',' (ks.map showInt), c.isDigit = true ∨ c = '-' ∨ c = ',' := by
  refine joinWith_class (fun c => c.isDigit = true ∨ c = '-' ∨ c = ',') ','
    (Or.inr (Or.inr rfl)) _ ?_
  intro x hx
  obtain ⟨k, _, rfl⟩ := List.mem_map.1 hx
  exact showInt_class k

theorem split_ints (ks : List Int) : split ',' (joinWith ',' (ks.map showInt)) = ks.map showInt := by
  apply Request.split_joinWith
  intro x hx
  obtain ⟨k, _, rfl⟩ := List.mem_map.1 hx
  exact ⟨showInt_no_comma k, showInt_ne_nil k⟩

theorem parseKeys_showInt : ∀ (ks : List Int) (idx : Nat),
    (∀ k ∈ ks, -2147483648 ≤ k ∧ k ≤ 2147483647) → idx + ks.length ≤ MAX_KEYS →
    parseKeys (ks.map showInt) idx = Except.ok ks := by
  intro ks
  induction ks with
  | nil => intro idx _ _; rfl
  | cons k ks ih =>
    intro idx hr hl
    obtain ⟨h1, h2⟩ := hr k (by simp)
    simp only [List.length_cons] at hl
    have hidx : ¬ MAX_KEYS ≤ idx := by omega
    simp only [List.map_cons, parseKeys, stoi_showInt k h1 h2, hidx, if_false,
      ih (idx + 1) (fun x hx => hr x (List.mem_cons_of_mem _ hx)) (by omega)]

theorem parseChildIdx_showInt : ∀ (ks : List Int),
    (∀ k ∈ ks, -2147483648 ≤ k ∧ k ≤ 2147483647) →
    parseChildIdx (ks.map showInt) = Except.ok ks := by
  intro ks
  induction ks with
  | nil => intro _; rfl
  | cons k ks ih =>
    intro hr
    obtain ⟨h1, h2⟩ := hr k (by simp)
    simp only [List.map_cons, parseChildIdx, stoi_showInt k h1 h2,
      ih (fun x hx => hr x (List.mem_cons_of_mem _ hx))]

theorem keys_parse (ks : List Int) (hr : ∀ k ∈ ks, -2147483648 ≤ k ∧ k ≤ 2147483647)
    (hl : ks.length ≤ MAX_KEYS) :
    (if (joinWith ',' (ks.map showInt)).isEmpty then Except.ok []
      else parseKeys (split ',' (joinWith ',' (ks.map showInt))) 0) = Except.ok ks := by
  rw [split_ints, parseKeys_showInt ks 0 hr (by omega)]
  split
  · rename_i h
    rw [Request.joinWith_isEmpty] at h
    · cases ks with
      | nil => rfl
      | cons k r => simp at h
    · intro x hx
      obtain ⟨k, _, rfl⟩ := List.mem_map.1 hx
      exact showInt_ne_nil k
  · rfl

theorem splitAux_nil_eq (d : Char) (s : List Char) : splitAux d s [] = split d s := rfl

theorem split_joinWith_pad (d : Char) : ∀ (xs : List (List Char)), (∀ x ∈ xs, d ∉ x) →
    ∃ m, xs = split d (joinWith d xs) ++ List.replicate m [] := by
  intro xs
  induction xs with
  | nil => intro _; exact ⟨0, rfl⟩
  | cons x xs ih =>
    intro hx
    cases xs with
    | nil =>
      have hxd := hx x (by simp)
      simp only [joinWith, split]
      rw [splitAux_last d x [] hxd]
      cases x with
      | nil => exact ⟨1, rfl⟩
      | cons c r => exact ⟨0, by simp⟩
    | cons y r =>
      obtain ⟨m, hm⟩ := ih (fun z hz => hx z (List.mem_cons_of_mem _ hz))
      refine ⟨m, ?_⟩
      simp only [joinWith, split]
      rw [splitAux_append d x [] _ (hx x (by simp)), splitAux_nil_eq]
      simp only [List.reverse_nil, List.nil_append, List.cons_append]
      rw [← hm]

theorem split_empty (d : Char) : split d [] = [] := rfl

theorem tokens_guard (d : Char) (V : List Char) :
    (if V.isEmpty then [] else split d V) = split d V := by
  cases V with
  | nil => rfl
  | cons c r => rfl

theorem zipWith_pad (keys : List Int) : ∀ (vals : List String) (m n : Nat),
    keys.length = vals.length + m → m ≤ n →
    List.zipWith Prod.mk keys (vals ++ List.replicate n "") =
      List.zipWith Prod.mk keys (vals ++ List.replicate m "") := by
  induction keys with
  | nil => intro vals m n _ _; simp
  | cons k ks ih =>
    intro vals m n h hmn
    cases vals with
    | nil =>
      simp only [List.length_cons, List.length_nil, Nat.zero_add] at h
      obtain ⟨m', rfl⟩ : ∃ m', m = m' + 1 := ⟨ks.length, h.symm⟩
      obtain ⟨n', rfl⟩ : ∃ n', n = n' + 1 := ⟨n - 1, by omega⟩
      simp only [List.nil_append, List.replicate_succ, List.zipWith_cons_cons, List.cons.injEq,
        true_and]
      have := ih [] m' n' (by simp; omega) (by omega)
      simpa using this
    | cons v vs =>
      simp only [List.length_cons] at h
      simp only [List.cons_append, List.zipWith_cons_cons, List.cons.injEq, true_and]
      exact ih vs m n (by omega) hmn

end Snapshot

namespace Snapshot

open BTreeNode

theorem zipWith_fst_snd (es : List (Int × String)) :
    List.zipWith Prod.mk (es.map Prod.fst) (es.map Prod.snd) = es := by
  induction es with
  | nil => rfl
  | cons e es ih => simp [ih]

theorem getLast_exists {l : List Char} {a : Char} (h : l.getLast? = some a) :
    ∃ l', l = l' ++ [a] := by
  rcases List.eq_nil_or_concat l with rfl | ⟨l', x, rfl⟩
  · simp at h
  · rw [List.concat_eq_append, List.getLast?_append] at h
    simp at h
    exact ⟨l', by rw [List.concat_eq_append, h]⟩

theorem values_text (es : List (Int × String))
    (hvals : ∀ e ∈ es, '~' ∉ e.2.toList ∧ e.2.toList.getLast? ≠ some '\\' ∧
      ¬ "LEAF=true".toList <:+: e.2.toList) :
    (∀ l1 l2, joinWith '~' (es.map (fun e => escapeValue e.2.toList)) = l1 ++ ']' :: l2 →
      ∃ l1', l1 = l1' ++ ['\\']) ∧
    (∀ l1 l2, joinWith '~' (es.map (fun e => escapeValue e.2.toList)) = l1 ++ '[' :: l2 →
      ∃ l1', l1 = l1' ++ ['\\']) ∧
    (joinWith '~' (es.map (fun e => escapeValue e.2.toList))).getLast? ≠ some '\\' ∧
    ¬ "LEAF=true".toList <:+: joinWith '~' (es.map (fun e => escapeValue e.2.toList)) := by
  refine ⟨?_, ?_, ?_, ?_⟩
  · intro l1 l2 h
    apply getLast_exists
    refine guarded_joinWith ']' '~' (by decide) _ ?_ l1 l2 h
    intro x hx
    obtain ⟨e, _, rfl⟩ := List.mem_map.1 hx
    rw [escapeValue_eq]
    exact guarded_escapeSet _ ']' (by decide) (by decide) _
  · intro l1 l2 h
    apply getLast_exists
    refine guarded_joinWith '[' '~' (by decide) _ ?_ l1 l2 h
    intro x hx
    obtain ⟨e, _, rfl⟩ := List.mem_map.1 hx
    rw [escapeValue_eq]
    exact guarded_escapeSet _ '[' (by decide) (by decide) _
  · apply joinWith_getLast '~' (by decide)
    intro x hx
    obtain ⟨e, he, rfl⟩ := List.mem_map.1 hx
    rw [escapeValue_eq, escapeSet_getLast]
    exact (hvals e he).2.1
  · apply infix_joinWith '~' _ (by decide) (by decide)
    intro x hx
    obtain ⟨e, he, rfl⟩ := List.mem_map.1 hx
    rw [escapeValue_eq]
    intro h
    exact (hvals e he).2.2 (infix_escapeSet _ _ (by decide) _ h)

theorem values_tokens (es : List (Int × String)) (hvals : ∀ e ∈ es, '~' ∉ e.2.toList)
    (keys : List Int) (hkeys : keys = es.map Prod.fst) :
    (split '~' (joinWith '~' (es.map (fun e => escapeValue e.2.toList)))).length ≤ es.length ∧
    List.zipWith Prod.mk keys
      ((split '~' (joinWith '~' (es.map (fun e => escapeValue e.2.toList)))).map
        (fun tok => String.mk (unescapeValue tok)) ++ List.replicate keys.length "") = es := by
  obtain ⟨m, hm⟩ := split_joinWith_pad '~' (es.map (fun e => escapeValue e.2.toList)) (by
    intro x hx
    obtain ⟨e, he, rfl⟩ := List.mem_map.1 hx
    rw [escapeValue_eq]
    exact fun h => hvals e he (escapeSet_mem _ '~' (by decide) _ h))
  have hlen := congrArg List.length hm
  simp only [List.length_map, List.length_append, List.length_replicate] at hlen
  refine ⟨by omega, ?_⟩
  have hmle : m ≤ keys.length := by
    rw [hkeys, List.length_map]; omega
  rw [zipWith_pad keys _ m keys.length (by
    rw [hkeys]; simp only [List.length_map]; omega) hmle]
  have hsnd : es.map Prod.snd =
      (split '~' (joinWith '~' (es.map (fun e => escapeValue e.2.toList)))).map
        (fun tok => String.mk (unescapeValue tok)) ++ List.replicate m "" := by
    have h2 := congrArg (List.map (fun tok => String.mk (unescapeValue tok))) hm
    simp only [List.map_map, List.map_append, List.map_replicate] at h2
    have h3 : (fun tok => String.mk (unescapeValue tok)) ∘ (fun e : Int × String =>
        escapeValue e.2.toList) = Prod.snd := by
      funext e
      simp only [Function.comp, unescapeValue_escapeValue]
      rfl
    rw [h3] at h2
    rw [h2]
    rfl
  rw [← hsnd, hkeys]
  exact zipWith_fst_snd es

end Snapshot

namespace Snapshot

open BTreeNode

theorem nodeLine_parse (l : Bool) (es : List (Int × String)) (cs : List (Option BTreeNode))
    (id next nodeCount : Nat) (line : List Char)
    (hline : nodeLine (.mk l es cs) id next = line ++ ['\n'])
    (hid : id < nodeCount) (hidmax : (id : Int) ≤ 2147483647)
    (hes : es.length ≤ MAX_KEYS)
    (hkeys : ∀ e ∈ es, -2147483648 ≤ e.1 ∧ e.1 ≤ 2147483647)
    (hvals : ∀ e ∈ es, '~' ∉ e.2.toList ∧ e.2.toList.getLast? ≠ some '\\' ∧
      ¬ "LEAF=true".toList <:+: e.2.toList)
    (hch : l = false → ∀ c ∈ childIds (BTreeNode.mk l es cs).slots next,
      -2147483648 ≤ c ∧ c ≤ 2147483647)
    (hlen : line.length + 2 < 2 ^ 64) :
    ∃ p, parseNodeLine nodeCount line = Except.ok p ∧ p.nodeId = id ∧ p.isLeaf = l ∧
      loadedEntries p = es ∧
      p.childIdx = (if l then [] else childIds (BTreeNode.mk l es cs).slots next) := by
  obtain ⟨v1, v2, v3, v4⟩ := values_text es hvals
  obtain ⟨t1, t2⟩ := values_tokens es (fun e he => (hvals e he).1) (es.map Prod.fst) rfl
  have hK := ints_class (es.map Prod.fst)
  have hkp := keys_parse (es.map Prod.fst) (by
    intro k hk
    obtain ⟨e, he, rfl⟩ := List.mem_map.1 hk
    exact hkeys e he) (by simpa using hes)
  have hmm : (es.map Prod.fst).map showInt = es.map (fun e => showInt e.1) := by
    simp [List.map_map, Function.comp]
  rw [hmm] at hK hkp
  cases l with
  | true =>
    have e : nodeLine (.mk true es cs) id next =
        ("NODE_".toList ++ (showNat id ++ ('|' :: ("LEAF=true|".toList ++
          ("KEYS=[".toList ++ (joinWith ',' (es.map (fun e => showInt e.1)) ++
            ("]|VALUES=[".toList ++
              (joinWith '~' (es.map (fun e => escapeValue e.2.toList)) ++ [']'])))))))) ++
          ['\n'] := by
      simp [nodeLine, isLeaf, entries]
    have hl : line = _ := List.append_cancel_right (hline.symm.trans e)
    refine ⟨_, parseNodeLine_leaf nodeCount id _ _ (es.map Prod.fst) _ line _ rfl hl hid hidmax
      hK v1 v3 hlen hkp (tokens_guard '~' _) (by omega), rfl, rfl, t2, rfl⟩
  | false =>
    have hC := ints_class (childIds (BTreeNode.mk false es cs).slots next)
    have hcp := parseChildIdx_showInt (childIds (BTreeNode.mk false es cs).slots next)
      (hch rfl)
    rw [← split_ints] at hcp
    have e : nodeLine (.mk false es cs) id next =
        ("NODE_".toList ++ (showNat id ++ ('|' :: ("LEAF=false|".toList ++
          ("KEYS=[".toList ++ (joinWith ',' (es.map (fun e => showInt e.1)) ++
            ("]|VALUES=[".toList ++
              (joinWith '~' (es.map (fun e => escapeValue e.2.toList)) ++
                (']' :: ("|CHILDREN=[".toList ++
                  (joinWith ',' ((childIds (BTreeNode.mk false es cs).slots next).map showInt)
                    ++ [']']))))))))))) ++
          ['\n'] := by
      simp [nodeLine, isLeaf, entries]
    have hl : line = _ := List.append_cancel_right (hline.symm.trans e)
    refine ⟨_, parseNodeLine_internal nodeCount id _ _ _ (es.map Prod.fst) _ _ line _ rfl hl
      hid hidmax hK hC v1 v2 v3 v4 hlen hkp (tokens_guard '~' _) (by omega) hcp,
      rfl, rfl, t2, rfl⟩

end Snapshot

namespace Snapshot

open BTreeNode

theorem split_lines (d : Char) : ∀ (bodies : List (List Char)), (∀ b ∈ bodies, d ∉ b) →
    split d ((bodies.map (fun b => b ++ [d])).flatten) = bodies := by
  intro bodies
  induction bodies with
  | nil => intro _; rfl
  | cons b bs ih =>
    intro h
    have hb := h b (by simp)
    have ih' := ih (fun x hx => h x (List.mem_cons_of_mem _ hx))
    simp only [List.map_cons, List.flatten_cons, split, List.append_assoc, List.singleton_append]
    rw [splitAux_append d b [] _ hb, splitAux_nil_eq, ih']
    simp

theorem class_no_newline {K : List Char}
    (hK : ∀ c ∈ K, c.isDigit = true ∨ c = '-' ∨ c = ',') : '\n' ∉ K :=
  no_char_of_class hK '\n' (by decide) (by decide) (by decide)

theorem showNat_no_newline (n : Nat) : '\n' ∉ showNat n := by
  obtain ⟨_, hdig, _⟩ := showNat_spec n
  exact fun h => absurd (hdig _ h) (by decide)

theorem nodeLine_shape (n : BTreeNode) (id next : Nat)
    (hvals : ∀ e ∈ n.entries, '\n' ∉ e.2.toList) :
    nodeLine n id next = (nodeLine n id next).dropLast ++ ['\n'] ∧
    '\n' ∉ (nodeLine n id next).dropLast ∧
    "NODE_".toList.isPrefixOf (nodeLine n id next).dropLast = true ∧
    (nodeLine n id next).dropLast.isEmpty = false := by
  have hK : '\n' ∉ joinWith ',' (n.entries.map (fun e => showInt e.1)) := by
    have := ints_class (n.entries.map Prod.fst)
    simp only [List.map_map, Function.comp] at this
    exact class_no_newline this
  have hC : '\n' ∉ joinWith ',' ((childIds n.slots next).map showInt) :=
    class_no_newline (ints_class _)
  have hV : '\n' ∉ joinWith '~' (n.entries.map (fun e => escapeValue e.2.toList)) := by
    apply Request.joinWith_no_char '\n' '~' (by decide)
    intro x hx
    obtain ⟨e, he, rfl⟩ := List.mem_map.1 hx
    rw [escapeValue_eq]
    exact fun h => hvals e he (escapeSet_mem _ '\n' (by decide) _ h)
  have hD := showNat_no_newline id
  have hdl : (nodeLine n id next).dropLast =
      "NODE_".toList ++ showNat id ++ "|LEAF=".toList ++
      (if n.isLeaf then "true".toList else "false".toList) ++ "|KEYS=[".toList ++
      joinWith ',' (n.entries.map (fun e => showInt e.1)) ++ "]|VALUES=[".toList ++
      joinWith '~' (n.entries.map (fun e => escapeValue e.2.toList)) ++ "]".toList ++
      (if n.isLeaf then []
        else "|CHILDREN=[".toList ++ joinWith ',' ((childIds n.slots next).map showInt) ++
          "]".toList) := by
    unfold nodeLine
    have : "\n".toList = ['\n'] := rfl
    rw [this, List.dropLast_concat]
  refine ⟨?_, ?_, ?_, ?_⟩
  · rw [hdl]
    rfl
  · rw [hdl]
    cases n.isLeaf <;>
      simp only [List.mem_append, not_or, if_true, if_false, Bool.false_eq_true] <;>
      refine ⟨?_, ?_⟩ <;> simp_all
  · rw [hdl]
    simp [List.isPrefixOf]
  · rw [hdl]
    simp

end Snapshot

namespace Snapshot

theorem natDigits_length (fuel : Nat) : ∀ (n : Nat) (acc : List Char),
    (natDigits fuel n acc).length ≤ fuel + acc.length := by
  induction fuel with
  | zero => intro n acc; simp [natDigits]
  | succ fuel ih =>
    intro n acc
    simp only [natDigits]
    split
    · simp only [List.length_cons]; omega
    · have := ih (n / 10) (Char.ofNat (48 + n % 10) :: acc)
      simp only [List.length_cons] at this
      omega

theorem showNat_length_le (n : Nat) : (showNat n).length ≤ n + 1 := by
  have := natDigits_length (n + 1) n []
  simpa [showNat] using this

theorem header_parse (n : Nat) (hn : n ≤ 2147483647) (rest : List (List Char))
    (acc : Int × Int × Int) :
    parseHeader ("ORDER=3".toList :: "ROOT_INDEX=0".toList ::
      ("NODE_COUNT=".toList ++ showNat n) :: rest) acc = parseHeader rest (3, 0, (n : Int)) := by
  obtain ⟨a, b, c⟩ := acc
  have h1 : parseHeader ("ORDER=3".toList :: "ROOT_INDEX=0".toList ::
      ("NODE_COUNT=".toList ++ showNat n) :: rest) (a, b, c) =
      parseHeader (("NODE_COUNT=".toList ++ showNat n) :: rest) (3, 0, c) := rfl
  rw [h1]
  have hlen : (showNat n).length ≤ npos := by
    have := showNat_length_le n
    unfold npos
    omega
  have hsub : substr ("NODE_COUNT=".toList ++ showNat n) 11 npos = Except.ok (showNat n) := by
    rw [substr_ok _ _ _ (by simp)]
    have : ("NODE_COUNT=".toList ++ showNat n).drop 11 = showNat n := rfl
    rw [this, List.take_of_length_le hlen]
  have hst : stoi (showNat n) = Except.ok (n : Int) := by
    have := stoi_showInt (n : Int) (by omega) (by omega)
    rwa [showInt_natCast] at this
  have p1 : "ORDER=".toList.isPrefixOf ("NODE_COUNT=".toList ++ showNat n) = false := rfl
  have p2 : "ROOT_INDEX=".toList.isPrefixOf ("NODE_COUNT=".toList ++ showNat n) = false := rfl
  have p3 : "NODE_COUNT=".toList.isPrefixOf ("NODE_COUNT=".toList ++ showNat n) = true := by
    rw [isPrefixOf_iff]; exact ⟨_, rfl⟩
  generalize hL : "NODE_COUNT=".toList ++ showNat n = line at *
  simp only [parseHeader, p1, p2, p3, hsub, hst, Bool.false_eq_true, if_false, if_true]

end Snapshot

namespace Snapshot

open BTreeNode

theorem numbered_mem_node : ∀ (ns : List BTreeNode) (id next : Nat),
    ∀ rec ∈ numbered ns id next, rec.node ∈ ns := by
  intro ns id next rec h
  have := (numbered_ids ns id next).2
  rw [← this]
  exact List.mem_map_of_mem _ h

theorem saveToFile_lines (r : BTreeNode)
    (hvals : ∀ n ∈ collectNodes r.size [r], ∀ e ∈ n.entries, '\n' ∉ e.2.toList) :
    split '\n' (BTree.saveToFile ⟨some r⟩) =
      ["ORDER=3".toList, "ROOT_INDEX=0".toList,
        "NODE_COUNT=".toList ++ showNat (collectNodes r.size [r]).length, []] ++
      (numbered (collectNodes r.size [r]) 0 1).map (fun rec => rec.line.dropLast) := by
  have hshape : ∀ rec ∈ numbered (collectNodes r.size [r]) 0 1,
      rec.line = rec.line.dropLast ++ ['\n'] ∧ '\n' ∉ rec.line.dropLast := by
    intro rec hrec
    have := nodeLine_shape rec.node rec.id rec.next
      (hvals rec.node (numbered_mem_node _ _ _ rec hrec))
    exact ⟨this.1, this.2.1⟩
  have hlines : (numbered (collectNodes r.size [r]) 0 1).map NodeRecord.line =
      ((numbered (collectNodes r.size [r]) 0 1).map (fun rec => rec.line.dropLast)).map
        (fun b => b ++ ['\n']) := by
    rw [List.map_map]
    apply List.map_congr_left
    intro rec hrec
    exact (hshape rec hrec).1
  have htext : BTree.saveToFile ⟨some r⟩ =
      ((["ORDER=3".toList, "ROOT_INDEX=0".toList,
        "NODE_COUNT=".toList ++ showNat (collectNodes r.size [r]).length, []] ++
      (numbered (collectNodes r.size [r]) 0 1).map (fun rec => rec.line.dropLast)).map
        (fun b => b ++ ['\n'])).flatten := by
    simp only [BTree.saveToFile, countNodes_eq, nodeLines_eq, hlines]
    have : showNat BTREE_ORDER = "3".toList := by decide
    rw [this]
    simp
  rw [htext]
  apply split_lines
  intro b hb
  simp only [List.mem_append, List.mem_cons, List.mem_map, List.mem_singleton,
    List.not_mem_nil, or_false] at hb
  rcases hb with (rfl | rfl | rfl | rfl) | ⟨rec, hrec, rfl⟩
  · decide
  · decide
  · simp only [List.mem_append, not_or]
    exact ⟨by decide, showNat_no_newline _⟩
  · simp
  · exact (hshape rec hrec).2

theorem loadFromFile_of_lines (content : List Char) (n : Nat) (bodies : List (List Char))
    (ps : List ParsedNode) (root : Option BTreeNode)
    (hsplit : split '\n' content = ["ORDER=3".toList, "ROOT_INDEX=0".toList,
      "NODE_COUNT=".toList ++ showNat n, []] ++ bodies)
    (hn : 0 < n) (hnmax : n ≤ 2147483647)
    (hbody : parseBody n bodies = Except.ok ps)
    (hwire : wiringOverflows n ps = false)
    (hbuild : buildNode n ps (n + 1) 0 = Except.ok root) :
    BTree.loadFromFile content = Except.ok ⟨root⟩ := by
  have hne : ("NODE_COUNT=".toList ++ showNat n).isEmpty = false := rfl
  have htake : (["ORDER=3".toList, "ROOT_INDEX=0".toList,
      "NODE_COUNT=".toList ++ showNat n, []] ++ bodies).takeWhile (fun l => !l.isEmpty) =
      ["ORDER=3".toList, "ROOT_INDEX=0".toList, "NODE_COUNT=".toList ++ showNat n] := by
    simp [List.takeWhile]
  have hhead := header_parse n hnmax [] (0, -1, 0)
  have hdrop : (["ORDER=3".toList, "ROOT_INDEX=0".toList,
      "NODE_COUNT=".toList ++ showNat n, []] ++ bodies).drop
      ([ "ORDER=3".toList, "ROOT_INDEX=0".toList,
        "NODE_COUNT=".toList ++ showNat n].length + 1) = bodies := rfl
  have h0 : ¬ ((n : Int) = 0 ∨ (0 : Int) < 0) := by omega
  have h1 : ¬ ((n : Int) < 0) := by omega
  have h2 : (0 : Int) < (n : Int) := by omega
  generalize hL : "NODE_COUNT=".toList ++ showNat n = line at *
  unfold BTree.loadFromFile
  simp only [hsplit, htake, hhead, parseHeader, hdrop, h0, h1, h2, if_false, if_true,
    Int.toNat_ofNat, hbody, hwire, Bool.false_eq_true, hbuild, Int.toNat_zero]

end Snapshot

namespace Snapshot

open BTreeNode

theorem parseBody_records (nodeCount : Nat) : ∀ (recs : List NodeRecord),
    (∀ rec ∈ recs, "NODE_".toList.isPrefixOf rec.line.dropLast = true ∧
      rec.line.dropLast.isEmpty = false ∧
      ∃ p, parseNodeLine nodeCount rec.line.dropLast = Except.ok p ∧ p.agrees rec) →
    ∃ ps, parseBody nodeCount (recs.map (fun rec => rec.line.dropLast)) = Except.ok ps ∧
      List.Forall₂ (fun rec p => ParsedNode.agrees p rec) recs ps := by
  intro recs
  induction recs with
  | nil => intro _; exact ⟨[], rfl, List.Forall₂.nil⟩
  | cons rec recs ih =>
    intro h
    obtain ⟨h1, h2, p, h3, h4⟩ := h rec (by simp)
    obtain ⟨ps, h5, h6⟩ := ih (fun x hx => h x (List.mem_cons_of_mem _ hx))
    refine ⟨p :: ps, ?_, List.Forall₂.cons h4 h6⟩
    simp only [List.map_cons, parseBody, h1, h2, h3, h5, Bool.not_true, Bool.or_self,
      Bool.false_eq_true, if_false]

theorem filter_ids : ∀ (ps : List ParsedNode) (s : Nat),
    ps.map (fun p => p.nodeId) = List.range' s ps.length →
    ∀ (id : Nat),
      (id < s → ps.filter (fun q => q.nodeId == id) = []) ∧
      (∀ p, s ≤ id → ps[id - s]? = some p → ps.filter (fun q => q.nodeId == id) = [p]) := by
  intro ps
  induction ps with
  | nil => intro s _ id; exact ⟨fun _ => rfl, fun p _ h => by simp at h⟩
  | cons q qs ih =>
    intro s h id
    simp only [List.map_cons, List.length_cons, List.range'_succ, List.cons.injEq] at h
    obtain ⟨hq, hqs⟩ := h
    obtain ⟨i1, i2⟩ := ih (s + 1) hqs id
    constructor
    · intro hlt
      have hne : (q.nodeId == id) = false := by
        rw [hq]; simp; omega
      rw [List.filter_cons, hne]
      exact i1 (by omega)
    · intro p hle hp
      by_cases he : id = s
      · subst he
        simp only [Nat.sub_self, List.getElem?_cons_zero, Option.some.injEq] at hp
        subst hp
        have hq' : (q.nodeId == q.nodeId) = true := by simp
        rw [List.filter_cons]
        simp only [hq, beq_self_eq_true, if_true]
        rw [i1 (by omega)]
      · have hne : (q.nodeId == id) = false := by
          rw [hq]; simp; omega
        have hidx : id - s = (id - (s + 1)) + 1 := by omega
        rw [hidx, List.getElem?_cons_succ] at hp
        rw [List.filter_cons, hne]
        exact i2 p (by omega) hp

theorem find_head_filter (pred : ParsedNode → Bool) : ∀ (l : List ParsedNode),
    l.find? pred = (l.filter pred).head? := by
  intro l
  induction l with
  | nil => rfl
  | cons x xs ih =>
    cases hx : pred x with
    | true => rw [List.find?_cons_of_pos _ hx, List.filter_cons_of_pos hx]; rfl
    | false =>
      rw [List.find?_cons_of_neg _ (by simp [hx]), List.filter_cons_of_neg (by simp [hx])]
      exact ih

theorem find_reverse_single (ps : List ParsedNode) (pred : ParsedNode → Bool) (p : ParsedNode)
    (h : ps.filter pred = [p]) : ps.reverse.find? pred = some p := by
  have h1 : (ps.reverse.filter pred).head? = some p := by
    rw [List.filter_reverse, h]; rfl
  rw [← h1]
  exact find_head_filter pred ps.reverse

theorem loaded_node (ps : List ParsedNode)
    (h : ps.map (fun p => p.nodeId) = List.range' 0 ps.length) (id : Nat) (p : ParsedNode)
    (hp : ps[id]? = some p) :
    nodeObject ps id = some p ∧ childIndices ps id = p.childIdx := by
  have hf := (filter_ids ps 0 h id).2 p (by omega) (by simpa using hp)
  refine ⟨find_reverse_single ps _ p hf, ?_⟩
  unfold childIndices
  rw [hf]
  simp

end Snapshot

namespace BTreeNode

theorem all_some_eq_map : ∀ (cs : List (Option BTreeNode)), (∀ o ∈ cs, o ≠ none) →
    cs = (cs.filterMap id).map some := by
  intro cs
  induction cs with
  | nil => intro _; rfl
  | cons o cs ih =>
    intro h
    have ih' := ih (fun x hx => h x (List.mem_cons_of_mem _ hx))
    cases o with
    | none => exact absurd rfl (h none (by simp))
    | some c =>
      simp only [List.filterMap_cons, id, List.map_cons, List.cons.injEq, true_and]
      exact ih'

theorem slots_all : ∀ (cs : List (Option BTreeNode)),
    (List.range cs.length).map (childAt cs) = cs := by
  intro cs
  induction cs with
  | nil => rfl
  | cons o cs ih =>
    rw [List.length_cons, List.range_succ_eq_map, List.map_cons, List.map_map]
    have hf : childAt (o :: cs) ∘ Nat.succ = childAt cs := by
      funext i; simp [childAt]
    rw [hf, ih, childAt_cons_zero]

theorem valid_slots {k h : Nat} {es : List (Int × String)} {cs : List (Option BTreeNode)}
    (hv : Valid k h (.mk false es cs)) :
    slots (.mk false es cs) = cs ∧ queued (.mk false es cs) = cs.filterMap id ∧
      cs = (cs.filterMap id).map some ∧ (cs.filterMap id).length = es.length + 1 := by
  cases hv with
  | node _ _ _ _ _ _ hlen hsome _ =>
    have h1 : slots (.mk false es cs) = cs := by
      simp only [slots, numKeys, entries, children, ← hlen]
      exact slots_all cs
    have h3 := all_some_eq_map cs hsome
    refine ⟨h1, ?_, h3, ?_⟩
    · simp only [queued, isLeaf, h1, Bool.false_eq_true, if_false]
    · have := congrArg List.length h3
      simp only [List.length_map] at this
      omega

theorem childIds_somes : ∀ (kids : List BTreeNode) (next : Nat),
    Snapshot.childIds (kids.map some) next = (List.range' next kids.length).map Int.ofNat := by
  intro kids
  induction kids with
  | nil => intro next; rfl
  | cons c kids ih =>
    intro next
    simp only [List.map_cons, Snapshot.childIds, ih, List.length_cons, List.range'_succ]
    rfl

theorem Valid.le_nodeCount {k h : Nat} {n : BTreeNode} (hv : Valid k h n) :
    h ≤ nodeCount n := by
  induction hv with
  | leaf _ es _ _ => simp [nodeCount]
  | node _ h' es cs _ _ hlen hsome _ ih =>
    cases cs with
    | nil => simp at hlen
    | cons o cs' =>
      cases o with
      | none => exact absurd rfl (hsome none (by simp))
      | some c =>
        have := ih c (by simp)
        simp only [nodeCount, Bool.false_eq_true, if_false, nodeCountSlots]
        omega

theorem mem_traverse_child : ∀ (cs : List (Option BTreeNode)) (es : List (Int × String))
    (c : BTreeNode), cs.length ≤ es.length + 1 → some c ∈ cs →
    ∀ e ∈ traverse c, e ∈ traverseLoop false es cs := by
  intro cs
  induction cs with
  | nil => intro es c _ h; simp at h
  | cons o cs ih =>
    intro es c hlen hc e he
    cases es with
    | nil =>
      simp only [List.length_cons, List.length_nil] at hlen
      have hcs : cs = [] := List.length_eq_zero.1 (by omega)
      subst hcs
      simp only [List.mem_singleton] at hc
      subst hc
      simpa [traverseLoop, traversePtr] using he
    | cons e0 es' =>
      simp only [traverseLoop, Bool.false_eq_true, if_false, List.mem_append, List.mem_cons]
      rcases List.mem_cons.1 hc with h | h
      · left
        rw [← h]
        simpa [traversePtr] using he
      · right; right
        exact ih es' c (by simp at hlen; omega) h e he

end BTreeNode

namespace Snapshot

open BTreeNode

theorem collectNodes_closed (P : BTreeNode → Prop)
    (hstep : ∀ x, P x → ∀ c ∈ x.queued, P c) :
    ∀ (f : Nat) (q : List BTreeNode), (∀ x ∈ q, P x) → ∀ n ∈ collectNodes f q, P n := by
  intro f
  induction f with
  | zero => intro q _ n hn; simp [collectNodes] at hn
  | succ f ih =>
    intro q hq n hn
    cases q with
    | nil => simp [collectNodes] at hn
    | cons x q =>
      simp only [collectNodes, List.mem_cons] at hn
      rcases hn with rfl | hn
      · exact hq _ (by simp)
      · apply ih (q ++ x.queued) _ n hn
        intro y hy
        rcases List.mem_append.1 hy with h | h
        · exact hq y (List.mem_cons_of_mem _ h)
        · exact hstep x (hq x (by simp)) y h

theorem valid_step (E : Int × String → Prop) (x : BTreeNode)
    (hx : (∃ k h, Valid k h x) ∧ ∀ e ∈ x.traverse, E e) :
    ∀ c ∈ x.queued, (∃ k h, Valid k h c) ∧ ∀ e ∈ c.traverse, E e := by
  obtain ⟨⟨k, h, hv⟩, hE⟩ := hx
  intro c hc
  cases hv with
  | leaf _ es _ _ => simp [queued, isLeaf] at hc
  | node _ h' es cs h1 h2 hlen hsome hch =>
    have hq := (valid_slots (Valid.node k h' es cs h1 h2 hlen hsome hch)).2.1
    rw [hq] at hc
    have hmem : some c ∈ cs := by
      obtain ⟨o, ho, hoc⟩ := List.mem_filterMap.1 hc
      simp only [id] at hoc
      rw [← hoc]; exact ho
    refine ⟨⟨MIN_KEYS, h', hch c hmem⟩, ?_⟩
    intro e he
    apply hE
    show e ∈ traverseLoop false es cs
    exact mem_traverse_child cs es c (by omega) hmem e he

theorem map_mapM_ok {α β : Type} (f : α → Except LoadError β) (g : α → β) :
    ∀ (l : List α), (∀ x ∈ l, f x = Except.ok (g x)) → l.mapM f = Except.ok (l.map g) := by
  intro l
  induction l with
  | nil => intro _; rfl
  | cons x xs ih =>
    intro h
    have h1 := h x (by simp)
    have h2 := ih (fun y hy => h y (List.mem_cons_of_mem _ hy))
    simp only [List.mapM_cons, h1, h2, List.map_cons]
    rfl

theorem prefix_drop_map : ∀ (kids collect : List BTreeNode) (next : Nat),
    kids <+: collect.drop next →
    (List.range' next kids.length).map (fun j => collect[j]?) = kids.map some := by
  intro kids
  induction kids with
  | nil => intro collect next _; rfl
  | cons c kids ih =>
    intro collect next h
    obtain ⟨t, ht⟩ := h
    have h0 : collect[next]? = some c := by
      have := congrArg (fun l => l[0]?) ht
      simp only [List.cons_append, List.getElem?_cons_zero, List.getElem?_drop,
        Nat.add_zero] at this
      exact this.symm
    have h1 : kids <+: collect.drop (next + 1) := by
      refine ⟨t, ?_⟩
      have := congrArg List.tail ht
      simp only [List.cons_append, List.tail_cons, List.tail_drop] at this
      rw [← this]
    simp only [List.length_cons, List.range'_succ, List.map_cons, h0, ih collect (next + 1) h1]

end Snapshot

namespace Snapshot

open BTreeNode

theorem buildNode_collect (collect : List BTreeNode) (ps : List ParsedNode)
    (hobj : ∀ i node, collect[i]? = some node → ∃ p next, nodeObject ps i = some p ∧
      childIndices ps i = p.childIdx ∧ p.isLeaf = node.isLeaf ∧
      loadedEntries p = node.entries ∧
      p.childIdx = (if node.isLeaf then [] else childIds node.slots next) ∧
      node.queued <+: collect.drop next) :
    ∀ (fuel i : Nat) (node : BTreeNode) (k h : Nat), collect[i]? = some node →
      Valid k h node → h ≤ fuel →
      buildNode collect.length ps fuel i = Except.ok (some node) := by
  intro fuel
  induction fuel with
  | zero =>
    intro i node k h _ hv hle
    have := hv.height_pos
    omega
  | succ fuel ih =>
    intro i node k h hi hv hle
    obtain ⟨p, next, h1, h2, h3, h4, h5, h6⟩ := hobj i node hi
    cases hv with
    | leaf _ es _ _ =>
      simp only [isLeaf] at h3
      simp only [entries] at h4
      simp only [buildNode, h1, h3, if_true, h4]
    | node _ h' es cs hk1 hk2 hlen hsome hch =>
      obtain ⟨s1, s2, s3, s4⟩ := valid_slots (Valid.node k h' es cs hk1 hk2 hlen hsome hch)
      simp only [isLeaf] at h3
      simp only [entries] at h4
      simp only [isLeaf, Bool.false_eq_true, if_false, s1] at h5
      rw [s2] at h6
      have hbound : next + (cs.filterMap id).length ≤ collect.length := by
        have := h6.length_le
        simp only [List.length_drop] at this
        omega
      have hids : childIndices ps i =
          (List.range' next (cs.filterMap id).length).map Int.ofNat := by
        rw [h2, h5]
        conv_lhs => rw [s3]
        exact childIds_somes _ next
      have hmap : (childIndices ps i).mapM (fun (c : Int) =>
          if 0 ≤ c ∧ c < (collect.length : Int) then buildNode collect.length ps fuel c.toNat
          else Except.ok none) = Except.ok cs := by
        have hg := map_mapM_ok (fun (c : Int) =>
          if 0 ≤ c ∧ c < (collect.length : Int) then buildNode collect.length ps fuel c.toNat
          else Except.ok none) (fun c => collect[c.toNat]?) (childIndices ps i) (by
            intro c hc
            rw [hids] at hc
            obtain ⟨j, hj, rfl⟩ := List.mem_map.1 hc
            have hj' := List.mem_range'_1.1 hj
            have hin : (0 : Int) ≤ Int.ofNat j ∧ Int.ofNat j < (collect.length : Int) := by
              simp only [Int.ofNat_eq_coe]
              omega
            have ht : (Int.ofNat j).toNat = j := rfl
            simp only [hin, and_self, if_true, ht]
            have hjl : j < collect.length := by omega
            have hget : collect[j]? = some collect[j] := List.getElem?_eq_getElem hjl
            rw [hget]
            have hkid : some collect[j] ∈ cs := by
              have hm := prefix_drop_map _ collect next h6
              have : collect[j]? ∈ (List.range' next (cs.filterMap id).length).map
                  (fun j => collect[j]?) := List.mem_map_of_mem _ hj
              rw [hm, ← s3, hget] at this
              exact this
            exact ih j collect[j] MIN_KEYS h' hget (hch _ hkid) (by omega))
        rw [hg, hids, List.map_map]
        have hm := prefix_drop_map _ collect next h6
        have hf : ((fun c : Int => collect[c.toNat]?) ∘ Int.ofNat) =
            (fun j => collect[j]?) := by
          funext j; rfl
        rw [hf, hm, ← s3]
      simp only [buildNode, h1, h3, Bool.false_eq_true, if_false, hmap, h4]

end Snapshot

namespace Snapshot

open BTreeNode

theorem forall2_index {α β : Type} {R : α → β → Prop} {l1 : List α} {l2 : List β}
    (h : List.Forall₂ R l1 l2) :
    l1.length = l2.length ∧
      (∀ (i : Nat) (a : α), l1[i]? = some a → ∃ b, l2[i]? = some b ∧ R a b) ∧
      (∀ b ∈ l2, ∃ a ∈ l1, R a b) := by
  induction h with
  | nil => exact ⟨rfl, fun i a h => by simp at h, fun b hb => by simp at hb⟩
  | cons hab _ ih =>
    obtain ⟨h1, h2, h3⟩ := ih
    refine ⟨by simp [h1], ?_, ?_⟩
    · intro i a hi
      cases i with
      | zero =>
        simp only [List.getElem?_cons_zero, Option.some.injEq] at hi
        subst hi
        exact ⟨_, by simp, hab⟩
      | succ i =>
        simp only [List.getElem?_cons_succ] at hi ⊢
        exact h2 i a hi
    · intro b hb
      rcases List.mem_cons.1 hb with rfl | hb
      · exact ⟨_, by simp, hab⟩
      · obtain ⟨a, ha, hr⟩ := h3 b hb
        exact ⟨a, List.mem_cons_of_mem _ ha, hr⟩

theorem numbered_index : ∀ (ns : List BTreeNode) (id next i : Nat) (node : BTreeNode),
    ns[i]? = some node →
    ∃ rec, (numbered ns id next)[i]? = some rec ∧ rec.node = node ∧ rec.id = id + i := by
  intro ns
  induction ns with
  | nil => intro id next i node h; simp at h
  | cons x ns ih =>
    intro id next i node h
    cases i with
    | zero =>
      simp only [List.getElem?_cons_zero, Option.some.injEq] at h
      exact ⟨⟨x, id, next⟩, by simp [numbered], h, rfl⟩
    | succ i =>
      simp only [List.getElem?_cons_succ] at h
      obtain ⟨rec, h1, h2, h3⟩ := ih (id + 1) (next + x.queued.length) i node h
      exact ⟨rec, by simpa [numbered] using h1, h2, by omega⟩

theorem numbered_agree_ids : ∀ (ns : List BTreeNode) (id next : Nat) (ps : List ParsedNode),
    List.Forall₂ (fun rec p => ParsedNode.agrees p rec) (numbered ns id next) ps →
    ps.map (fun p => p.nodeId) = List.range' id ps.length := by
  intro ns
  induction ns with
  | nil =>
    intro id next ps h
    simp only [numbered] at h
    cases h
    rfl
  | cons x ns ih =>
    intro id next ps h
    simp only [numbered] at h
    cases h with
    | cons hab hrest =>
      have := ih (id + 1) (next + x.queued.length) _ hrest
      simp only [List.map_cons, List.length_cons, List.range'_succ, this, List.cons.injEq,
        and_true]
      exact hab.1

theorem wiring_ok (nodeCount : Nat) (ps : List ParsedNode)
    (h : ∀ p ∈ ps, (childIndices ps p.nodeId).length ≤ MAX_KEYS + 1) :
    wiringOverflows nodeCount ps = false := by
  unfold wiringOverflows
  rw [List.any_eq_false]
  intro p hp
  have hd : (childIndices ps p.nodeId).drop (MAX_KEYS + 1) = [] :=
    List.drop_eq_nil_of_le (h p hp)
  rw [hd]
  cases nodeObject ps p.nodeId with
  | none => simp
  | some q => simp

theorem length_le_flatten {α : Type} : ∀ (L : List (List α)) (l : List α), l ∈ L →
    l.length ≤ L.flatten.length := by
  intro L
  induction L with
  | nil => intro l h; simp at h
  | cons x L ih =>
    intro l h
    simp only [List.flatten_cons, List.length_append]
    rcases List.mem_cons.1 h with rfl | h
    · omega
    · have := ih l h
      omega

theorem line_le_text (r : BTreeNode) :
    ∀ rec ∈ numbered (collectNodes r.size [r]) 0 1,
      rec.line.length + 6 ≤ (BTree.saveToFile ⟨some r⟩).length := by
  intro rec hrec
  have h := length_le_flatten ((numbered (collectNodes r.size [r]) 0 1).map NodeRecord.line)
    rec.line (List.mem_map_of_mem _ hrec)
  simp only [BTree.saveToFile, nodeLines_eq, List.length_append]
  have : "ORDER=".toList.length = 6 := rfl
  omega

theorem childIds_length : ∀ (sl : List (Option BTreeNode)) (next : Nat),
    (childIds sl next).length = sl.length := by
  intro sl
  induction sl with
  | nil => intro next; rfl
  | cons o sl ih =>
    intro next
    cases o with
    | none => simp [childIds, ih]
    | some c => simp [childIds, ih]

end Snapshot

namespace Snapshot

open BTreeNode

theorem round_trip_root (r : BTreeNode) (k h : Nat) (hv : Valid k h r)
    (hE : ∀ e ∈ r.traverse,
      ('~' ∉ e.2.toList ∧ '\n' ∉ e.2.toList ∧ e.2.toList.getLast? ≠ some '\\' ∧
        ¬ "LEAF=true".toList <:+: e.2.toList) ∧
      (-2147483648 ≤ e.1 ∧ e.1 ≤ 2147483647))
    (hcount : r.nodeCount ≤ 2147483647)
    (hsize : (BTree.saveToFile ⟨some r⟩).length < 2 ^ 64) :
    BTree.loadFromFile (BTree.saveToFile ⟨some r⟩) = Except.ok ⟨some r⟩ := by
  have htot : (([r] : List BTreeNode).map nodeCount).sum ≤ r.size := by
    simpa using nodeCount_le_size r
  have hlenc : (collectNodes r.size [r]).length = r.nodeCount := by
    simpa using collectNodes_length r.size [r] htot
  have hP := collectNodes_closed
    (fun x => (∃ k h, Valid k h x) ∧ ∀ e ∈ x.traverse,
      ('~' ∉ e.2.toList ∧ '\n' ∉ e.2.toList ∧ e.2.toList.getLast? ≠ some '\\' ∧
        ¬ "LEAF=true".toList <:+: e.2.toList) ∧
      (-2147483648 ≤ e.1 ∧ e.1 ≤ 2147483647))
    (valid_step _) r.size [r] (by
      intro x hx
      simp only [List.mem_singleton] at hx
      subst hx
      exact ⟨⟨k, h, hv⟩, hE⟩)
  have hent : ∀ l es cs, BTreeNode.mk l es cs ∈ collectNodes r.size [r] → ∀ e ∈ es,
      ('~' ∉ e.2.toList ∧ '\n' ∉ e.2.toList ∧ e.2.toList.getLast? ≠ some '\\' ∧
        ¬ "LEAF=true".toList <:+: e.2.toList) ∧
      (-2147483648 ≤ e.1 ∧ e.1 ≤ 2147483647) := by
    intro l es cs hmem e he
    exact (hP _ hmem).2 e (mem_traverseLoop_of_mem l es cs e he)
  have hstart : (collectNodes r.size [r])[0]? = some r := by
    obtain ⟨t, ht⟩ := collectNodes_starts r.size [r] htot
    rw [← ht]; simp
  have hnpos : 0 < (collectNodes r.size [r]).length := by
    rcases List.getElem?_eq_some.1 hstart with ⟨hlt, _⟩
    exact hlt
  have hrecid := (numbered_ids (collectNodes r.size [r]) 0 1).1
  -- every record is read back
  have hrecs : ∀ rec ∈ numbered (collectNodes r.size [r]) 0 1,
      "NODE_".toList.isPrefixOf rec.line.dropLast = true ∧
      rec.line.dropLast.isEmpty = false ∧
      ∃ p, parseNodeLine (collectNodes r.size [r]).length rec.line.dropLast = Except.ok p ∧
        p.agrees rec := by
    intro rec hrec
    have hnode := numbered_mem_node _ _ _ rec hrec
    obtain ⟨_, _, hpre⟩ := numbered_children r.size [r] 0 1 htot rfl rec hrec
    simp only [Nat.sub_zero] at hpre
    have hidlt : rec.id < (collectNodes r.size [r]).length := by
      have : rec.id ∈ (numbered (collectNodes r.size [r]) 0 1).map (fun r => r.id) :=
        List.mem_map_of_mem _ hrec
      rw [hrecid] at this
      have := List.mem_range'_1.1 this
      omega
    have hlinelen := line_le_text r rec hrec
    obtain ⟨recnode, recid, recnext⟩ := rec
    simp only at hnode hpre hidlt
    obtain ⟨l, es, cs⟩ := recnode
    obtain ⟨⟨k', h', hv'⟩, _⟩ := hP _ hnode
    have hvals := hent l es cs hnode
    obtain ⟨s1, s2, s3, s4⟩ := nodeLine_shape (BTreeNode.mk l es cs) recid recnext
      (fun e he => (hvals e he).1.2.1)
    have hes : es.length ≤ MAX_KEYS := by
      cases hv' with
      | leaf _ _ _ h2 => exact h2
      | node _ _ _ _ _ h2 _ _ _ => exact h2
    have hdl : (NodeRecord.line ⟨BTreeNode.mk l es cs, recid, recnext⟩).dropLast.length + 2
        < 2 ^ 64 := by
      have : (NodeRecord.line ⟨BTreeNode.mk l es cs, recid, recnext⟩).dropLast.length ≤
          (NodeRecord.line ⟨BTreeNode.mk l es cs, recid, recnext⟩).length := by
        simp
      omega
    obtain ⟨p, p1, p2, p3, p4, p5⟩ := nodeLine_parse l es cs recid recnext
      (collectNodes r.size [r]).length
      (NodeRecord.line ⟨BTreeNode.mk l es cs, recid, recnext⟩).dropLast s1 hidlt (by omega) hes
      (fun e he => (hvals e he).2)
      (fun e he => ⟨(hvals e he).1.1, (hvals e he).1.2.2.1, (hvals e he).1.2.2.2⟩)
      (by
        intro hl c hc
        subst hl
        obtain ⟨q1, q2, q3, _⟩ := valid_slots hv'
        rw [q2] at hpre
        rw [q1] at hc
        rw [q3, childIds_somes] at hc
        obtain ⟨j, hj, rfl⟩ := List.mem_map.1 hc
        have hj' := List.mem_range'_1.1 hj
        have hb := hpre.length_le
        simp only [List.length_drop] at hb
        simp only [Int.ofNat_eq_coe]
        omega)
      hdl
    exact ⟨s3, s4, p, p1, p2, p3, p4, by
      rw [p5]
      simp only [NodeRecord.listedIds, isLeaf]⟩
  obtain ⟨ps, hps, hall⟩ := parseBody_records (collectNodes r.size [r]).length _ hrecs
  obtain ⟨f1, f2, f3⟩ := forall2_index hall
  have hnl : (numbered (collectNodes r.size [r]) 0 1).length =
      (collectNodes r.size [r]).length := by
    have := congrArg List.length (numbered_ids (collectNodes r.size [r]) 0 1).2
    simpa using this
  have hpslen : ps.length = (collectNodes r.size [r]).length := by omega
  have hids := numbered_agree_ids _ 0 1 ps hall
  -- the object and the child ids stored under each id
  have hobj : ∀ i node, (collectNodes r.size [r])[i]? = some node → ∃ p next,
      nodeObject ps i = some p ∧ childIndices ps i = p.childIdx ∧ p.isLeaf = node.isLeaf ∧
      loadedEntries p = node.entries ∧
      p.childIdx = (if node.isLeaf then [] else childIds node.slots next) ∧
      node.queued <+: (collectNodes r.size [r]).drop next := by
    intro i node hi
    obtain ⟨rec, r1, r2, r3⟩ := numbered_index _ 0 1 i node hi
    obtain ⟨p, q1, q2⟩ := f2 i rec r1
    obtain ⟨o1, o2⟩ := loaded_node ps hids i p q1
    have hmem : rec ∈ numbered (collectNodes r.size [r]) 0 1 := List.mem_iff_getElem?.2 ⟨i, r1⟩
    obtain ⟨_, _, hpre⟩ := numbered_children r.size [r] 0 1 htot rfl rec hmem
    simp only [Nat.sub_zero] at hpre
    obtain ⟨a1, a2, a3, a4⟩ := q2
    refine ⟨p, rec.next, o1, o2, by rw [a2, r2], by rw [a3, r2], ?_, by rw [← r2]; exact hpre⟩
    rw [a4, ← r2]
    rfl
  have hwire : wiringOverflows (collectNodes r.size [r]).length ps = false := by
    apply wiring_ok
    intro p hp
    obtain ⟨i, hi⟩ := List.mem_iff_getElem?.1 hp
    have hil : i < ps.length := by
      rcases List.getElem?_eq_some.1 hi with ⟨hlt, _⟩; exact hlt
    have hpid : p.nodeId = i := by
      have h1 : (ps.map (fun p => p.nodeId))[i]? = some p.nodeId := by
        rw [List.getElem?_map, hi]; rfl
      rw [hids, List.getElem?_range' _ _ hil] at h1
      simp at h1
      omega
    obtain ⟨o1, o2⟩ := loaded_node ps hids i p hi
    rw [hpid, o2]
    have hci : i < (collectNodes r.size [r]).length := by omega
    have hget : (collectNodes r.size [r])[i]? = some (collectNodes r.size [r])[i] :=
      List.getElem?_eq_getElem hci
    obtain ⟨p', next, o1', _, _, _, o5, _⟩ := hobj i _ hget
    rw [o1] at o1'
    cases o1'
    rw [o5]
    split
    · simp
    · rw [childIds_length]
      have hmem : (collectNodes r.size [r])[i] ∈ collectNodes r.size [r] :=
        List.getElem_mem hci
      obtain ⟨⟨k', h', hv'⟩, _⟩ := hP _ hmem
      generalize (collectNodes r.size [r])[i] = nd at hv' ⊢
      cases hv' with
      | leaf _ es _ h2 => simp [slots, numKeys, entries]; omega
      | node _ _ es cs _ h2 _ _ _ => simp [slots, numKeys, entries]; omega
  have hbuild := buildNode_collect (collectNodes r.size [r]) ps hobj
    ((collectNodes r.size [r]).length + 1) 0 r k h hstart hv (by
      have := hv.le_nodeCount
      omega)
  exact loadFromFile_of_lines _ (collectNodes r.size [r]).length _ ps (some r)
    (saveToFile_lines r (by
      intro n hn e he
      obtain ⟨l, es, cs⟩ := n
      exact (hent l es cs hn e he).1.2.1)) hnpos (by omega) hps hwire hbuild

end Snapshot

namespace Server

open DatabaseManager

theorem processRequest_effect (dt : DoubleText) (st st' : ServerState) (req : Request)
    (resp : Response) (h : processRequest dt st req = Except.ok (resp, st')) :
    resp.clientId = req.clientId ∧ resp.requestId = req.requestId ∧
    (req.type ≠ RequestType.INIT_SAMPLE → st.database.storesUsable = true →
      st'.database.storesUsable = true ∧
      st'.database.getLocationCount = st.database.getLocationCount +
        (if req.type = RequestType.ADD_LOCATION ∧ resp.status = ResponseStatus.SUCCESS
          then 1 else 0) ∧
      st'.database.getEdgeCount = st.database.getEdgeCount +
        (if req.type = RequestType.ADD_ROAD ∧ resp.status = ResponseStatus.SUCCESS
          then 1 else 0)) := by
  have hfail : ∀ (c r : Int) (m : String),
      (Response.error c r m).status ≠ ResponseStatus.SUCCESS := by
    intro c r m hh
    have h10 : (1 : Int) = 0 := hh
    omega
  have hsame : ∀ (r : Response), r.clientId = req.clientId → r.requestId = req.requestId →
      ((req.type = RequestType.ADD_LOCATION ∨ req.type = RequestType.ADD_ROAD) →
        r.status ≠ ResponseStatus.SUCCESS) →
      r.clientId = req.clientId ∧ r.requestId = req.requestId ∧
      (req.type ≠ RequestType.INIT_SAMPLE → st.database.storesUsable = true →
        st.database.storesUsable = true ∧
        st.database.getLocationCount = st.database.getLocationCount +
          (if req.type = RequestType.ADD_LOCATION ∧ r.status = ResponseStatus.SUCCESS
            then 1 else 0) ∧
        st.database.getEdgeCount = st.database.getEdgeCount +
          (if req.type = RequestType.ADD_ROAD ∧ r.status = ResponseStatus.SUCCESS
            then 1 else 0)) := by
    intro r hc hr hst
    refine ⟨hc, hr, fun _ hv => ⟨hv, ?_, ?_⟩⟩
    · have : ¬ (req.type = RequestType.ADD_LOCATION ∧ r.status = ResponseStatus.SUCCESS) :=
        fun hh => hst (Or.inl hh.1) hh.2
      rw [if_neg this]; rfl
    · have : ¬ (req.type = RequestType.ADD_ROAD ∧ r.status = ResponseStatus.SUCCESS) :=
        fun hh => hst (Or.inr hh.1) hh.2
      rw [if_neg this]; rfl
  unfold processRequest at h
  by_cases h1 : req.type = RequestType.ADD_LOCATION
  · rw [if_pos h1] at h
    dsimp only at h
    split_ifs at h with hname
    · cases h
      exact hsame _ rfl rfl (fun _ => hfail _ _ _)
    · split at h
      · cases h
      · rename_i id db hcall
        have hroad : req.type ≠ RequestType.ADD_ROAD := by rw [h1]; decide
        split_ifs at h with hid
        · cases h
          refine ⟨rfl, rfl, fun _ hv => ?_⟩
          obtain ⟨r, db', k1, k2, k3, k4⟩ := addLocation_usable dt st.database
            (String.mk (req.getParam "name".toList))
            (req.getParamDouble dt "latitude".toList (.finite 0))
            (req.getParamDouble dt "longitude".toList (.finite 0))
            (String.mk (req.getParam "type".toList)) hv
          rw [hcall] at k1
          cases k1
          rcases k4 with ⟨k4, _⟩ | ⟨_, k5⟩
          · omega
          · refine ⟨k2, ?_, ?_⟩
            · have hs : (Response.success req.clientId req.requestId
                  "Location added successfully"
                  (String.mk ("id=".toList ++ Snapshot.showInt id))).status =
                  ResponseStatus.SUCCESS := rfl
              rw [if_pos ⟨h1, hs⟩]
              exact k5
            · rw [if_neg (fun hh => hroad hh.1)]
              exact k3
        · cases h
          refine ⟨rfl, rfl, fun _ hv => ?_⟩
          obtain ⟨r, db', k1, k2, k3, k4⟩ := addLocation_usable dt st.database
            (String.mk (req.getParam "name".toList))
            (req.getParamDouble dt "latitude".toList (.finite 0))
            (req.getParamDouble dt "longitude".toList (.finite 0))
            (String.mk (req.getParam "type".toList)) hv
          rw [hcall] at k1
          cases k1
          rcases k4 with ⟨_, k5⟩ | ⟨k4, _⟩
          · subst k5
            refine ⟨hv, ?_, ?_⟩
            · rw [if_neg (fun hh => hfail _ _ _ hh.2)]; rfl
            · rw [if_neg (fun hh => hroad hh.1)]; rfl
          · exact absurd k4 hid
  rw [if_neg h1] at h
  by_cases h2 : req.type = RequestType.ADD_ROAD
  · rw [if_pos h2] at h
    dsimp only at h
    split_ifs at h with hsrc
    · cases h
      exact hsame _ rfl rfl (fun _ => hfail _ _ _)
    · split at h
      · cases h
      · rename_i id db hcall
        split_ifs at h with hid
        · cases h
          refine ⟨rfl, rfl, fun _ hv => ?_⟩
          obtain ⟨r, db', k1, k2, k3, k4⟩ := addEdge_usable dt st.database
            (req.getParamInt "sourceId".toList 0) (req.getParamInt "destId".toList 0)
            (req.getParamDouble dt "distance".toList (.finite 0))
            (String.mk (req.getParam "roadName".toList))
            (req.getParamBool "bidirectional".toList true) hv
          rw [hcall] at k1
          cases k1
          rcases k4 with ⟨k4, _⟩ | ⟨_, k5⟩
          · omega
          · refine ⟨k2, ?_, ?_⟩
            · rw [if_neg (fun hh => h1 hh.1)]
              exact k3
            · have hs : (Response.success req.clientId req.requestId
                  "Road added successfully"
                  (String.mk ("id=".toList ++ Snapshot.showInt id))).status =
                  ResponseStatus.SUCCESS := rfl
              rw [if_pos ⟨h2, hs⟩]
              exact k5
        · cases h
          refine ⟨rfl, rfl, fun _ hv => ?_⟩
          obtain ⟨r, db', k1, k2, k3, k4⟩ := addEdge_usable dt st.database
            (req.getParamInt "sourceId".toList 0) (req.getParamInt "destId".toList 0)
            (req.getParamDouble dt "distance".toList (.finite 0))
            (String.mk (req.getParam "roadName".toList))
            (req.getParamBool "bidirectional".toList true) hv
          rw [hcall] at k1
          cases k1
          rcases k4 with ⟨_, k5⟩ | ⟨k4, _⟩
          · subst k5
            refine ⟨hv, ?_, ?_⟩
            · rw [if_neg (fun hh => h1 hh.1)]; rfl
            · rw [if_neg (fun hh => hfail _ _ _ hh.2)]; rfl
          · exact absurd k4 hid
  rw [if_neg h2] at h
  have hno : (req.type = RequestType.ADD_LOCATION ∨ req.type = RequestType.ADD_ROAD) →
      ∀ r : Response, r.status ≠ ResponseStatus.SUCCESS := by
    intro hh
    rcases hh with hh | hh
    · exact absurd hh h1
    · exact absurd hh h2
  by_cases h3 : req.type = RequestType.FIND_PATH
  · rw [if_pos h3] at h
    dsimp only at h
    split_ifs at h
    · cases h; exact hsame _ rfl rfl (fun hh => hno hh _)
    · split at h
      · cases h
      · split_ifs at h
        · split at h
          · cases h
          · cases h; exact hsame _ rfl rfl (fun hh => hno hh _)
        · cases h; exact hsame _ rfl rfl (fun hh => hno hh _)
  rw [if_neg h3] at h
  by_cases h4 : req.type = RequestType.GET_LOCATIONS
  · rw [if_pos h4] at h
    split at h
    · cases h
    · cases h; exact hsame _ rfl rfl (fun hh => hno hh _)
  rw [if_neg h4] at h
  by_cases h5 : req.type = RequestType.GET_ROADS
  · rw [if_pos h5] at h
    split at h
    · cases h
    · cases h; exact hsame _ rfl rfl (fun hh => hno hh _)
  rw [if_neg h5] at h
  by_cases h6 : req.type = RequestType.GET_LOCATION
  · rw [if_pos h6] at h
    dsimp only at h
    split at h
    · cases h
    · split_ifs at h <;> (cases h; exact hsame _ rfl rfl (fun hh => hno hh _))
  rw [if_neg h6] at h
  by_cases h7 : req.type = RequestType.INIT_SAMPLE
  · rw [if_pos h7] at h
    split at h
    · cases h
    · cases h
      exact ⟨rfl, rfl, fun hh => absurd h7 hh⟩
  rw [if_neg h7] at h
  have hcount : ∀ (r : Response) (db : DatabaseManager) (f : DataFiles) (b : Bool),
      r.clientId = req.clientId → r.requestId = req.requestId →
      db.locationBTree = st.database.locationBTree → db.edgeBTree = st.database.edgeBTree →
      db.nextLocationId = st.database.nextLocationId →
      db.nextEdgeId = st.database.nextEdgeId →
      r.clientId = req.clientId ∧ r.requestId = req.requestId ∧
      (req.type ≠ RequestType.INIT_SAMPLE → st.database.storesUsable = true →
        (ServerState.mk db f b).database.storesUsable = true ∧
        (ServerState.mk db f b).database.getLocationCount = st.database.getLocationCount +
          (if req.type = RequestType.ADD_LOCATION ∧ r.status = ResponseStatus.SUCCESS
            then 1 else 0) ∧
        (ServerState.mk db f b).database.getEdgeCount = st.database.getEdgeCount +
          (if req.type = RequestType.ADD_ROAD ∧ r.status = ResponseStatus.SUCCESS
            then 1 else 0)) := by
    intro r db f b hc hr e1 e2 e3 e4
    refine ⟨hc, hr, fun _ hv => ?_⟩
    rw [if_neg (fun hh => h1 hh.1), if_neg (fun hh => h2 hh.1)]
    simp only [storesUsable, storesValid, getLocationCount, getEdgeCount, e1, e2, e3, e4,
      Nat.add_zero] at hv ⊢
    exact ⟨hv, trivial, trivial⟩
  by_cases h8 : req.type = RequestType.SAVE_DATA
  · rw [if_pos h8] at h
    have hsd : ∀ (db : DatabaseManager) (f : DataFiles),
        (db.saveData f).2.1.locationBTree = db.locationBTree ∧
        (db.saveData f).2.1.edgeBTree = db.edgeBTree ∧
        (db.saveData f).2.1.nextLocationId = db.nextLocationId ∧
        (db.saveData f).2.1.nextEdgeId = db.nextEdgeId := by
      intro db f
      simp only [saveData, saveDataOn]
      split <;> exact ⟨rfl, rfl, rfl, rfl⟩
    obtain ⟨e1, e2, e3, e4⟩ := hsd st.database st.files
    split_ifs at h <;> (cases h; exact hcount _ _ _ _ rfl rfl e1 e2 e3 e4)
  rw [if_neg h8] at h
  split_ifs at h
  · cases h
    exact hcount _ _ _ _ rfl rfl rfl rfl rfl rfl
  · cases h; exact hsame _ rfl rfl (fun hh => hno hh _)

end Server

namespace Server

open Snapshot DatabaseManager

theorem releaseItem_perm (w : Nat) (held held' : List (Nat × Request × Int))
    (item : Request × Int) (h : releaseItem w held = some (item, held')) :
    List.Perm (held.map Prod.snd) (item :: held'.map Prod.snd) := by
  induction held generalizing held' with
  | nil => simp [releaseItem] at h
  | cons x r ih =>
    obtain ⟨w', it⟩ := x
    simp only [releaseItem] at h
    split_ifs at h with hw
    · cases h
      exact List.Perm.refl _
    · split at h
      · cases h
      · rename_i i r' hr
        cases h
        simp only [List.map_cons]
        exact (List.Perm.cons _ (ih _ hr)).trans (List.Perm.swap _ _ _)

theorem releaseItem_some (w : Nat) (held : List (Nat × Request × Int))
    (h : held.any (fun x => x.1 == w) = true) : ∃ r, releaseItem w held = some r := by
  induction held with
  | nil => simp at h
  | cons x r ih =>
    obtain ⟨w', it⟩ := x
    simp only [releaseItem]
    split_ifs with hw
    · exact ⟨_, rfl⟩
    · have : r.any (fun x => x.1 == w) = true := by
        simpa [hw] using h
      obtain ⟨⟨i, r'⟩, hr⟩ := ih this
      rw [hr]
      exact ⟨_, rfl⟩

theorem contents_nil_of_count {T : Type} {CAPACITY : Nat} (q : CircularQueue T CAPACITY)
    (h : q.count = 0) : q.contents = [] := by
  simp [CircularQueue.contents, h]

theorem dequeue_cases (q : CircularQueue (Request × Int) QUEUE_CAPACITY)
    (hq : q.ringInv = true) :
    (q.contents = [] ∧ (q.dequeue = .error .blocks ∨ q.dequeue = .ok (none, q))) ∨
    ∃ x q', q.dequeue = .ok (some x, q') ∧ q'.ringInv = true ∧
      q.contents = x :: q'.contents := by
  by_cases hc : q.count = 0
  · left
    refine ⟨contents_nil_of_count q hc, ?_⟩
    cases hcl : q.closed
    · left
      simp [CircularQueue.dequeue, hc, hcl]
    · right
      simp [CircularQueue.dequeue, hc, hcl]
  · right
    obtain ⟨x, q', h1, h2, h3, _⟩ := CircularQueue.take_spec q hq (by omega)
    refine ⟨x, q', ?_, h2, h3⟩
    have hpos : 0 < q.count := by omega
    simp [CircularQueue.dequeue, hpos, hc, h1]

theorem handleMessage_cases (c r s : Int) (q : CircularQueue (Request × Int) QUEUE_CAPACITY)
    (m : List Char) (hq : q.ringInv = true) :
    (m.isEmpty = true ∧ handleMessage c r s q m = .ok (r, q, []) ∧
      submitted c r s m = none) ∨
    (m.isEmpty = false ∧ ∃ e, Request.deserialize m = .error e ∧
      handleMessage c r s q m = .error e) ∨
    (m.isEmpty = false ∧ ∃ req item, Request.deserialize m = .ok req ∧
      submitted c r s m = some item ∧
      (handleMessage c r s q m = .ok (r + 1, q, [(busyResponse item).2]) ∧
        (busyResponse item).1 = s ∨
       ∃ q', handleMessage c r s q m = .ok (r + 1, q', []) ∧ q'.ringInv = true ∧
        q'.contents = q.contents ++ [item])) := by
  cases hm : m.isEmpty
  · right
    cases hd : Request.deserialize m with
    | error e =>
      left
      exact ⟨rfl, e, rfl, by simp [handleMessage, hm, hd]⟩
    | ok req =>
      right
      refine ⟨rfl, req, (⟨c, r, req.type, req.params⟩, s), rfl,
        by simp [submitted, hm, hd], ?_⟩
      by_cases hfull : (decide (q.count ≥ QUEUE_CAPACITY) || q.closed) = true
      · left
        refine ⟨?_, rfl⟩
        simp only [handleMessage, hm, hd, CircularQueue.tryEnqueue, hfull, if_true,
          busyResponse]
        rfl
      · right
        have hlt : q.count < QUEUE_CAPACITY := by
          simp only [Bool.or_eq_true, decide_eq_true_eq, not_or] at hfull
          omega
        obtain ⟨q', h1, h2, h3, _⟩ := CircularQueue.store_spec q
          ((⟨c, r, req.type, req.params⟩, s) : Request × Int) hq hlt
        refine ⟨q', ?_, h2, h3⟩
        simp only [handleMessage, hm, hd, CircularQueue.tryEnqueue, hfull, h1]
        rfl
  · left
    exact ⟨rfl, by simp [handleMessage, hm], by simp [submitted, hm]⟩

end Server

namespace Server

open Snapshot DatabaseManager

theorem filter_length_snoc {α : Type} (f : α → Bool) (l : List α) (x : α) :
    ((l ++ [x]).filter f).length = (l.filter f).length + (if f x = true then 1 else 0) := by
  rw [List.filter_append, List.length_append]
  cases hf : f x <;> simp [List.filter, hf]

theorem step_inv (dt : DoubleText) (db0 : DatabaseManager) (reqs : List (Request × Int))
    (p p' : Pool) (e : PoolEvent) (hinv : p.Inv db0 reqs)
    (hstep : p.step dt e = Except.ok p') : p'.Inv db0 (reqs ++ requests [e]) := by
  obtain ⟨i1, i2, i3, i4, i5, i6, i7⟩ := hinv
  cases e with
  | submit c r s m =>
    have hreq : requests [PoolEvent.submit c r s m] = (submitted c r s m).toList := by
      simp only [requests, List.filterMap_cons, List.filterMap_nil]
      cases submitted c r s m <;> rfl
    rw [hreq]
    simp only [Pool.step] at hstep
    rcases handleMessage_cases c r s p.queue m i1 with
      ⟨_, h1, h2⟩ | ⟨_, e, _, h1⟩ | ⟨_, req, item, _, h2, ⟨h1, h3⟩ | ⟨q', h1, h3, h4⟩⟩
    · rw [h1] at hstep
      cases hstep
      rw [h2]
      refine ⟨i1, ?_, ?_, i4, ?_, i6, i7⟩
      · simpa using i2
      · simpa using i3
      · simpa using i5
    · rw [h1] at hstep
      cases hstep
    · rw [h1] at hstep
      cases hstep
      rw [h2]
      refine ⟨i1, ?_, ?_, i4, ?_, i6, i7⟩
      · simp only [List.isEmpty_cons, Bool.false_eq_true, if_false, List.append_nil,
          Option.toList_some]
        rw [← List.append_assoc]
        exact List.Perm.append_right _ i2
      · simp only [List.isEmpty_cons, Bool.false_eq_true, if_false, List.append_nil]
        exact i3
      · simp only [List.isEmpty_cons, Bool.false_eq_true, if_false, List.map_cons,
          List.map_nil, Option.toList_some, List.map_append]
        have hb : (s, (busyResponse item).2) = busyResponse item := by
          rw [← h3]
        rw [hb]
        refine (List.Perm.append_right _ i5).trans ?_
        rw [List.append_assoc, List.append_assoc]
        exact List.Perm.append_left _ List.perm_append_comm
    · rw [h1] at hstep
      cases hstep
      rw [h2]
      refine ⟨h3, ?_, ?_, i4, ?_, i6, i7⟩
      · simp only [List.isEmpty_nil, if_true, List.append_nil, Option.toList_some]
        refine List.Perm.trans ?_ (List.Perm.append_right _ i2)
        rw [List.append_assoc, List.append_assoc]
        exact List.Perm.append_left _ List.perm_append_comm
      · simp only [List.isEmpty_nil, if_true, Option.toList_some]
        rw [h4, i3, List.append_assoc]
      · simp only [List.isEmpty_nil, if_true, List.append_nil, List.map_nil]
        exact i5
  | take w =>
    have hreq : requests [PoolEvent.take w] = [] := rfl
    rw [hreq, List.append_nil]
    simp only [Pool.step] at hstep
    split_ifs at hstep with hheld
    rcases dequeue_cases p.queue i1 with ⟨_, h1 | h1⟩ | ⟨x, q', h1, h2, h3⟩
    · rw [h1] at hstep
      cases hstep
    · rw [h1] at hstep
      cases hstep
      exact ⟨i1, i2, i3, i4, i5, i6, i7⟩
    · rw [h1] at hstep
      cases hstep
      refine ⟨h2, i2, ?_, ?_, i5, i6, i7⟩
      · show p.accepted = (p.taken ++ [x]) ++ q'.contents
        rw [i3, h3, List.append_assoc]
        rfl
      · show List.Perm (p.taken ++ [x])
          (p.done.map Prod.fst ++ ((w, x) :: p.held).map Prod.snd)
        simp only [List.map_cons]
        refine (List.Perm.append_right _ i4).trans ?_
        rw [List.append_assoc]
        refine List.Perm.append_left _ ?_
        exact List.perm_append_comm
  | close =>
    have hreq : requests [PoolEvent.close] = [] := rfl
    rw [hreq, List.append_nil]
    simp only [Pool.step] at hstep
    cases hstep
    have hcl : p.queue.close.ringInv = true := by
      simpa [CircularQueue.ringInv, CircularQueue.close] using i1
    exact ⟨hcl, i2, i3, i4, i5, i6, i7⟩
  | process w =>
    have hreq : requests [PoolEvent.process w] = [] := rfl
    rw [hreq, List.append_nil]
    simp only [Pool.step] at hstep
    split at hstep
    · cases hstep
    · rename_i item held' hrel
      split at hstep
      · cases hstep
      · rename_i response st' hproc
        cases hstep
        have hperm := releaseItem_perm w p.held held' item hrel
        obtain ⟨e1, e2, e3⟩ := processRequest_effect dt p.state st' item.1 response hproc
        refine ⟨i1, i2, i3, ?_, ?_, ?_, ?_⟩
        · show List.Perm p.taken
            ((p.done ++ [(item, response)]).map Prod.fst ++ held'.map Prod.snd)
          simp only [List.map_append, List.map_cons, List.map_nil]
          refine i4.trans ?_
          rw [List.append_assoc]
          exact List.Perm.append_left _ hperm
        · show List.Perm (p.sent ++ [(item.2, response)])
            (p.refused.map busyResponse ++ (p.done ++ [(item, response)]).map deliveryOf)
          simp only [List.map_append, List.map_cons, List.map_nil]
          rw [← List.append_assoc]
          exact List.Perm.append_right _ i5
        · intro d hd
          rcases List.mem_append.1 hd with hd | hd
          · exact i6 d hd
          · rw [List.mem_singleton] at hd
            subst hd
            exact ⟨e1, e2⟩
        · intro husable hno
          have hno' : ∀ d ∈ p.done, d.1.1.type ≠ RequestType.INIT_SAMPLE :=
            fun d hd => hno d (List.mem_append.2 (Or.inl hd))
          have hit : item.1.type ≠ RequestType.INIT_SAMPLE :=
            hno (item, response) (List.mem_append.2 (Or.inr (List.mem_singleton.2 rfl)))
          obtain ⟨j1, j3, j4⟩ := i7 husable hno'
          obtain ⟨k1, k3, k4⟩ := e3 hit j1
          refine ⟨k1, ?_, ?_⟩
          · show st'.database.getLocationCount =
              db0.getLocationCount + addedLocations (p.done ++ [(item, response)])
            rw [k3, j3, addedLocations, addedLocations, filter_length_snoc, Nat.add_assoc]
            congr 2
            simp only [Bool.and_eq_true, decide_eq_true_eq]
          · show st'.database.getEdgeCount =
              db0.getEdgeCount + addedRoads (p.done ++ [(item, response)])
            rw [k4, j4, addedRoads, addedRoads, filter_length_snoc, Nat.add_assoc]
            congr 2
            simp only [Bool.and_eq_true, decide_eq_true_eq]

theorem requests_cons (e : PoolEvent) (es : List PoolEvent) :
    requests (e :: es) = requests [e] ++ requests es := by
  simp only [requests]
  rw [← List.filterMap_append]
  rfl

theorem run_inv (dt : DoubleText) (db0 : DatabaseManager) (events : List PoolEvent) :
    ∀ (reqs : List (Request × Int)) (p p' : Pool), p.Inv db0 reqs →
      Pool.run dt events p = Except.ok p' → p'.Inv db0 (reqs ++ requests events) := by
  induction events with
  | nil =>
    intro reqs p p' hinv hrun
    cases hrun
    simpa [requests] using hinv
  | cons e es ih =>
    intro reqs p p' hinv hrun
    simp only [Pool.run] at hrun
    split at hrun
    · cases hrun
    · rename_i p1 hstep
      have h1 := step_inv dt db0 reqs p p1 e hinv hstep
      have h2 := ih _ p1 p' h1 hrun
      rw [requests_cons, ← List.append_assoc]
      exact h2

theorem step_submissions (dt : DoubleText) (p p' : Pool) (e : PoolEvent)
    (hstep : p.step dt e = Except.ok p') : (requests [e]).length = submissions [e] := by
  cases e with
  | submit c r s m =>
    simp only [requests, submissions, List.filterMap_cons, List.filterMap_nil,
      List.filter_cons, List.filter_nil]
    cases hm : m.isEmpty
    · cases hd : Request.deserialize m with
      | error e =>
        simp only [Pool.step, handleMessage, hm, hd] at hstep
        cases hstep
      | ok req =>
        simp [submitted, hm, hd]
    · simp [submitted, hm]
  | take w => rfl
  | process w => rfl
  | close => rfl

theorem submissions_cons (e : PoolEvent) (es : List PoolEvent) :
    submissions (e :: es) = submissions [e] + submissions es := by
  simp only [submissions]
  rw [← List.length_append, ← List.filter_append]
  rfl

theorem run_submissions (dt : DoubleText) (events : List PoolEvent) :
    ∀ (p p' : Pool), Pool.run dt events p = Except.ok p' →
      (requests events).length = submissions events := by
  induction events with
  | nil =>
    intro p p' _
    rfl
  | cons e es ih =>
    intro p p' hrun
    simp only [Pool.run] at hrun
    split at hrun
    · cases hrun
    · rename_i p1 hstep
      rw [requests_cons, submissions_cons, List.length_append,
        step_submissions dt p p1 e hstep, ih p1 p' hrun]

theorem run_eq_ok {ε α : Type} (x : Except ε α) (d : α)
    (h : x.toOption.isSome = true) : x = Except.ok (x.toOption.getD d) := by
  cases x with
  | error e => cases h
  | ok p => rfl

theorem pool_start_inv (db : DatabaseManager) (files : DataFiles) :
    (Pool.start db files).Inv db [] := by
  refine ⟨CircularQueue.create_ringInv (by decide), List.Perm.refl _, ?_, List.Perm.refl _,
    List.Perm.refl _, ?_, ?_⟩
  · show ([] : List (Request × Int)) = [] ++ CircularQueue.contents CircularQueue.create
    rw [contents_nil_of_count _ rfl]
    rfl
  · intro d hd
    cases hd
  · intro husable _
    exact ⟨husable, rfl, rfl⟩

end Server

namespace Double

open Snapshot

theorem showNat_no_bar (n : Nat) : '|' ∉ showNat n := by
  have h := showInt_no_bar (n : Int)
  simpa [showInt] using h

theorem stripZeros_subset (ds : List Char) : ∀ c ∈ stripZeros ds, c ∈ ds := by
  intro c hc
  simp only [stripZeros, List.mem_reverse] at hc
  exact List.mem_reverse.1 ((List.dropWhile_suffix _).subset hc)

theorem fraction_no_bar (ds : List Char) (h : '|' ∉ ds) : '|' ∉ fraction ds := by
  simp only [fraction]
  split_ifs
  · simp
  · intro hc
    rcases List.mem_cons.1 hc with hc | hc
    · exact absurd hc (by decide)
    · exact h (stripZeros_subset ds _ hc)

theorem sixDigits_no_bar (x : ℚ) : '|' ∉ (sixDigits x).1 := by
  simp only [sixDigits]
  split_ifs
  · exact showNat_no_bar 100000
  · exact showNat_no_bar _

theorem showGPos_no_bar (x : ℚ) : '|' ∉ showGPos x := by
  have hd := sixDigits_no_bar x
  have htake : ∀ k, '|' ∉ (sixDigits x).1.take k := fun k hc => hd (List.mem_of_mem_take hc)
  have hdrop : ∀ k, '|' ∉ (sixDigits x).1.drop k := fun k hc => hd (List.mem_of_mem_drop hc)
  simp only [showGPos]
  split_ifs
  · simp only [List.mem_append, not_or]
    exact ⟨htake _, fraction_no_bar _ (hdrop _)⟩
  · intro hc
    simp only [List.mem_cons, List.mem_append, List.mem_replicate] at hc
    rcases hc with hc | hc | ⟨_, hc⟩ | hc
    · exact absurd hc (by decide)
    · exact absurd hc (by decide)
    · exact absurd hc (by decide)
    · exact hd (stripZeros_subset _ _ hc)
  all_goals
    intro hc
    simp only [List.mem_cons, List.mem_append] at hc
    rcases hc with (hc | hc) | hc | hc | hc
    · exact htake _ hc
    · exact fraction_no_bar _ (hdrop _) hc
    · exact absurd hc (by decide)
    · exact absurd hc (by decide)
    · first
      | exact showNat_no_bar _ hc
      | (rcases hc with hc | hc
         · exact absurd hc (by decide)
         · exact showNat_no_bar _ hc)

theorem showG_no_bar (x : Double) : '|' ∉ showG x := by
  cases x with
  | finite q =>
    simp only [showG]
    split_ifs
    · decide
    · intro hc
      rcases List.mem_cons.1 hc with hc | hc
      · exact absurd hc (by decide)
      · exact showGPos_no_bar _ hc
    · exact showGPos_no_bar _
  | posInf => decide
  | negInf => decide
  | nan => decide

end Double

namespace Location

theorem round_trip_text (dt : DoubleText) (loc : Location) (db : DatabaseManager)
    (hvalid : loc.isValid = true)
    (hname : '|' ∉ loc.name.toList) (htype : '|' ∉ loc.type.toList)
    (hlat : '|' ∉ dt.print loc.latitude) (hlon : '|' ∉ dt.print loc.longitude)
    (hstod : ∃ a b, dt.stod (dt.print loc.latitude) = Except.ok a ∧
      dt.stod (dt.print loc.longitude) = Except.ok b)
    (hstores : db.storesValid = true) (hids : db.idsAbove = true)
    (hid : db.nextLocationId = loc.id) :
    (∃ r, deserialize dt loc.id (loc.serialize dt) = Except.ok r ∧
      r.id = loc.id ∧ r.name = loc.name ∧ r.type = loc.type) ∧
    ∃ db', db.addLocation dt loc.name loc.latitude loc.longitude loc.type =
        Except.ok (loc.id, db') ∧
      ∃ r, db'.getLocation dt loc.id = Except.ok r ∧
        r.id = loc.id ∧ r.name = loc.name ∧ r.type = loc.type := by
  obtain ⟨a, b, ha, hb⟩ := hstod
  have hround := deserialize_fields dt loc.id loc.name.toList (dt.print loc.latitude)
    (dt.print loc.longitude) loc.type.toList a b hname htype hlat hlon ha hb
  refine ⟨⟨_, hround, rfl, rfl, rfl⟩, ?_⟩
  obtain ⟨h1, _, h3, _⟩ := (DatabaseManager.stores_iff db).1 ⟨hstores, hids⟩
  obtain ⟨id, name, latitude, longitude, type⟩ := loc
  dsimp only at hid hname htype hlat hlon ha hb hround ⊢
  subst hid
  obtain ⟨t', h5, h6, h7⟩ := DatabaseManager.addLocation_ok dt db name latitude longitude type
    h1 (fun e he => (h3 e he).1) hvalid
  refine ⟨_, h5, ⟨db.nextLocationId, name, a, b, type⟩, ?_, rfl, rfl, rfl⟩
  have hmem : (db.nextLocationId, String.mk (serialize dt
      ⟨db.nextLocationId, name, latitude, longitude, type⟩)) ∈ t'.traverseAll := by
    rw [h7]; simp
  rw [DatabaseManager.getLocation_stored dt h6 hmem (by simp [serialize])]
  exact hround

end Location

/-! ## The claims -/

namespace BTree

open BTreeNode

theorem insertedKeys_map_insert (kvs : List (Int × String)) :
    Op.insertedKeys (kvs.map (fun e => Op.insert e.1 e.2)) = kvs.map Prod.fst := by
  induction kvs with
  | nil => rfl
  | cons e kvs ih => simp [Op.insertedKeys, ih]

theorem inv_shaped_sorted {t : BTree} (hinv : t.searchTreeInv = true) {r : BTreeNode}
    (hr : t.root = some r) : Shaped r ∧ KeySorted r.traverse := by
  unfold BTree.searchTreeInv at hinv
  rw [hr] at hinv
  exact shaped_sorted_of_inv r hinv

theorem runOps_empty_spec (ops : List Op) (hnd : (Op.insertedKeys ops).Nodup) :
    ∃ t, runOps empty ops = some t ∧ TreeOk t ∧
      ∀ k v, (k, v) ∈ t.traverseAll ↔ Op.valueAfter ops k = some v :=
  runOps_spec ops empty (fun _ => none) trivial (by simp [traverseAll, empty]) hnd (by simp)

/-- C1: for every sequence of `insert` and `update` calls applied to the empty tree
in which no key is inserted twice, every call returns, and afterwards `traverseAll()`
lists strictly ascending keys, its key set is exactly the set of inserted keys, and
the value listed for a key is the one given by the last insert or successful update
of that key. -/
theorem traverseAll_after_ops (ops : List Op) (hnd : (Op.insertedKeys ops).Nodup) :
    ∃ t, runOps empty ops = some t ∧
      (t.traverseAll.map Prod.fst).Pairwise (· < ·) ∧
      (∀ k, k ∈ t.traverseAll.map Prod.fst ↔ k ∈ Op.insertedKeys ops) ∧
      (∀ k v, (k, v) ∈ t.traverseAll ↔ Op.valueAfter ops k = some v) := by
  obtain ⟨t, hrun, hok, hval⟩ := runOps_empty_spec ops hnd
  refine ⟨t, hrun, ?_, ?_, hval⟩
  · rw [List.pairwise_map]
    cases hroot : t.root with
    | none => simp [traverseAll, hroot]
    | some r =>
      have := (hok.root_shaped hroot).2
      simpa [traverseAll, hroot] using this
  · intro k
    have h := foldl_stepValue_isSome ops k none
    simp only [Option.isSome_none, Bool.false_eq_true, false_or] at h
    rw [← h]
    simp only [List.mem_map, Prod.exists, exists_and_right, exists_eq_right]
    constructor
    · rintro ⟨v, hv⟩
      have := (hval k v).1 hv
      unfold Op.valueAfter at this
      simp [this]
    · intro hs
      obtain ⟨v, hv⟩ := Option.isSome_iff_exists.1 hs
      exact ⟨v, (hval k v).2 hv⟩

/-- Witness for C1 on a five-call sequence with two inserts and three updates. -/
theorem traverseAll_after_ops_witness :
    ∃ t, runOps empty [Op.insert 2 "b", Op.update 7 "q", Op.insert 1 "a", Op.update 2 "c",
        Op.update 2 ""] = some t ∧
      (t.traverseAll.map Prod.fst).Pairwise (· < ·) ∧
      (∀ k, k ∈ t.traverseAll.map Prod.fst ↔ k ∈ Op.insertedKeys
        [Op.insert 2 "b", Op.update 7 "q", Op.insert 1 "a", Op.update 2 "c", Op.update 2 ""]) ∧
      (∀ k v, (k, v) ∈ t.traverseAll ↔ Op.valueAfter
        [Op.insert 2 "b", Op.update 7 "q", Op.insert 1 "a", Op.update 2 "c", Op.update 2 ""] k
          = some v) :=
  traverseAll_after_ops _ (by decide)

/-- C2, counterexample: after `insert(1, "")` the key 1 is stored, yet `insert(1, "x")`
adds a second entry with key 1 and `getCount()` goes from 1 to 2; and in the
tree whose single leaf holds the keys 2, 1 in that order, the stored key 1 with
value "b" is likewise duplicated by `insert(1, "x")`. -/
theorem insert_existing_duplicates :
    (empty.insert 1 "").map traverseAll = some [(1, "")] ∧
    (empty.insert 1 "").map searchTreeInv = some true ∧
    ((empty.insert 1 "").bind (fun t => t.insert 1 "x")).map traverseAll
      = some [(1, ""), (1, "x")] ∧
    ((empty.insert 1 "").bind (fun t => t.insert 1 "x")).map getCount = some 2 ∧
    unsortedLeaf.traverseAll = [(2, "a"), (1, "b")] ∧
    (unsortedLeaf.insert 1 "x").map traverseAll = some [(2, "a"), (1, "b"), (1, "x")] := by
  decide

/-- C2, amended: in a tree satisfying the search-tree invariant, for a key `k`
stored with a non-empty value, `insert(k, v)` overwrites in place: afterwards
`traverseAll()` has exactly one entry with key `k`, its value is `v`, every other
entry is as before, and `getCount()` is unchanged. -/
theorem insert_existing_overwrites (t : BTree) (k : Int) (v0 v : String)
    (hinv : t.searchTreeInv = true) (hk : (k, v0) ∈ t.traverseAll) (hv0 : v0 ≠ "") :
    ∃ t', t.insert k v = some t' ∧
      t'.traverseAll.filter (fun e => e.1 = k) = [(k, v)] ∧
      t'.traverseAll = t.traverseAll.map (fun e => if e.1 = k then (e.1, v) else e) ∧
      t'.getCount = t.getCount := by
  obtain ⟨root⟩ := t
  cases root with
  | none => simp [traverseAll] at hk
  | some r =>
    obtain ⟨hsh, hs⟩ := inv_shaped_sorted hinv rfl
    simp only [traverseAll] at hk ⊢
    have hex := (exists_spec hsh hs k).2 v0 hk
    have hne : v0.isEmpty = false := by
      cases h : v0.isEmpty with
      | false => rfl
      | true => exact absurd ((String.isEmpty_iff v0).1 h) hv0
    rw [hne] at hex
    obtain ⟨r', h1, -, h3⟩ := (update_spec hsh k v hs).2 ⟨(k, v0), hk, rfl⟩
    refine ⟨⟨some r'⟩, by simp [insert, hex, update, h1], ?_, by simpa using h3, ?_⟩
    · simp only
      rw [h3]
      obtain ⟨A, B, hAB⟩ := List.append_of_mem hk
      rw [hAB] at hs ⊢
      rw [map_update_sorted v hs rfl]
      have hp := List.pairwise_append.1 hs
      have hB := List.pairwise_cons.1 hp.2.1
      have hA : A.filter (fun e => decide (e.1 = k)) = [] := by
        rw [List.filter_eq_nil_iff]
        intro a ha
        have := hp.2.2 a ha (k, v0) (by simp)
        simp at this ⊢; omega
      have hB' : B.filter (fun e => decide (e.1 = k)) = [] := by
        rw [List.filter_eq_nil_iff]
        intro b hb
        have := hB.1 b hb
        simp at this ⊢; omega
      simp [List.filter_append, List.filter_cons, hA, hB']
    · simp [getCount, traverseAll, h3]

/-- Witness for the amended C2: key 7 stored with value "g" in the sample tree. -/
theorem insert_existing_overwrites_witness :
    ∃ t', sampleTree.insert 7 "z" = some t' ∧
      t'.traverseAll.filter (fun e => e.1 = 7) = [(7, "z")] ∧
      t'.traverseAll = sampleTree.traverseAll.map (fun e => if e.1 = 7 then (e.1, "z") else e) ∧
      t'.getCount = sampleTree.getCount :=
  insert_existing_overwrites sampleTree 7 "g" "z" (by decide) (by decide) (by decide)

/-- C4: every tree reached from the empty tree by `insert` calls with pairwise
distinct keys exists (each call returns) and satisfies the search-tree invariant:
keys strictly ascending in each node, every key below `children[i]` strictly
between `keys[i-1]` and `keys[i]`, leaves without children, internal nodes with
exactly `numKeys + 1` non-null children. -/
theorem insertAll_searchTreeInv (kvs : List (Int × String))
    (hnd : (kvs.map Prod.fst).Nodup) :
    ∃ t, insertAll kvs = some t ∧ t.searchTreeInv = true := by
  obtain ⟨t, hrun, hok, -⟩ := runOps_empty_spec (kvs.map (fun e => Op.insert e.1 e.2))
    (by rw [insertedKeys_map_insert]; exact hnd)
  refine ⟨t, hrun, ?_⟩
  unfold BTree.searchTreeInv
  cases hroot : t.root with
  | none => rfl
  | some r =>
    obtain ⟨hsh, hs⟩ := hok.root_shaped hroot
    exact inv_of_shaped_sorted hsh hs

/-- Witness for C4: eight distinct keys, enough to split the root. -/
theorem insertAll_searchTreeInv_witness :
    ∃ t, insertAll [(10, "a"), (20, "b"), (5, "c"), (6, "d"), (12, "e"), (30, "f"), (7, "g"),
        (17, "h")] = some t ∧ t.searchTreeInv = true :=
  insertAll_searchTreeInv _ (by decide)

/-- C5: every tree reached from the empty tree by `insert` calls with pairwise
distinct keys is a balanced B-tree of order 3: every node holds at most 5 keys,
every non-root node at least 2, the root at least 1, and all leaves are at the
same depth. -/
theorem insertAll_balanced (kvs : List (Int × String)) (hnd : (kvs.map Prod.fst).Nodup) :
    MAX_KEYS = 5 ∧ MIN_KEYS = 2 ∧
    ∃ t, insertAll kvs = some t ∧ ∀ r, t.root = some r →
      allNodes (fun m => decide (m.numKeys ≤ MAX_KEYS)) r = true ∧
      allNodesList (fun m => decide (MIN_KEYS ≤ m.numKeys)) r.children = true ∧
      1 ≤ r.numKeys ∧
      ∀ a ∈ leafDepths r 0, ∀ b ∈ leafDepths r 0, a = b := by
  obtain ⟨t, hrun, hok, -⟩ := runOps_empty_spec (kvs.map (fun e => Op.insert e.1 e.2))
    (by rw [insertedKeys_map_insert]; exact hnd)
  refine ⟨rfl, rfl, t, hrun, ?_⟩
  intro r hroot
  unfold TreeOk at hok
  rw [hroot] at hok
  obtain ⟨h, hv, -⟩ := hok
  refine ⟨hv.allNodes_max, hv.allNodes_min.1, ?_, ?_⟩
  · cases hv <;> simpa [numKeys, entries]
  · intro a ha b hb
    have h1 := hv.leafDepths_eq 0 a ha
    have h2 := hv.leafDepths_eq 0 b hb
    omega

/-- Witness for C5: eight distinct keys, enough to split the root. -/
theorem insertAll_balanced_witness :
    MAX_KEYS = 5 ∧ MIN_KEYS = 2 ∧
    ∃ t, insertAll [(10, "a"), (20, "b"), (5, "c"), (6, "d"), (12, "e"), (30, "f"), (7, "g"),
        (17, "h")] = some t ∧ ∀ r, t.root = some r →
      allNodes (fun m => decide (m.numKeys ≤ MAX_KEYS)) r = true ∧
      allNodesList (fun m => decide (MIN_KEYS ≤ m.numKeys)) r.children = true ∧
      1 ≤ r.numKeys ∧
      ∀ a ∈ leafDepths r 0, ∀ b ∈ leafDepths r 0, a = b :=
  insertAll_balanced _ (by decide)

end BTree

namespace BTree

open BTreeNode

/-- C6: in a tree satisfying the search-tree invariant, `search(k)` returns the
value paired with `k` in `traverseAll()` when `k` is one of its keys, and the
empty string when it is not. -/
theorem search_correct (t : BTree) (k : Int) (hinv : t.searchTreeInv = true) :
    (∀ v, (k, v) ∈ t.traverseAll → t.search k = some v) ∧
    (k ∉ t.traverseAll.map Prod.fst → t.search k = some "") := by
  obtain ⟨root⟩ := t
  cases root with
  | none => simp [traverseAll, search]
  | some r =>
    obtain ⟨hsh, hs⟩ := inv_shaped_sorted hinv rfl
    have h := search_spec hsh k hs
    refine ⟨by simpa [traverseAll, search] using h.1, ?_⟩
    intro hk
    simp only [search]
    apply h.2
    intro e he hek
    apply hk
    simp only [traverseAll, List.mem_map]
    exact ⟨e, he, hek⟩

/-- Witness for C6 on the sample tree, searching the stored key 7. -/
theorem search_correct_witness :
    (∀ v, ((7 : Int), v) ∈ sampleTree.traverseAll → sampleTree.search 7 = some v) ∧
    ((7 : Int) ∉ sampleTree.traverseAll.map Prod.fst → sampleTree.search 7 = some "") :=
  search_correct sampleTree 7 (by decide)

/-- C7, counterexample: the tree produced by `insert(1, "")` satisfies the
search-tree invariant and lists key 1 in `traverseAll()`, but `exists(1)` is false. -/
theorem exists_false_for_stored_key :
    (empty.insert 1 "").map searchTreeInv = some true ∧
    (empty.insert 1 "").map (fun t => t.traverseAll.map Prod.fst) = some [1] ∧
    (empty.insert 1 "").bind (fun t => t.exists 1) = some false := by
  decide

/-- C7, amended: in a tree satisfying the search-tree invariant, `exists(k)` is
true if and only if `k` is one of the keys of `traverseAll()` and the value stored
under it is not the empty string. -/
theorem exists_iff_stored_nonempty (t : BTree) (k : Int) (hinv : t.searchTreeInv = true) :
    ∃ b, t.exists k = some b ∧
      (b = true ↔ ∃ v, (k, v) ∈ t.traverseAll ∧ v ≠ "") := by
  obtain ⟨root⟩ := t
  cases root with
  | none =>
    have he : ("" : String).isEmpty = true := by decide
    exact ⟨false, by simp [BTree.exists, search, he], by simp [traverseAll]⟩
  | some r =>
    obtain ⟨hsh, hs⟩ := inv_shaped_sorted hinv rfl
    have h := exists_spec hsh hs k
    simp only [traverseAll]
    by_cases hex : ∃ e ∈ r.traverse, e.1 = k
    · obtain ⟨e, he, hek⟩ := hex
      obtain ⟨k', v⟩ := e
      simp only at hek
      subst hek
      refine ⟨!v.isEmpty, h.2 v he, ?_⟩
      constructor
      · intro hb
        refine ⟨v, he, ?_⟩
        intro hv
        rw [hv] at hb
        revert hb
        decide
      · rintro ⟨v', hv', hne⟩
        have : (k', v') = (k', v) := hs.unique hv' he rfl
        simp only [Prod.mk.injEq, true_and] at this
        subst this
        cases hq : v'.isEmpty with
        | false => rfl
        | true => exact absurd ((String.isEmpty_iff v').1 hq) hne
    · refine ⟨false, h.1 (fun e he hek => hex ⟨e, he, hek⟩), ?_⟩
      simp only [Bool.false_eq_true, false_iff, not_exists, not_and]
      intro v hv
      exact absurd ⟨(k, v), hv, rfl⟩ hex

/-- Witness for the amended C7 on the sample tree and the stored key 9. -/
theorem exists_iff_stored_nonempty_witness :
    ∃ b, sampleTree.exists 9 = some b ∧
      (b = true ↔ ∃ v, ((9 : Int), v) ∈ sampleTree.traverseAll ∧ v ≠ "") :=
  exists_iff_stored_nonempty sampleTree 9 (by decide)

/-- C8, counterexample: in the tree whose single leaf holds the keys 2, 1 in that
order, key 1 is stored but `update(1, "x")` returns false and changes nothing. -/
theorem update_misses_stored_key :
    (1 : Int) ∈ unsortedLeaf.traverseAll.map Prod.fst ∧
    (unsortedLeaf.update 1 "x").map (fun r => (r.1, r.2.traverseAll))
      = some (false, [(2, "a"), (1, "b")]) := by
  decide

/-- C8, amended: in a tree satisfying the search-tree invariant, `update(k, v)` on
a key that is not stored returns false and leaves the tree unchanged; on a stored
key it returns true, keeps every node, key and the shape, and changes only the
value paired with `k`, which becomes `v`. -/
theorem update_correct (t : BTree) (k : Int) (v : String) (hinv : t.searchTreeInv = true) :
    (k ∉ t.traverseAll.map Prod.fst → t.update k v = some (false, t)) ∧
    (k ∈ t.traverseAll.map Prod.fst → ∃ t', t.update k v = some (true, t') ∧
      t'.eraseValues = t.eraseValues ∧
      t'.traverseAll = t.traverseAll.map (fun e => if e.1 = k then (e.1, v) else e)) := by
  obtain ⟨root⟩ := t
  cases root with
  | none => simp [traverseAll, update]
  | some r =>
    obtain ⟨hsh, hs⟩ := inv_shaped_sorted hinv rfl
    have h := update_spec hsh k v hs
    simp only [traverseAll, List.mem_map, not_exists, not_and]
    constructor
    · intro hk
      simp [update, h.1 (fun e he => hk e he)]
    · rintro ⟨e, he, hek⟩
      obtain ⟨r', h1, h2, h3⟩ := h.2 ⟨e, he, hek⟩
      exact ⟨⟨some r'⟩, by simp [update, h1], by simp [BTree.eraseValues, h2], h3⟩

/-- Witness for the amended C8 on the sample tree, updating the stored key 2. -/
theorem update_correct_witness :
    ((2 : Int) ∉ sampleTree.traverseAll.map Prod.fst →
      sampleTree.update 2 "z" = some (false, sampleTree)) ∧
    ((2 : Int) ∈ sampleTree.traverseAll.map Prod.fst →
      ∃ t', sampleTree.update 2 "z" = some (true, t') ∧
        t'.eraseValues = sampleTree.eraseValues ∧
        t'.traverseAll = sampleTree.traverseAll.map
          (fun e => if e.1 = 2 then (e.1, "z") else e)) :=
  update_correct sampleTree 2 "z" (by decide)

/-- C9, counterexample: a tree satisfying the search-tree invariant whose
right-most leaf holds no key; it stores the keys 1 and 5, and `getMaxKey()` is 0. -/
theorem getMaxKey_zero_on_nonempty :
    emptyRightLeaf.searchTreeInv = true ∧
    emptyRightLeaf.traverseAll = [(1, "a"), (5, "e")] ∧
    emptyRightLeaf.getMaxKey = some 0 := by
  decide

/-- C9, amended: `getMaxKey()` returns 0 for the empty tree, and for every tree
with a root that satisfies the search-tree invariant and in which every node holds
at least one key it returns the largest key of `traverseAll()`. -/
theorem getMaxKey_correct (t : BTree) (r : BTreeNode) (hroot : t.root = some r)
    (hinv : t.searchTreeInv = true)
    (hkeys : allNodes (fun m => decide (1 ≤ m.numKeys)) r = true) :
    empty.getMaxKey = some 0 ∧
    ∃ m, t.getMaxKey = some m ∧ m ∈ t.traverseAll.map Prod.fst ∧
      ∀ k ∈ t.traverseAll.map Prod.fst, k ≤ m := by
  obtain ⟨hsh, hs⟩ := inv_shaped_sorted hinv hroot
  obtain ⟨e, he, hmax, hle⟩ := maxKey_spec hsh hkeys hs
  refine ⟨rfl, e.1, by simp [getMaxKey, hroot, hmax], ?_, ?_⟩
  · simp only [traverseAll, hroot, List.mem_map]
    exact ⟨e, he, rfl⟩
  · intro k hk
    simp only [traverseAll, hroot, List.mem_map] at hk
    obtain ⟨x, hx, rfl⟩ := hk
    exact hle x hx

/-- Witness for the amended C9 on the sample tree. -/
theorem getMaxKey_correct_witness :
    empty.getMaxKey = some 0 ∧
    ∃ m, sampleTree.getMaxKey = some m ∧ m ∈ sampleTree.traverseAll.map Prod.fst ∧
      ∀ k ∈ sampleTree.traverseAll.map Prod.fst, k ≤ m :=
  getMaxKey_correct sampleTree sampleRoot rfl (by decide) (by decide)

end BTree

namespace BTreeNode

theorem childAt_lt_length {cs : List (Option BTreeNode)} {i : Nat} {c : BTreeNode}
    (h : childAt cs i = some c) : i < cs.length := by
  unfold childAt at h
  cases hq : cs[i]? with
  | none => simp [hq] at h
  | some o => rcases List.getElem?_eq_some.1 hq with ⟨hlt, _⟩; exact hlt

/-- C10: for a node `p` with fewer than `MAX_KEYS` keys whose child `c = children[i]`
holds the five pairs `e0 .. e4`, `p.splitChild(i)` leaves `c` with `e0, e1` (and, if
internal, its first three children), creates a sibling with `e3, e4` (and, if
internal, `c`'s last three children) in slot `i + 1`, puts the median `e2` at key
position `i` of `p`, shifts `p`'s former pairs from `i` on and child slots after `i`
one place right, and increases `p.numKeys` by exactly one. -/
theorem splitChild_spec (p c : BTreeNode) (i : Nat) (e0 e1 e2 e3 e4 : Int × String)
    (hp : p.numKeys < MAX_KEYS) (hi : i ≤ p.numKeys)
    (hc : childAt p.children i = some c) (hfull : c.entries = [e0, e1, e2, e3, e4]) :
    ∃ p' left right, splitChild p i = some p' ∧
      childAt p'.children i = some left ∧ left.isLeaf = c.isLeaf ∧
      left.entries = [e0, e1] ∧
      left.children = (if c.isLeaf then c.children else c.children.take 3) ∧
      childAt p'.children (i + 1) = some right ∧ right.isLeaf = c.isLeaf ∧
      right.entries = [e3, e4] ∧
      right.children = (if c.isLeaf then [] else (c.children.drop 3).take 3) ∧
      p'.isLeaf = p.isLeaf ∧ p'.numKeys = p.numKeys + 1 ∧
      p'.entries[i]? = some e2 ∧
      (∀ j, j < i → p'.entries[j]? = p.entries[j]?) ∧
      (∀ j, i ≤ j → p'.entries[j + 1]? = p.entries[j]?) ∧
      (∀ j, j < i → childAt p'.children j = childAt p.children j) ∧
      (∀ j, i < j → j ≤ p.numKeys →
        childAt p'.children (j + 1) = childAt p.children j) := by
  obtain ⟨pl, pes, pcs⟩ := p
  obtain ⟨cl, ces, ccs⟩ := c
  simp only [entries] at hfull
  subst hfull
  simp only [numKeys, entries, children, isLeaf] at hp hi hc ⊢
  have hilt := childAt_lt_length hc
  have htc : (pcs.take i).length = i := by simp; omega
  have hte : (pes.take i).length = i := by simp; omega
  have h5 : pes.length < 5 := by simpa [MAX_KEYS, BTREE_ORDER] using hp
  refine ⟨.mk pl (pes.take i ++ e2 :: pes.drop i)
      (pcs.take i ++ some (.mk cl [e0, e1] (if cl then ccs else ccs.take 3)) ::
        some (.mk cl [e3, e4] (if cl then [] else (ccs.drop 3).take 3)) ::
        ((pcs.drop (i + 1)).take (pes.length - i) ++ pcs.drop (pes.length + 2))),
    .mk cl [e0, e1] (if cl then ccs else ccs.take 3),
    .mk cl [e3, e4] (if cl then [] else (ccs.drop 3).take 3),
    by simp [splitChild, hc, MAX_KEYS, BTREE_ORDER, hi, h5],
    ?_, rfl, rfl, rfl, ?_, rfl, rfl, rfl, rfl, ?_, ?_, ?_, ?_, ?_, ?_⟩
  · unfold childAt
    rw [List.getElem?_append_right (by omega), htc]; simp
  · unfold childAt
    rw [List.getElem?_append_right (by omega), htc]
    have : i + 1 - i = 1 := by omega
    rw [this]; simp
  · simp; omega
  · rw [List.getElem?_append_right (by omega), hte]; simp
  · intro j hj
    rw [List.getElem?_append_left (by omega), List.getElem?_take_of_lt hj]
  · intro j hj
    rw [List.getElem?_append_right (by omega), hte]
    have : j + 1 - i = (j - i) + 1 := by omega
    rw [this, List.getElem?_cons_succ, List.getElem?_drop]
    congr 1; omega
  · intro j hj
    unfold childAt
    rw [List.getElem?_append_left (by omega), List.getElem?_take_of_lt hj]
  · intro j hj hjn
    unfold childAt
    rw [List.getElem?_append_right (by omega), htc]
    have : j + 1 - i = (j - i - 1) + 1 + 1 := by omega
    rw [this, List.getElem?_cons_succ, List.getElem?_cons_succ]
    by_cases hjl : j < pcs.length
    · rw [List.getElem?_append_left (by simp; omega), List.getElem?_take_of_lt (by omega),
        List.getElem?_drop]
      congr 2; omega
    · rw [List.getElem?_append_right (by simp; omega), List.getElem?_drop]
      rw [List.getElem?_eq_none (by simp; omega), List.getElem?_eq_none (by omega)]

/-- Witness for C10: a parent with keys 10, 50 whose middle child is a full leaf. -/
theorem splitChild_spec_witness :
    ∃ p' left right, splitChild sampleParent 1 = some p' ∧
      childAt p'.children 1 = some left ∧ left.isLeaf = sampleFullLeaf.isLeaf ∧
      left.entries = [(20, "p"), (25, "q")] ∧
      left.children =
        (if sampleFullLeaf.isLeaf then sampleFullLeaf.children
          else sampleFullLeaf.children.take 3) ∧
      childAt p'.children (1 + 1) = some right ∧ right.isLeaf = sampleFullLeaf.isLeaf ∧
      right.entries = [(35, "s"), (40, "t")] ∧
      right.children =
        (if sampleFullLeaf.isLeaf then [] else (sampleFullLeaf.children.drop 3).take 3) ∧
      p'.isLeaf = sampleParent.isLeaf ∧ p'.numKeys = sampleParent.numKeys + 1 ∧
      p'.entries[1]? = some (30, "r") ∧
      (∀ j, j < 1 → p'.entries[j]? = sampleParent.entries[j]?) ∧
      (∀ j, 1 ≤ j → p'.entries[j + 1]? = sampleParent.entries[j]?) ∧
      (∀ j, j < 1 → childAt p'.children j = childAt sampleParent.children j) ∧
      (∀ j, 1 < j → j ≤ sampleParent.numKeys →
        childAt p'.children (j + 1) = childAt sampleParent.children j) :=
  splitChild_spec sampleParent sampleFullLeaf 1 (20, "p") (25, "q") (30, "r") (35, "s") (40, "t")
    (by decide) (by decide) rfl rfl

end BTreeNode

namespace BTree

open Snapshot

/-- C3, failing input: the tree holding the single record (1, "a~b").  `saveToFile`
writes its value list as `VALUES=[a~b]`, and `loadFromFile` of that text returns a
tree whose `traverseAll()` is [(1, "a")], not [(1, "a~b")]. -/
theorem saveToFile_loadFromFile_tilde :
    (empty.insert 1 "a~b").map traverseAll = some [(1, "a~b")] ∧
    (empty.insert 1 "a~b").map (fun t => String.mk t.saveToFile) =
      some "ORDER=3\nROOT_INDEX=0\nNODE_COUNT=1\n\nNODE_0|LEAF=true|KEYS=[1]|VALUES=[a~b]\n" ∧
    (empty.insert 1 "a~b").map
      (fun t => (loadFromFile t.saveToFile).toOption.map traverseAll) =
      some (some [(1, "a")]) := by
  decide

end BTree

namespace BTree

/-- C11: inserting the keys 10, 20, 5, 6, 12, 30, 7, 17 (with any values) one at a
time into the empty tree gives, step by step, the trees `afterInserts .. i`; the
root-splitting branch of `insert` is taken exactly once, on the insert of the 6th
key 30, when the single leaf holds 5 keys; the height is 1 after each of the first
five inserts and 2 after the 6th, 7th and 8th; the final tree is root [10] over the
leaves [5, 6, 7] and [12, 17, 20, 30]. -/
theorem root_split_once (a b c d e f g h : String) :
    ((afterInserts a b c d e f g h 0).insert 10 a = some (afterInserts a b c d e f g h 1) ∧
     (afterInserts a b c d e f g h 1).insert 20 b = some (afterInserts a b c d e f g h 2) ∧
     (afterInserts a b c d e f g h 2).insert 5 c = some (afterInserts a b c d e f g h 3) ∧
     (afterInserts a b c d e f g h 3).insert 6 d = some (afterInserts a b c d e f g h 4) ∧
     (afterInserts a b c d e f g h 4).insert 12 e = some (afterInserts a b c d e f g h 5) ∧
     (afterInserts a b c d e f g h 5).insert 30 f = some (afterInserts a b c d e f g h 6) ∧
     (afterInserts a b c d e f g h 6).insert 7 g = some (afterInserts a b c d e f g h 7) ∧
     (afterInserts a b c d e f g h 7).insert 17 h = some (afterInserts a b c d e f g h 8)) ∧
    insertAll [(10, a), (20, b), (5, c), (6, d), (12, e), (30, f), (7, g), (17, h)] =
      some (afterInserts a b c d e f g h 8) ∧
    [(afterInserts a b c d e f g h 0).splitsRoot 10,
     (afterInserts a b c d e f g h 1).splitsRoot 20,
     (afterInserts a b c d e f g h 2).splitsRoot 5,
     (afterInserts a b c d e f g h 3).splitsRoot 6,
     (afterInserts a b c d e f g h 4).splitsRoot 12,
     (afterInserts a b c d e f g h 5).splitsRoot 30,
     (afterInserts a b c d e f g h 6).splitsRoot 7,
     (afterInserts a b c d e f g h 7).splitsRoot 17] =
      [false, false, false, false, false, true, false, false] ∧
    (afterInserts a b c d e f g h 5).root.map BTreeNode.numKeys = some 5 ∧
    (List.range 8).map (fun i => (afterInserts a b c d e f g h (i + 1)).height) =
      [1, 1, 1, 1, 1, 2, 2, 2] ∧
    (afterInserts a b c d e f g h 8).root = some (.mk false [(10, a)]
      [some (.mk true [(5, c), (6, d), (7, g)] []),
       some (.mk true [(12, e), (17, h), (20, b), (30, f)] [])]) := by
  have s1 : (afterInserts a b c d e f g h 0).insert 10 a = some (afterInserts a b c d e f g h 1) := rfl
  have s2 : (afterInserts a b c d e f g h 1).insert 20 b = some (afterInserts a b c d e f g h 2) := rfl
  have s3 : (afterInserts a b c d e f g h 2).insert 5 c = some (afterInserts a b c d e f g h 3) := rfl
  have s4 : (afterInserts a b c d e f g h 3).insert 6 d = some (afterInserts a b c d e f g h 4) := rfl
  have s5 : (afterInserts a b c d e f g h 4).insert 12 e = some (afterInserts a b c d e f g h 5) := rfl
  have s6 : (afterInserts a b c d e f g h 5).insert 30 f = some (afterInserts a b c d e f g h 6) := rfl
  have s7 : (afterInserts a b c d e f g h 6).insert 7 g = some (afterInserts a b c d e f g h 7) := rfl
  have s8 : (afterInserts a b c d e f g h 7).insert 17 h = some (afterInserts a b c d e f g h 8) := rfl
  refine ⟨⟨s1, s2, s3, s4, s5, s6, s7, s8⟩, ?_, rfl, rfl, rfl, rfl⟩
  have s1' : empty.insert 10 a = some (afterInserts a b c d e f g h 1) := s1
  simp only [insertAll, List.map, runOps, applyOp, s1', s2, s3, s4, s5, s6, s7, s8,
    Option.some_bind]

end BTree

namespace BTree

open BTreeNode

/-- C12: during `insert(k, v)` of a key not yet stored into a tree satisfying the
node invariants, `insertNonFull` is only called on a node with fewer than
`MAX_KEYS = 5` keys and `splitChild` only on a parent with fewer than 5 keys (and a
child with exactly 5), and the insert runs to its end, so no write leaves the
fixed arrays (in the model a write outside `keys[0..4]` or `children[0..5]` makes
`insert` yield `none`).  The listed calls are those of `insertCalls`, whose result
is that of `insert`. -/
theorem insert_calls_in_bounds (t : BTree) (k : Int) (v : String)
    (hinv : t.nodeInvariants = true) (hnew : ∀ e ∈ t.traverseAll, e.1 ≠ k) :
    (t.insertCalls k v).1 = t.insert k v ∧
    (∃ t', t.insert k v = some t') ∧
    (∀ n, InsertCall.insertNonFull n ∈ (t.insertCalls k v).2 → n < MAX_KEYS) ∧
    (∀ n m, InsertCall.splitChild n m ∈ (t.insertCalls k v).2 →
      n < MAX_KEYS ∧ m = MAX_KEYS) := by
  have hok := treeOk_of_nodeInvariants hinv
  have hb := insertCalls_inBounds hok k v hnew
  obtain ⟨t', ht', _⟩ := insert_spec hok k v hnew
  refine ⟨insertCalls_fst t k v, ⟨t', ht'⟩, ?_, ?_⟩
  · intro n hn
    simpa [InsertCall.inBounds] using hb _ hn
  · intro n m hn
    simpa [InsertCall.inBounds] using hb _ hn

/-- Instance of C12: inserting 27 into `sampleFullChild`, whose right leaf is full. -/
theorem insert_calls_in_bounds_witness :
    sampleFullChild.nodeInvariants = true ∧
    (sampleFullChild.insertCalls 27 "n").2 =
      [InsertCall.insertNonFull 1, InsertCall.splitChild 1 5, InsertCall.insertNonFull 2] ∧
    ((sampleFullChild.insertCalls 27 "n").1 = sampleFullChild.insert 27 "n" ∧
    (∃ t', sampleFullChild.insert 27 "n" = some t') ∧
    (∀ n, InsertCall.insertNonFull n ∈ (sampleFullChild.insertCalls 27 "n").2 → n < MAX_KEYS) ∧
    (∀ n m, InsertCall.splitChild n m ∈ (sampleFullChild.insertCalls 27 "n").2 →
      n < MAX_KEYS ∧ m = MAX_KEYS)) :=
  ⟨by decide, by decide, insert_calls_in_bounds sampleFullChild 27 "n" (by decide) (by decide)⟩

end BTree

namespace Snapshot

/-- C13: for every string `v`, the three unescaping loops of `loadFromFile`
(backslash-bar to bar, then backslash-`[` to `[`, then backslash-`]` to `]`) applied
to the result of the three escaping loops of `saveToFile` on `v` give back `v`. -/
theorem unescape_escape (v : String) :
    String.mk (unescapeValue (escapeValue v.toList)) = v := by
  rw [unescapeValue_escapeValue]
  rfl

end Snapshot

namespace BTree

open BTreeNode Snapshot

end BTree

namespace BTree

open BTreeNode

/-- C15: `saveToFile` of the empty tree writes the header `ORDER=3`,
`ROOT_INDEX=-1`, `NODE_COUNT=0` and no node line; and
`loadFromFile` of any text whose header sets `nodeCount` to 0 returns `true`
(`Except.ok`) with the empty tree, whose `traverseAll()` is empty and `getCount()`
is 0.  The loaded tree is a function of the text alone (`clear()` runs first), so
the previous contents play no part. -/
theorem loadFromFile_zero_count (content : List Char) (order rootIndex : Int)
    (h : Snapshot.parseHeader
        ((Snapshot.split '\n' content).takeWhile (fun l => !l.isEmpty)) (0, -1, 0) =
      Except.ok (order, rootIndex, 0)) :
    empty.saveToFile = "ORDER=3\nROOT_INDEX=-1\nNODE_COUNT=0\n".toList ∧
    ∃ t, loadFromFile content = Except.ok t ∧ t.root = none ∧
      t.traverseAll = [] ∧ t.getCount = 0 := by
  refine ⟨by decide, ⟨none⟩, ?_, rfl, rfl, rfl⟩
  simp [loadFromFile, h]

/-- Instance of C15: the text `saveToFile` writes for the empty tree loads as the
empty tree. -/
theorem loadFromFile_zero_count_witness :
    Snapshot.parseHeader
        ((Snapshot.split '\n' empty.saveToFile).takeWhile (fun l => !l.isEmpty)) (0, -1, 0) =
      Except.ok (3, -1, 0) ∧
    (empty.saveToFile = "ORDER=3\nROOT_INDEX=-1\nNODE_COUNT=0\n".toList ∧
    ∃ t, loadFromFile empty.saveToFile = Except.ok t ∧ t.root = none ∧
      t.traverseAll = [] ∧ t.getCount = 0) :=
  ⟨rfl, loadFromFile_zero_count empty.saveToFile 3 (-1) rfl⟩

end BTree

namespace CircularQueue

/-- C16: for every sequence of `enqueue`, `tryEnqueue`, `dequeue`, `tryDequeue`
(and `close`) calls on a fresh queue, run up to the first call that waits for
ever, the items returned by the successful dequeues, in order, are an initial
segment of the items accepted by the successful enqueues, in order: the accepted
items are the returned ones followed by the items still buffered.  The ring buffer
behaves as the abstract FIFO list `FifoList`: the same calls return, with the same
results, the run stops at the same call for the same reason (never an index outside
the array), and the state reached stands for the list reached. -/
theorem fifo_order {T : Type} [Inhabited T] {CAPACITY : Nat} (hcap : 0 < CAPACITY)
    (calls : List (QueueCall T)) :
    QueueRun.dequeued ((create : CircularQueue T CAPACITY).run calls).log <+:
        QueueRun.accepted ((create : CircularQueue T CAPACITY).run calls).log ∧
      QueueRun.accepted ((create : CircularQueue T CAPACITY).run calls).log =
        QueueRun.dequeued ((create : CircularQueue T CAPACITY).run calls).log ++
          ((create : CircularQueue T CAPACITY).run calls).final.contents ∧
      ((create : CircularQueue T CAPACITY).run calls).log =
        ((FifoList.create : FifoList T CAPACITY).run calls).log ∧
      ((create : CircularQueue T CAPACITY).run calls).stop =
        ((FifoList.create : FifoList T CAPACITY).run calls).stop ∧
      ((create : CircularQueue T CAPACITY).run calls).final.toFifo =
        ((FifoList.create : FifoList T CAPACITY).run calls).final := by
  have hinv := @create_ringInv T CAPACITY _ hcap
  obtain ⟨h1, h2, h3, _⟩ := run_sim calls (create : CircularQueue T CAPACITY) hinv
  have hcr : (create : CircularQueue T CAPACITY).toFifo = FifoList.create := by
    simp [toFifo, create, contents, FifoList.create]
  rw [hcr] at h1 h2 h3
  have hf := FifoList.run_fifo calls (FifoList.create : FifoList T CAPACITY)
  rw [← h1, ← h3] at hf
  simp only [FifoList.create, List.nil_append, toFifo] at hf
  exact ⟨⟨_, hf.symm⟩, hf, h1, h2, h3⟩

/-- Instance of C16: a queue of capacity 2 holding numbers. -/
theorem fifo_order_witness :
    0 < 2 ∧
    QueueRun.accepted ((create : CircularQueue Nat 2).run
      [.enqueue 1, .tryEnqueue 2, .tryEnqueue 3, .dequeue, .enqueue 4, .tryDequeue,
        .tryDequeue, .tryDequeue, .enqueue 5]).log = [1, 2, 4, 5] ∧
    QueueRun.dequeued ((create : CircularQueue Nat 2).run
      [.enqueue 1, .tryEnqueue 2, .tryEnqueue 3, .dequeue, .enqueue 4, .tryDequeue,
        .tryDequeue, .tryDequeue, .enqueue 5]).log = [1, 2, 4] ∧
    QueueRun.dequeued ((create : CircularQueue Nat 2).run
      [.enqueue 1, .tryEnqueue 2, .tryEnqueue 3, .dequeue, .enqueue 4, .tryDequeue,
        .tryDequeue, .tryDequeue, .enqueue 5]).log <+:
      QueueRun.accepted ((create : CircularQueue Nat 2).run
        [.enqueue 1, .tryEnqueue 2, .tryEnqueue 3, .dequeue, .enqueue 4, .tryDequeue,
          .tryDequeue, .tryDequeue, .enqueue 5]).log :=
  ⟨by decide, by decide, by decide,
    (fifo_order (by decide) [.enqueue 1, .tryEnqueue 2, .tryEnqueue 3, .dequeue, .enqueue 4,
      .tryDequeue, .tryDequeue, .tryDequeue, .enqueue 5]).1⟩

/-- C17: `tryEnqueue` on a queue that holds `CAPACITY` items returns `false` at
once and leaves the queue as it was (`head`, `tail`, `count`, the buffer); with
`CAPACITY = 2` the first two `enqueue` calls on a fresh queue return `true`, a
third `tryEnqueue` returns `false` (a third `enqueue` would wait), and after one
`dequeue` the `tryEnqueue` returns `true`. -/
theorem tryEnqueue_full {T : Type} [Inhabited T] {CAPACITY : Nat}
    (q : CircularQueue T CAPACITY) (x : T) (hfull : q.count = CAPACITY) (a b c : T) :
    q.tryEnqueue x = .ok (false, q) ∧
    (create : CircularQueue T 2).enqueue a = .ok (true, ⟨[a, default], 0, 1, 1, false⟩) ∧
    (⟨[a, default], 0, 1, 1, false⟩ : CircularQueue T 2).enqueue b =
      .ok (true, ⟨[a, b], 0, 0, 2, false⟩) ∧
    (⟨[a, b], 0, 0, 2, false⟩ : CircularQueue T 2).contents = [a, b] ∧
    (⟨[a, b], 0, 0, 2, false⟩ : CircularQueue T 2).tryEnqueue c =
      .ok (false, ⟨[a, b], 0, 0, 2, false⟩) ∧
    (⟨[a, b], 0, 0, 2, false⟩ : CircularQueue T 2).enqueue c = .error .blocks ∧
    (⟨[a, b], 0, 0, 2, false⟩ : CircularQueue T 2).dequeue =
      .ok (some a, ⟨[a, b], 1, 0, 1, false⟩) ∧
    (⟨[a, b], 1, 0, 1, false⟩ : CircularQueue T 2).tryEnqueue c =
      .ok (true, ⟨[c, b], 1, 1, 2, false⟩) ∧
    (⟨[c, b], 1, 1, 2, false⟩ : CircularQueue T 2).contents = [b, c] := by
  refine ⟨by simp [tryEnqueue, hfull], ?_, ?_, ?_, ?_, ?_, ?_, ?_, ?_⟩ <;>
    simp [create, enqueue, tryEnqueue, dequeue, store, take, contents, List.range_succ]

/-- Instance of C17: a full queue of capacity 3 whose oldest item is in slot 1. -/
theorem tryEnqueue_full_witness :
    (⟨[7, 5, 6], 1, 1, 3, false⟩ : CircularQueue Nat 3).count = 3 ∧
    (⟨[7, 5, 6], 1, 1, 3, false⟩ : CircularQueue Nat 3).contents = [5, 6, 7] ∧
    (⟨[7, 5, 6], 1, 1, 3, false⟩ : CircularQueue Nat 3).tryEnqueue 8 =
      .ok (false, ⟨[7, 5, 6], 1, 1, 3, false⟩) :=
  ⟨rfl, by decide, (tryEnqueue_full ⟨[7, 5, 6], 1, 1, 3, false⟩ 8 rfl 0 0 0).1⟩

/-- C18: for every queue (in a state satisfying the ring invariant) holding the
items `x1..xk`, `k = count ≥ 0`, after `close()` the next `k` calls of `dequeue`
return `true` with `x1..xk` in that order, and the call after them returns
`false`; none of them waits. -/
theorem dequeue_after_close {T : Type} {CAPACITY : Nat} (q : CircularQueue T CAPACITY)
    (hinv : q.ringInv = true) :
    q.contents.length = q.count ∧
    (q.close.run (List.replicate (q.count + 1) QueueCall.dequeue)).log =
      q.contents.map (fun x => (QueueCall.dequeue, QueueReturn.item (some x))) ++
        [(QueueCall.dequeue, QueueReturn.item none)] ∧
    (q.close.run (List.replicate (q.count + 1) QueueCall.dequeue)).stop = none := by
  have hinv' : q.close.ringInv = true := by simpa [ringInv, close] using hinv
  have h := run_drain q.count q.close hinv' rfl rfl
  have hc : q.close.contents = q.contents := rfl
  rw [hc] at h
  exact ⟨contents_length q hinv, h⟩

/-- Instance of C18: a queue of capacity 3 holding 5, 6 around the end of the array. -/
theorem dequeue_after_close_witness :
    (⟨[6, 0, 5], 2, 1, 2, false⟩ : CircularQueue Nat 3).ringInv = true ∧
    (⟨[6, 0, 5], 2, 1, 2, false⟩ : CircularQueue Nat 3).contents = [5, 6] ∧
    ((⟨[6, 0, 5], 2, 1, 2, false⟩ : CircularQueue Nat 3).close.run
        [.dequeue, .dequeue, .dequeue]).log =
      [(.dequeue, .item (some 5)), (.dequeue, .item (some 6)), (.dequeue, .item none)] :=
  ⟨by decide, by decide, (dequeue_after_close ⟨[6, 0, 5], 2, 1, 2, false⟩ (by decide)).2.1⟩

/-- C19: `close()` twice is `close()` once, and `close()` changes neither the
buffer nor `head`, `tail`, `count`; on a closed queue `enqueue` and `tryEnqueue`
return `false` and leave the queue as it was, full or not; and a closed queue
stays closed, so no later call sequence has an item accepted. -/
theorem closed_rejects_enqueue {T : Type} {CAPACITY : Nat} (q : CircularQueue T CAPACITY)
    (x : T) (hcl : q.closed = true) (q0 : CircularQueue T CAPACITY) (calls : List (QueueCall T)) :
    q0.close.close = q0.close ∧
    q0.close.closed = true ∧
    (q0.close.buffer = q0.buffer ∧ q0.close.head = q0.head ∧ q0.close.tail = q0.tail ∧
      q0.close.count = q0.count ∧ q0.close.contents = q0.contents) ∧
    q.enqueue x = .ok (false, q) ∧
    q.tryEnqueue x = .ok (false, q) ∧
    QueueRun.accepted (q.run calls).log = [] ∧
    (q.run calls).final.closed = true := by
  refine ⟨rfl, rfl, ⟨rfl, rfl, rfl, rfl, rfl⟩, by simp [enqueue, hcl], by simp [tryEnqueue, hcl],
    closed_run calls q hcl⟩

/-- Instance of C19: a closed queue of capacity 3 holding one item. -/
theorem closed_rejects_enqueue_witness :
    (⟨[4, 0, 0], 0, 1, 1, true⟩ : CircularQueue Nat 3).closed = true ∧
    (⟨[4, 0, 0], 0, 1, 1, true⟩ : CircularQueue Nat 3).enqueue 9 =
      .ok (false, ⟨[4, 0, 0], 0, 1, 1, true⟩) ∧
    (⟨[4, 0, 0], 0, 1, 1, true⟩ : CircularQueue Nat 3).tryEnqueue 9 =
      .ok (false, ⟨[4, 0, 0], 0, 1, 1, true⟩) :=
  ⟨rfl,
    (closed_rejects_enqueue ⟨[4, 0, 0], 0, 1, 1, true⟩ 9 rfl ⟨[4, 0, 0], 0, 1, 1, true⟩ []).2.2.2.1,
    (closed_rejects_enqueue ⟨[4, 0, 0], 0, 1, 1, true⟩ 9 rfl ⟨[4, 0, 0], 0, 1, 1, true⟩ []).2.2.2.2.1⟩

end CircularQueue

namespace Response

open Snapshot

/-- C20: for every `Response` whose `message` and `data` do not contain the
two-character token backslash, `p` (they may contain any number of `|`), and whose
`clientId`, `requestId` and status code are `int` values, `deserialize` of
`serialize` returns (throws nothing) and gives back the same five fields. -/
theorem deserialize_serialize (r : Response)
    (hclient : -2147483648 ≤ r.clientId ∧ r.clientId ≤ 2147483647)
    (hrequest : -2147483648 ≤ r.requestId ∧ r.requestId ≤ 2147483647)
    (hstatus : -2147483648 ≤ r.status ∧ r.status ≤ 2147483647)
    (hmessage : indexOf ['\\', 'p'] r.message.toList = none)
    (hdata : indexOf ['\\', 'p'] r.data.toList = none) :
    deserialize r.serialize = Except.ok r := by
  obtain ⟨clientId, requestId, status, message, data⟩ := r
  simp only at hclient hrequest hstatus hmessage hdata
  have htok := split_five (showInt_no_bar clientId) (showInt_no_bar requestId)
    (showInt_no_bar status) (escape_no_bar message.toList) (escape_no_bar data.toList)
  have hd4 : ((if (escape data.toList).isEmpty then [] else [escape data.toList] :
      List (List Char))[0]?).getD [] = escape data.toList := by
    cases h : escape data.toList with
    | nil => rfl
    | cons x xs => rfl
  unfold deserialize serialize
  simp only [htok, List.getElem?_cons_zero, List.getElem?_cons_succ,
    stoi_showInt _ hclient.1 hclient.2, stoi_showInt _ hrequest.1 hrequest.2,
    stoi_showInt _ hstatus.1 hstatus.2, Option.getD_some, hd4,
    unescapeBars_escapeBars hmessage, unescapeBars_escapeBars hdata]
  rfl

/-- Instance of C20: a response whose message holds `|` and a backslash. -/
theorem deserialize_serialize_witness :
    indexOf ['\\', 'p'] "a|b\\|p".toList = none ∧
    serialize ⟨-12, 7, 2, "a|b\\|p", "x||y"⟩ = "-12|7|2|a\\pb\\\\pp|x\\p\\py".toList ∧
    deserialize (serialize ⟨-12, 7, 2, "a|b\\|p", "x||y"⟩) =
      Except.ok ⟨-12, 7, 2, "a|b\\|p", "x||y"⟩ :=
  ⟨by decide, by decide,
    deserialize_serialize ⟨-12, 7, 2, "a|b\\|p", "x||y"⟩ (by decide) (by decide) (by decide)
      (by decide) (by decide)⟩

end Response

namespace Request

open Snapshot

/-- C21: for every `Request` whose `clientId` and `requestId` are `int` values,
whose type is one of the ten enumerators (0..9), whose parameter keys contain
none of `|`, `;`, `=` and whose parameter values contain none of `|`, `;`,
`deserialize` of `serialize` returns (throws nothing) and gives back the request:
the same `clientId`, `requestId`, type and the same map of parameters. -/
theorem wire_round_trip (r : Request)
    (hclient : -2147483648 ≤ r.clientId ∧ r.clientId ≤ 2147483647)
    (hrequest : -2147483648 ≤ r.requestId ∧ r.requestId ≤ 2147483647)
    (htype : 0 ≤ r.type ∧ r.type ≤ 9)
    (hmap : StdMap.ascending r.params = true)
    (hkeys : ∀ p ∈ r.params, '|' ∉ p.1 ∧ ';' ∉ p.1 ∧ '=' ∉ p.1)
    (hvals : ∀ p ∈ r.params, '|' ∉ p.2 ∧ ';' ∉ p.2) :
    deserialize r.serialize = Except.ok r := by
  obtain ⟨clientId, requestId, type, params⟩ := r
  simp only at hclient hrequest htype hmap hkeys hvals
  have hsorted : params.Pairwise (fun a b => a.1 < b.1) := by
    simpa [StdMap.ascending] using hmap
  have hne : ∀ x ∈ params.map paramText, x ≠ [] := by
    intro x hx
    obtain ⟨p, _, rfl⟩ := List.mem_map.1 hx
    simp [paramText]
  have hbar : '|' ∉ joinWith ';' (params.map paramText) := by
    apply joinWith_no_char '|' ';' (by decide)
    intro x hx
    obtain ⟨p, hp, rfl⟩ := List.mem_map.1 hx
    simp only [paramText, List.mem_append, List.mem_cons, not_or]
    exact ⟨(hkeys p hp).1, by decide, (hvals p hp).1⟩
  have hsemi : ∀ x ∈ params.map paramText, ';' ∉ x ∧ x ≠ [] := by
    intro x hx
    refine ⟨?_, hne x hx⟩
    obtain ⟨p, hp, rfl⟩ := List.mem_map.1 hx
    simp only [paramText, List.mem_append, List.mem_cons, not_or]
    exact ⟨(hkeys p hp).2.1, by decide, (hvals p hp).2⟩
  have htok := split_four (showInt_no_bar clientId) (showInt_no_bar requestId)
    (showInt_no_bar type) hbar
  have hfold := foldl_parseParam params [] (by simpa using hsorted) (fun p hp => (hkeys p hp).2.2)
  rw [List.nil_append] at hfold
  unfold deserialize serialize
  simp only [htok, List.getElem?_cons_zero, List.getElem?_cons_succ,
    stoi_showInt _ hclient.1 hclient.2, stoi_showInt _ hrequest.1 hrequest.2,
    stoi_showInt _ (by omega : -2147483648 ≤ type) (by omega : type ≤ 2147483647)]
  cases params with
  | nil => rfl
  | cons p ps =>
    have hemp : (joinWith ';' ((p :: ps).map paramText)).isEmpty = false := by
      rw [joinWith_isEmpty ';' _ hne]; rfl
    simp only [hemp, Bool.false_eq_true, if_false, List.getElem?_cons_zero,
      split_joinWith ';' _ hsemi, hfold]

/-- Instance of C21: a request with two parameters, one value holding `=`. -/
theorem wire_round_trip_witness :
    serialize ⟨3, 4, 5, [("id".toList, "7".toList), ("name".toList, "a=b".toList)]⟩ =
      "3|4|5|id=7;name=a=b".toList ∧
    deserialize (serialize ⟨3, 4, 5, [("id".toList, "7".toList), ("name".toList, "a=b".toList)]⟩) =
      Except.ok ⟨3, 4, 5, [("id".toList, "7".toList), ("name".toList, "a=b".toList)]⟩ :=
  ⟨by decide,
    wire_round_trip ⟨3, 4, 5, [("id".toList, "7".toList), ("name".toList, "a=b".toList)]⟩
      (by decide) (by decide) (by decide) (by decide) (by decide) (by decide)⟩

end Request

namespace Request

open Snapshot

/-- C22 fails as stated: the line `1|2|42|` has the type code 42, outside 0..9;
`Request::deserialize` succeeds, but the type of the request is 42 (the value of
the `static_cast`), which is not `RequestType::UNKNOWN`. -/
theorem out_of_range_code_kept :
    deserialize "1|2|42|".toList = Except.ok ⟨1, 2, 42, []⟩ ∧
      (42 : Int) ≠ RequestType.UNKNOWN ∧
      ¬ ∃ r : Request, deserialize "1|2|42|".toList = Except.ok r ∧
        r.type = RequestType.UNKNOWN := by
  refine ⟨rfl, by decide, ?_⟩
  rintro ⟨r, hr, ht⟩
  have h : deserialize "1|2|42|".toList = Except.ok ⟨1, 2, 42, []⟩ := rfl
  rw [h] at hr
  cases hr
  revert ht
  decide

/-- C22, amended: when the first three fields of a line are read by `std::stoi` as
`c`, `rq` and `t`, with `t` outside 0..9, `Request::deserialize` succeeds and the
request holds `t` itself as its type, which is not `UNKNOWN`; `requestTypeToString`
names it `UNKNOWN`.  Likewise `Response::deserialize` succeeds on such a line and
keeps `t` as the status. -/
theorem out_of_range_code (data tok0 tok1 tok2 : List Char) (c rq t : Int)
    (h0 : (split '|' data)[0]? = some tok0) (h1 : (split '|' data)[1]? = some tok1)
    (h2 : (split '|' data)[2]? = some tok2)
    (hc : stoi tok0 = Except.ok c) (hrq : stoi tok1 = Except.ok rq)
    (ht : stoi tok2 = Except.ok t)
    (hout : t < 0 ∨ 9 < t) :
    (∃ r : Request, deserialize data = Except.ok r ∧ r.clientId = c ∧ r.requestId = rq ∧
      r.type = t ∧ r.type ≠ RequestType.UNKNOWN ∧ requestTypeToString r.type = "UNKNOWN") ∧
    (∃ resp : Response, Response.deserialize data = Except.ok resp ∧ resp.clientId = c ∧
      resp.requestId = rq ∧ resp.status = t) := by
  have hname : requestTypeToString t = "UNKNOWN" := by
    simp only [requestTypeToString, RequestType.ADD_LOCATION, RequestType.ADD_ROAD,
      RequestType.FIND_PATH, RequestType.GET_LOCATIONS, RequestType.GET_ROADS,
      RequestType.GET_LOCATION, RequestType.INIT_SAMPLE, RequestType.SAVE_DATA,
      RequestType.SHUTDOWN]
    repeat (rw [if_neg (by omega)])
  have hne : t ≠ RequestType.UNKNOWN := by
    simp only [RequestType.UNKNOWN]; omega
  constructor
  · simp only [deserialize, h0, h1, h2, hc, hrq, ht]
    exact ⟨_, rfl, rfl, rfl, rfl, hne, hname⟩
  · simp only [Response.deserialize, h0, h1, h2, hc, hrq, ht]
    exact ⟨_, rfl, rfl, rfl, rfl⟩

theorem out_of_range_code_witness :
    (∃ r : Request, deserialize "1|2|42|".toList = Except.ok r ∧ r.clientId = 1 ∧
      r.requestId = 2 ∧ r.type = 42 ∧ r.type ≠ RequestType.UNKNOWN ∧
      requestTypeToString r.type = "UNKNOWN") ∧
    (∃ resp : Response, Response.deserialize "1|2|42|".toList = Except.ok resp ∧
      resp.clientId = 1 ∧ resp.requestId = 2 ∧ resp.status = 42) :=
  out_of_range_code "1|2|42|".toList "1".toList "2".toList "42".toList 1 2 42
    rfl rfl rfl rfl rfl rfl (by decide)

end Request

namespace Server

/-- C23, the code at the failing input: the line `hello` makes `std::stoi` throw
inside `Request::deserialize`, and the exception leaves the body of the read loop
of `handleClient`, which has no handler. -/
theorem malformed_line_throws :
    Request.deserialize "hello".toList = Except.error Snapshot.LoadError.thrown ∧
    handleMessage 1 1 5 CircularQueue.create "hello".toList =
      Except.error Snapshot.LoadError.thrown ∧
    handleMessage 1 1 5 CircularQueue.create "|1|2|".toList =
      Except.error Snapshot.LoadError.thrown ∧
    handleMessage 1 1 5 CircularQueue.create "1|2|99999999999|".toList =
      Except.error Snapshot.LoadError.thrown :=
  ⟨rfl, rfl, rfl, rfl⟩

end Server

namespace Server

/-- C24 fails as stated: on the empty database the request `GET_LOCATION` with
`id=7`, which is not the key of a stored location, is answered with the status
`FAILURE` (1), the status set by `Response::error`, and not with `NOT_FOUND` (2). -/
theorem get_location_status_failure :
    ∃ resp st', processRequest DoubleText.plain ⟨DatabaseManager.create, DataFiles.blank, true⟩
        ⟨1, 2, RequestType.GET_LOCATION, [("id".toList, "7".toList)]⟩ = Except.ok (resp, st') ∧
      resp.status = ResponseStatus.FAILURE ∧ resp.status ≠ ResponseStatus.NOT_FOUND :=
  ⟨_, _, rfl, rfl, by decide⟩

/-- C24, amended: for every database state whose location store is a search tree
and every `GET_LOCATION` request whose id is not the key of a stored location,
`processRequest` returns the response with the request's `clientId` and
`requestId`, the status `FAILURE`, the message `Location not found` and no data,
and leaves the state unchanged. -/
theorem get_location_missing (dt : DoubleText) (st : ServerState) (req : Request)
    (htype : req.type = RequestType.GET_LOCATION)
    (hinv : st.database.locationBTree.searchTreeInv = true)
    (hmiss : ∀ e ∈ st.database.locationBTree.traverseAll, e.1 ≠ req.getParamInt "id".toList 0) :
    processRequest dt st req =
      Except.ok (⟨req.clientId, req.requestId, ResponseStatus.FAILURE, "Location not found", ""⟩,
        st) := by
  have hs := BTree.search_absent hinv _ hmiss
  have he : ("" : String).isEmpty = true := by decide
  have hz : ¬ Location.empty.id > 0 := by decide
  unfold processRequest
  rw [if_neg (by rw [htype]; decide), if_neg (by rw [htype]; decide),
    if_neg (by rw [htype]; decide), if_neg (by rw [htype]; decide),
    if_neg (by rw [htype]; decide), if_pos htype]
  simp only [DatabaseManager.getLocation, hs, he, if_true, if_neg hz, Response.error]

theorem get_location_missing_witness :
    processRequest DoubleText.plain ⟨DatabaseManager.create, DataFiles.blank, true⟩
        ⟨1, 2, RequestType.GET_LOCATION, [("id".toList, "7".toList)]⟩ =
      Except.ok (⟨1, 2, ResponseStatus.FAILURE, "Location not found", ""⟩,
        ⟨DatabaseManager.create, DataFiles.blank, true⟩) :=
  get_location_missing DoubleText.plain ⟨DatabaseManager.create, DataFiles.blank, true⟩
    ⟨1, 2, RequestType.GET_LOCATION, [("id".toList, "7".toList)]⟩ rfl rfl
    (by intro e he; cases he)

end Server

namespace DatabaseManager

/-- C25: on a database whose location store is a search tree, `addLocation` with
an empty name, a latitude outside [-90, 90] or a longitude outside [-180, 180],
and `addEdge` with an endpoint that is not a stored location, with
`sourceId = destId` or with `distance <= 0`, return -1 and the manager is as
before the call; and whenever either call returns -1, the manager (both stores,
the graph, `nextLocationId`, `nextEdgeId`, `dataModified`) is as before the call. -/
theorem rejected_input_no_change (dt : DoubleText) (db : DatabaseManager)
    (name type roadName : String) (lat lon distance : Double) (sourceId destId : Int)
    (bidirectional : Bool) (hinv : db.locationBTree.searchTreeInv = true) :
    ((name.isEmpty = true ∨
        ¬ (Double.le (.finite (-90)) lat = true ∧ Double.le lat (.finite 90) = true) ∨
        ¬ (Double.le (.finite (-180)) lon = true ∧ Double.le lon (.finite 180) = true)) →
      addLocation dt db name lat lon type = Except.ok (-1, db)) ∧
    (((∀ e ∈ db.locationBTree.traverseAll, e.1 ≠ sourceId) ∨
        (∀ e ∈ db.locationBTree.traverseAll, e.1 ≠ destId) ∨
        sourceId = destId ∨ Double.le distance (.finite 0) = true) →
      addEdge dt db sourceId destId distance roadName bidirectional = Except.ok (-1, db)) ∧
    (∀ db', addLocation dt db name lat lon type = Except.ok (-1, db') → db' = db) ∧
    (∀ db', addEdge dt db sourceId destId distance roadName bidirectional =
      Except.ok (-1, db') → db' = db) := by
  refine ⟨?_, ?_, fun db' h => addLocation_minus_one dt db db' name lat lon type h,
    fun db' h => addEdge_minus_one dt db db' sourceId destId distance roadName bidirectional h⟩
  · intro h
    apply addLocation_invalid
    simp only [Location.isValid]
    rcases h with h | h | h
    · simp [h]
    · by_cases h1 : Double.le (.finite (-90)) lat = true
      · have h2 : Double.le lat (.finite 90) = false := by
          simpa using fun h2 => h ⟨h1, h2⟩
        simp [h2]
      · simp only [Bool.not_eq_true] at h1
        simp [h1]
    · by_cases h1 : Double.le (.finite (-180)) lon = true
      · have h2 : Double.le lon (.finite 180) = false := by
          simpa using fun h2 => h ⟨h1, h2⟩
        simp [h2]
      · simp only [Bool.not_eq_true] at h1
        simp [h1]
  · intro h
    apply addEdge_rejects dt db sourceId destId distance roadName bidirectional hinv
    rcases h with h | h | h | h
    · exact Or.inl (BTree.exists_absent hinv _ h)
    · exact Or.inr (Or.inl (BTree.exists_absent hinv _ h))
    · refine Or.inr (Or.inr ?_)
      simp [Edge.isValid, h]
    · refine Or.inr (Or.inr ?_)
      simp [Edge.isValid, Double.lt_false_of_le h]

theorem rejected_input_no_change_witness :
    ((("" : String).isEmpty = true ∨
        ¬ (Double.le (.finite (-90)) (.finite 0) = true ∧
          Double.le (.finite 0) (.finite 90) = true) ∨
        ¬ (Double.le (.finite (-180)) (.finite 0) = true ∧
          Double.le (.finite 0) (.finite 180) = true)) →
      addLocation DoubleText.plain create "" (.finite 0) (.finite 0) "park" =
        Except.ok (-1, create)) ∧
    (((∀ e ∈ create.locationBTree.traverseAll, e.1 ≠ 1) ∨
        (∀ e ∈ create.locationBTree.traverseAll, e.1 ≠ 2) ∨
        (1 : Int) = 2 ∨ Double.le (.finite 1) (.finite 0) = true) →
      addEdge DoubleText.plain create 1 2 (.finite 1) "road" true = Except.ok (-1, create)) ∧
    (∀ db', addLocation DoubleText.plain create "" (.finite 0) (.finite 0) "park" =
      Except.ok (-1, db') → db' = create) ∧
    (∀ db', addEdge DoubleText.plain create 1 2 (.finite 1) "road" true =
      Except.ok (-1, db') → db' = create) :=
  rejected_input_no_change DoubleText.plain create "" "park" "road" (.finite 0) (.finite 0)
    (.finite 1) 1 2 true rfl

end DatabaseManager

namespace Server

/-- C29 fails as stated: both files exist, the locations file cannot be opened
(`loadFromFile` returns `false` for it) and the edges file is read; `initialize`
returns `false` and `main` returns 1 instead of starting the server. -/
theorem unreadable_snapshot_aborts :
    DatabaseManager.dataFilesExist ⟨⟨true, false, true, []⟩, ⟨true, true, true, []⟩⟩ = true ∧
    (BTree.empty.loadFromFileAt ⟨true, false, true, []⟩).toOption.map Prod.fst = some false ∧
    (DatabaseManager.initializeDatabase DoubleText.plain
      ⟨⟨true, false, true, []⟩, ⟨true, true, true, []⟩⟩).toOption.map Prod.fst = some false ∧
    (startDatabase DoubleText.plain
      ⟨⟨true, false, true, []⟩, ⟨true, true, true, []⟩⟩).toOption = some none :=
  ⟨rfl, rfl, rfl, rfl⟩

end Server

namespace Server

/-- C29, amended: if both snapshot files exist and `loadFromFile` returns `false`
for the locations or the edges file, `DatabaseManager::initialize` does not report
success and `main` does not go on to start the server: whenever `initialize`
returns, it returns `false`, the store whose file was not read is empty, and
`main` returns 1; when neither file is read, `initialize` does return, with both
stores and the graph empty. -/
theorem unreadable_snapshot_fatal (dt : DoubleText) (files : DataFiles)
    (hexist : DatabaseManager.dataFilesExist files = true)
    (hfail : BTree.empty.loadFromFileAt files.locationFile = Except.ok (false, BTree.empty) ∨
      BTree.empty.loadFromFileAt files.edgeFile = Except.ok (false, BTree.empty)) :
    (∀ db, DatabaseManager.initializeDatabase dt files ≠ Except.ok (true, db)) ∧
    (∀ db, startDatabase dt files ≠ Except.ok (some db)) ∧
    (∀ b db, DatabaseManager.initializeDatabase dt files = Except.ok (b, db) →
      b = false ∧ startDatabase dt files = Except.ok none ∧
      (BTree.empty.loadFromFileAt files.locationFile = Except.ok (false, BTree.empty) →
        db.locationBTree = BTree.empty) ∧
      (BTree.empty.loadFromFileAt files.edgeFile = Except.ok (false, BTree.empty) →
        db.edgeBTree = BTree.empty)) ∧
    (BTree.empty.loadFromFileAt files.locationFile = Except.ok (false, BTree.empty) →
      BTree.empty.loadFromFileAt files.edgeFile = Except.ok (false, BTree.empty) →
      DatabaseManager.initializeDatabase dt files =
        Except.ok (false, DatabaseManager.create) ∧
      startDatabase dt files = Except.ok none) := by
  have key : ∀ b db, DatabaseManager.initializeDatabase dt files = Except.ok (b, db) →
      b = false ∧
      (BTree.empty.loadFromFileAt files.locationFile = Except.ok (false, BTree.empty) →
        db.locationBTree = BTree.empty) ∧
      (BTree.empty.loadFromFileAt files.edgeFile = Except.ok (false, BTree.empty) →
        db.edgeBTree = BTree.empty) := by
    intro b db h
    unfold DatabaseManager.initializeDatabase at h
    rw [if_pos hexist] at h
    obtain ⟨hb, hl, he⟩ := DatabaseManager.loadData_flag dt files b db h
    refine ⟨?_, fun hc => hl (DatabaseManager.loadFromFileAt_false hc),
      fun hc => he (DatabaseManager.loadFromFileAt_false hc)⟩
    rcases hfail with hc | hc
    · rw [hb, DatabaseManager.loadFromFileAt_false hc]; rfl
    · rw [hb, DatabaseManager.loadFromFileAt_false hc, Bool.and_false]
  refine ⟨?_, ?_, ?_, ?_⟩
  · intro db h
    have := (key true db h).1
    cases this
  · intro db h
    unfold startDatabase at h
    split at h
    · cases h
    · rename_i db' h'
      have := (key true db' h').1
      cases this
    · cases h
  · intro b db h
    obtain ⟨hb, hl, he⟩ := key b db h
    subst hb
    refine ⟨rfl, ?_, hl, he⟩
    simp only [startDatabase, h]
  · intro h1 h2
    have e1 := DatabaseManager.loadFromFileAt_false h1
    have e2 := DatabaseManager.loadFromFileAt_false h2
    have hi : DatabaseManager.initializeDatabase dt files =
        Except.ok (false, DatabaseManager.create) := by
      unfold DatabaseManager.initializeDatabase
      rw [if_pos hexist]
      simp only [DatabaseManager.loadData, BTree.loadFromFileAt, DatabaseManager.create, e1, e2]
      rfl
    exact ⟨hi, by simp only [startDatabase, hi]⟩

theorem unreadable_snapshot_fatal_witness :
    (∀ db, DatabaseManager.initializeDatabase DoubleText.plain
      ⟨⟨true, false, true, []⟩, ⟨true, true, true, []⟩⟩ ≠ Except.ok (true, db)) ∧
    (∀ db, startDatabase DoubleText.plain
      ⟨⟨true, false, true, []⟩, ⟨true, true, true, []⟩⟩ ≠ Except.ok (some db)) ∧
    (∀ b db, DatabaseManager.initializeDatabase DoubleText.plain
        ⟨⟨true, false, true, []⟩, ⟨true, true, true, []⟩⟩ = Except.ok (b, db) →
      b = false ∧
      startDatabase DoubleText.plain
        ⟨⟨true, false, true, []⟩, ⟨true, true, true, []⟩⟩ = Except.ok none ∧
      (BTree.empty.loadFromFileAt ⟨true, false, true, []⟩ = Except.ok (false, BTree.empty) →
        db.locationBTree = BTree.empty) ∧
      (BTree.empty.loadFromFileAt ⟨true, true, true, []⟩ = Except.ok (false, BTree.empty) →
        db.edgeBTree = BTree.empty)) ∧
    (BTree.empty.loadFromFileAt ⟨true, false, true, []⟩ = Except.ok (false, BTree.empty) →
      BTree.empty.loadFromFileAt ⟨true, true, true, []⟩ = Except.ok (false, BTree.empty) →
      DatabaseManager.initializeDatabase DoubleText.plain
          ⟨⟨true, false, true, []⟩, ⟨true, true, true, []⟩⟩ =
        Except.ok (false, DatabaseManager.create) ∧
      startDatabase DoubleText.plain
        ⟨⟨true, false, true, []⟩, ⟨true, true, true, []⟩⟩ = Except.ok none) :=
  unreadable_snapshot_fatal DoubleText.plain
    ⟨⟨true, false, true, []⟩, ⟨true, true, true, []⟩⟩ rfl (Or.inl rfl)

/-- C30 fails as stated: with `g_serverRunning` cleared and the queue closed while
one request is still buffered, a worker that tests its loop condition leaves the
loop at once: nothing is sent and the request is still in the queue.  The same
happens to the worker that processes `SHUTDOWN` itself: it answers that request,
leaves its loop, and the request behind it stays in the queue. -/
theorem buffered_request_left :
    closedQueueOne.closed = true ∧
    closedQueueOne.contents = [(⟨1, 1, RequestType.GET_LOCATIONS, []⟩, 5)] ∧
    workerThread DoubleText.plain 3 ⟨DatabaseManager.create, DataFiles.blank, false⟩
        closedQueueOne =
      ⟨[], ⟨DatabaseManager.create, DataFiles.blank, false⟩, closedQueueOne, .exited⟩ ∧
    shutdownQueue.contents =
      [(⟨1, 1, RequestType.SHUTDOWN, []⟩, 5), (⟨2, 1, RequestType.GET_LOCATIONS, []⟩, 6)] ∧
    (workerThread DoubleText.plain 3 ⟨DatabaseManager.create, DataFiles.blank, true⟩
        shutdownQueue).sent = [(5, ⟨1, 1, ResponseStatus.SUCCESS, "Server shutting down", ""⟩)] ∧
    (workerThread DoubleText.plain 3 ⟨DatabaseManager.create, DataFiles.blank, true⟩
        shutdownQueue).queue.close.contents = [(⟨2, 1, RequestType.GET_LOCATIONS, []⟩, 6)] ∧
    (workerThread DoubleText.plain 3 ⟨DatabaseManager.create, DataFiles.blank, true⟩
        shutdownQueue).queue.close.dequeue.toOption.map Prod.fst =
      some (some (⟨2, 1, RequestType.GET_LOCATIONS, []⟩, 6)) :=
  ⟨rfl, rfl, rfl, rfl, rfl, rfl, rfl⟩

/-- C30, amended: once `g_serverRunning` is cleared, a worker leaves its loop at
its next test of the flag, whatever the queue holds and without calling `dequeue`
again.  A worker that is inside `dequeue` at that moment processes the one request
it is handed, sends the response and then leaves its loop; when `dequeue` reports
closed-and-empty it leaves its loop with nothing sent. -/
theorem worker_after_shutdown (dt : DoubleText) (fuel : Nat) (st : ServerState)
    (q : CircularQueue (Request × Int) QUEUE_CAPACITY) (hflag : st.serverRunning = false) :
    workerThread dt (fuel + 1) st q = ⟨[], st, q, .exited⟩ ∧
    (∀ item q' response st', q.dequeue = Except.ok (some item, q') →
      processRequest dt st item.1 = Except.ok (response, st') →
      workerBody dt (workerThread dt (fuel + 1)) st q =
        ⟨[(item.2, response)], st', q', .exited⟩) ∧
    (∀ q', q.dequeue = Except.ok (none, q') →
      workerBody dt (workerThread dt (fuel + 1)) st q = ⟨[], st, q', .exited⟩) := by
  refine ⟨workerThread_stopped dt fuel st q hflag, ?_, ?_⟩
  · intro item q' response st' hd hp
    have hflag' := processRequest_flag dt st st' item.1 response hp hflag
    simp only [workerBody, hd, hp, workerThread_stopped dt fuel st' q' hflag']
  · intro q' hd
    simp only [workerBody, hd, workerThread_stopped dt fuel st q' hflag]

theorem worker_after_shutdown_witness :
    workerThread DoubleText.plain (2 + 1) ⟨DatabaseManager.create, DataFiles.blank, false⟩
        closedQueueOne =
      ⟨[], ⟨DatabaseManager.create, DataFiles.blank, false⟩, closedQueueOne, .exited⟩ ∧
    (∀ item q' response st', closedQueueOne.dequeue = Except.ok (some item, q') →
      processRequest DoubleText.plain ⟨DatabaseManager.create, DataFiles.blank, false⟩ item.1 =
        Except.ok (response, st') →
      workerBody DoubleText.plain (workerThread DoubleText.plain (2 + 1))
          ⟨DatabaseManager.create, DataFiles.blank, false⟩ closedQueueOne =
        ⟨[(item.2, response)], st', q', .exited⟩) ∧
    (∀ q', closedQueueOne.dequeue = Except.ok (none, q') →
      workerBody DoubleText.plain (workerThread DoubleText.plain (2 + 1))
          ⟨DatabaseManager.create, DataFiles.blank, false⟩ closedQueueOne =
        ⟨[], ⟨DatabaseManager.create, DataFiles.blank, false⟩, q', .exited⟩) :=
  worker_after_shutdown DoubleText.plain 2 ⟨DatabaseManager.create, DataFiles.blank, false⟩
    closedQueueOne rfl

end Server

namespace Navigation

/-- C26: for every text form of `double`, every manager and every pair of files,
`initializeSampleData` returns and leaves the graph of the locations 1..5 and the
seven bidirectional edges, and on that graph `dijkstra(1, 5)` returns
`found = true`, the path `[1, 4, 5]` and the total distance 2 (0.9 + 1.1 as exact
rationals); the route `[1, 3, 5]` has the total 2.8. -/
theorem sample_route (dt : DoubleText) (db : DatabaseManager) (files : DataFiles) :
    ∃ db' files', db.initializeSampleData dt files = Except.ok (db', files') ∧
      db'.graph = Graph.sample ∧
      dijkstra db'.graph 1 5 = some ⟨true, [1, 4, 5], .finite 2, ""⟩ ∧
      db'.graph.follows [1, 4, 5] [9 / 10, 11 / 10] = true ∧
      db'.graph.follows [1, 3, 5] [15 / 10, 13 / 10] = true ∧
      ([15 / 10, 13 / 10] : List ℚ).sum = 28 / 10 := by
  obtain ⟨db', files', h1, h2⟩ := DatabaseManager.initializeSampleData_graph dt db files
  refine ⟨db', files', h1, h2, ?_, ?_, ?_, by norm_num⟩
  · rw [h2]; decide!
  · rw [h2]; decide!
  · rw [h2]; decide!

end Navigation

namespace Navigation

/-- C27 fails as stated.  In the graph with the nodes -1 and 1 where node 1 lists
node -1 at distance 1 (a positive distance, pointing to an existing node),
`dijkstra(1, -1)` returns `found = true` with the empty path, which does not start
at the source: `reconstructPath` takes the id -1 for its end marker.  In the graph
1 -> 2 -> 3 with two distances of `2^1023` node 3 is reachable from node 1, but
`dijkstra(1, 3)` returns `found = false`: the sum of the two distances is `+inf`
in `double` arithmetic, which is the mark of an unreached node.  In the graph
1 -> 2 -> 3 with the distances `0.1` and `0.7` (their `double` values)
`dijkstra(1, 3)` returns the total 0.7999999999999999, the `double` nearest to
the sum, which is not the sum of the two distances as exact rationals. -/
theorem sentinel_node_empty_path :
    (Graph.withMinusOne.keyedById = true ∧ Graph.withMinusOne.positiveArcs = true ∧
      Graph.withMinusOne.nodeExists 1 = true ∧ Graph.withMinusOne.nodeExists (-1) = true ∧
      Graph.withMinusOne.follows [1, -1] [1] = true ∧
      dijkstra Graph.withMinusOne 1 (-1) = some ⟨true, [], .finite 1, ""⟩ ∧
      ([] : List Int).head? ≠ some 1) ∧
    (Graph.withHugeArcs.keyedById = true ∧ Graph.withHugeArcs.positiveArcs = true ∧
      Graph.withHugeArcs.nodeExists (-1) = false ∧
      Graph.withHugeArcs.nodeExists 1 = true ∧ Graph.withHugeArcs.nodeExists 3 = true ∧
      Graph.withHugeArcs.follows [1, 2, 3] [2 ^ 1023, 2 ^ 1023] = true ∧
      dijkstra Graph.withHugeArcs 1 3 =
        some ⟨false, [], .finite 0, "No path found from a to c."⟩) ∧
    (Graph.withTenths.keyedById = true ∧ Graph.withTenths.positiveArcs = true ∧
      Graph.withTenths.nodeExists (-1) = false ∧
      Graph.withTenths.nodeExists 1 = true ∧ Graph.withTenths.nodeExists 3 = true ∧
      Graph.withTenths.follows [1, 2, 3]
        [3602879701896397 / 36028797018963968, 3152519739159347 / 4503599627370496] = true ∧
      dijkstra Graph.withTenths 1 3 =
        some ⟨true, [1, 2, 3], .finite (7205759403792793 / 9007199254740992), ""⟩ ∧
      ([3602879701896397 / 36028797018963968, 3152519739159347 / 4503599627370496] :
        List ℚ).sum ≠ 7205759403792793 / 9007199254740992) := by
  refine ⟨⟨by decide, by decide!, by decide, by decide, by decide!, by decide!, by decide⟩,
    ⟨by decide, by decide!, by decide, by decide, by decide, by decide!, by decide!⟩,
    ⟨by decide, by decide!, by decide, by decide, by decide, by decide!, by decide!,
      by decide!⟩⟩

/-- C27, amended: for every graph in which no node has the id -1, whose adjacency
entries have positive finite distances and point to existing nodes, and every
pair of existing nodes source and dest, `dijkstra(source, dest)` returns.  The
total of a node list that follows adjacency entries is the sum of their distances
added up from the source on in `double` arithmetic (`total`: each sum rounded to
the nearest `double`, `+inf` beyond the largest one).  `dijkstra` returns
`found = true` exactly when some node list from source to dest follows adjacency
entries and has a finite total; then `path` starts at source, ends at dest and
follows adjacency entries, `totalDistance` is the total of `path`, it is finite,
and it is no larger than the total of any node list from source to dest that
follows adjacency entries. -/
theorem dijkstra_shortest (g : Graph) (sourceId destinationId : Int)
    (hkeys : g.keyedById = true) (hpos : g.positiveArcs = true)
    (hsentinel : g.nodeExists (-1) = false)
    (hs : g.nodeExists sourceId = true) (hd : g.nodeExists destinationId = true) :
    ∃ r, dijkstra g sourceId destinationId = some r ∧
      (r.found = true ↔ ∃ p ds, p.head? = some sourceId ∧
        p.getLast? = some destinationId ∧ g.follows p ds = true ∧
        total ds ≠ Double.posInf) ∧
      (r.found = true → ∃ ds : List ℚ, r.path.head? = some sourceId ∧
        r.path.getLast? = some destinationId ∧ g.follows r.path ds = true ∧
        r.totalDistance = total ds ∧ (∃ q : ℚ, total ds = Double.finite q) ∧
        ∀ p' ds', p'.head? = some sourceId → p'.getLast? = some destinationId →
          g.follows p' ds' = true → (total ds).le (total ds') = true) := by
  have hP := positive_of_positiveArcs hpos
  have hne : g.isEmpty = false := by
    simp only [Graph.isEmpty, Graph.nodeExists] at hs ⊢
    cases hn : g.nodes with
    | nil => rw [hn] at hs; simp [StdMap.find] at hs
    | cons a l => rfl
  have hfin : ∀ c : Double, c.isDist → c ≠ Double.posInf → ∃ q : ℚ, c = Double.finite q := by
    intro c hc hne
    cases c with
    | finite q => exact ⟨q, rfl⟩
    | posInf => exact absurd rfl hne
    | negInf => exact absurd hc id
    | nan => exact absurd hc id
  simp only [dijkstra, hne, hs, hd, Bool.not_true, Bool.false_eq_true, if_false]
  by_cases hst : sourceId = destinationId
  · subst hst
    rw [if_pos rfl]
    refine ⟨_, rfl, ⟨fun _ => ⟨[sourceId], [], rfl, rfl, rfl, by simp [total]⟩, fun _ => rfl⟩,
      fun _ => ⟨[], rfl, rfl, rfl, rfl, ⟨0, rfl⟩, ?_⟩⟩
    intro p' ds' h1 h2 h3
    exact Double.isDist_zero_le _ ((follows_walk g p' ds' sourceId sourceId h1 h2 h3).isDist hP)
  · rw [if_neg hst]
    obtain ⟨r, hr, hfalse, htrue⟩ := loop_spec hP hsentinel (g.getEdgeCount + 2)
      (start g sourceId) (start_inv hkeys hs) (by rw [start_potential]; omega)
    refine ⟨r, hr, ⟨?_, ?_⟩, ?_⟩
    · intro h
      obtain ⟨ds, h1, h2, h3, _, h5, _⟩ := htrue h
      exact ⟨r.path, ds, h1, h2, h3, h5⟩
    · rintro ⟨p, ds, h1, h2, h3, h4⟩
      cases hf : r.found with
      | true => rfl
      | false => exact absurd (hfalse hf _ (follows_walk g p ds _ _ h1 h2 h3)) h4
    · intro h
      obtain ⟨ds, h1, h2, h3, h4, h5, h6⟩ := htrue h
      exact ⟨ds, h1, h2, h3, h4,
        hfin _ ((follows_walk g _ ds _ _ h1 h2 h3).isDist hP) h5,
        fun p' ds' h1' h2' h3' => h6 _ (follows_walk g p' ds' _ _ h1' h2' h3')⟩

end Navigation

namespace Navigation

theorem dijkstra_shortest_witness :
    ∃ r, dijkstra Graph.sample 1 5 = some r ∧
      (r.found = true ↔ ∃ p ds, p.head? = some 1 ∧
        p.getLast? = some 5 ∧ Graph.sample.follows p ds = true ∧
        total ds ≠ Double.posInf) ∧
      (r.found = true → ∃ ds : List ℚ, r.path.head? = some 1 ∧
        r.path.getLast? = some 5 ∧ Graph.sample.follows r.path ds = true ∧
        r.totalDistance = total ds ∧ (∃ q : ℚ, total ds = Double.finite q) ∧
        ∀ p' ds', p'.head? = some 1 → p'.getLast? = some 5 →
          Graph.sample.follows p' ds' = true → (total ds).le (total ds') = true) :=
  dijkstra_shortest Graph.sample 1 5 (by decide) (by decide!) (by decide) (by decide)
    (by decide)

end Navigation

namespace Response

open Snapshot

/-- C33: the response with the message backslash, `p` (no `|` in it) is written as
`1|2|0|\p|`, and `deserialize` of that line returns the message `|`: the response
read back differs from the one written.  The same happens in the `data` field. -/
theorem escape_token_collides :
    (∃ r r' : Response, indexOf ['\\', 'p'] r.message.toList = some 0 ∧
      deserialize r.serialize = Except.ok r' ∧ r' ≠ r ∧ r'.message = "|") ∧
    serialize ⟨1, 2, 0, "\\p", ""⟩ = "1|2|0|\\p|".toList ∧
    deserialize (serialize ⟨1, 2, 0, "\\p", ""⟩) = Except.ok ⟨1, 2, 0, "|", ""⟩ ∧
    deserialize (serialize ⟨1, 2, 0, "", "a\\pb"⟩) = Except.ok ⟨1, 2, 0, "", "a|b"⟩ :=
  ⟨⟨⟨1, 2, 0, "\\p", ""⟩, ⟨1, 2, 0, "|", ""⟩, rfl, rfl, by decide, rfl⟩, rfl, rfl, rfl⟩

end Response

namespace CircularQueue

/-- C34: from a state that satisfies the ring invariant, every operation that
returns leaves a state with `count <= CAPACITY`, `head < CAPACITY`,
`tail < CAPACITY`, `tail = (head + count) mod CAPACITY` and an array of `CAPACITY`
slots; no operation indexes the array outside its bounds, and `tryEnqueue`,
`tryDequeue`, `close` and `clear` always return. -/
theorem ring_invariant_preserved {T : Type} {CAPACITY : Nat} (q : CircularQueue T CAPACITY)
    (x : T) (hinv : q.ringInv = true) :
    (∀ r q', (q.enqueue x = Except.ok (r, q') ∨ q.tryEnqueue x = Except.ok (r, q')) →
      q'.ringInv = true ∧ q'.count ≤ CAPACITY ∧ q'.head < CAPACITY ∧ q'.tail < CAPACITY ∧
        q'.tail = (q'.head + q'.count) % CAPACITY ∧ q'.buffer.length = CAPACITY) ∧
    (∀ r q', (q.dequeue = Except.ok (r, q') ∨ q.tryDequeue = Except.ok (r, q')) →
      q'.ringInv = true ∧ q'.count ≤ CAPACITY ∧ q'.head < CAPACITY ∧ q'.tail < CAPACITY ∧
        q'.tail = (q'.head + q'.count) % CAPACITY ∧ q'.buffer.length = CAPACITY) ∧
    (∀ q', (q' = q.close ∨ q' = q.clear) →
      q'.ringInv = true ∧ q'.count ≤ CAPACITY ∧ q'.head < CAPACITY ∧ q'.tail < CAPACITY ∧
        q'.tail = (q'.head + q'.count) % CAPACITY ∧ q'.buffer.length = CAPACITY) ∧
    q.enqueue x ≠ Except.error QueueStop.outOfBounds ∧
    q.dequeue ≠ Except.error QueueStop.outOfBounds ∧
    (∃ r, q.tryEnqueue x = Except.ok r) ∧ (∃ r, q.tryDequeue = Except.ok r) := by
  have full : ∀ q' : CircularQueue T CAPACITY, q'.ringInv = true →
      q'.ringInv = true ∧ q'.count ≤ CAPACITY ∧ q'.head < CAPACITY ∧ q'.tail < CAPACITY ∧
        q'.tail = (q'.head + q'.count) % CAPACITY ∧ q'.buffer.length = CAPACITY := by
    intro q' h
    obtain ⟨h1, h2, h3, h4⟩ := (ringInv_iff q').1 h
    exact ⟨h, h3, h2, by rw [h4]; exact Nat.mod_lt _ (by omega), h4, h1⟩
  obtain ⟨hlen, hhead, hcount, htail⟩ := (ringInv_iff q).1 hinv
  have hstore : q.count < CAPACITY → ∃ q', q.store x = Except.ok q' ∧ q'.ringInv = true :=
    fun hc => by
      obtain ⟨q', h1, h2, _⟩ := store_spec q x hinv hc
      exact ⟨q', h1, h2⟩
  have htake : 0 < q.count → ∃ y q', q.take = Except.ok (y, q') ∧ q'.ringInv = true :=
    fun hc => by
      obtain ⟨y, q', h1, h2, _⟩ := take_spec q hinv hc
      exact ⟨y, q', h1, h2⟩
  refine ⟨?_, ?_, ?_, ?_, ?_, ?_, ?_⟩
  · rintro r q' (h | h)
    · apply full
      unfold enqueue at h
      split_ifs at h with h1 h2
      · cases h; exact hinv
      · have hc : q.count < CAPACITY := by
          simp only [Bool.not_eq_true', Bool.or_eq_false_iff, decide_eq_false_iff_not,
            not_and, Bool.not_eq_false, Bool.not_eq_true] at h1 h2
          by_contra hn
          exact absurd (h1 hn) (by simp [h2])
        obtain ⟨q1, hs, hq1⟩ := hstore hc
        rw [hs] at h
        cases h
        exact hq1
    · apply full
      unfold tryEnqueue at h
      split_ifs at h with h1
      · cases h; exact hinv
      · have hc : q.count < CAPACITY := by
          simp only [ge_iff_le, Bool.or_eq_true, decide_eq_true_eq, not_or, not_le] at h1
          exact h1.1
        obtain ⟨q1, hs, hq1⟩ := hstore hc
        rw [hs] at h
        cases h
        exact hq1
  · rintro r q' (h | h)
    · apply full
      unfold dequeue at h
      split_ifs at h with h1 h2
      · cases h; exact hinv
      · have hc : 0 < q.count := by
          simp only [gt_iff_lt, Bool.not_eq_true', Bool.or_eq_false_iff,
            decide_eq_false_iff_not, not_and, Bool.not_eq_false, Bool.and_eq_true,
            beq_iff_eq] at h1 h2
          by_contra hn
          have h0 : q.count = 0 := by omega
          exact h2 (h1 (by omega)) h0
        obtain ⟨y, q1, hs, hq1⟩ := htake hc
        rw [hs] at h
        cases h
        exact hq1
    · apply full
      unfold tryDequeue at h
      split_ifs at h with h1
      · cases h; exact hinv
      · have hc : 0 < q.count := by
          simp only [beq_iff_eq] at h1
          omega
        obtain ⟨y, q1, hs, hq1⟩ := htake hc
        rw [hs] at h
        cases h
        exact hq1
  · rintro q' (h | h)
    · subst h
      apply full
      rw [ringInv_iff]
      exact ⟨hlen, hhead, hcount, htail⟩
    · subst h
      apply full
      rw [ringInv_iff]
      exact ⟨hlen, by simp only [clear]; omega, by simp [clear], by
        simp only [clear, Nat.add_zero]
        exact (Nat.mod_eq_of_lt (by omega)).symm⟩
  · intro h
    unfold enqueue at h
    split_ifs at h with h1 h2
    · cases h
    · have hc : q.count < CAPACITY := by
        simp only [Bool.not_eq_true', Bool.or_eq_false_iff, decide_eq_false_iff_not,
          not_and, Bool.not_eq_false, Bool.not_eq_true] at h1 h2
        by_contra hn
        exact absurd (h1 hn) (by simp [h2])
      obtain ⟨q1, hs, _⟩ := hstore hc
      rw [hs] at h
      cases h
  · intro h
    unfold dequeue at h
    split_ifs at h with h1 h2
    · cases h
    · have hc : 0 < q.count := by
        simp only [gt_iff_lt, Bool.not_eq_true', Bool.or_eq_false_iff,
          decide_eq_false_iff_not, not_and, Bool.not_eq_false, Bool.and_eq_true,
          beq_iff_eq] at h1 h2
        by_contra hn
        have h0 : q.count = 0 := by omega
        exact h2 (h1 (by omega)) h0
      obtain ⟨y, q1, hs, _⟩ := htake hc
      rw [hs] at h
      cases h
  · unfold tryEnqueue
    split_ifs with h1
    · exact ⟨_, rfl⟩
    · have hc : q.count < CAPACITY := by
        simp only [ge_iff_le, Bool.or_eq_true, decide_eq_true_eq, not_or, not_le] at h1
        exact h1.1
      obtain ⟨q1, hs, _⟩ := hstore hc
      rw [hs]
      exact ⟨_, rfl⟩
  · unfold tryDequeue
    split_ifs with h1
    · exact ⟨_, rfl⟩
    · have hc : 0 < q.count := by
        simp only [beq_iff_eq] at h1
        omega
      obtain ⟨y, q1, hs, _⟩ := htake hc
      rw [hs]
      exact ⟨_, rfl⟩

theorem ring_invariant_preserved_witness :
    (create : CircularQueue Nat 3).clear.tail < 3 ∧
    ((create : CircularQueue Nat 3).close.ringInv = true ∧
      (create : CircularQueue Nat 3).close.buffer.length = 3) ∧
    (∀ r q', (create : CircularQueue Nat 3).tryEnqueue 7 = Except.ok (r, q') →
      q'.tail = (q'.head + q'.count) % 3) ∧
    ∃ r, (create : CircularQueue Nat 3).tryDequeue = Except.ok r :=
  ⟨((ring_invariant_preserved (create : CircularQueue Nat 3) 7 (by decide)).2.2.1 _
      (Or.inr rfl)).2.2.2.1,
    ⟨((ring_invariant_preserved (create : CircularQueue Nat 3) 7 (by decide)).2.2.1 _
      (Or.inl rfl)).1,
     ((ring_invariant_preserved (create : CircularQueue Nat 3) 7 (by decide)).2.2.1 _
      (Or.inl rfl)).2.2.2.2.2⟩,
    fun r q' h =>
      ((ring_invariant_preserved (create : CircularQueue Nat 3) 7 (by decide)).1 r q'
        (Or.inr h)).2.2.2.2.1,
    (ring_invariant_preserved (create : CircularQueue Nat 3) 7 (by decide)).2.2.2.2.2.2⟩

end CircularQueue

namespace BTreeNode

/-- C35: for every internal node `p` with fewer than `MAX_KEYS` keys whose child
at index `i <= numKeys` holds `MAX_KEYS` keys, `p.splitChild(i)` is defined and the
in-order traversal of `p` after it is the same sequence of pairs as before. -/
theorem splitChild_keeps_traverse (p c : BTreeNode) (i : Nat)
    (hleaf : p.isLeaf = false) (hp : p.numKeys < MAX_KEYS) (hi : i ≤ p.numKeys)
    (hc : childAt p.children i = some c) (hfull : c.isFull = true) :
    ∃ p', splitChild p i = some p' ∧ p'.traverse = p.traverse := by
  obtain ⟨pl, pes, pcs⟩ := p
  obtain ⟨cl, ces, ccs⟩ := c
  simp only [isLeaf] at hleaf
  subst hleaf
  simp only [numKeys, entries, children, isFull, beq_iff_eq] at hp hi hc hfull
  have h5 : ces.length = 5 := by simpa [MAX_KEYS, BTREE_ORDER] using hfull
  obtain ⟨e0, e1, e2, e3, e4, rfl⟩ : ∃ e0 e1 e2 e3 e4, ces = [e0, e1, e2, e3, e4] := by
    rcases ces with _ | ⟨a, _ | ⟨b, _ | ⟨c, _ | ⟨d, _ | ⟨e, _ | ⟨f, r⟩⟩⟩⟩⟩⟩ <;>
      simp at h5
    exact ⟨a, b, c, d, e, rfl⟩
  have hp5 : pes.length < 5 := by simpa [MAX_KEYS, BTREE_ORDER] using hp
  refine ⟨.mk false (pes.take i ++ e2 :: pes.drop i)
      (pcs.take i ++ some (.mk cl [e0, e1] (if cl then ccs else ccs.take 3)) ::
        some (.mk cl [e3, e4] (if cl then [] else (ccs.drop 3).take 3)) ::
        ((pcs.drop (i + 1)).take (pes.length - i) ++ pcs.drop (pes.length + 2))),
    by simp [splitChild, hc, MAX_KEYS, BTREE_ORDER, hi, hp5], ?_⟩
  simp only [traverse]
  exact split_traverse_general _ _ (.mk cl [e0, e1, e2, e3, e4] ccs) e2
    (by simp only [traverse]; exact halves_traverse cl e0 e1 e2 e3 e4 ccs) i pes pcs hi hc

theorem splitChild_keeps_traverse_witness :
    ∃ p', splitChild sampleParent 1 = some p' ∧ p'.traverse = sampleParent.traverse :=
  splitChild_keeps_traverse sampleParent sampleFullLeaf 1 rfl (by decide) (by decide) rfl rfl

end BTreeNode

namespace Graph

/-- C37: after `addEdge(s, d, w, bidirectional)` the list of `s` is the one before
the call when it already names `d` (whatever `w` is), and otherwise that list with
`Neighbor(d, w)` appended; when `bidirectional` and `d != s`, the same holds for
the list of `d` with respect to `s`; the list of every other node, and `nodes`, are
as before; so every list after the call starts with the list before it. -/
theorem addEdge_keeps_entries (g : Graph) (s d : Int) (w : Double) (bidirectional : Bool) :
    (g.addEdge s d w bidirectional).getNeighbors s =
      (if (g.getNeighbors s).any (fun n => n.nodeId == d) then g.getNeighbors s
        else g.getNeighbors s ++ [⟨d, w⟩]) ∧
    (bidirectional = true → d ≠ s →
      (g.addEdge s d w bidirectional).getNeighbors d =
        (if (g.getNeighbors d).any (fun n => n.nodeId == s) then g.getNeighbors d
          else g.getNeighbors d ++ [⟨s, w⟩])) ∧
    (bidirectional = false → d ≠ s →
      (g.addEdge s d w bidirectional).getNeighbors d = g.getNeighbors d) ∧
    (∀ u, u ≠ s → u ≠ d →
      (g.addEdge s d w bidirectional).getNeighbors u = g.getNeighbors u) ∧
    (∀ u, g.getNeighbors u <+: (g.addEdge s d w bidirectional).getNeighbors u) ∧
    (g.addEdge s d w bidirectional).nodes = g.nodes := by
  have hs : (g.addEdge s d w bidirectional).getNeighbors s =
      (if (g.getNeighbors s).any (fun n => n.nodeId == d) then g.getNeighbors s
        else g.getNeighbors s ++ [⟨d, w⟩]) := by
    cases bidirectional with
    | false => simp [addEdge, getNeighbors, addArc_neighbors]
    | true =>
      simp only [addEdge, getNeighbors, if_true, addArc_neighbors]
      by_cases hsd : s = d
      · subst hsd
        by_cases hl : ((StdMap.find g.adjacencyList s).getD []).any (fun n => n.nodeId == s)
        · simp [hl]
        · simp [hl]
      · simp [hsd]
  have hd : bidirectional = true → d ≠ s →
      (g.addEdge s d w bidirectional).getNeighbors d =
        (if (g.getNeighbors d).any (fun n => n.nodeId == s) then g.getNeighbors d
          else g.getNeighbors d ++ [⟨s, w⟩]) := by
    intro hb hds
    subst hb
    simp [addEdge, getNeighbors, addArc_neighbors, hds]
  have hd' : bidirectional = false → d ≠ s →
      (g.addEdge s d w bidirectional).getNeighbors d = g.getNeighbors d := by
    intro hb hds
    subst hb
    simp [addEdge, getNeighbors, addArc_neighbors, hds]
  have hu : ∀ u, u ≠ s → u ≠ d →
      (g.addEdge s d w bidirectional).getNeighbors u = g.getNeighbors u := by
    intro u hus hud
    cases bidirectional <;> simp [addEdge, getNeighbors, addArc_neighbors, hus, hud]
  refine ⟨hs, hd, hd', hu, ?_, by simp [addEdge]⟩
  intro u
  by_cases hus : u = s
  · subst hus
    rw [hs]
    split_ifs
    · exact List.prefix_refl _
    · exact List.prefix_append _ _
  · by_cases hud : u = d
    · subst hud
      cases hb : bidirectional with
      | false =>
        rw [← hb, hd' hb hus]
      | true =>
        rw [← hb, hd hb hus]
        split_ifs
        · exact List.prefix_refl _
        · exact List.prefix_append _ _
    · rw [hu u hus hud]

theorem addEdge_keeps_entries_witness :
    (sample.addEdge 1 2 (.finite (1 / 10)) true).getNeighbors 1 = sample.getNeighbors 1 ∧
    (sample.addEdge 1 5 (.finite 3) true).getNeighbors 5 =
      sample.getNeighbors 5 ++ [⟨1, .finite 3⟩] := by
  have h1 := (addEdge_keeps_entries sample 1 2 (.finite (1 / 10)) true).1
  have h2 := (addEdge_keeps_entries sample 1 5 (.finite 3) true).2.1 rfl (by decide)
  have e1 : (sample.getNeighbors 1).any (fun n => n.nodeId == 2) = true := by decide!
  have e2 : (sample.getNeighbors 5).any (fun n => n.nodeId == 1) = false := by decide!
  rw [e1] at h1
  rw [e2] at h2
  exact ⟨h1, h2⟩

end Graph

namespace Navigation

/-- C39: for every graph and every pair of ids `dijkstra` returns.  Its loop, run
from the state before the first round, returns within `getEdgeCount() + 2` rounds
with no node entered into `visited` twice, after at most `1 + getEdgeCount()` calls
of `pq.push`, and on the map `previous` it has built `reconstructPath` returns from
every node it is started at. -/
theorem dijkstra_terminates (g : Graph) (sourceId destinationId : Int) :
    (∃ r, dijkstra g sourceId destinationId = some r) ∧
    ∃ r stF n,
      loopTrace g sourceId destinationId (g.getEdgeCount + 2) (start g sourceId) 1 =
        some (r, stF, n) ∧
      loop g sourceId destinationId (g.getEdgeCount + 2) (start g sourceId) = some r ∧
      stF.visited.Nodup ∧ n ≤ 1 + g.getEdgeCount ∧
      ∀ x, ∃ path, reconstructPath stF.previous (stF.previous.length + 1) x [] = some path := by
  obtain ⟨r, stF, n, h1, h2, h3, h4⟩ := loopTrace_spec g sourceId destinationId
    (g.getEdgeCount + 2) (start g sourceId) 1 (start_settled g sourceId)
    (by rw [start_potential]; omega)
    (by simp [start, Graph.getEdgeCount])
  refine ⟨?_, r, stF, n, h1, h2, h3.nodup, h4, fun x => reconstruct_any h3 x⟩
  unfold dijkstra
  split_ifs
  · exact ⟨_, rfl⟩
  · exact ⟨_, rfl⟩
  · exact ⟨_, rfl⟩
  · exact ⟨_, rfl⟩
  · exact ⟨r, h2⟩

end Navigation

namespace DatabaseManager

/-- Counterexample to C36 as stated: `loadData` on a locations file whose single
leaf lists key 2 before key 1 returns `true` and leaves `nextLocationId = 2`, which
is not above the stored key 2; the next id-assigning `addLocation` returns 2 and
replaces the record stored under 2.  And the counters are `int`: after `loadData`
on a file with the one key 2147483647 the counter is -2147483648, below that key;
after `loadData` on a file with the one key 2147483646 the counter is 2147483647,
the next `addLocation` returns 2147483647 and leaves the counter at -2147483648,
below the key it has just stored. -/
theorem loadData_counter_not_above :
    (create.loadData DoubleText.plain DataFiles.unsortedLocations).toOption.map
        (fun r => (r.1, r.2.nextLocationId, r.2.locationBTree.traverseAll, r.2.idsAbove)) =
      some (true, 2, [(2, "a"), (1, "b")], false) ∧
    (create.loadData DoubleText.plain DataFiles.unsortedLocations).toOption.bind
        (fun r => (r.2.addLocation DoubleText.plain "x" (.finite 0) (.finite 0)
          "t").toOption.map (fun s => (s.1, s.2.locationBTree.traverseAll))) =
      some (2, [(2, "x|0|0|t"), (1, "b")]) ∧
    (create.loadData DoubleText.plain (DataFiles.oneLocation 2147483647)).toOption.map
        (fun r => (r.1, r.2.nextLocationId, r.2.locationBTree.traverseAll,
          r.2.storesValid, r.2.idsAbove)) =
      some (true, -2147483648, [(2147483647, "a|0|0|t")], true, false) ∧
    (create.loadData DoubleText.plain (DataFiles.oneLocation 2147483646)).toOption.map
        (fun r => (r.1, r.2.nextLocationId, r.2.storesValid, r.2.idsAbove)) =
      some (true, 2147483647, true, true) ∧
    (create.loadData DoubleText.plain (DataFiles.oneLocation 2147483646)).toOption.bind
        (fun r => (r.2.addLocation DoubleText.plain "x" (.finite 0) (.finite 0)
          "t").toOption.map (fun s => (s.1, s.2.nextLocationId,
            s.2.locationBTree.traverseAll, s.2.idsAbove))) =
      some (2147483647, -2147483648,
        [(2147483646, "a|0|0|t"), (2147483647, "x|0|0|t")], false) := by
  refine ⟨?_, ?_, ?_, ?_, ?_⟩ <;> decide!

/-- C36 (amended): while both stores satisfy the node invariants, hold no empty
value and have all their keys below the counters, and while the counters and the
ids of the records handed in are below 2147483647, the largest `int`, every
`addLocation` and `addEdge` call (both overloads) and `clearAll` returns and keeps
the stores valid and the keys below the counters; an id-assigning call that
succeeds returns the counter, a positive id, raises it by one and appends its
record after all the records stored before, which stay as they were, so the next
successful id is larger; no adding call lowers a counter.  After `loadData` the
counter of a store is above every key of that store when the store loaded
satisfies the node invariants and its keys are `int` values below 2147483647. -/
theorem counters_stay_above (dt : DoubleText) (db : DatabaseManager) (files : DataFiles)
    (name : String) (lat lon : Double) (type : String) (sourceId destId : Int)
    (distance : Double) (roadName : String) (bidirectional : Bool)
    (location : Location) (edge : Edge)
    (hvalid : db.storesValid = true) (hids : db.idsAbove = true)
    (hloc : db.nextLocationId < 2147483647) (hedge : db.nextEdgeId < 2147483647)
    (hlid : location.id < 2147483647) (heid : edge.edgeId < 2147483647) :
    (∃ r db', db.addLocation dt name lat lon type = Except.ok (r, db') ∧
      db'.storesValid = true ∧ db'.idsAbove = true ∧
      db'.edgeBTree = db.edgeBTree ∧ db'.nextEdgeId = db.nextEdgeId ∧
      ((r = -1 ∧ db' = db) ∨
        (0 < r ∧ r = db.nextLocationId ∧ db'.nextLocationId = r + 1 ∧
          db'.locationBTree.traverseAll = db.locationBTree.traverseAll ++
            [(r, String.mk (Location.serialize dt ⟨r, name, lat, lon, type⟩))] ∧
          ∀ (name2 : String) (lat2 lon2 : Double) (type2 : String) (r2 : Int)
            (db2 : DatabaseManager),
            db'.addLocation dt name2 lat2 lon2 type2 = Except.ok (r2, db2) →
              r2 = -1 ∨ r < r2))) ∧
    (∃ r db', db.addEdge dt sourceId destId distance roadName bidirectional =
        Except.ok (r, db') ∧
      db'.storesValid = true ∧ db'.idsAbove = true ∧
      db'.locationBTree = db.locationBTree ∧ db'.nextLocationId = db.nextLocationId ∧
      ((r = -1 ∧ db' = db) ∨
        (0 < r ∧ r = db.nextEdgeId ∧ db'.nextEdgeId = r + 1 ∧
          db'.edgeBTree.traverseAll = db.edgeBTree.traverseAll ++
            [(r, String.mk (Edge.serialize dt
              ⟨r, sourceId, destId, distance, roadName, bidirectional⟩))] ∧
          ∀ (s2 d2 : Int) (distance2 : Double) (roadName2 : String) (b2 : Bool) (r2 : Int)
            (db2 : DatabaseManager),
            db'.addEdge dt s2 d2 distance2 roadName2 b2 = Except.ok (r2, db2) →
              r2 = -1 ∨ r < r2))) ∧
    (∃ b db', db.addLocationRecord dt location = Except.ok (b, db') ∧
      db'.storesValid = true ∧ db'.idsAbove = true ∧
      db.nextLocationId ≤ db'.nextLocationId ∧ db'.nextEdgeId = db.nextEdgeId ∧
      db'.edgeBTree = db.edgeBTree) ∧
    (∃ b db', db.addEdgeRecord dt edge = Except.ok (b, db') ∧
      db'.storesValid = true ∧ db'.idsAbove = true ∧
      db.nextEdgeId ≤ db'.nextEdgeId ∧ db'.nextLocationId = db.nextLocationId ∧
      db'.locationBTree = db.locationBTree) ∧
    (db.clearAll.storesValid = true ∧ db.clearAll.idsAbove = true) ∧
    (∀ b db', db.loadData dt files = Except.ok (b, db') →
      (db'.locationBTree.nodeInvariants = true →
        (∀ e ∈ db'.locationBTree.traverseAll, -2147483648 ≤ e.1 ∧ e.1 < 2147483647) →
        ∀ e ∈ db'.locationBTree.traverseAll, e.1 < db'.nextLocationId) ∧
      (db'.edgeBTree.nodeInvariants = true →
        (∀ e ∈ db'.edgeBTree.traverseAll, -2147483648 ≤ e.1 ∧ e.1 < 2147483647) →
        ∀ e ∈ db'.edgeBTree.traverseAll, e.1 < db'.nextEdgeId)) := by
  refine ⟨?_, ?_, addLocationRecord_keeps dt db location hvalid hids hlid,
    addEdgeRecord_keeps dt db edge hvalid hids heid, ⟨by rfl, by rfl⟩,
    fun b db' h => loadData_counters dt db files h⟩
  · obtain ⟨r, db', h1, h2, h4, h5, h6⟩ :=
      addLocation_keeps dt db name lat lon type hvalid hids
    rcases h6 with h6 | ⟨h0, h6, _, h8, h9⟩
    · refine ⟨r, db', h1, h2, ?_, h4, h5, Or.inl h6⟩
      rw [h6.2]
      exact hids
    · obtain ⟨k1, k2⟩ := h9 (by omega)
      refine ⟨r, db', h1, h2, k1, h4, h5, Or.inr ⟨h0, h6, k2, h8, ?_⟩⟩
      intro name2 lat2 lon2 type2 r2 db2 hcall
      rcases addLocation_returns dt db' db2 name2 lat2 lon2 type2 r2 hcall with h | h
      · exact Or.inl h
      · right; omega
  · obtain ⟨r, db', h1, h2, h4, h5, h6⟩ :=
      addEdge_keeps dt db sourceId destId distance roadName bidirectional hvalid hids
    rcases h6 with h6 | ⟨h0, h6, _, h8, h9⟩
    · refine ⟨r, db', h1, h2, ?_, h4, h5, Or.inl h6⟩
      rw [h6.2]
      exact hids
    · obtain ⟨k1, k2⟩ := h9 (by omega)
      refine ⟨r, db', h1, h2, k1, h4, h5, Or.inr ⟨h0, h6, k2, h8, ?_⟩⟩
      intro s2 d2 distance2 roadName2 b2 r2 db2 hcall
      rcases addEdge_returns dt db' db2 s2 d2 distance2 roadName2 b2 r2 hcall with h | h
      · exact Or.inl h
      · right; omega

/-- Witness for the amended C36: the first `addLocation` on the manager just
created. -/
theorem counters_stay_above_witness :
    create.storesValid = true ∧ create.idsAbove = true ∧
    ∃ r db', create.addLocation DoubleText.plain "x" (.finite 0) (.finite 0) "t" =
        Except.ok (r, db') ∧
      db'.storesValid = true ∧ db'.idsAbove = true ∧
      db'.edgeBTree = create.edgeBTree ∧ db'.nextEdgeId = create.nextEdgeId ∧
      ((r = -1 ∧ db' = create) ∨
        (0 < r ∧ r = create.nextLocationId ∧ db'.nextLocationId = r + 1 ∧
          db'.locationBTree.traverseAll = create.locationBTree.traverseAll ++
            [(r, String.mk (Location.serialize DoubleText.plain
              ⟨r, "x", .finite 0, .finite 0, "t"⟩))] ∧
          ∀ (name2 : String) (lat2 lon2 : Double) (type2 : String) (r2 : Int)
            (db2 : DatabaseManager),
            db'.addLocation DoubleText.plain name2 lat2 lon2 type2 = Except.ok (r2, db2) →
              r2 = -1 ∨ r < r2)) :=
  ⟨by decide, by decide,
    (counters_stay_above DoubleText.plain create DataFiles.blank "x" (.finite 0) (.finite 0)
      "t" 1 2 (.finite 1) "road" true Location.empty Edge.empty (by decide) (by decide)
      (by decide) (by decide) (by decide) (by decide)).1⟩

end DatabaseManager

namespace Location

/-- Counterexample to C38 as stated: the valid location with id 1, the name `a|1`
and the coordinates 2 and 3 is written as `a|1|2|3|park` and read back with the
name `a`, the coordinates 1 and 2 and the type `3`, and that is what
`getLocation(1)` returns after the successful `addLocation`.  The valid location
with the name `a|b` is written as `a|b|0|0|park`, from which `deserialize` does
not return: `std::stod("b")` throws.  The valid location with the name `a` and the
latitude `2^-1074`, the smallest positive `double`, is written as
`a|4.94066e-324|0|park`, from which `deserialize` does not return either:
`std::stod` throws on a text whose value is below the smallest normal `double`. -/
theorem bar_in_name_cut :
    isValid ⟨1, "a|1", .finite 2, .finite 3, "park"⟩ = true ∧
    serialize DoubleText.plain ⟨1, "a|1", .finite 2, .finite 3, "park"⟩ =
      "a|1|2|3|park".toList ∧
    (deserialize DoubleText.plain 1
        (serialize DoubleText.plain ⟨1, "a|1", .finite 2, .finite 3, "park"⟩)).toOption =
      some ⟨1, "a", .finite 1, .finite 2, "3"⟩ ∧
    (DatabaseManager.create.addLocation DoubleText.plain "a|1" (.finite 2) (.finite 3)
        "park").toOption.map (fun r => (r.1, (r.2.getLocation DoubleText.plain 1).toOption)) =
      some (1, some ⟨1, "a", .finite 1, .finite 2, "3"⟩) ∧
    isValid ⟨1, "a|b", .finite 0, .finite 0, "park"⟩ = true ∧
    serialize DoubleText.plain ⟨1, "a|b", .finite 0, .finite 0, "park"⟩ =
      "a|b|0|0|park".toList ∧
    (deserialize DoubleText.plain 1
        (serialize DoubleText.plain ⟨1, "a|b", .finite 0, .finite 0, "park"⟩)).toOption =
      none ∧
    isValid ⟨1, "a", .finite (1 / 2 ^ 1074), .finite 0, "park"⟩ = true ∧
    serialize DoubleText.plain ⟨1, "a", .finite (1 / 2 ^ 1074), .finite 0, "park"⟩ =
      "a|4.94066e-324|0|park".toList ∧
    (deserialize DoubleText.plain 1
        (serialize DoubleText.plain
          ⟨1, "a", .finite (1 / 2 ^ 1074), .finite 0, "park"⟩)).toOption = none := by
  refine ⟨?_, ?_, ?_, ?_, ?_, ?_, ?_, ?_, ?_, ?_⟩ <;> decide!

/-- C38 (amended): for every valid `Location` whose name and type contain no `|`
and whose coordinates, as `serialize` prints them, are texts that `std::stod`
reads, `Location::deserialize(loc.id, loc.serialize())` returns a `Location` with
the same id, name and type, and `getLocation(id)` after the `addLocation` that
stored it under the id `nextLocationId` returns that id, name and type. -/
theorem text_round_trip (loc : Location) (db : DatabaseManager)
    (hvalid : loc.isValid = true)
    (hname : '|' ∉ loc.name.toList) (htype : '|' ∉ loc.type.toList)
    (hstod : ∃ a b, Double.parse (Double.showG loc.latitude) = Except.ok a ∧
      Double.parse (Double.showG loc.longitude) = Except.ok b)
    (hstores : db.storesValid = true) (hids : db.idsAbove = true)
    (hid : db.nextLocationId = loc.id) :
    (∃ r, deserialize DoubleText.plain loc.id (loc.serialize DoubleText.plain) = Except.ok r ∧
      r.id = loc.id ∧ r.name = loc.name ∧ r.type = loc.type) ∧
    ∃ db', db.addLocation DoubleText.plain loc.name loc.latitude loc.longitude loc.type =
        Except.ok (loc.id, db') ∧
      ∃ r, db'.getLocation DoubleText.plain loc.id = Except.ok r ∧
        r.id = loc.id ∧ r.name = loc.name ∧ r.type = loc.type :=
  round_trip_text DoubleText.plain loc db hvalid hname htype (Double.showG_no_bar _)
    (Double.showG_no_bar _) hstod hstores hids hid

/-- Witness for the amended C38: the first sample location, added to the manager
just created; its coordinates are those `std::stod` reads from `40.7128` and
`-74.006`, which are printed as these texts. -/
theorem text_round_trip_witness :
    (∃ r, deserialize DoubleText.plain 1
        (serialize DoubleText.plain ⟨1, "Central Station",
          .finite (2864908607956399 / 70368744177664),
          .finite (-2603854640806101 / 35184372088832), "station"⟩) = Except.ok r ∧
      r.id = 1 ∧ r.name = "Central Station" ∧ r.type = "station") ∧
    ∃ db', DatabaseManager.create.addLocation DoubleText.plain "Central Station"
        (.finite (2864908607956399 / 70368744177664))
        (.finite (-2603854640806101 / 35184372088832)) "station" = Except.ok (1, db') ∧
      ∃ r, db'.getLocation DoubleText.plain 1 = Except.ok r ∧
        r.id = 1 ∧ r.name = "Central Station" ∧ r.type = "station" :=
  text_round_trip
    ⟨1, "Central Station", .finite (2864908607956399 / 70368744177664),
      .finite (-2603854640806101 / 35184372088832), "station"⟩
    DatabaseManager.create (by decide!) (by decide) (by decide)
    ⟨.finite (2864908607956399 / 70368744177664),
      .finite (-2603854640806101 / 35184372088832), ok_of_toOption (by decide!),
      ok_of_toOption (by decide!)⟩
    (by decide) (by decide) rfl

end Location

namespace BTree

open BTreeNode Snapshot

/-- C32: for every tree that satisfies the node invariants and whose values
contain no `~`, no newline, do not end in a backslash and do not contain the text
`LEAF=true`, `loadFromFile` applied to the text written by `saveToFile` returns
and yields the tree saved: the same shape and in every node the same leaf flag,
keys and values in the same order (the model of a tree carries no node ids).  The
keys are `int` values, the number of nodes fits an `int` and the text is shorter
than `2 ^ 64` characters, as the types `int` and `std::string` demand. -/
theorem snapshot_round_trip (t : BTree)
    (hinv : t.nodeInvariants = true)
    (hvals : ∀ e ∈ t.traverseAll, '~' ∉ e.2.toList ∧ '\n' ∉ e.2.toList ∧
      e.2.toList.getLast? ≠ some '\\' ∧ ¬ "LEAF=true".toList <:+: e.2.toList)
    (hkeys : ∀ e ∈ t.traverseAll, -2147483648 ≤ e.1 ∧ e.1 ≤ 2147483647)
    (hcount : ∀ r, t.root = some r → r.nodeCount ≤ 2147483647)
    (hsize : t.saveToFile.length < 2 ^ 64) :
    loadFromFile t.saveToFile = Except.ok t := by
  have hok := treeOk_of_nodeInvariants hinv
  obtain ⟨root⟩ := t
  cases root with
  | none => rfl
  | some r =>
    obtain ⟨h, hv, _⟩ := hok
    exact round_trip_root r 1 h hv (fun e he => ⟨hvals e he, hkeys e he⟩) (hcount r rfl) hsize

/-- Instance of C32: a two-level tree whose values hold `|`, `[`, `]`, a backslash
and the empty string. -/
theorem snapshot_round_trip_witness :
    sampleBrackets.nodeInvariants = true ∧
    String.mk sampleBrackets.saveToFile =
      "ORDER=3\nROOT_INDEX=0\nNODE_COUNT=3\n\n" ++
      "NODE_0|LEAF=false|KEYS=[5]|VALUES=[a\\|b]|CHILDREN=[1,2]\n" ++
      "NODE_1|LEAF=true|KEYS=[1,2]|VALUES=[x\\]~]\n" ++
      "NODE_2|LEAF=true|KEYS=[7,9]|VALUES=[\\[y~\\\\]]\n" ∧
    loadFromFile sampleBrackets.saveToFile = Except.ok sampleBrackets :=
  ⟨by decide, by rfl,
    snapshot_round_trip sampleBrackets (by decide) (by decide) (by decide)
      (by intro r hr; cases hr; decide)
      (by rw [show sampleBrackets.saveToFile.length = 178 from rfl]; decide)⟩

end BTree

namespace Server

/-- C31 (counterexample): one client hands in 101 `GET_LOCATIONS` requests before a
worker gets to the queue of capacity 100, then one worker takes and processes
whatever the queue holds until it is empty and the worker holds nothing.  101
responses have been sent, but only 100 requests were processed: request 101 was
refused by `tryEnqueue` and answered "Server busy" by `handleClient`, and is not
among the processed ones.  In the run in which the only request is an
`INIT_SAMPLE`, the stores end with 5 locations and 7 roads although no add
request was handed in.  And in the run that starts from the database loaded from
a locations file whose leaf lists key 2 before key 1, the one `ADD_LOCATION`
request is answered with `SUCCESS`, but the store holds two locations before and
after it: the new record has replaced the one stored under its id. -/
theorem flood_request_dropped :
    submissions floodEvents = 101 ∧
    (Pool.run DoubleText.plain floodEvents
        (Pool.start DatabaseManager.create DataFiles.blank)).toOption.map
      (fun p => [p.queue.contents.length, p.held.length, p.sent.length, p.done.length]) =
      some [0, 0, 101, 100] ∧
    (Pool.run DoubleText.plain floodEvents
        (Pool.start DatabaseManager.create DataFiles.blank)).toOption.map
      (fun p => (p.refused.map (fun i => i.1.requestId),
        (p.done.map (fun d => d.1.1.requestId)).contains 101)) =
      some ([101], false) ∧
    submissions sampleEvents = 1 ∧
    (Pool.run DoubleText.plain sampleEvents
        (Pool.start DatabaseManager.create DataFiles.blank)).toOption.map
      (fun p => [p.queue.contents.length, p.held.length, p.done.length,
        p.state.database.getLocationCount, p.state.database.getEdgeCount,
        addedLocations p.done, addedRoads p.done]) =
      some [0, 0, 1, 5, 7, 0, 0] ∧
    unsortedDatabase.getLocationCount = 2 ∧
    (Pool.run DoubleText.plain oneAddEvents
        (Pool.start unsortedDatabase DataFiles.blank)).toOption.map
      (fun p => [p.queue.contents.length, p.held.length, p.done.length,
        p.state.database.getLocationCount, addedLocations p.done]) =
      some [0, 0, 1, 2, 1] := by
  decide!

/-- C31 (amended): take any run of the server (client threads handing in lines,
workers taking items from the queue and processing them, `main` closing the queue,
interleaved in any order) in which no thread is stopped by an exception.  Then
every request handed in was either accepted by the queue or refused; the accepted
requests are those handed to the workers followed by those still queued; the
requests handed to the workers are those processed and those held; the responses
sent are one "Server busy" per refused request and one response per processed
request, which carries the ids of its request.  Hence once the queue is empty and
no worker holds a request, as many responses have been sent as requests were
handed in, and the accepted requests are exactly the processed ones, each as
often as it was accepted.  When the run started from stores that satisfy the
node invariants, hold no empty value and have every key below its id counter (the
counters being `int` values), and as long as no `INIT_SAMPLE` request has been
processed, the location count and the road count are the initial counts plus the
numbers of processed `ADD_LOCATION` and `ADD_ROAD` requests answered with
`SUCCESS`.  At the state reached, a line that `Request::deserialize` reads can be
handed in, and a worker that holds nothing can take an item whenever the queue
is not empty. -/
theorem pool_accounting (dt : DoubleText) (db : DatabaseManager) (files : DataFiles)
    (events : List PoolEvent) (p : Pool)
    (hrun : Pool.run dt events (Pool.start db files) = Except.ok p) :
    (requests events).length = submissions events ∧
    List.Perm (p.accepted ++ p.refused) (requests events) ∧
    p.accepted = p.taken ++ p.queue.contents ∧
    List.Perm p.taken (p.done.map Prod.fst ++ p.held.map Prod.snd) ∧
    List.Perm p.sent (p.refused.map busyResponse ++ p.done.map deliveryOf) ∧
    (∀ d ∈ p.done, d.2.clientId = d.1.1.clientId ∧ d.2.requestId = d.1.1.requestId) ∧
    (p.queue.contents = [] → p.held = [] →
      p.sent.length = submissions events ∧ List.Perm p.accepted (p.done.map Prod.fst)) ∧
    (db.storesValid = true → db.idsAbove = true →
      db.nextLocationId ≤ 2147483647 → db.nextEdgeId ≤ 2147483647 →
      (∀ d ∈ p.done, d.1.1.type ≠ RequestType.INIT_SAMPLE) →
      p.state.database.getLocationCount = db.getLocationCount + addedLocations p.done ∧
      p.state.database.getEdgeCount = db.getEdgeCount + addedRoads p.done) ∧
    (∀ (c r s : Int) (m : List Char) (req : Request), Request.deserialize m = Except.ok req →
      ∃ p', p.step dt (PoolEvent.submit c r s m) = Except.ok p') ∧
    (∀ w : Nat, p.queue.contents ≠ [] → p.held.any (fun h => h.1 == w) = false →
      ∃ p', p.step dt (PoolEvent.take w) = Except.ok p') := by
  have hsub := run_submissions dt events _ p hrun
  have hinv := run_inv dt db events [] _ p (pool_start_inv db files) hrun
  rw [List.nil_append] at hinv
  obtain ⟨i1, i2, i3, i4, i5, i6, i7⟩ := hinv
  refine ⟨hsub, i2, i3, i4, i5, i6, ?_, ?_, ?_, ?_⟩
  · intro hq hh
    rw [hq, List.append_nil] at i3
    rw [hh, List.map_nil, List.append_nil, ← i3] at i4
    refine ⟨?_, i4⟩
    rw [← hsub, ← i2.length_eq, i5.length_eq, List.length_append, List.length_append,
      List.length_map, List.length_map, i4.length_eq, List.length_map]
    omega
  · intro hvalid hids hl he hno
    obtain ⟨_, j3, j4⟩ := i7 (DatabaseManager.usable_of_valid db hvalid hids hl he) hno
    exact ⟨j3, j4⟩
  · intro c r s m req hd
    simp only [Pool.step]
    rcases handleMessage_cases c r s p.queue m i1 with
      ⟨_, h1, _⟩ | ⟨_, e, he, _⟩ | ⟨_, _, _, _, _, ⟨h1, _⟩ | ⟨q', h1, _⟩⟩
    · rw [h1]
      exact ⟨_, rfl⟩
    · rw [hd] at he
      cases he
    · rw [h1]
      exact ⟨_, rfl⟩
    · rw [h1]
      exact ⟨_, rfl⟩
  · intro w hq hh
    simp only [Pool.step, hh]
    rcases dequeue_cases p.queue i1 with ⟨h0, _⟩ | ⟨x, q', h1, _⟩
    · exact absurd h0 hq
    · rw [h1]
      exact ⟨_, rfl⟩

/-- Instance of C31 (amended): two clients hand in two requests each and two
workers take and process them, the second worker answering first; at the end the
queue is empty and no worker holds a request, four responses have been sent, the
four accepted requests are the processed ones, and the stores hold the two
locations and the road that were added. -/
theorem pool_accounting_witness :
    Pool.run DoubleText.plain pairEvents (Pool.start DatabaseManager.create DataFiles.blank) =
      Except.ok pairRun ∧
    submissions pairEvents = 4 ∧
    pairRun.queue.contents = [] ∧ pairRun.held = [] ∧
    (pairRun.sent.length = submissions pairEvents ∧
      List.Perm pairRun.accepted (pairRun.done.map Prod.fst)) ∧
    (addedLocations pairRun.done = 2 ∧ addedRoads pairRun.done = 1) ∧
    (pairRun.state.database.getLocationCount =
        DatabaseManager.create.getLocationCount + addedLocations pairRun.done ∧
      pairRun.state.database.getEdgeCount =
        DatabaseManager.create.getEdgeCount + addedRoads pairRun.done) :=
  ⟨run_eq_ok _ _ (by decide!), by decide!, by decide!, by decide!,
    (pool_accounting DoubleText.plain DatabaseManager.create DataFiles.blank pairEvents
      pairRun (run_eq_ok _ _ (by decide!))).2.2.2.2.2.2.1 (by decide!) (by decide!),
    by decide!,
    (pool_accounting DoubleText.plain DatabaseManager.create DataFiles.blank pairEvents
      pairRun (run_eq_ok _ _ (by decide!))).2.2.2.2.2.2.2.1 (by decide) (by decide)
      (by decide) (by decide) (by decide!)⟩

end Server
